import Mathlib

/-!
# A shallow embedding of the bounding-box tree of `bbtree.go`

The Go code works on a mutable heap of `Node`, `Pair`, `BBTree` and
`SpatialIndex` records linked by pointers.  The embedding keeps that heap
explicit: a pointer is an `Option Nat` (`none` is `nil`), every record kind
has its own store `Nat → record`, and every operation is a function from
states to states in the `Except Err` monad, where an error is a Go panic
(nil dereference, `panic("implement me")`) or an exhausted recursion budget.
Coordinates are rationals: boxes are compared and merged exactly, as minima,
maxima and comparisons of `float64` values are.  The `float64` operations that
round, which `SubtreeInsert` uses on its costs, are parameters of the model
(`FloatArith`), and `GetBB` is in exact arithmetic.
-/

namespace physics

/-! ## Errors and the heap -/

/-- The ways a run can fail: a Go panic on a nil pointer, a
`panic("implement me")` stub, or the recursion budget of the model running out. -/
inductive Err where
  | nilDeref
  | unimplemented
  | fuel
deriving DecidableEq, Repr

/-- Results of the embedded operations. -/
abbrev M := Except Err

/-- Reading through a pointer: `nil` panics. -/
def deref {α : Type} : Option α → M α
  | some a => pure a
  | none => throw Err.nilDeref

/-- The modulus of Go's `uint` on a 64-bit platform. -/
def uintMod : Nat := 2 ^ 64

/-- Modelled from the spec: the type `Vector` is not part of the given sources;
a vector is a pair of coordinates. -/
structure Vector where
  X : ℚ
  Y : ℚ
deriving DecidableEq

/-- Modelled from the spec: `Vector.Mult` is not part of the given sources;
it scales both coordinates. -/
def Vector.Mult (v : Vector) (k : ℚ) : Vector := ⟨v.X * k, v.Y * k⟩

/-- Modelled from the spec: the type `BB` is not part of the given sources;
section 6 of the specification describes a box by its four sides L, B, R, T. -/
structure BB where
  L : ℚ
  B : ℚ
  R : ℚ
  T : ℚ
deriving DecidableEq

/-- Modelled from the spec: `BB.Intersects` is not part of the given sources;
two boxes intersect when they overlap on both axes (closed intervals). -/
def BB.Intersects (a b : BB) : Bool :=
  decide (a.L ≤ b.R) && decide (b.L ≤ a.R) && decide (a.B ≤ b.T) && decide (b.B ≤ a.T)

/-- Modelled from the spec: `BB.Contains` is not part of the given sources;
`a.Contains b` when `b` lies inside `a`. -/
def BB.Contains (a b : BB) : Bool :=
  decide (a.L ≤ b.L) && decide (b.R ≤ a.R) && decide (a.B ≤ b.B) && decide (b.T ≤ a.T)

/-- Modelled from the spec: `BB.Merge` is not part of the given sources;
the union of two boxes is the smallest box containing both. -/
def BB.Merge (a b : BB) : BB :=
  ⟨min a.L b.L, min a.B b.B, max a.R b.R, max a.T b.T⟩

/-- Modelled from the spec: `BB.Area` is not part of the given sources;
width times height. -/
def BB.Area (a : BB) : ℚ := (a.R - a.L) * (a.T - a.B)

/-- Modelled from the spec: `BB.MergedArea` is not part of the given sources;
the area of the union of the two boxes. -/
def BB.MergedArea (a b : BB) : ℚ :=
  (max a.R b.R - min a.L b.L) * (max a.T b.T - min a.B b.B)

/-- Modelled from the spec: `BB.Proximity` is not part of the given sources;
the distance between the box centres (in the 1-norm, doubled). -/
def BB.Proximity (a b : BB) : ℚ :=
  |a.L + a.R - b.L - b.R| + |a.B + a.T - b.B - b.T|

/-- The `float64` operations that `SubtreeInsert` uses on the costs: the
methods `Area`, `MergedArea` and `Proximity` of a box, which compute in
`float64`, and the addition `+`, the equality `==` and the comparison `<` of
`float64`.  They are parameters of the model: a `float64` value is represented
by a rational (a finite value by the number it denotes), the operations may
round and may treat special values in any way, and all that is assumed is that
two values that `==` finds equal are not found `<` one another. -/
structure FloatArith where
  area : BB → ℚ
  mergedArea : BB → BB → ℚ
  proximity : BB → BB → ℚ
  add : ℚ → ℚ → ℚ
  eq : ℚ → ℚ → Bool
  lt : ℚ → ℚ → Bool
  eq_not_lt : ∀ x y, eq x y = true → lt y x = false

/-- The operations without rounding: exact arithmetic on the rationals. -/
def exactArith : FloatArith where
  area := BB.Area
  mergedArea := BB.MergedArea
  proximity := BB.Proximity
  add := fun x y => x + y
  eq := fun x y => decide (x = y)
  lt := fun x y => decide (x < y)
  eq_not_lt := by
    intro x y h
    have e : x = y := of_decide_eq_true h
    subst e
    simp

/-- The record `Thread`: links of one pair in the pair list of one leaf. -/
structure Thread where
  prev : Option Nat
  next : Option Nat
  leaf : Option Nat
deriving DecidableEq

/-- The record `Pair`. -/
structure Pair where
  a : Thread
  b : Thread
  collisionId : Nat
deriving DecidableEq

/-- The record `Node`, with the embedded `Children` and `Leaf` flattened.
An object is a natural number; `none` is the nil interface value. -/
structure Node where
  obj : Option Nat
  bb : Option BB
  parent : Option Nat
  a : Option Nat
  b : Option Nat
  stamp : Nat
  pairs : Option Nat
deriving DecidableEq

/-- The zero value `Thread{}`. -/
def Thread.zero : Thread := ⟨none, none, none⟩

/-- The zero value `Pair{}`. -/
def Pair.zero : Pair := ⟨Thread.zero, Thread.zero, 0⟩

/-- The zero value `Node{}`. -/
def Node.zero : Node := ⟨none, none, none, none, none, 0, none⟩

/-- The record `BBTree`.  The map `leaves` is an association list with
unique keys; the velocity function is a total function on objects. -/
structure BBTree where
  spatialIndex : Option Nat
  velocityFunc : Option (Option Nat → Vector)
  leaves : List (Nat × Nat)
  root : Option Nat
  pooledNodes : Option Nat
  pooledPairs : Option Nat
  stamp : Nat

/-- Modelled from the spec: the record `SpatialIndex` is not part of the given
sources.  It wraps one index implementation (`klass`, a tree pointer, `none`
when the implementation is not a `BBTree`), the bounding-box provider, and the
links to the static and the dynamic partner index. -/
structure SpatialIndex where
  klass : Option Nat
  bbfunc : Option Nat → BB
  staticIndex : Option Nat
  dynamicIndex : Option Nat

/-- One invocation of the overlap callback: the two objects and the
collision id passed in. -/
structure Call where
  obj1 : Option Nat
  obj2 : Option Nat
  collisionId : Nat
deriving DecidableEq

/-- The heap: one store per record kind, the next unused address of each
store, and the log of callback invocations; with it the `float64` operations
of the machine the program runs on, which no operation of the program writes. -/
structure State where
  nodes : Nat → Node
  nodeNext : Nat
  pairs : Nat → Pair
  pairNext : Nat
  trees : Nat → BBTree
  treeNext : Nat
  indexes : Nat → SpatialIndex
  indexNext : Nat
  calls : List Call
  arith : FloatArith

/-- Write one node. -/
def State.setNode (s : State) (p : Nat) (f : Node → Node) : State :=
  { s with nodes := Function.update s.nodes p (f (s.nodes p)) }

/-- Write one pair. -/
def State.setPair (s : State) (p : Nat) (f : Pair → Pair) : State :=
  { s with pairs := Function.update s.pairs p (f (s.pairs p)) }

/-- Write one tree record. -/
def State.setTree (s : State) (t : Nat) (f : BBTree → BBTree) : State :=
  { s with trees := Function.update s.trees t (f (s.trees t)) }

/-- Write one index record. -/
def State.setIndex (s : State) (i : Nat) (f : SpatialIndex → SpatialIndex) : State :=
  { s with indexes := Function.update s.indexes i (f (s.indexes i)) }

/-- The allocation `&Node{}`: a zeroed node at the next unused address. -/
def State.allocNode (s : State) : State × Nat :=
  ({ s with nodes := Function.update s.nodes s.nodeNext Node.zero,
            nodeNext := s.nodeNext + 1 }, s.nodeNext)

/-- The allocation `&Pair{}`: a zeroed pair at the next unused address. -/
def State.allocPair (s : State) : State × Nat :=
  ({ s with pairs := Function.update s.pairs s.pairNext Pair.zero,
            pairNext := s.pairNext + 1 }, s.pairNext)

/-- The two threads of a pair are addressed by a side. -/
inductive Side where
  | A
  | B
deriving DecidableEq, Repr

/-- The thread of a pair on one side. -/
def Pair.thread (p : Pair) : Side → Thread
  | Side.A => p.a
  | Side.B => p.b

/-- Assignment to `pair.a.prev` or `pair.b.prev`. -/
def Pair.setPrev (p : Pair) (sd : Side) (v : Option Nat) : Pair :=
  match sd with
  | Side.A => { p with a := { p.a with prev := v } }
  | Side.B => { p with b := { p.b with prev := v } }

/-- Assignment to `pair.a.next` or `pair.b.next`. -/
def Pair.setNext (p : Pair) (sd : Side) (v : Option Nat) : Pair :=
  match sd with
  | Side.A => { p with a := { p.a with next := v } }
  | Side.B => { p with b := { p.b with next := v } }

/-- The test `q.a.leaf == leaf` of the source selects the `a` thread, and the
`else` branch the `b` thread. -/
def Pair.sideOf (p : Pair) (leaf : Option Nat) : Side :=
  if p.a.leaf = leaf then Side.A else Side.B

/-! ## Pair lists -/

/-- `Thread.Unlink`, for the thread `sd` of the pair at address `p`. -/
def Thread.Unlink (s : State) (p : Nat) (sd : Side) : M State :=
  let thread := (s.pairs p).thread sd
  let next := thread.next
  let prev := thread.prev
  let s1 : State :=
    match next with
    | some n => s.setPair n (fun q => q.setPrev (q.sideOf thread.leaf) prev)
    | none => s
  match prev with
  | some pv => pure (s1.setPair pv (fun q => q.setNext (q.sideOf thread.leaf) next))
  | none => do
    let l ← deref thread.leaf
    pure (s1.setNode l (fun n => { n with pairs := next }))

/-- Modelled from the spec: `SpatialIndex.GetTree` is not part of the given
sources.  It is called on possibly-nil receivers and its result is tested
against nil, so it yields nil on a nil receiver and the wrapped tree otherwise. -/
def SpatialIndex.GetTree (s : State) (idx : Option Nat) : Option Nat :=
  match idx with
  | none => none
  | some i => (s.indexes i).klass

/-- Modelled from the spec: `SpatialIndex.GetRootIfTree` is not part of the
given sources.  It yields nil on a nil receiver or a non-tree index, and the
root of the wrapped tree otherwise. -/
def SpatialIndex.GetRootIfTree (s : State) (idx : Option Nat) : Option Nat :=
  match SpatialIndex.GetTree s idx with
  | none => none
  | some t => (s.trees t).root

/-- `BBTree.GetMasterTree`. -/
def GetMasterTree (s : State) (t : Nat) : M Nat := do
  let si ← deref (s.trees t).spatialIndex
  match SpatialIndex.GetTree s (s.indexes si).dynamicIndex with
  | some d => pure d
  | none => pure t

/-- `BBTree.RecyclePair`. -/
def RecyclePair (s : State) (t : Nat) (pair : Nat) : M State := do
  let master ← GetMasterTree s t
  let s1 := s.setPair pair (fun q => q.setNext Side.A (s.trees master).pooledPairs)
  pure (s1.setTree master (fun tr => { tr with pooledPairs := some pair }))

/-- The refill loop of `PairFromPool`: `k` rounds of `tree.RecyclePair(&Pair{})`. -/
def PairFromPool.refill (t : Nat) : Nat → State → M State
  | 0, s => pure s
  | k + 1, s => do
    let s1 ← RecyclePair s.allocPair.1 t s.allocPair.2
    PairFromPool.refill t k s1

/-- `BBTree.PairFromPool`; the result may be nil. -/
def PairFromPool (s : State) (subtree : Nat) : M (State × Option Nat) := do
  let tree ← GetMasterTree s subtree
  match (s.trees tree).pooledPairs with
  | some pair =>
    pure (s.setTree tree (fun tr => { tr with pooledPairs := (s.pairs pair).a.next }), some pair)
  | none => do
    let s1 ← PairFromPool.refill tree 32 s
    pure (s1, (s1.trees tree).pooledPairs)

/-- `BBTree.PairInsert`. -/
def PairInsert (s : State) (tree : Nat) (a b : Nat) : M State := do
  let nextA := (s.nodes a).pairs
  let nextB := (s.nodes b).pairs
  let (s1, pair) ← PairFromPool s tree
  let temp : Pair := ⟨⟨none, nextA, some a⟩, ⟨none, nextB, some b⟩, 0⟩
  let s2 := s1.setNode a (fun n => { n with pairs := pair })
  let s3 := s2.setNode b (fun n => { n with pairs := pair })
  let p ← deref pair
  let s4 := s3.setPair p (fun _ => temp)
  let s5 : State :=
    match nextA with
    | some n => s4.setPair n (fun q => q.setPrev (q.sideOf (some a)) pair)
    | none => s4
  let s6 : State :=
    match nextB with
    | some n => s5.setPair n (fun q => q.setPrev (q.sideOf (some b)) pair)
    | none => s5
  pure s6

/-- `BBTree.PairsClear`; the loop runs on a budget. -/
def PairsClear.loop (t : Nat) (leaf : Nat) : Nat → State → Option Nat → M State
  | _, s, none => pure s
  | 0, _, some _ => throw Err.fuel
  | fuel + 1, s, some pair =>
    if (s.pairs pair).a.leaf = some leaf then do
      let next := (s.pairs pair).a.next
      let s1 ← Thread.Unlink s pair Side.B
      let s2 ← RecyclePair s1 t pair
      PairsClear.loop t leaf fuel s2 next
    else do
      let next := (s.pairs pair).b.next
      let s1 ← Thread.Unlink s pair Side.A
      let s2 ← RecyclePair s1 t pair
      PairsClear.loop t leaf fuel s2 next

/-- `BBTree.PairsClear`. -/
def PairsClear (fuel : Nat) (s : State) (t : Nat) (leaf : Nat) : M State :=
  let pair := (s.nodes leaf).pairs
  let s1 := s.setNode leaf (fun n => { n with pairs := none })
  PairsClear.loop t leaf fuel s1 pair

/-! ## The node pool and the tree -/

/-- `Node.IsLeaf`. -/
def Node.IsLeaf (n : Node) : Bool := n.obj.isSome

/-- `BBTree.RecycleNode`; the node may be nil, which panics. -/
def RecycleNode (s : State) (t : Nat) (node : Option Nat) : M State := do
  let n ← deref node
  let s1 := s.setNode n (fun x => { x with parent := (s.trees t).pooledNodes })
  pure (s1.setTree t (fun tr => { tr with pooledNodes := some n }))

/-- The refill loop of `NodeFromPool`: `k` rounds of `tree.RecycleNode(&Node{})`. -/
def NodeFromPool.refill (t : Nat) : Nat → State → M State
  | 0, s => pure s
  | k + 1, s => do
    let s1 ← RecycleNode s.allocNode.1 t (some s.allocNode.2)
    NodeFromPool.refill t k s1

/-- `BBTree.NodeFromPool`; the result may be nil. -/
def NodeFromPool (s : State) (t : Nat) : M (State × Option Nat) :=
  match (s.trees t).pooledNodes with
  | some node =>
    pure (s.setTree t (fun tr => { tr with pooledNodes := (s.nodes node).parent }), some node)
  | none => do
    let s1 ← NodeFromPool.refill t 32 s
    pure (s1, (s1.trees t).pooledNodes)

/-- `NodeSetA`. -/
def NodeSetA (s : State) (node value : Option Nat) : M State := do
  let n ← deref node
  let s1 := s.setNode n (fun x => { x with a := value })
  let v ← deref value
  pure (s1.setNode v (fun x => { x with parent := some n }))

/-- `NodeSetB`. -/
def NodeSetB (s : State) (node value : Option Nat) : M State := do
  let n ← deref node
  let s1 := s.setNode n (fun x => { x with b := value })
  let v ← deref value
  pure (s1.setNode v (fun x => { x with parent := some n }))

/-- `BB.Merge` on two box pointers. -/
def mergeBB (a b : Option BB) : M BB := do
  let x ← deref a
  let y ← deref b
  pure (x.Merge y)

/-- `BBTree.NewNode`. -/
def NewNode (s : State) (t : Nat) (a b : Nat) : M (State × Nat) := do
  let (s1, node) ← NodeFromPool s t
  let n ← deref node
  let s2 := s1.setNode n (fun x => { x with obj := none })
  let bb ← mergeBB (s2.nodes a).bb (s2.nodes b).bb
  let s3 := s2.setNode n (fun x => { x with bb := some bb })
  let s4 := s3.setNode n (fun x => { x with parent := none })
  let s5 ← NodeSetA s4 (some n) (some a)
  let s6 ← NodeSetB s5 (some n) (some b)
  pure (s6, n)

/-- `BBTree.GetBB`, in exact arithmetic (`0.1` is one tenth). -/
def GetBB (s : State) (t : Nat) (obj : Option Nat) : M BB := do
  let si ← deref (s.trees t).spatialIndex
  let bb := (s.indexes si).bbfunc obj
  match (s.trees t).velocityFunc with
  | some vf =>
    let coef : ℚ := 1 / 10
    let x := (bb.R - bb.L) * coef
    let y := (bb.T - bb.B) * coef
    let v := (vf obj).Mult (1 / 10)
    pure ⟨bb.L + min (-x) v.X, bb.B + min (-y) v.Y, bb.R + max x v.X, bb.T + max y v.Y⟩
  | none => pure bb

/-- `BBTree.NewLeaf`. -/
def NewLeaf (s : State) (t : Nat) (obj : Option Nat) : M (State × Nat) := do
  let (s1, node) ← NodeFromPool s t
  let n ← deref node
  let s2 := s1.setNode n (fun x => { x with obj := obj })
  let bb ← GetBB s2 t obj
  let s3 := s2.setNode n (fun x => { x with bb := some bb })
  let s4 := s3.setNode n (fun x => { x with parent := none })
  let s5 := s4.setNode n (fun x => { x with stamp := 0 })
  let s6 := s5.setNode n (fun x => { x with pairs := none })
  pure (s6, n)

/-- The two insertion costs compared by `SubtreeInsert`, after the tie-break
by proximity: `(cost_a, cost_b)`, computed with the `float64` operations `fa`. -/
def insertCosts (fa : FloatArith) (abb bbb lbb : BB) : ℚ × ℚ :=
  let cost_a := fa.add (fa.area bbb) (fa.mergedArea abb lbb)
  let cost_b := fa.add (fa.area abb) (fa.mergedArea bbb lbb)
  if fa.eq cost_a cost_b then (fa.proximity abb lbb, fa.proximity bbb lbb)
  else (cost_a, cost_b)

/-- `BBTree.SubtreeInsert`; the recursion runs on a budget. -/
def SubtreeInsert (t : Nat) (leaf : Nat) : Nat → State → Option Nat → M (State × Nat)
  | _, s, none => pure (s, leaf)
  | 0, _, some _ => throw Err.fuel
  | fuel + 1, s, some subtree =>
    if (s.nodes subtree).IsLeaf then NewNode s t leaf subtree
    else do
      let a ← deref (s.nodes subtree).a
      let b ← deref (s.nodes subtree).b
      let abb ← deref (s.nodes a).bb
      let bbb ← deref (s.nodes b).bb
      let lbb ← deref (s.nodes leaf).bb
      let costs := insertCosts s.arith abb bbb lbb
      let s2 ←
        if s.arith.lt costs.2 costs.1 then do
          let (s1, r) ← SubtreeInsert t leaf fuel s (some b)
          NodeSetB s1 (some subtree) (some r)
        else do
          let (s1, r) ← SubtreeInsert t leaf fuel s (some a)
          NodeSetA s1 (some subtree) (some r)
      let bb ← mergeBB (s2.nodes subtree).bb (s2.nodes leaf).bb
      pure (s2.setNode subtree (fun x => { x with bb := some bb }), subtree)

/-- `Node.Other`. -/
def Node.Other (n : Node) (child : Option Nat) : Option Nat :=
  if n.a = child then n.b else n.a

/-- The loop of `ReplaceChild` that recomputes the boxes up to the root. -/
def ReplaceChild.loop : Nat → State → Option Nat → M State
  | _, s, none => pure s
  | 0, _, some _ => throw Err.fuel
  | fuel + 1, s, some node => do
    let a ← deref (s.nodes node).a
    let b ← deref (s.nodes node).b
    let bb ← mergeBB (s.nodes a).bb (s.nodes b).bb
    let s1 := s.setNode node (fun x => { x with bb := some bb })
    ReplaceChild.loop fuel s1 (s1.nodes node).parent

/-- `BBTree.ReplaceChild`. -/
def ReplaceChild (fuel : Nat) (s : State) (t : Nat) (parent child value : Option Nat) :
    M State := do
  let p ← deref parent
  let s2 ←
    if (s.nodes p).a = child then do
      let s1 ← RecycleNode s t (s.nodes p).a
      NodeSetA s1 parent value
    else do
      let s1 ← RecycleNode s t (s.nodes p).b
      NodeSetB s1 parent value
  ReplaceChild.loop fuel s2 parent

/-- `BBTree.SubtreeRemove`. -/
def SubtreeRemove (fuel : Nat) (s : State) (t : Nat) (subtree : Option Nat) (leaf : Nat) :
    M (State × Option Nat) :=
  if some leaf = subtree then pure (s, none)
  else
    let parent := (s.nodes leaf).parent
    if parent = subtree then do
      let sub ← deref subtree
      let other ← deref ((s.nodes sub).Other (some leaf))
      let s1 := s.setNode other (fun x => { x with parent := (s.nodes sub).parent })
      let s2 ← RecycleNode s1 t subtree
      pure (s2, some other)
    else do
      let p ← deref parent
      let s1 ← ReplaceChild fuel s t (s.nodes p).parent parent ((s.nodes p).Other (some leaf))
      pure (s1, subtree)

/-! ## The mark pass -/

/-- The overlap callback `SpatialIndexQuery` as a function of the two objects
and the collision id (the opaque `data` argument is passed through unchanged
by the source and is left out). -/
abbrev QueryFn := Option Nat → Option Nat → Nat → Nat

/-- The record `MarkContext` (without `data`). -/
structure MarkContext where
  tree : Option Nat
  staticRoot : Option Nat
  f : Option QueryFn

/-- `VoidQueryFunc`. -/
def VoidQueryFunc : QueryFn := fun _ _ collisionId => collisionId

/-- A call `context.f(obj1, obj2, collisionId, context.data)`: a nil function
value panics, otherwise the call is logged and its result returned. -/
def callF (s : State) (ctx : MarkContext) (o1 o2 : Option Nat) (cid : Nat) : M (State × Nat) := do
  let f ← deref ctx.f
  pure ({ s with calls := s.calls ++ [⟨o1, o2, cid⟩] }, f o1 o2 cid)

/-- `PairInsert` called through `context.tree`. -/
def ctxPairInsert (s : State) (ctx : MarkContext) (a b : Nat) : M State := do
  let t ← deref ctx.tree
  PairInsert s t a b

/-- `Node.MarkLeafQuery`; the recursion runs on a budget. -/
def MarkLeafQuery (ctx : MarkContext) (leaf : Nat) (left : Bool) :
    Nat → State → Option Nat → M State
  | 0, _, _ => throw Err.fuel
  | fuel + 1, s, subtree => do
    let lbb ← deref (s.nodes leaf).bb
    let sub ← deref subtree
    let sbb ← deref (s.nodes sub).bb
    if lbb.Intersects sbb then
      if (s.nodes sub).IsLeaf then
        if left then ctxPairInsert s ctx leaf sub
        else do
          let s1 ← if (s.nodes sub).stamp < (s.nodes leaf).stamp
            then ctxPairInsert s ctx sub leaf else pure s
          let (s2, _) ← callF s1 ctx (s1.nodes leaf).obj (s1.nodes sub).obj 0
          pure s2
      else do
        let s1 ← MarkLeafQuery ctx leaf left fuel s (s.nodes sub).a
        MarkLeafQuery ctx leaf left fuel s1 (s1.nodes sub).b
    else pure s

/-- The loop of `MarkLeaf` that climbs from the leaf to the root. -/
def MarkLeaf.climb (ctx : MarkContext) (leaf : Nat) : Nat → State → Nat → M State
  | 0, _, _ => throw Err.fuel
  | fuel + 1, s, node =>
    match (s.nodes node).parent with
    | none => pure s
    | some p => do
      let s1 ←
        if some node = (s.nodes p).a then MarkLeafQuery ctx leaf true fuel s (s.nodes p).b
        else MarkLeafQuery ctx leaf false fuel s (s.nodes p).a
      let nxt ← deref (s1.nodes node).parent
      MarkLeaf.climb ctx leaf fuel s1 nxt

/-- The loop of `MarkLeaf` that replays the cached pairs of a leaf. -/
def MarkLeaf.replay (ctx : MarkContext) (leaf : Nat) : Nat → State → Option Nat → M State
  | _, s, none => pure s
  | 0, _, some _ => throw Err.fuel
  | fuel + 1, s, some pair =>
    if some leaf = (s.pairs pair).b.leaf then do
      let a ← deref (s.pairs pair).a.leaf
      let (s1, cid) ← callF s ctx (s.nodes a).obj (s.nodes leaf).obj (s.pairs pair).collisionId
      let s2 := s1.setPair pair (fun q => { q with collisionId := cid })
      MarkLeaf.replay ctx leaf fuel s2 (s2.pairs pair).b.next
    else MarkLeaf.replay ctx leaf fuel s (s.pairs pair).a.next

/-- `Node.MarkLeaf`. -/
def MarkLeaf (fuel : Nat) (s : State) (ctx : MarkContext) (leaf : Nat) : M State := do
  let tree ← deref ctx.tree
  let master ← GetMasterTree s tree
  if (s.nodes leaf).stamp = (s.trees master).stamp then do
    let s1 ←
      match ctx.staticRoot with
      | some r => MarkLeafQuery ctx leaf false fuel s (some r)
      | none => pure s
    MarkLeaf.climb ctx leaf fuel s1 leaf
  else MarkLeaf.replay ctx leaf fuel s (s.nodes leaf).pairs

/-- `Node.MarkSubtree`; the recursion runs on a budget. -/
def MarkSubtree (ctx : MarkContext) : Nat → State → Option Nat → M State
  | 0, _, _ => throw Err.fuel
  | fuel + 1, s, subtree => do
    let sub ← deref subtree
    if (s.nodes sub).IsLeaf then MarkLeaf fuel s ctx sub
    else do
      let s1 ← MarkSubtree ctx fuel s (s.nodes sub).a
      MarkSubtree ctx fuel s1 (s1.nodes sub).b

/-- `BBTree.LeafAddPairs`. -/
def LeafAddPairs (fuel : Nat) (s : State) (t : Nat) (leaf : Nat) : M State := do
  let si ← deref (s.trees t).spatialIndex
  let dynamicIndex := (s.indexes si).dynamicIndex
  match dynamicIndex with
  | some _ =>
    match SpatialIndex.GetRootIfTree s dynamicIndex with
    | some dynamicRoot =>
      MarkLeafQuery ⟨SpatialIndex.GetTree s dynamicIndex, none, none⟩ leaf true fuel s
        (some dynamicRoot)
    | none => pure s
  | none =>
    let staticRoot := SpatialIndex.GetRootIfTree s (s.indexes si).staticIndex
    MarkLeaf fuel s ⟨some t, staticRoot, some VoidQueryFunc⟩ leaf

/-- `BBTree.IncrementStamp`; `uint` arithmetic wraps around. -/
def IncrementStamp (s : State) (t : Nat) : M State := do
  let si ← deref (s.trees t).spatialIndex
  match SpatialIndex.GetTree s (s.indexes si).dynamicIndex with
  | some d => pure (s.setTree d (fun tr => { tr with stamp := (tr.stamp + 1) % uintMod }))
  | none => pure (s.setTree t (fun tr => { tr with stamp := (tr.stamp + 1) % uintMod }))

/-! ## The facade -/

/-- The assignment `m[k] = v` on a Go map kept as an association list. -/
def mapSet (k v : Nat) : List (Nat × Nat) → List (Nat × Nat)
  | [] => [(k, v)]
  | (k1, v1) :: rest => if k1 = k then (k, v) :: rest else (k1, v1) :: mapSet k v rest

/-- The lookup `m[k]` with its presence flag. -/
def mapGet (k : Nat) (m : List (Nat × Nat)) : Option Nat :=
  (m.find? (fun e => e.1 = k)).map Prod.snd

/-- `BBTree.Count`. -/
def Count (s : State) (t : Nat) : Nat := (s.trees t).leaves.length

/-- `BBTree.Contains`. -/
def Contains (s : State) (t : Nat) (hashId : Nat) : Bool :=
  (mapGet hashId (s.trees t).leaves).isSome

/-- `BBTree.Each`: the objects the visitor is called with, in the order in
which the map is traversed (here the order of the association list; Go fixes
no order). -/
def Each (s : State) (t : Nat) : List (Option Nat) :=
  (s.trees t).leaves.map (fun e => (s.nodes e.2).obj)

/-- `BBTree.Insert`. -/
def Insert (fuel : Nat) (s : State) (t : Nat) (obj : Option Nat) (hashId : Nat) : M State := do
  let (s1, leaf) ← NewLeaf s t obj
  let s2 := s1.setTree t (fun tr => { tr with leaves := mapSet hashId leaf tr.leaves })
  let root := (s2.trees t).root
  let (s3, r) ← SubtreeInsert t leaf fuel s2 root
  let s4 := s3.setTree t (fun tr => { tr with root := some r })
  let master ← GetMasterTree s4 t
  let s5 := s4.setNode leaf (fun x => { x with stamp := (s4.trees master).stamp })
  let s6 ← LeafAddPairs fuel s5 t leaf
  IncrementStamp s6 t

/-- `BBTree.Remove`: the source is `panic("implement me")`. -/
def Remove (_s : State) (_t : Nat) (_obj : Option Nat) (_hashId : Nat) : M State :=
  throw Err.unimplemented

/-- Modelled from the spec: `NewSpatialIndex` is not part of the given sources.
It allocates the index record around the implementation and registers the new
index as the dynamic partner of its static index. -/
def NewSpatialIndex (s : State) (klass : Option Nat) (bbfunc : Option Nat → BB)
    (staticIndex : Option Nat) : State × Nat :=
  let i := s.indexNext
  let s1 : State :=
    { s with indexes := Function.update s.indexes i ⟨klass, bbfunc, staticIndex, none⟩,
             indexNext := i + 1 }
  let s2 : State :=
    match staticIndex with
    | some st => s1.setIndex st (fun x => { x with dynamicIndex := some i })
    | none => s1
  (s2, i)

/-- `NewBBTree`: the new tree record and the index wrapping it; the result is
the index pointer and, for convenience, the tree pointer. -/
def NewBBTree (s : State) (bbfunc : Option Nat → BB) (staticIndex : Option Nat) :
    State × Nat × Nat :=
  let t := s.treeNext
  let s1 : State :=
    { s with trees := Function.update s.trees t ⟨none, none, [], none, none, none, 0⟩,
             treeNext := t + 1 }
  let r := NewSpatialIndex s1 (some t) bbfunc staticIndex
  (r.1.setTree t (fun tr => { tr with spatialIndex := some r.2 }), r.2, t)

/-- A run of `Insert` calls on one tree, in order. -/
def insertAll (fuel : Nat) (t : Nat) : List (Option Nat × Nat) → State → M State
  | [], s => pure s
  | (obj, hashId) :: rest, s => do
    let s1 ← Insert fuel s t obj hashId
    insertAll fuel t rest s1

/-- The empty heap. -/
def State.empty : State :=
  ⟨fun _ => Node.zero, 0, fun _ => Pair.zero, 0,
   fun _ => ⟨none, none, [], none, none, none, 0⟩, 0,
   fun _ => ⟨none, fun _ => ⟨0, 0, 0, 0⟩, none, none⟩, 0, [], exactArith⟩

/-- The part of a node that pair operations never write. -/
def Node.shape (n : Node) : Node := { n with pairs := none }

/-- The part of a tree record that pair operations never write. -/
def BBTree.shape (tr : BBTree) : BBTree := { tr with pooledPairs := none }

/-- Two heaps that differ at most in pair data: the pair store, the pair
lists of the nodes, the pair pools and the callback log. -/
def SameShape (s s1 : State) : Prop :=
  (∀ p, (s1.nodes p).shape = (s.nodes p).shape) ∧ s1.nodeNext = s.nodeNext ∧
  (∀ t, (s1.trees t).shape = (s.trees t).shape) ∧ s1.treeNext = s.treeNext ∧
  s1.indexes = s.indexes ∧ s1.indexNext = s.indexNext

/-- A tree whose master tree is itself. -/
def SelfMaster (s : State) (t : Nat) : Prop := GetMasterTree s t = .ok t

/-- A finite tree of boxed nodes below an address bound, of depth at most the
given number: what a traversal that stops at leaves can walk through. -/
def Walkable (s : State) (bound : Nat) : Nat → Option Nat → Prop
  | 0, _ => False
  | _ + 1, none => False
  | d + 1, some p => p < bound ∧ (s.nodes p).bb ≠ none ∧
      ((s.nodes p).IsLeaf = true ∨
        (Walkable s bound d (s.nodes p).a ∧ Walkable s bound d (s.nodes p).b))

/-- Two heaps that agree on everything but the node store, the node
allocation frontier and the tree records. -/
def SameRest (s s1 : State) : Prop :=
  s1.pairs = s.pairs ∧ s1.pairNext = s.pairNext ∧ s1.treeNext = s.treeNext ∧
  s1.indexes = s.indexes ∧ s1.indexNext = s.indexNext ∧ s1.calls = s.calls

/-- What `Insert` needs around a tree `t`: an index record without a dynamic
partner, and a static partner whose tree, if there is one, is another tree
with an absent root or a root that is walkable below `bound`. -/
def LoneEnv (s : State) (t bound d : Nat) : Prop :=
  ∃ si, (s.trees t).spatialIndex = some si ∧ (s.indexes si).dynamicIndex = none ∧
    (∀ k, SpatialIndex.GetTree s (s.indexes si).staticIndex = some k →
      k ≠ t ∧ ((s.trees k).root = none ∨ Walkable s bound d (s.trees k).root)) ∧
    bound ≤ s.nodeNext

/-- The path from a node up to the root can be climbed by `MarkLeaf`: every
sibling subtree met on the way is walkable. -/
def Climbable (s : State) (bound d : Nat) : Nat → Nat → Prop
  | 0, _ => False
  | k + 1, node =>
    match (s.nodes node).parent with
    | none => True
    | some p =>
      (if some node = (s.nodes p).a then Walkable s bound d (s.nodes p).b
        else Walkable s bound d (s.nodes p).a) ∧ Climbable s bound d k p

/-- The state of a tree after at least one `Insert` on a tree that started
empty: the root has no parent and is also the head of the node pool. -/
def Rooted (s : State) (t bound : Nat) : Prop :=
  ∃ r, (s.trees t).root = some r ∧ (s.trees t).pooledNodes = some r ∧
    (s.nodes r).parent = none ∧ bound ≤ r ∧ r < s.nodeNext

/-- A static partner index that a new tree can be attached to: an allocated
index record whose tree, if it wraps one, is allocated and has an absent root
or a root that is walkable, to depth `d`, among the allocated nodes. -/
def StaticOK (s : State) (staticIndex : Option Nat) (d : Nat) : Prop :=
  ∀ st, staticIndex = some st → st < s.indexNext ∧
    ∀ k, (s.indexes st).klass = some k → k < s.treeNext ∧
      ((s.trees k).root = none ∨ Walkable s s.nodeNext d (s.trees k).root)

/-- The objects `Each` visits after a run of `Insert` calls. -/
def eachAfter (fuel t : Nat) (ops : List (Option Nat × Nat)) (s : State) :
    M (List (Option Nat)) :=
  (insertAll fuel t ops s).map (fun s1 => Each s1 t)

/-- The thread of leaf `l` in the pair record `p`: the `a` thread when
`p.a.leaf == l`, the `b` thread otherwise, as the source picks it. -/
def threadOf (s : State) (l p : Nat) : Thread :=
  (s.pairs p).thread ((s.pairs p).sideOf (some l))

/-- A stretch of the pair list of leaf `l`: starting at `head`, whose
predecessor is `prev`, the threads of `l` lead through exactly the pairs `ps`
and then to `tail`; every pair names `l` in that thread and points back to its
predecessor. -/
def PairSeg (s : State) (l : Nat) : Option Nat → Option Nat → List Nat → Option Nat → Prop
  | _, head, [], tail => head = tail
  | prev, head, p :: ps, tail =>
    head = some p ∧ (threadOf s l p).leaf = some l ∧ (threadOf s l p).prev = prev ∧
      PairSeg s l (some p) (threadOf s l p).next ps tail

/-- The pair list of leaf `l` is well formed and holds exactly the pairs `ps`,
in this order. -/
def PairList (s : State) (l : Nat) (ps : List Nat) : Prop :=
  PairSeg s l none (s.nodes l).pairs ps none ∧ ps.Nodup

/-- The last pair of a stretch, or the predecessor of the stretch when it is empty. -/
def lastOr (prev : Option Nat) : List Nat → Option Nat
  | [] => prev
  | p :: ps => lastOr (some p) ps

/-- A heap with one leaf (node 0) whose pair list holds the pairs 0 and 1. -/
def unlinkDemo : State :=
  { State.empty with
    nodes := fun n => if n = 0 then ⟨some 7, none, none, none, none, 0, some 0⟩ else Node.zero
    pairs := fun q =>
      if q = 0 then ⟨⟨none, some 1, some 0⟩, ⟨none, none, some 5⟩, 0⟩
      else if q = 1 then ⟨⟨some 0, none, some 0⟩, ⟨none, none, some 6⟩, 0⟩
      else Pair.zero }

/-- The other side of a pair. -/
def Side.other : Side → Side
  | Side.A => Side.B
  | Side.B => Side.A

/-- The leaf at the other end of the pair `p`, seen from leaf `l`. -/
def otherLeaf (s : State) (l p : Nat) : Option Nat :=
  ((s.pairs p).thread ((s.pairs p).sideOf (some l)).other).leaf

/-- The pair lists of all leaves are well formed and symmetric: `lists l` is
the list of leaf `l`, and a pair in the list of `l` names in its other thread a
different leaf `m` and is in the list of `m` too. -/
def PairsWF (s : State) (lists : Nat → List Nat) : Prop :=
  (∀ l, (s.nodes l).IsLeaf = true → PairList s l (lists l)) ∧
  (∀ l p, (s.nodes l).IsLeaf = true → p ∈ lists l →
    ∃ m, m ≠ l ∧ (s.nodes m).IsLeaf = true ∧ otherLeaf s l p = some m ∧ p ∈ lists m)

/-- The pair lists after `PairInsert(a, b)` has put the pair `pr` at the head
of the lists of `a` and `b`. -/
def listsInsert (lists : Nat → List Nat) (a b pr : Nat) : Nat → List Nat :=
  fun l => if l = a ∨ l = b then pr :: lists l else lists l

/-- The step of `PairInsert` that links the former head of the list of leaf
`l` back to the new pair `pr`. -/
def linkHead (s : State) (l : Nat) (head : Option Nat) (pr : Nat) : State :=
  match head with
  | some n => s.setPair n (fun q => q.setPrev (q.sideOf (some l)) (some pr))
  | none => s

/-- A heap with one tree, two leaves (nodes 0 and 1) without pairs, and the
pair 5 on the pair pool. -/
def pairDemo : State :=
  { State.empty with
    nodes := fun n =>
      if n = 0 then ⟨some 7, none, none, none, none, 0, none⟩
      else if n = 1 then ⟨some 8, none, none, none, none, 0, none⟩ else Node.zero
    trees := fun _ => ⟨some 0, none, [], none, none, some 5, 0⟩
    indexes := fun _ => ⟨some 0, fun _ => ⟨0, 0, 0, 0⟩, none, none⟩ }

/-- A stretch of the pair pool: from `head` the `a.next` links lead through
exactly the pairs `ps` and then to `tail`. -/
def PoolSeg (s : State) : Option Nat → List Nat → Option Nat → Prop
  | head, [], tail => head = tail
  | head, p :: ps, tail => head = some p ∧ PoolSeg s (s.pairs p).a.next ps tail

/-- A heap with one tree and two leaves (nodes 0 and 1) that share the pair 5. -/
def clearDemo : State :=
  { State.empty with
    nodes := fun n =>
      if n = 0 then ⟨some 7, none, none, none, none, 0, some 5⟩
      else if n = 1 then ⟨some 8, none, none, none, none, 0, some 5⟩ else Node.zero
    pairs := fun _ => ⟨⟨none, none, some 0⟩, ⟨none, none, some 1⟩, 0⟩
    trees := fun _ => ⟨some 0, none, [], none, none, none, 0⟩
    indexes := fun _ => ⟨some 0, fun _ => ⟨0, 0, 0, 0⟩, none, none⟩ }

/-- The pair lists of `clearDemo`. -/
def clearDemoLists : Nat → List Nat := fun l => if l = 0 ∨ l = 1 then [5] else []

/-- The shape of a tree in the heap: the address of every node. -/
inductive Shape where
  | leaf (p : Nat)
  | node (p : Nat) (l r : Shape)

/-- The address of the root of a tree. -/
def Shape.root : Shape → Nat
  | Shape.leaf p => p
  | Shape.node p _ _ => p

/-- The addresses of all nodes of a tree. -/
def Shape.addrs : Shape → List Nat
  | Shape.leaf p => [p]
  | Shape.node p l r => p :: (l.addrs ++ r.addrs)

/-- The addresses of the leaves of a tree, from left to right. -/
def Shape.leaves : Shape → List Nat
  | Shape.leaf p => [p]
  | Shape.node _ l r => l.leaves ++ r.leaves

/-- The number of levels of a tree. -/
def Shape.depth : Shape → Nat
  | Shape.leaf _ => 1
  | Shape.node _ l r => max l.depth r.depth + 1

/-- The heap holds the tree `T`: its leaves hold an object, its internal nodes
hold none and point to their two children. -/
def Linked (s : State) : Shape → Prop
  | Shape.leaf p => (s.nodes p).IsLeaf = true
  | Shape.node p l r => (s.nodes p).IsLeaf = false ∧ (s.nodes p).a = some l.root ∧
      (s.nodes p).b = some r.root ∧ Linked s l ∧ Linked s r

/-- The parent links inside the tree `T` point back: every child names its
parent (the parent link of the root of `T` is not constrained). -/
def Parented (s : State) : Shape → Prop
  | Shape.leaf _ => True
  | Shape.node p l r => (s.nodes l.root).parent = some p ∧ (s.nodes r.root).parent = some p ∧
      Parented s l ∧ Parented s r

/-- Every node of the tree `T` has a box, and the box of an internal node is
the union of the boxes of its two children. -/
def Boxed (s : State) : Shape → Prop
  | Shape.leaf p => (s.nodes p).bb ≠ none
  | Shape.node p l r => (∃ x y, (s.nodes l.root).bb = some x ∧ (s.nodes r.root).bb = some y ∧
      (s.nodes p).bb = some (x.Merge y)) ∧ Boxed s l ∧ Boxed s r

/-- The box stored in a node (the zero box when there is none). -/
def boxOf (s : State) (p : Nat) : BB := (s.nodes p).bb.getD ⟨0, 0, 0, 0⟩

/-- The tree `SubtreeInsert` builds from the tree `T`: the descent follows
the costs computed from the boxes in the heap `s`, and at the leaf it reaches
the new internal node `n` gets the new leaf and the old one as children. -/
def Shape.insert (s : State) (n leaf : Nat) : Shape → Shape
  | Shape.leaf p => Shape.node n (Shape.leaf leaf) (Shape.leaf p)
  | Shape.node p l r =>
    if s.arith.lt (insertCosts s.arith (boxOf s l.root) (boxOf s r.root) (boxOf s leaf)).2
        (insertCosts s.arith (boxOf s l.root) (boxOf s r.root) (boxOf s leaf)).1
    then Shape.node p l (Shape.insert s n leaf r)
    else Shape.node p (Shape.insert s n leaf l) r

/-- A heap with one tree record, the tree of the internal node 2 over the
leaves 0 and 1, a further leaf 3, and the free node 4 on the node pool. -/
def insertDemo : State :=
  { State.empty with
    nodes := fun q =>
      if q = 0 then ⟨some 7, some ⟨0, 0, 1, 1⟩, some 2, none, none, 0, none⟩
      else if q = 1 then ⟨some 8, some ⟨2, 2, 3, 3⟩, some 2, none, none, 0, none⟩
      else if q = 2 then
        ⟨none, some (BB.Merge ⟨0, 0, 1, 1⟩ ⟨2, 2, 3, 3⟩), none, some 0, some 1, 0, none⟩
      else if q = 3 then ⟨some 9, some ⟨0, 0, 1, 1⟩, none, none, none, 0, none⟩
      else Node.zero
    nodeNext := 5
    trees := fun _ => ⟨some 0, none, [], some 2, some 4, none, 0⟩
    indexes := fun _ => ⟨some 0, fun _ => ⟨0, 0, 0, 0⟩, none, none⟩ }

/-- The tree of `insertDemo`. -/
def insertDemoTree : Shape := Shape.node 2 (Shape.leaf 0) (Shape.leaf 1)

/-- One step of the path from a node up to the root: the parent `p`, whether
the node is the left child (`a`) of `p`, and the subtree of the other child. -/
structure Frame where
  p : Nat
  left : Bool
  sib : Shape

/-- The tree with root `f.p` over the subtree `X` and the sibling of the frame. -/
def Frame.fill (f : Frame) (X : Shape) : Shape :=
  if f.left then Shape.node f.p X f.sib else Shape.node f.p f.sib X

/-- The tree made of the subtree `X` and the path `ctx` from it up to the root. -/
def plug : List Frame → Shape → Shape
  | [], X => X
  | f :: rest, X => plug rest (f.fill X)

/-- The addresses of the nodes on a path and in the sibling subtrees along it. -/
def ctxAddrs : List Frame → List Nat
  | [] => []
  | f :: rest => f.p :: (f.sib.addrs ++ ctxAddrs rest)

/-- The leaves of the sibling subtrees along a path. -/
def ctxLeaves : List Frame → List Nat
  | [] => []
  | f :: rest => f.sib.leaves ++ ctxLeaves rest

/-- The nodes on the path above the node `x` are internal and point to their
children, and the sibling subtrees are linked. -/
def CtxLinked (s : State) : List Frame → Nat → Prop
  | [], _ => True
  | f :: rest, x => (s.nodes f.p).IsLeaf = false ∧
      (s.nodes f.p).a = some (if f.left then x else f.sib.root) ∧
      (s.nodes f.p).b = some (if f.left then f.sib.root else x) ∧
      Linked s f.sib ∧ CtxLinked s rest f.p

/-- The parent links along the path above the node `x` point back, up to the
top node, which has no parent. -/
def CtxParented (s : State) : List Frame → Nat → Prop
  | [], x => (s.nodes x).parent = none
  | f :: rest, x => (s.nodes x).parent = some f.p ∧ (s.nodes f.sib.root).parent = some f.p ∧
      Parented s f.sib ∧ CtxParented s rest f.p

/-- The boxes along the path above the node `x` are the unions of the boxes
of the two children, and the sibling subtrees are boxed. -/
def CtxBoxed (s : State) : List Frame → Nat → Prop
  | [], _ => True
  | f :: rest, x => (∃ bx bs, (s.nodes x).bb = some bx ∧ (s.nodes f.sib.root).bb = some bs ∧
      (s.nodes f.p).bb = some (if f.left then bx.Merge bs else bs.Merge bx)) ∧
      Boxed s f.sib ∧ CtxBoxed s rest f.p

/-- The addresses of the nodes on a path. -/
def ctxPath : List Frame → List Nat
  | [] => []
  | f :: rest => f.p :: ctxPath rest

/-- The first node of a path, if there is one. -/
def ctxStart : List Frame → Option Nat
  | [] => none
  | f :: _ => some f.p

/-- A heap with the tree of the root 4 over the internal node 3 (over the
leaves 0 and 1) and the leaf 2, and the free node 5 on the node pool. -/
def removeDemo : State :=
  { State.empty with
    nodes := fun q =>
      if q = 0 then ⟨some 7, some ⟨0, 0, 1, 1⟩, some 3, none, none, 0, none⟩
      else if q = 1 then ⟨some 8, some ⟨2, 2, 3, 3⟩, some 3, none, none, 0, none⟩
      else if q = 2 then ⟨some 9, some ⟨5, 5, 6, 6⟩, some 4, none, none, 0, none⟩
      else if q = 3 then
        ⟨none, some (BB.Merge ⟨0, 0, 1, 1⟩ ⟨2, 2, 3, 3⟩), some 4, some 0, some 1, 0, none⟩
      else if q = 4 then
        ⟨none, some (BB.Merge (BB.Merge ⟨0, 0, 1, 1⟩ ⟨2, 2, 3, 3⟩) ⟨5, 5, 6, 6⟩), none, some 3,
          some 2, 0, none⟩
      else Node.zero
    nodeNext := 6
    trees := fun _ => ⟨some 0, none, [], some 4, some 5, none, 0⟩
    indexes := fun _ => ⟨some 0, fun _ => ⟨0, 0, 0, 0⟩, none, none⟩ }

/-- The tree of `removeDemo`. -/
def removeDemoTree : Shape :=
  Shape.node 4 (Shape.node 3 (Shape.leaf 0) (Shape.leaf 1)) (Shape.leaf 2)

/-- Whether the boxes of two nodes intersect (false when one has no box). -/
def boxI (s : State) (x y : Nat) : Bool :=
  match (s.nodes x).bb, (s.nodes y).bb with
  | some u, some v => u.Intersects v
  | _, _ => false

/-- The pairs `MarkLeafQuery(leaf, left)` inserts over the subtree `U`, in
order: at a leaf `y` whose box meets the box of `leaf`, the pair `(leaf, y)`
when `left`, and the pair `(y, leaf)` when not `left` and `y` has the older
stamp. -/
def queryIns (s : State) (leaf : Nat) (left : Bool) : Shape → List (Nat × Nat)
  | Shape.leaf y =>
    if boxI s leaf y then
      if left then [(leaf, y)]
      else if (s.nodes y).stamp < (s.nodes leaf).stamp then [(y, leaf)] else []
    else []
  | Shape.node _ a b => queryIns s leaf left a ++ queryIns s leaf left b

/-- The pairs the climbing loop of `MarkLeaf` inserts along a path. -/
def climbIns (s : State) (leaf : Nat) : List Frame → List (Nat × Nat)
  | [] => []
  | fr :: rest => queryIns s leaf fr.left fr.sib ++ climbIns s leaf rest

/-- The pairs `MarkSubtree` inserts over the subtree `U` that sits below the
path `path`, at the tick `now`. -/
def passIns (s : State) (now : Nat) : List Frame → Shape → List (Nat × Nat)
  | path, Shape.leaf x => if (s.nodes x).stamp = now then climbIns s x path else []
  | path, Shape.node p a b =>
    passIns s now (⟨p, true, b⟩ :: path) a ++ passIns s now (⟨p, false, a⟩ :: path) b

/-- The pair lists after a run of insertions, each with the pair record it used. -/
def listsAfter (lists : Nat → List Nat) (zs : List ((Nat × Nat) × Nat)) : Nat → List Nat :=
  zs.foldl (fun ls z => listsInsert ls z.1.1 z.1.2 z.2) lists

/-- What a pass keeps true of the heap `s`, started from the heap `s0`: only
pair data differ, the pair lists `lists` are well formed and symmetric, the
pool of the master tree `m` is the freelist `pool` of distinct records that
are in no list, and the lists of the leaves `L` are short. -/
def PassInv (s0 s : State) (m : Nat) (L : List Nat) (K : Nat) (lists : Nat → List Nat)
    (pool : List Nat) : Prop :=
  SameShape s0 s ∧ PairsWF s lists ∧ PoolSeg s (s.trees m).pooledPairs pool none ∧ pool.Nodup ∧
  (∀ l p, (s.nodes l).IsLeaf = true → p ∈ lists l → p ∉ pool) ∧
  (∀ l ∈ L, (lists l).length + pool.length ≤ K)

/-- Whether an inserted pair is between the leaves `x` and `y`, in either order. -/
def linkB (x y : Nat) (e : Nat × Nat) : Bool := decide (e = (x, y)) || decide (e = (y, x))

/-- The pair record `p` names the leaves `x` and `y`, in either order. -/
def Links (s : State) (p x y : Nat) : Prop :=
  ((s.pairs p).a.leaf = some x ∧ (s.pairs p).b.leaf = some y) ∨
  ((s.pairs p).a.leaf = some y ∧ (s.pairs p).b.leaf = some x)

/-- A heap with the tree of the root 2 over the leaves 0 and 1, whose boxes
meet, at tick 1: leaf 0 carries the tick 0, leaf 1 the tick 1; all pair lists
are empty and the pair pool holds the unused pair 5. -/
def markDemo : State :=
  { State.empty with
    nodes := fun q =>
      if q = 0 then ⟨some 7, some ⟨0, 0, 2, 2⟩, some 2, none, none, 0, none⟩
      else if q = 1 then ⟨some 8, some ⟨1, 1, 3, 3⟩, some 2, none, none, 1, none⟩
      else if q = 2 then
        ⟨none, some (BB.Merge ⟨0, 0, 2, 2⟩ ⟨1, 1, 3, 3⟩), none, some 0, some 1, 0, none⟩
      else Node.zero
    nodeNext := 3
    pairNext := 6
    trees := fun _ => ⟨some 0, none, [], some 2, none, some 5, 1⟩
    indexes := fun _ => ⟨some 0, fun _ => ⟨0, 0, 0, 0⟩, none, none⟩ }

/-- A heap with the tree of the root 2 over the leaves 0 and 1 with disjoint
boxes, at tick 1: leaf 0 carries the tick 0 and its pair list holds the pair
0, which names the leaves 0 and 1; leaf 1 carries the tick 1 and its pair
list is empty; the pair pool holds the unused pair 5. -/
def staleDemo : State :=
  { State.empty with
    nodes := fun q =>
      if q = 0 then ⟨some 7, some ⟨0, 0, 1, 1⟩, some 2, none, none, 0, some 0⟩
      else if q = 1 then ⟨some 8, some ⟨2, 2, 3, 3⟩, some 2, none, none, 1, none⟩
      else if q = 2 then
        ⟨none, some (BB.Merge ⟨0, 0, 1, 1⟩ ⟨2, 2, 3, 3⟩), none, some 0, some 1, 0, none⟩
      else Node.zero
    nodeNext := 3
    pairs := fun q =>
      if q = 0 then ⟨⟨none, none, some 0⟩, ⟨none, none, some 1⟩, 0⟩ else Pair.zero
    pairNext := 6
    trees := fun _ => ⟨some 0, none, [], some 2, none, some 5, 1⟩
    indexes := fun _ => ⟨some 0, fun _ => ⟨0, 0, 0, 0⟩, none, none⟩ }

/-- A heap with the tree of the root 4 over the leaf 0 and the internal node
3, which is over the leaves 1 and 2; the three leaves hold the objects 7, 8
and 9, carry the current tick 1, have the same box and empty pair lists; the
pair pool is empty. -/
def passDemo : State :=
  { State.empty with
    nodes := fun q =>
      if q = 0 then ⟨some 7, some ⟨0, 0, 1, 1⟩, some 4, none, none, 1, none⟩
      else if q = 1 then ⟨some 8, some ⟨0, 0, 1, 1⟩, some 3, none, none, 1, none⟩
      else if q = 2 then ⟨some 9, some ⟨0, 0, 1, 1⟩, some 3, none, none, 1, none⟩
      else if q = 3 then
        ⟨none, some (BB.Merge ⟨0, 0, 1, 1⟩ ⟨0, 0, 1, 1⟩), some 4, some 1, some 2, 0, none⟩
      else if q = 4 then
        ⟨none, some (BB.Merge ⟨0, 0, 1, 1⟩ (BB.Merge ⟨0, 0, 1, 1⟩ ⟨0, 0, 1, 1⟩)), none, some 0,
          some 3, 0, none⟩
      else Node.zero
    nodeNext := 5
    trees := fun _ => ⟨some 0, none, [], some 4, none, none, 1⟩
    indexes := fun _ => ⟨some 0, fun _ => ⟨0, 0, 0, 0⟩, none, none⟩ }

/-- The tree of `passDemo`. -/
def passDemoTree : Shape :=
  Shape.node 4 (Shape.leaf 0) (Shape.node 3 (Shape.leaf 1) (Shape.leaf 2))

/-- The heap after the pass over `passDemo` with the callback `VoidQueryFunc`
(the empty heap if the pass fails). -/
def passDemoEnd : State :=
  match MarkSubtree ⟨some 0, none, some VoidQueryFunc⟩ 6 passDemo (some 4) with
  | .ok s => s
  | .error _ => State.empty

/-! ## Reindexing -/

/-- `BBTree.LeafUpdate`; the result is the heap and the returned flag. -/
def LeafUpdate (fuel : Nat) (s : State) (t : Nat) (leaf : Nat) : M (State × Bool) := do
  let root := (s.trees t).root
  let si ← deref (s.trees t).spatialIndex
  let bb := (s.indexes si).bbfunc (s.nodes leaf).obj
  let lbb ← deref (s.nodes leaf).bb
  if !lbb.Contains bb then do
    let nb ← GetBB s t (s.nodes leaf).obj
    let s1 := s.setNode leaf (fun x => { x with bb := some nb })
    let (s2, root1) ← SubtreeRemove fuel s1 t root leaf
    let (s3, r) ← SubtreeInsert t leaf fuel s2 root1
    let s4 := s3.setTree t (fun tr => { tr with root := some r })
    let s5 ← PairsClear fuel s4 t leaf
    let master ← GetMasterTree s5 t
    pure (s5.setNode leaf (fun x => { x with stamp := (s5.trees master).stamp }), true)
  else pure (s, false)

/-- The loop `for _, node := range tree.leaves { tree.LeafUpdate(node) }` of
`ReindexQuery`, over the leaves in the order in which `range` yields them. -/
def ReindexQuery.update (fuel t : Nat) : List Nat → State → M State
  | [], s => pure s
  | node :: rest, s => do
    let (s1, _) ← LeafUpdate fuel s t node
    ReindexQuery.update fuel t rest s1

/-- `BBTree.Query`: the source is `panic("implement me")`. -/
def Query (_s : State) (_t : Nat) (_obj : Option Nat) (_bb : BB) (_f : Option QueryFn) :
    M State :=
  throw Err.unimplemented

/-- Modelled from the spec: `SpatialIndex.CollideStatic` is not part of the
given sources.  Section 4.4, step 4: the dynamic tree runs "one full query
against the static tree's objects"; when the static index holds an object,
every object of the dynamic tree is queried against the static tree with its
current box, and with an empty static index nothing is done. -/
def CollideStatic (s : State) (t st : Nat) (f : Option QueryFn) : M State := do
  let k ← deref (s.indexes st).klass
  if 0 < Count s k then do
    let si ← deref (s.trees t).spatialIndex
    (s.trees t).leaves.foldlM
      (fun u e => Query u k (u.nodes e.2).obj ((u.indexes si).bbfunc (u.nodes e.2).obj) f) s
  else pure s

/-- `BBTree.ReindexQuery` (without `data`).  Go fixes no order for `range`
over a map: `order` is the sequence in which the loop meets the leaves of the
map.  A failed type assertion `staticIndex.class.(*BBTree)` is a panic; the
model reports it like a nil dereference. -/
def ReindexQuery (fuel : Nat) (s : State) (t : Nat) (f : Option QueryFn) (order : List Nat) :
    M State :=
  match (s.trees t).root with
  | none => pure s
  | some _ => do
    let s1 ← ReindexQuery.update fuel t order s
    let si ← deref (s1.trees t).spatialIndex
    let staticIndex := (s1.indexes si).staticIndex
    let staticRoot ←
      match staticIndex with
      | some st => do
        let k ← deref (s1.indexes st).klass
        pure (s1.trees k).root
      | none => pure none
    let s2 ← MarkSubtree ⟨some t, staticRoot, f⟩ fuel s1 (s1.trees t).root
    let s3 ←
      match staticIndex, staticRoot with
      | some st, none => CollideStatic s2 t st f
      | _, _ => pure s2
    IncrementStamp s3 t

/-! ## The circle shape -/

/-- The arithmetic of `float64` used by `CircleSegmentQuery`, kept abstract:
the operations `+`, `-`, `*`, `/`, unary minus, `math.Sqrt`, the comparison
`<=` and the constants 0, 1 and 2. -/
structure FloatOps (F : Type) where
  add : F → F → F
  sub : F → F → F
  mul : F → F → F
  div : F → F → F
  neg : F → F
  sqrt : F → F
  le : F → F → Bool
  zero : F
  one : F
  two : F

/-- Modelled from the spec: the type `Vector` over `float64` is not part of
the given sources; a vector is a pair of coordinates. -/
structure FVector (F : Type) where
  X : F
  Y : F

/-- Modelled from the spec: `Vector.Sub` is not part of the given sources;
the difference, coordinate by coordinate. -/
def FVector.Sub {F : Type} (o : FloatOps F) (v w : FVector F) : FVector F :=
  ⟨o.sub v.X w.X, o.sub v.Y w.Y⟩

/-- Modelled from the spec: `Vector.Add` is not part of the given sources. -/
def FVector.Add {F : Type} (o : FloatOps F) (v w : FVector F) : FVector F :=
  ⟨o.add v.X w.X, o.add v.Y w.Y⟩

/-- Modelled from the spec: `Vector.Mult` is not part of the given sources;
it scales both coordinates. -/
def FVector.Mult {F : Type} (o : FloatOps F) (v : FVector F) (k : F) : FVector F :=
  ⟨o.mul v.X k, o.mul v.Y k⟩

/-- Modelled from the spec: `Vector.Dot` is not part of the given sources;
the scalar product. -/
def FVector.Dot {F : Type} (o : FloatOps F) (v w : FVector F) : F :=
  o.add (o.mul v.X w.X) (o.mul v.Y w.Y)

/-- Modelled from the spec: `Vector.Lerp` is not part of the given sources;
the linear interpolation `v*(1-t) + w*t`. -/
def FVector.Lerp {F : Type} (o : FloatOps F) (v w : FVector F) (t : F) : FVector F :=
  FVector.Add o (FVector.Mult o v (o.sub o.one t)) (FVector.Mult o w t)

/-- Modelled from the spec: the record `SegmentQueryInfo` is not part of the
given sources; it has the four fields that `CircleSegmentQuery` assigns. -/
structure SegmentQueryInfo (F : Type) where
  shape : Option Nat
  point : FVector F
  normal : FVector F
  alpha : F

/-- The hit that `CircleSegmentQuery` records, if it records one.
`Vector.Normalize` is not part of the given sources and is a parameter. -/
def CircleSegmentQuery.hit {F : Type} (o : FloatOps F) (normalize : FVector F → FVector F)
    (shape : Option Nat) (center : FVector F) (r1 : F) (a b : FVector F) (r2 : F) :
    Option (SegmentQueryInfo F) :=
  let da := FVector.Sub o a center
  let db := FVector.Sub o a center
  let rsum := o.add r1 r2
  let qa := o.add (o.sub (FVector.Dot o da da) (o.mul o.two (FVector.Dot o da db)))
    (FVector.Dot o db db)
  let qb := o.sub (FVector.Dot o da db) (FVector.Dot o da da)
  let det := o.sub (o.mul qb qb) (o.mul qa (o.sub (FVector.Dot o da da) (o.mul rsum rsum)))
  if o.le o.zero det then
    let t := o.sub (o.neg qb) (o.div (o.sqrt det) qa)
    if o.le o.zero t && o.le t o.one then
      let n := normalize (FVector.Lerp o da db t)
      some ⟨shape, FVector.Sub o (FVector.Lerp o a b t) (FVector.Mult o n r2), n, t⟩
    else none
  else none

/-- `CircleSegmentQuery`: the record `info` after the call. -/
def CircleSegmentQuery {F : Type} (o : FloatOps F) (normalize : FVector F → FVector F)
    (shape : Option Nat) (center : FVector F) (r1 : F) (a b : FVector F) (r2 : F)
    (info : SegmentQueryInfo F) : SegmentQueryInfo F :=
  match CircleSegmentQuery.hit o normalize shape center r1 a b r2 with
  | some h => h
  | none => info

/-- Two acquires from the node pool of tree `t` with no release between them:
the first record, the head of the pool after the first acquire, and the
second record. -/
def twoNodes (s : State) (t : Nat) : M (Option Nat × Option Nat × Option Nat) := do
  let (s1, a) ← NodeFromPool s t
  let (_, b) ← NodeFromPool s1 t
  pure (a, (s1.trees t).pooledNodes, b)

/-- Two acquires from the pair pool of tree `t` with no release between them:
the first record, the head of the pool after the first acquire, and the
second record. -/
def twoPairs (s : State) (t : Nat) : M (Option Nat × Option Nat × Option Nat) := do
  let (s1, a) ← PairFromPool s t
  let (_, b) ← PairFromPool s1 t
  pure (a, (s1.trees t).pooledPairs, b)

/-- The choice of child in the words of the specification: the new leaf goes
below the child `b` when `area(a) + mergedArea(b, leaf)` is less than
`area(b) + mergedArea(a, leaf)`, or the two are equal and `b` is nearer to the
leaf than `a`; areas, sums and comparisons are those of the `float64`
operations `fa`. -/
def descendsToB (fa : FloatArith) (abb bbb lbb : BB) : Bool :=
  fa.lt (fa.add (fa.area abb) (fa.mergedArea bbb lbb))
      (fa.add (fa.area bbb) (fa.mergedArea abb lbb)) ||
  (fa.eq (fa.add (fa.area bbb) (fa.mergedArea abb lbb))
      (fa.add (fa.area abb) (fa.mergedArea bbb lbb)) &&
    fa.lt (fa.proximity bbb lbb) (fa.proximity abb lbb))

/-- The object of the leaf a thread names. -/
def objOf (s : State) (x : Option Nat) : Option Nat :=
  x.bind (fun a => (s.nodes a).obj)

/-- The pairs of the list `ps` in which `leaf` is the second leaf (`pair.b.leaf`). -/
def secondIn (s : State) (leaf : Nat) (ps : List Nat) : List Nat :=
  ps.filter (fun p => decide ((s.pairs p).b.leaf = some leaf))

/-- The invocation `f(pair.a.leaf.obj, leaf.obj, pair.collisionId)` that the
replay loop of `MarkLeaf` makes for the pair `p`. -/
def replayCall (s : State) (leaf p : Nat) : Call :=
  ⟨objOf s (s.pairs p).a.leaf, (s.nodes leaf).obj, (s.pairs p).collisionId⟩

/-- A heap with the leaf 1 (object 8, tick 0) at tick 1 whose pair list holds
the pair 0, in which the leaf 0 (object 7) is the first and the leaf 1 the
second leaf, with the collision id 5. -/
def replayDemo : State :=
  { State.empty with
    nodes := fun q =>
      if q = 0 then ⟨some 7, some ⟨0, 0, 1, 1⟩, none, none, none, 0, some 0⟩
      else if q = 1 then ⟨some 8, some ⟨0, 0, 1, 1⟩, none, none, none, 0, some 0⟩
      else Node.zero
    nodeNext := 2
    pairs := fun q =>
      if q = 0 then ⟨⟨none, none, some 0⟩, ⟨none, none, some 1⟩, 5⟩ else Pair.zero
    pairNext := 1
    trees := fun _ => ⟨some 0, none, [], none, none, none, 1⟩
    indexes := fun _ => ⟨some 0, fun _ => ⟨0, 0, 0, 0⟩, none, none⟩ }

/-- What no operation but `IncrementStamp` and the map assignment of `Insert`
writes, and a bound on the stamps that are written: from `s` to `s1` the
stamp, the index pointer and the map of every tree record and all index
records are kept, and the stamp of every node is kept or at most `B`. -/
def StampFrame (B : Nat) (s s1 : State) : Prop :=
  (∀ u, (s1.trees u).stamp = (s.trees u).stamp ∧
    (s1.trees u).spatialIndex = (s.trees u).spatialIndex ∧
    (s1.trees u).leaves = (s.trees u).leaves) ∧
  s1.indexes = s.indexes ∧
  ∀ q, (s1.nodes q).stamp = (s.nodes q).stamp ∨ (s1.nodes q).stamp ≤ B

/-- One call on a tree: `Insert(obj, hashId)` or `ReindexQuery(f, data)`, the
latter with the order in which the range over the map visits the leaves; each
call has its own budget. -/
inductive Op where
  | insert (fuel : Nat) (obj : Option Nat) (hashId : Nat)
  | reindex (fuel : Nat) (f : Option QueryFn) (order : List Nat)

/-- A sequence of `Insert` and `ReindexQuery` calls on the tree `t`, in order. -/
def runOps (t : Nat) : List Op → State → M State
  | [], s => pure s
  | Op.insert fuel obj hashId :: rest, s => do
    let s1 ← Insert fuel s t obj hashId
    runOps t rest s1
  | Op.reindex fuel f order :: rest, s => do
    let s1 ← ReindexQuery fuel s t f order
    runOps t rest s1

/-- The heap after `Insert(1, 10)` and `ReindexQuery(VoidQueryFunc)` on a new
tree over the empty heap, where every object has the box `[0,0,1,1]` (the
empty heap if a call fails). -/
def tickDemoEnd : State :=
  match runOps (NewBBTree State.empty (fun _ => ⟨0, 0, 1, 1⟩) none).2.2
      [Op.insert 3 (some 1) 10, Op.reindex 3 (some VoidQueryFunc) [31]]
      (NewBBTree State.empty (fun _ => ⟨0, 0, 1, 1⟩) none).1 with
  | .ok s => s
  | .error _ => State.empty

/-- What the tree operations of `LeafUpdate` keep: the pair store, the
callback log, the index records, every field of the tree records other than
the root and the node pool, and of every node the stamp, the head of the pair
list and, unless it is the node `n`, the object. -/
def KeepLists (n : Option Nat) (s s1 : State) : Prop :=
  s1.pairs = s.pairs ∧ s1.pairNext = s.pairNext ∧ s1.calls = s.calls ∧
  s1.indexes = s.indexes ∧
  (∀ u, (s1.trees u).spatialIndex = (s.trees u).spatialIndex ∧
    (s1.trees u).velocityFunc = (s.trees u).velocityFunc ∧
    (s1.trees u).leaves = (s.trees u).leaves ∧
    (s1.trees u).pooledPairs = (s.trees u).pooledPairs ∧
    (s1.trees u).stamp = (s.trees u).stamp) ∧
  ∀ q, (s1.nodes q).stamp = (s.nodes q).stamp ∧ (s1.nodes q).pairs = (s.nodes q).pairs ∧
    (some q ≠ n → (s1.nodes q).obj = (s.nodes q).obj)

/-- The pair lists after `PairsClear(l)`: the list of `l` is empty, and the
pairs of the former list of `l` are gone from every other list. -/
def listsClear (lists : Nat → List Nat) (l : Nat) : Nat → List Nat :=
  fun m => if m = l then [] else (lists m).filter (fun q => decide (q ∉ lists l))

/-- What `ReindexQuery` on the tree record `t` relies on: the root of the
record is the root of the well-formed tree `T`, the record has a spatial index
and a master tree `m`, the pair lists `lists` are well formed and symmetric,
and the pair pool of the master tree is the freelist `pool` of distinct
records, none of them in a pair list. -/
def ReindexWF (s : State) (t m si : Nat) (T : Shape) (lists : Nat → List Nat)
    (pool : List Nat) : Prop :=
  (s.trees t).root = some T.root ∧ (s.trees t).spatialIndex = some si ∧
  GetMasterTree s t = .ok m ∧
  Linked s T ∧ Parented s T ∧ (s.nodes T.root).parent = none ∧ Boxed s T ∧ T.addrs.Nodup ∧
  PairsWF s lists ∧ PoolSeg s (s.trees m).pooledPairs pool none ∧ pool.Nodup ∧
  (∀ l p, (s.nodes l).IsLeaf = true → p ∈ lists l → p ∉ pool)

/-- A heap with the tree of the root 2 over the leaves 0 and 1 at tick 1,
both leaves with the stamp 0 and empty pair lists; the provider reports the
box `[0,0,0,0]` for every object, which the stored box `[0,0,1,1]` of leaf 0
contains and the stored box `[2,2,3,3]` of leaf 1 does not; the pair pool holds
the four unused pairs 0, 1, 2 and 3. -/
def reindexDemo : State :=
  { State.empty with
    nodes := fun q =>
      if q = 0 then ⟨some 7, some ⟨0, 0, 1, 1⟩, some 2, none, none, 0, none⟩
      else if q = 1 then ⟨some 8, some ⟨2, 2, 3, 3⟩, some 2, none, none, 0, none⟩
      else if q = 2 then
        ⟨none, some (BB.Merge ⟨0, 0, 1, 1⟩ ⟨2, 2, 3, 3⟩), none, some 0, some 1, 0, none⟩
      else Node.zero
    nodeNext := 3
    pairs := fun q =>
      if q = 0 then ⟨⟨none, some 1, none⟩, ⟨none, none, none⟩, 0⟩
      else if q = 1 then ⟨⟨none, some 2, none⟩, ⟨none, none, none⟩, 0⟩
      else if q = 2 then ⟨⟨none, some 3, none⟩, ⟨none, none, none⟩, 0⟩
      else Pair.zero
    pairNext := 4
    trees := fun _ => ⟨some 0, none, [(10, 0), (20, 1)], some 2, none, some 0, 1⟩
    treeNext := 1
    indexes := fun _ => ⟨some 0, fun _ => ⟨0, 0, 0, 0⟩, none, none⟩
    indexNext := 1 }

/-- The heap `insertDemo` with a node pool that hands out the node 1, which is
in use as the child `b` of the node 2. -/
def usedPoolDemo : State :=
  insertDemo.setTree 0 (fun tr => { tr with pooledNodes := some 1 })

/-! ## Properties of the embedding -/

@[simp] theorem setNode_nodes (s : State) (p : Nat) (f : Node → Node) (q : Nat) :
    (s.setNode p f).nodes q = if q = p then f (s.nodes p) else s.nodes q := by
  unfold State.setNode
  by_cases h : q = p
  · subst h; simp
  · simp [Function.update_noteq h, h]

@[simp] theorem setNode_pairs (s : State) (p : Nat) (f : Node → Node) :
    (s.setNode p f).pairs = s.pairs := rfl

@[simp] theorem setNode_trees (s : State) (p : Nat) (f : Node → Node) :
    (s.setNode p f).trees = s.trees := rfl

@[simp] theorem setNode_indexes (s : State) (p : Nat) (f : Node → Node) :
    (s.setNode p f).indexes = s.indexes := rfl

@[simp] theorem setNode_nodeNext (s : State) (p : Nat) (f : Node → Node) :
    (s.setNode p f).nodeNext = s.nodeNext := rfl

@[simp] theorem setNode_pairNext (s : State) (p : Nat) (f : Node → Node) :
    (s.setNode p f).pairNext = s.pairNext := rfl

@[simp] theorem setNode_treeNext (s : State) (p : Nat) (f : Node → Node) :
    (s.setNode p f).treeNext = s.treeNext := rfl

@[simp] theorem setNode_indexNext (s : State) (p : Nat) (f : Node → Node) :
    (s.setNode p f).indexNext = s.indexNext := rfl

@[simp] theorem setNode_calls (s : State) (p : Nat) (f : Node → Node) :
    (s.setNode p f).calls = s.calls := rfl

@[simp] theorem setPair_pairs (s : State) (p : Nat) (f : Pair → Pair) (q : Nat) :
    (s.setPair p f).pairs q = if q = p then f (s.pairs p) else s.pairs q := by
  unfold State.setPair
  by_cases h : q = p
  · subst h; simp
  · simp [Function.update_noteq h, h]

@[simp] theorem setPair_nodes (s : State) (p : Nat) (f : Pair → Pair) :
    (s.setPair p f).nodes = s.nodes := rfl

@[simp] theorem setPair_trees (s : State) (p : Nat) (f : Pair → Pair) :
    (s.setPair p f).trees = s.trees := rfl

@[simp] theorem setPair_indexes (s : State) (p : Nat) (f : Pair → Pair) :
    (s.setPair p f).indexes = s.indexes := rfl

@[simp] theorem setPair_nodeNext (s : State) (p : Nat) (f : Pair → Pair) :
    (s.setPair p f).nodeNext = s.nodeNext := rfl

@[simp] theorem setPair_pairNext (s : State) (p : Nat) (f : Pair → Pair) :
    (s.setPair p f).pairNext = s.pairNext := rfl

@[simp] theorem setPair_treeNext (s : State) (p : Nat) (f : Pair → Pair) :
    (s.setPair p f).treeNext = s.treeNext := rfl

@[simp] theorem setPair_indexNext (s : State) (p : Nat) (f : Pair → Pair) :
    (s.setPair p f).indexNext = s.indexNext := rfl

@[simp] theorem setPair_calls (s : State) (p : Nat) (f : Pair → Pair) :
    (s.setPair p f).calls = s.calls := rfl

@[simp] theorem setTree_trees (s : State) (t : Nat) (f : BBTree → BBTree) (u : Nat) :
    (s.setTree t f).trees u = if u = t then f (s.trees t) else s.trees u := by
  unfold State.setTree
  by_cases h : u = t
  · subst h; simp
  · simp [Function.update_noteq h, h]

@[simp] theorem setTree_nodes (s : State) (t : Nat) (f : BBTree → BBTree) :
    (s.setTree t f).nodes = s.nodes := rfl

@[simp] theorem setTree_pairs (s : State) (t : Nat) (f : BBTree → BBTree) :
    (s.setTree t f).pairs = s.pairs := rfl

@[simp] theorem setTree_indexes (s : State) (t : Nat) (f : BBTree → BBTree) :
    (s.setTree t f).indexes = s.indexes := rfl

@[simp] theorem setTree_nodeNext (s : State) (t : Nat) (f : BBTree → BBTree) :
    (s.setTree t f).nodeNext = s.nodeNext := rfl

@[simp] theorem setTree_pairNext (s : State) (t : Nat) (f : BBTree → BBTree) :
    (s.setTree t f).pairNext = s.pairNext := rfl

@[simp] theorem setTree_treeNext (s : State) (t : Nat) (f : BBTree → BBTree) :
    (s.setTree t f).treeNext = s.treeNext := rfl

@[simp] theorem setTree_indexNext (s : State) (t : Nat) (f : BBTree → BBTree) :
    (s.setTree t f).indexNext = s.indexNext := rfl

@[simp] theorem setTree_calls (s : State) (t : Nat) (f : BBTree → BBTree) :
    (s.setTree t f).calls = s.calls := rfl

theorem SameShape.refl (s : State) : SameShape s s :=
  ⟨fun _ => rfl, rfl, fun _ => rfl, rfl, rfl, rfl⟩

theorem SameShape.trans {s s1 s2 : State} (h1 : SameShape s s1) (h2 : SameShape s1 s2) :
    SameShape s s2 := by
  obtain ⟨a1, b1, c1, d1, e1, f1⟩ := h1
  obtain ⟨a2, b2, c2, d2, e2, f2⟩ := h2
  exact ⟨fun p => (a2 p).trans (a1 p), b2.trans b1, fun t => (c2 t).trans (c1 t),
    d2.trans d1, e2.trans e1, f2.trans f1⟩

theorem GetMasterTree_shape {s s1 : State} (h : SameShape s s1) (t : Nat) :
    GetMasterTree s1 t = GetMasterTree s t := by
  obtain ⟨-, -, c, -, e, -⟩ := h
  have h1 : (s1.trees t).spatialIndex = (s.trees t).spatialIndex := by
    have := congrArg BBTree.spatialIndex (c t); simpa [BBTree.shape] using this
  unfold GetMasterTree SpatialIndex.GetTree
  rw [h1, e]

theorem RecyclePair_ok {s : State} {t : Nat} (h : SelfMaster s t) (pair : Nat) :
    RecyclePair s t pair =
      .ok ((s.setPair pair (fun q => q.setNext Side.A (s.trees t).pooledPairs)).setTree t
        (fun tr => { tr with pooledPairs := some pair })) := by
  unfold SelfMaster at h
  simp [RecyclePair, h, bind, Except.bind, pure, Except.pure]

theorem shape_bb {s s1 : State} (h : SameShape s s1) (p : Nat) :
    (s1.nodes p).bb = (s.nodes p).bb := by
  have := congrArg Node.bb (h.1 p); simpa [Node.shape] using this

theorem shape_obj {s s1 : State} (h : SameShape s s1) (p : Nat) :
    (s1.nodes p).obj = (s.nodes p).obj := by
  have := congrArg Node.obj (h.1 p); simpa [Node.shape] using this

theorem shape_a {s s1 : State} (h : SameShape s s1) (p : Nat) :
    (s1.nodes p).a = (s.nodes p).a := by
  have := congrArg Node.a (h.1 p); simpa [Node.shape] using this

theorem shape_b {s s1 : State} (h : SameShape s s1) (p : Nat) :
    (s1.nodes p).b = (s.nodes p).b := by
  have := congrArg Node.b (h.1 p); simpa [Node.shape] using this

theorem shape_parent {s s1 : State} (h : SameShape s s1) (p : Nat) :
    (s1.nodes p).parent = (s.nodes p).parent := by
  have := congrArg Node.parent (h.1 p); simpa [Node.shape] using this

theorem shape_stamp {s s1 : State} (h : SameShape s s1) (p : Nat) :
    (s1.nodes p).stamp = (s.nodes p).stamp := by
  have := congrArg Node.stamp (h.1 p); simpa [Node.shape] using this

theorem shape_isLeaf {s s1 : State} (h : SameShape s s1) (p : Nat) :
    (s1.nodes p).IsLeaf = (s.nodes p).IsLeaf := by
  simp [Node.IsLeaf, shape_obj h]

theorem Walkable_mono {s : State} {bound : Nat} {d : Nat} {p : Option Nat}
    (h : Walkable s bound d p) : Walkable s bound (d + 1) p := by
  induction d generalizing p with
  | zero => exact absurd h (by simp [Walkable])
  | succ d ih =>
    cases p with
    | none => simp [Walkable] at h
    | some q =>
      obtain ⟨h1, h2, h3⟩ := h
      refine ⟨h1, h2, ?_⟩
      rcases h3 with h3 | ⟨h3, h4⟩
      · exact Or.inl h3
      · exact Or.inr ⟨ih h3, ih h4⟩

theorem Walkable_mono_le {s : State} {bound : Nat} {d e : Nat} {p : Option Nat}
    (h : Walkable s bound d p) (hde : d ≤ e) : Walkable s bound e p := by
  induction hde with
  | refl => exact h
  | step _ ih => exact Walkable_mono ih

/-- Walkability only reads the shape of the nodes below the bound. -/
theorem Walkable_congr {s s1 : State} {bound : Nat}
    (h : ∀ p, p < bound → (s1.nodes p).shape = (s.nodes p).shape) :
    ∀ {d : Nat} {p : Option Nat}, Walkable s bound d p → Walkable s1 bound d p := by
  intro d
  induction d with
  | zero => intro p hp; exact absurd hp (by simp [Walkable])
  | succ d ih =>
    intro p hp
    cases p with
    | none => simp [Walkable] at hp
    | some q =>
      obtain ⟨h1, h2, h3⟩ := hp
      have hq := h q h1
      have hbb : (s1.nodes q).bb = (s.nodes q).bb := by
        have := congrArg Node.bb hq; simpa [Node.shape] using this
      have hobj : (s1.nodes q).obj = (s.nodes q).obj := by
        have := congrArg Node.obj hq; simpa [Node.shape] using this
      have ha : (s1.nodes q).a = (s.nodes q).a := by
        have := congrArg Node.a hq; simpa [Node.shape] using this
      have hb : (s1.nodes q).b = (s.nodes q).b := by
        have := congrArg Node.b hq; simpa [Node.shape] using this
      refine ⟨h1, by rw [hbb]; exact h2, ?_⟩
      rcases h3 with h3 | ⟨h3, h4⟩
      · left; simpa [Node.IsLeaf, hobj] using h3
      · right; rw [ha, hb]; exact ⟨ih h3, ih h4⟩

theorem SelfMaster.shape {s s1 : State} (h : SameShape s s1) {t : Nat} (hm : SelfMaster s t) :
    SelfMaster s1 t := by
  unfold SelfMaster at *; rw [GetMasterTree_shape h]; exact hm

theorem refillPairs_ok {t : Nat} : ∀ (k : Nat) {s : State}, SelfMaster s t →
    ∃ s1, PairFromPool.refill t k s = .ok s1 ∧ SameShape s s1 ∧
      (0 < k → ∃ p, (s1.trees t).pooledPairs = some p) := by
  intro k
  induction k with
  | zero => intro s _; exact ⟨s, rfl, SameShape.refl s, fun h => absurd h (by decide)⟩
  | succ k ih =>
    intro s hm
    have hm0 : SelfMaster s.allocPair.1 t := by
      unfold SelfMaster GetMasterTree at *; exact hm
    have hsh : SameShape s ((s.allocPair.1.setPair s.allocPair.2 (fun q => q.setNext Side.A
        (s.allocPair.1.trees t).pooledPairs)).setTree t
        (fun tr => { tr with pooledPairs := some s.allocPair.2 })) := by
      refine ⟨fun p => rfl, rfl, fun u => ?_, rfl, rfl, rfl⟩
      by_cases hu : u = t
      · subst hu; simp [BBTree.shape, State.allocPair]
      · simp [hu, State.allocPair]
    obtain ⟨s1, h1, h2, h3⟩ := ih (hm.shape hsh)
    refine ⟨s1, ?_, hsh.trans h2, fun _ => ?_⟩
    · simp only [PairFromPool.refill, RecyclePair_ok hm0, bind, Except.bind]
      exact h1
    · cases k with
      | zero =>
        simp only [PairFromPool.refill, pure, Except.pure] at h1
        cases h1
        exact ⟨s.allocPair.2, by simp⟩
      | succ k => exact h3 (Nat.succ_pos k)

theorem PairFromPool_ok {s : State} {t m : Nat} (hm : GetMasterTree s t = .ok m)
    (hs : SelfMaster s m) :
    ∃ s1 p, PairFromPool s t = .ok (s1, some p) ∧ SameShape s s1 := by
  unfold PairFromPool
  simp only [hm, bind, Except.bind]
  cases hp : (s.trees m).pooledPairs with
  | some pair =>
    refine ⟨_, pair, rfl, fun p => rfl, rfl, fun u => ?_, rfl, rfl, rfl⟩
    by_cases hu : u = m
    · subst hu; simp [BBTree.shape]
    · simp [hu]
  | none =>
    obtain ⟨s1, h1, h2, h3⟩ := refillPairs_ok 32 hs
    obtain ⟨p, hp1⟩ := h3 (by decide)
    refine ⟨s1, p, ?_, h2⟩
    simp only [h1, hp1]
    rfl

theorem SameShape.setPair (s : State) (p : Nat) (f : Pair → Pair) :
    SameShape s (s.setPair p f) :=
  ⟨fun _ => rfl, rfl, fun _ => rfl, rfl, rfl, rfl⟩

theorem SameShape.setNodePairs (s : State) (p : Nat) (v : Option Nat) :
    SameShape s (s.setNode p (fun n => { n with pairs := v })) := by
  refine ⟨fun q => ?_, rfl, fun _ => rfl, rfl, rfl, rfl⟩
  by_cases hq : q = p
  · subst hq; simp [Node.shape]
  · simp [hq]

theorem PairInsert_ok {s : State} {t m : Nat} (hm : GetMasterTree s t = .ok m)
    (hs : SelfMaster s m) (a b : Nat) :
    ∃ s1, PairInsert s t a b = .ok s1 ∧ SameShape s s1 := by
  obtain ⟨s1, p, h1, h2⟩ := PairFromPool_ok hm hs
  unfold PairInsert
  simp only [h1, bind, Except.bind, deref, pure, Except.pure]
  refine ⟨_, rfl, ?_⟩
  cases (s.nodes a).pairs <;> cases (s.nodes b).pairs <;> simp only [] <;>
    repeat (first
      | exact h2
      | refine SameShape.trans ?_ (SameShape.setPair _ _ _)
      | refine SameShape.trans ?_ (SameShape.setNodePairs _ _ _))

theorem callF_ok {s : State} {ctx : MarkContext} (hf : ctx.f ≠ none) (o1 o2 : Option Nat)
    (cid : Nat) : ∃ g, ctx.f = some g ∧
      callF s ctx o1 o2 cid = .ok ({ s with calls := s.calls ++ [⟨o1, o2, cid⟩] }, g o1 o2 cid) := by
  cases hg : ctx.f with
  | none => exact absurd hg hf
  | some g => exact ⟨g, rfl, by simp [callF, hg, deref, bind, Except.bind, pure, Except.pure]⟩

theorem SameShape.log (s : State) (c : List Call) : SameShape s { s with calls := c } :=
  ⟨fun _ => rfl, rfl, fun _ => rfl, rfl, rfl, rfl⟩

theorem MarkLeafQuery_ok (ctx : MarkContext) (leaf : Nat) (left : Bool) {t m bound : Nat}
    (hct : ctx.tree = some t) (hf : left = true ∨ ctx.f ≠ none) :
    ∀ (d fuel : Nat) (s : State) (sub : Option Nat), d ≤ fuel → Walkable s bound d sub →
      GetMasterTree s t = .ok m → SelfMaster s m → (s.nodes leaf).bb ≠ none →
      ∃ s1, MarkLeafQuery ctx leaf left fuel s sub = .ok s1 ∧ SameShape s s1 := by
  intro d
  induction d with
  | zero => intro fuel s sub _ hw; exact absurd hw (by simp [Walkable])
  | succ d ih =>
    intro fuel s sub hfuel hw hm hs hl
    obtain ⟨f, rfl⟩ : ∃ f, fuel = f + 1 := ⟨fuel - 1, by omega⟩
    cases sub with
    | none => simp [Walkable] at hw
    | some q =>
      obtain ⟨-, hqbb, hq⟩ := hw
      obtain ⟨lbb, hlbb⟩ := Option.ne_none_iff_exists'.mp hl
      obtain ⟨sbb, hsbb⟩ := Option.ne_none_iff_exists'.mp hqbb
      unfold MarkLeafQuery
      simp only [hlbb, hsbb, deref, bind, Except.bind, pure, Except.pure]
      by_cases hint : lbb.Intersects sbb = true
      · simp only [hint, if_true]
        by_cases hleaf : (s.nodes q).IsLeaf = true
        · simp only [hleaf, if_true]
          cases left with
          | true =>
            simp only [if_true, ctxPairInsert, hct, deref, bind, Except.bind, pure, Except.pure]
            exact PairInsert_ok hm hs leaf q
          | false =>
            have hf1 : ctx.f ≠ none := by
              rcases hf with h | h
              · cases h
              · exact h
            simp only [Bool.false_eq_true, if_false]
            by_cases hst : (s.nodes q).stamp < (s.nodes leaf).stamp
            · obtain ⟨s1, h1, h2⟩ := PairInsert_ok hm hs q leaf
              obtain ⟨g, -, hg⟩ := callF_ok (s := s1) hf1 (s1.nodes leaf).obj (s1.nodes q).obj 0
              simp only [hst, if_true, ctxPairInsert, hct, deref, bind, Except.bind, pure, Except.pure, h1, hg]
              exact ⟨_, rfl, h2.trans (SameShape.log _ _)⟩
            · obtain ⟨g, -, hg⟩ := callF_ok (s := s) hf1 (s.nodes leaf).obj (s.nodes q).obj 0
              simp only [hst, if_false, pure, Except.pure, hg]
              exact ⟨_, rfl, SameShape.log _ _⟩
        · have hq2 : Walkable s bound d (s.nodes q).a ∧ Walkable s bound d (s.nodes q).b := by
            rcases hq with h | h
            · exact absurd h hleaf
            · exact h
          simp only [hleaf, Bool.false_eq_true, if_false]
          obtain ⟨s1, h1, h2⟩ := ih f s (s.nodes q).a (by omega) hq2.1 hm hs hl
          have hw2 : Walkable s1 bound d (s1.nodes q).b := by
            rw [shape_b h2]
            exact Walkable_congr (fun p _ => h2.1 p) hq2.2
          obtain ⟨s2, h3, h4⟩ := ih f s1 (s1.nodes q).b (by omega) hw2
            (by rw [GetMasterTree_shape h2]; exact hm) (hs.shape h2)
            (by rw [shape_bb h2]; exact hl)
          simp only [h1, h3]
          exact ⟨s2, rfl, h2.trans h4⟩
      · simp only [hint, Bool.false_eq_true, if_false]
        exact ⟨s, rfl, SameShape.refl s⟩

@[simp] theorem allocNode_fst_nodes (s : State) (q : Nat) :
    s.allocNode.1.nodes q = if q = s.nodeNext then Node.zero else s.nodes q := by
  unfold State.allocNode
  by_cases h : q = s.nodeNext
  · subst h; simp
  · simp [Function.update_noteq h, h]

theorem refillNodes_ok {t : Nat} : ∀ (k : Nat) (s : State),
    ∃ s1, NodeFromPool.refill t k s = .ok s1 ∧ s1.nodeNext = s.nodeNext + k ∧
      (∀ p, p < s.nodeNext → s1.nodes p = s.nodes p) ∧
      (∀ u, s1.trees u = if u = t then { s.trees t with pooledNodes :=
          if k = 0 then (s.trees t).pooledNodes else some (s.nodeNext + k - 1) } else s.trees u) ∧
      SameRest s s1 := by
  intro k
  induction k with
  | zero =>
    intro s
    refine ⟨s, rfl, rfl, fun _ _ => rfl, fun u => ?_, rfl, rfl, rfl, rfl, rfl, rfl⟩
    by_cases hu : u = t
    · subst hu; simp
    · simp [hu]
  | succ k ih =>
    intro s
    obtain ⟨s1, h1, h2, h3, h4, h5⟩ := ih ((s.allocNode.1.setNode s.allocNode.2
      (fun x => { x with parent := (s.allocNode.1.trees t).pooledNodes })).setTree t
      (fun tr => { tr with pooledNodes := some s.allocNode.2 }))
    refine ⟨s1, ?_, ?_, ?_, ?_, ?_⟩
    · simp only [NodeFromPool.refill, RecycleNode, deref, bind, Except.bind, pure, Except.pure]
      exact h1
    · rw [h2]; simp [State.allocNode]; omega
    · intro p hp
      rw [h3 p (by simp [State.allocNode]; omega)]
      have : p ≠ s.nodeNext := by omega
      simp [State.allocNode, this]
    · intro u
      rw [h4 u]
      by_cases hu : u = t
      · subst hu
        simp only [if_true, setTree_trees, setNode_trees]
        by_cases hk : k = 0
        · subst hk; simp [State.allocNode]
        · simp [hk, State.allocNode]
      · simp [hu, State.allocNode]
    · obtain ⟨a, b, c, d, e, f⟩ := h5
      exact ⟨a, b, c, d, e, f⟩

theorem GetBB_ok (s : State) (t si : Nat) (h : (s.trees t).spatialIndex = some si)
    (obj : Option Nat) : ∃ bb, GetBB s t obj = .ok bb := by
  unfold GetBB
  simp only [h, deref, bind, Except.bind, pure, Except.pure]
  cases (s.trees t).velocityFunc <;> exact ⟨_, rfl⟩

theorem NodeFromPool_pop {s : State} {t r : Nat} (hp : (s.trees t).pooledNodes = some r) :
    NodeFromPool s t =
      .ok (s.setTree t (fun tr => { tr with pooledNodes := (s.nodes r).parent }), some r) := by
  unfold NodeFromPool
  simp only [hp]
  rfl

theorem NodeFromPool_refill {s : State} {t : Nat} (hp : (s.trees t).pooledNodes = none) :
    ∃ s1, NodeFromPool s t = .ok (s1, some (s.nodeNext + 31)) ∧
      s1.nodeNext = s.nodeNext + 32 ∧ (∀ p, p < s.nodeNext → s1.nodes p = s.nodes p) ∧
      (∀ u, s1.trees u = if u = t then { s.trees t with pooledNodes := some (s.nodeNext + 31) }
        else s.trees u) ∧ SameRest s s1 := by
  obtain ⟨s1, h1, h2, h3, h4, h5⟩ := refillNodes_ok (t := t) 32 s
  refine ⟨s1, ?_, h2, h3, ?_, h5⟩
  · unfold NodeFromPool
    simp only [hp, h1, bind, Except.bind, pure, Except.pure]
    rw [h4 t]; simp
  · intro u; rw [h4 u]; simp

theorem NewLeaf_of {s s1 : State} {t n : Nat} (si : Nat) (h0 : NodeFromPool s t = .ok (s1, some n))
    (h : (s1.trees t).spatialIndex = some si) (obj : Option Nat) :
    ∃ bb, NewLeaf s t obj = .ok
      (s1.setNode n (fun x => ⟨obj, some bb, none, x.a, x.b, 0, none⟩), n) := by
  obtain ⟨bb, hbb⟩ := GetBB_ok (s1.setNode n (fun x => { x with obj := obj }))
    t si (by simp [h]) obj
  refine ⟨bb, ?_⟩
  unfold NewLeaf
  simp only [h0, deref, bind, Except.bind, pure, Except.pure, hbb]
  congr 2
  simp only [State.setNode, Function.update_same, Function.update_idem]

theorem State.ext_nodes {s s1 : State} (h1 : ∀ q, s.nodes q = s1.nodes q)
    (h2 : s.nodeNext = s1.nodeNext) (h3 : s.pairs = s1.pairs) (h4 : s.pairNext = s1.pairNext)
    (h5 : s.trees = s1.trees) (h6 : s.treeNext = s1.treeNext) (h7 : s.indexes = s1.indexes)
    (h8 : s.indexNext = s1.indexNext) (h9 : s.calls = s1.calls)
    (h10 : s.arith = s1.arith) : s = s1 := by
  cases s; cases s1
  simp only [State.mk.injEq]
  exact ⟨funext h1, h2, h3, h4, h5, h6, h7, h8, h9, h10⟩

theorem NewNode_of {s s1 : State} {t n : Nat} (a b : Nat) (ba bb : BB)
    (h0 : NodeFromPool s t = .ok (s1, some n)) (ha : (s1.nodes a).bb = some ba)
    (hb : (s1.nodes b).bb = some bb) (hna : n ≠ a) (hnb : n ≠ b) :
    NewNode s t a b = .ok
      (((s1.setNode n (fun x => ⟨none, some (ba.Merge bb), none, some a, some b, x.stamp,
          x.pairs⟩)).setNode a (fun x => { x with parent := some n })).setNode b
          (fun x => { x with parent := some n }), n) := by
  unfold NewNode
  have han : a ≠ n := fun h => hna h.symm
  have hbn : b ≠ n := fun h => hnb h.symm
  simp only [h0, deref, bind, Except.bind, pure, Except.pure, mergeBB, setNode_nodes, han, hbn,
    if_false, ha, hb, NodeSetA, NodeSetB]
  congr 2
  apply State.ext_nodes <;> try rfl
  intro q
  simp only [setNode_nodes]
  by_cases hq : q = b
  · subst hq
    by_cases hq2 : q = a
    · subst hq2; simp [hbn]
    · simp [hbn, hq2]
  · by_cases hq2 : q = a
    · subst hq2; simp [hq, han]
    · by_cases hq3 : q = n
      · subst hq3; simp [hq, hq2]
      · simp [hq, hq2, hq3]

theorem Climbable_congr {s s1 : State} {bound d : Nat} (h : SameShape s s1) :
    ∀ {k : Nat} {node : Nat}, Climbable s bound d k node → Climbable s1 bound d k node := by
  intro k
  induction k with
  | zero => intro node hc; exact absurd hc (by simp [Climbable])
  | succ k ih =>
    intro node hc
    unfold Climbable at hc ⊢
    rw [shape_parent h]
    cases hp : (s.nodes node).parent with
    | none => trivial
    | some p =>
      rw [hp] at hc
      simp only at hc ⊢
      rw [shape_a h, shape_b h]
      refine ⟨?_, ih hc.2⟩
      by_cases hn : some node = (s.nodes p).a
      · simp only [hn, if_true] at hc ⊢
        exact Walkable_congr (fun q _ => h.1 q) hc.1
      · simp only [hn, if_false] at hc ⊢
        exact Walkable_congr (fun q _ => h.1 q) hc.1

theorem climb_ok {ctx : MarkContext} {leaf : Nat} {t m bound d : Nat}
    (hct : ctx.tree = some t) (hf : ctx.f ≠ none) :
    ∀ (k fuel : Nat) (s : State) (node : Nat), d + k ≤ fuel → Climbable s bound d k node →
      GetMasterTree s t = .ok m → SelfMaster s m → (s.nodes leaf).bb ≠ none →
      ∃ s1, MarkLeaf.climb ctx leaf fuel s node = .ok s1 ∧ SameShape s s1 := by
  intro k
  induction k with
  | zero => intro fuel s node _ hc; exact absurd hc (by simp [Climbable])
  | succ k ih =>
    intro fuel s node hk hc hm hs hl
    obtain ⟨f, rfl⟩ : ∃ f, fuel = f + 1 := ⟨fuel - 1, by omega⟩
    unfold Climbable at hc
    unfold MarkLeaf.climb
    cases hp : (s.nodes node).parent with
    | none => exact ⟨s, rfl, SameShape.refl s⟩
    | some p =>
      rw [hp] at hc
      simp only at hc ⊢
      have hstep : ∀ (r : M State) (s1 : State), r = .ok s1 → SameShape s s1 →
          ∃ s2, (do
            let s1 ← r
            let nxt ← deref (s1.nodes node).parent
            MarkLeaf.climb ctx leaf f s1 nxt) = .ok s2 ∧ SameShape s s2 := by
        intro r s1 h1 h2
        have hp1 : (s1.nodes node).parent = some p := by rw [shape_parent h2]; exact hp
        obtain ⟨s2, h3, h4⟩ := ih f s1 p (by omega) (Climbable_congr h2 hc.2)
          (by rw [GetMasterTree_shape h2]; exact hm) (hs.shape h2) (by rw [shape_bb h2]; exact hl)
        refine ⟨s2, ?_, h2.trans h4⟩
        simp only [h1, hp1, deref, bind, Except.bind, pure, Except.pure, h3]
      by_cases hn : some node = (s.nodes p).a
      · simp only [hn, if_true] at hc ⊢
        obtain ⟨s1, h1, h2⟩ :=
          MarkLeafQuery_ok ctx leaf true hct (Or.inl rfl) d f s _ (by omega) hc.1 hm hs hl
        exact hstep _ s1 h1 h2
      · simp only [hn, if_false] at hc ⊢
        obtain ⟨s1, h1, h2⟩ :=
          MarkLeafQuery_ok ctx leaf false hct (Or.inr hf) d f s _ (by omega) hc.1 hm hs hl
        exact hstep _ s1 h1 h2

theorem LoneEnv.master {s : State} {t bound d : Nat} (he : LoneEnv s t bound d) :
    GetMasterTree s t = .ok t := by
  obtain ⟨si, hsi, hdyn, -, -⟩ := he
  simp [GetMasterTree, hsi, hdyn, SpatialIndex.GetTree, deref, bind, Except.bind, pure,
    Except.pure]

theorem LeafAddPairs_ok (fuel b2 d2 k : Nat) {s : State} {t bound d leaf : Nat}
    (he : LoneEnv s t bound d) (hst : (s.nodes leaf).stamp = (s.trees t).stamp)
    (hbb : (s.nodes leaf).bb ≠ none) (hc : Climbable s b2 d2 k leaf)
    (hf1 : d ≤ fuel) (hf2 : d2 + k ≤ fuel) :
    ∃ s1, LeafAddPairs fuel s t leaf = .ok s1 ∧ SameShape s s1 := by
  have hm := he.master
  obtain ⟨si, hsi, hdyn, hstat, -⟩ := he
  unfold LeafAddPairs
  simp only [hsi, hdyn, deref, bind, Except.bind, pure, Except.pure, MarkLeaf, hm, hst, if_true]
  have hctx : (⟨some t, SpatialIndex.GetRootIfTree s (s.indexes si).staticIndex,
      some VoidQueryFunc⟩ : MarkContext).tree = some t := rfl
  have hfn : (⟨some t, SpatialIndex.GetRootIfTree s (s.indexes si).staticIndex,
      some VoidQueryFunc⟩ : MarkContext).f ≠ none := by simp
  have hstep : ∀ s1, SameShape s s1 → ∃ s2, MarkLeaf.climb ⟨some t,
      SpatialIndex.GetRootIfTree s (s.indexes si).staticIndex, some VoidQueryFunc⟩ leaf fuel s1
      leaf = .ok s2 ∧ SameShape s s2 := by
    intro s1 h1
    obtain ⟨s2, h2, h3⟩ := climb_ok hctx hfn k fuel s1 leaf hf2 (Climbable_congr h1 hc)
      (by rw [GetMasterTree_shape h1]; exact hm) (SelfMaster.shape h1 hm)
      (by rw [shape_bb h1]; exact hbb)
    exact ⟨s2, h2, h1.trans h3⟩
  cases hr : SpatialIndex.GetRootIfTree s (s.indexes si).staticIndex with
  | none =>
    simp only [hr] at hstep ⊢
    exact hstep s (SameShape.refl s)
  | some sr =>
    simp only [hr] at hstep ⊢
    have hw : Walkable s bound d (some sr) := by
      unfold SpatialIndex.GetRootIfTree at hr
      cases hk : SpatialIndex.GetTree s (s.indexes si).staticIndex with
      | none => simp [hk] at hr
      | some k =>
        simp only [hk] at hr
        rcases (hstat k hk).2 with h | h
        · rw [h] at hr; cases hr
        · rw [hr] at h; exact h
    obtain ⟨s1, h1, h2⟩ := MarkLeafQuery_ok ⟨some t, some sr, some VoidQueryFunc⟩
      leaf false rfl (Or.inr (by simp)) d fuel s (some sr) hf1 hw hm hm hbb
    obtain ⟨s2, h3, h4⟩ := hstep s1 h2
    simp only [h1, h3]
    exact ⟨s2, rfl, h4⟩

theorem IncrementStamp_lone {s : State} {t bound d : Nat} (he : LoneEnv s t bound d) :
    IncrementStamp s t =
      .ok (s.setTree t (fun tr => { tr with stamp := (tr.stamp + 1) % uintMod })) := by
  obtain ⟨si, hsi, hdyn, -, -⟩ := he
  simp [IncrementStamp, hsi, hdyn, SpatialIndex.GetTree, deref, bind, Except.bind, pure,
    Except.pure]

theorem LoneEnv.frame {s s1 : State} {t bound d : Nat} (he : LoneEnv s t bound d)
    (h1 : (s1.trees t).spatialIndex = (s.trees t).spatialIndex)
    (h2 : s1.indexes = s.indexes) (h3 : ∀ k, k ≠ t → (s1.trees k).root = (s.trees k).root)
    (h4 : ∀ p, p < bound → (s1.nodes p).shape = (s.nodes p).shape)
    (h5 : s.nodeNext ≤ s1.nodeNext) : LoneEnv s1 t bound d := by
  obtain ⟨si, hsi, hdyn, hstat, hb⟩ := he
  refine ⟨si, by rw [h1]; exact hsi, by rw [h2]; exact hdyn, ?_, by omega⟩
  intro k hk
  have hk2 : SpatialIndex.GetTree s (s.indexes si).staticIndex = some k := by
    unfold SpatialIndex.GetTree at hk ⊢
    rw [h2] at hk; exact hk
  obtain ⟨hkt, hw⟩ := hstat k hk2
  refine ⟨hkt, ?_⟩
  rw [h3 k hkt]
  rcases hw with hw | hw
  · exact Or.inl hw
  · exact Or.inr (Walkable_congr h4 hw)

theorem SubtreeInsert_leaf (t leaf fuel : Nat) (s : State) (sub : Nat)
    (h : (s.nodes sub).IsLeaf = true) :
    SubtreeInsert t leaf (fuel + 1) s (some sub) = NewNode s t leaf sub := by
  unfold SubtreeInsert
  simp only [h, if_true]

theorem Insert_next {s : State} {t bound d r fuel : Nat} (he : LoneEnv s t bound d)
    (hroot : (s.trees t).root = some r) (hpool : (s.trees t).pooledNodes = some r)
    (hpar : (s.nodes r).parent = none) (hbr : bound ≤ r) (hr : r < s.nodeNext)
    {obj : Option Nat} (hobj : obj ≠ none) (hashId : Nat) (hfuel : d + 3 ≤ fuel) :
    ∃ s1, Insert fuel s t obj hashId = .ok s1 ∧ LoneEnv s1 t bound d ∧ Rooted s1 t bound ∧
      (s1.trees t).leaves = mapSet hashId r (s.trees t).leaves := by
  obtain ⟨f, rfl⟩ : ∃ f, fuel = f + 1 := ⟨fuel - 1, by omega⟩
  have he0 := he
  obtain ⟨si, hsi, hdyn, hstat, hbn⟩ := he
  -- the leaf is taken from the pool: it is the root
  obtain ⟨bb, hNL⟩ := NewLeaf_of si (NodeFromPool_pop hpool) (by simp [hsi]) obj
  rw [hpar] at hNL
  -- the new internal node comes from a refilled pool
  obtain ⟨sC, hC, hC1, hC2, hC3, hC4⟩ := NodeFromPool_refill
    (s := ((s.setTree t (fun tr => { tr with pooledNodes := none })).setNode r
      (fun x => ⟨obj, some bb, none, x.a, x.b, 0, none⟩)).setTree t
      (fun tr => { tr with leaves := mapSet hashId r tr.leaves })) (t := t) (by simp)
  simp only [setTree_nodeNext, setNode_nodeNext] at hC hC1 hC2
  have hrC : sC.nodes r = ⟨obj, some bb, none, (s.nodes r).a, (s.nodes r).b, 0, none⟩ := by
    rw [hC2 r hr]; simp
  have hNN := NewNode_of r r bb bb hC (by rw [hrC]) (by rw [hrC])
    (by omega) (by omega)
  have hleafy : (obj.isSome) = true := by
    cases obj with
    | none => exact absurd rfl hobj
    | some o => rfl
  -- the structural part of the call
  obtain ⟨sF, hsF⟩ : ∃ sF : State, sF = ((((sC.setNode (s.nodeNext + 31) (fun x =>
      ⟨none, some (bb.Merge bb), none, some r, some r, x.stamp, x.pairs⟩)).setNode r
      (fun x => { x with parent := some (s.nodeNext + 31) })).setNode r
      (fun x => { x with parent := some (s.nodeNext + 31) })).setTree t
      (fun tr => { tr with root := some (s.nodeNext + 31) })).setNode r
      (fun x => { x with stamp := (sC.trees t).stamp }) := ⟨_, rfl⟩
  have hrm : r ≠ s.nodeNext + 31 := by omega
  have hFr : sF.nodes r = ⟨obj, some bb, some (s.nodeNext + 31), (s.nodes r).a, (s.nodes r).b,
      (s.trees t).stamp, none⟩ := by
    rw [hsF]; simp [hrm, hrC, hC3]
  have hFm : sF.nodes (s.nodeNext + 31) = ⟨none, some (bb.Merge bb), none, some r, some r,
      (sC.nodes (s.nodeNext + 31)).stamp, (sC.nodes (s.nodeNext + 31)).pairs⟩ := by
    rw [hsF]; simp [hrm.symm]
  have hFlow : ∀ p, p < bound → sF.nodes p = s.nodes p := by
    intro p hp
    have h1 : p ≠ r := by omega
    have h2 : p ≠ s.nodeNext + 31 := by omega
    rw [hsF]; simp [h1, h2, hC2 p (by omega)]
  have hFt : sF.trees t = ⟨(s.trees t).spatialIndex, (s.trees t).velocityFunc,
      mapSet hashId r (s.trees t).leaves, some (s.nodeNext + 31), some (s.nodeNext + 31),
      (s.trees t).pooledPairs, (s.trees t).stamp⟩ := by
    rw [hsF]; simp [hC3]
  have hFk : ∀ k, k ≠ t → sF.trees k = s.trees k := by
    intro k hk; rw [hsF]; simp [hC3, hk]
  have hFi : sF.indexes = s.indexes := by
    rw [hsF]; simp [hC4.2.2.2.1]
  have hFn : sF.nodeNext = s.nodeNext + 32 := by
    rw [hsF]; simp [hC1]
  have heF : LoneEnv sF t bound d := by
    refine he0.frame (by rw [hFt]) hFi (fun k hk => by rw [hFk k hk])
      (fun p hp => by rw [hFlow p hp]) (by omega)
  have hstep : Insert (f + 1) s t obj hashId =
      (LeafAddPairs (f + 1) sF t r >>= fun s6 => IncrementStamp s6 t) := by
    have hm : GetMasterTree ((((sC.setNode (s.nodeNext + 31) (fun x =>
      ⟨none, some (bb.Merge bb), none, some r, some r, x.stamp, x.pairs⟩)).setNode r
      (fun x => { x with parent := some (s.nodeNext + 31) })).setNode r
      (fun x => { x with parent := some (s.nodeNext + 31) })).setTree t
      (fun tr => { tr with root := some (s.nodeNext + 31) })) t = .ok t := by
      simp [GetMasterTree, hC3, hsi, hC4.2.2.2.1, hdyn, SpatialIndex.GetTree, deref, bind,
        Except.bind, pure, Except.pure]
    have hSI := SubtreeInsert_leaf t r f
      (((s.setTree t (fun tr => { tr with pooledNodes := none })).setNode r
      (fun x => ⟨obj, some bb, none, x.a, x.b, 0, none⟩)).setTree t
      (fun tr => { tr with leaves := mapSet hashId r tr.leaves })) r
      (by simp [Node.IsLeaf, hleafy])
    rw [hNN] at hSI
    unfold Insert
    simp only [hNL, bind, Except.bind, setTree_trees, setNode_trees, if_true]
    rw [hroot]
    simp only [hSI, hm]
    rw [hsF]
    simp
  obtain ⟨sG, hG, hGs⟩ := LeafAddPairs_ok (f + 1) sF.nodeNext 1 2
    heF (by rw [hFr, hFt]) (by rw [hFr]; simp) (by
      unfold Climbable
      rw [hFr]
      simp only [hFm, if_true]
      refine ⟨?_, ?_⟩
      · refine ⟨by omega, by rw [hFr]; simp, Or.inl ?_⟩
        rw [hFr]; exact hleafy
      · unfold Climbable
        rw [hFm]
        trivial) (by omega) (by omega)
  have heG : LoneEnv sG t bound d :=
    heF.frame (by have := congrArg BBTree.spatialIndex (hGs.2.2.1 t); simpa [BBTree.shape] using this)
      hGs.2.2.2.2.1 (fun k _ => by
        have := congrArg BBTree.root (hGs.2.2.1 k); simpa [BBTree.shape] using this)
      (fun p _ => hGs.1 p) (by rw [hGs.2.1])
  refine ⟨sG.setTree t (fun tr => { tr with stamp := (tr.stamp + 1) % uintMod }),
    ?_, ?_, ?_, ?_⟩
  · rw [hstep]
    simp only [hG, bind, Except.bind]
    exact IncrementStamp_lone heG
  · exact heG.frame (by simp) rfl (fun k hk => by simp [hk]) (fun p _ => rfl) (le_refl _)
  · have h1 := congrArg BBTree.root (hGs.2.2.1 t)
    have h2 := congrArg BBTree.pooledNodes (hGs.2.2.1 t)
    simp only [BBTree.shape, hFt] at h1 h2
    refine ⟨s.nodeNext + 31, by simp [h1], by simp [h2], ?_, by omega, ?_⟩
    · simp only [setTree_nodes, shape_parent hGs, hFm]
    · simp only [setTree_nodeNext, hGs.2.1, hFn]; omega
  · have h1 := congrArg BBTree.leaves (hGs.2.2.1 t)
    simp only [BBTree.shape, hFt] at h1
    simp [h1]

theorem Insert_first {s : State} {t bound d fuel : Nat} (he : LoneEnv s t bound d)
    (hroot : (s.trees t).root = none) (hpool : (s.trees t).pooledNodes = none)
    (obj : Option Nat) (hashId : Nat) (hfuel : d + 3 ≤ fuel) :
    ∃ s1, Insert fuel s t obj hashId = .ok s1 ∧ LoneEnv s1 t bound d ∧ Rooted s1 t bound ∧
      (s1.trees t).leaves = mapSet hashId (s.nodeNext + 31) (s.trees t).leaves := by
  obtain ⟨f, rfl⟩ : ∃ f, fuel = f + 1 := ⟨fuel - 1, by omega⟩
  have he0 := he
  obtain ⟨si, hsi, hdyn, hstat, hbn⟩ := he
  obtain ⟨sC, hC, hC1, hC2, hC3, hC4⟩ := NodeFromPool_refill hpool
  obtain ⟨bb, hNL⟩ := NewLeaf_of si hC (by rw [hC3]; simp [hsi]) obj
  obtain ⟨sF, hsF⟩ : ∃ sF : State, sF = (((sC.setNode (s.nodeNext + 31)
      (fun x => ⟨obj, some bb, none, x.a, x.b, 0, none⟩)).setTree t
      (fun tr => { tr with leaves := mapSet hashId (s.nodeNext + 31) tr.leaves })).setTree t
      (fun tr => { tr with root := some (s.nodeNext + 31) })).setNode (s.nodeNext + 31)
      (fun x => { x with stamp := (sC.trees t).stamp }) := ⟨_, rfl⟩
  have hFm : sF.nodes (s.nodeNext + 31) = ⟨obj, some bb, none, (sC.nodes (s.nodeNext + 31)).a,
      (sC.nodes (s.nodeNext + 31)).b, (s.trees t).stamp, none⟩ := by
    rw [hsF]; simp [hC3]
  have hFlow : ∀ p, p < bound → sF.nodes p = s.nodes p := by
    intro p hp
    have h2 : p ≠ s.nodeNext + 31 := by omega
    rw [hsF]; simp [h2, hC2 p (by omega)]
  have hFt : sF.trees t = ⟨(s.trees t).spatialIndex, (s.trees t).velocityFunc,
      mapSet hashId (s.nodeNext + 31) (s.trees t).leaves, some (s.nodeNext + 31),
      some (s.nodeNext + 31), (s.trees t).pooledPairs, (s.trees t).stamp⟩ := by
    rw [hsF]; simp [hC3]
  have hFk : ∀ k, k ≠ t → sF.trees k = s.trees k := by
    intro k hk; rw [hsF]; simp [hC3, hk]
  have hFi : sF.indexes = s.indexes := by
    rw [hsF]; simp [hC4.2.2.2.1]
  have hFn : sF.nodeNext = s.nodeNext + 32 := by
    rw [hsF]; simp [hC1]
  have heF : LoneEnv sF t bound d := by
    refine he0.frame (by rw [hFt]) hFi (fun k hk => by rw [hFk k hk])
      (fun p hp => by rw [hFlow p hp]) (by omega)
  have hstep : Insert (f + 1) s t obj hashId =
      (LeafAddPairs (f + 1) sF t (s.nodeNext + 31) >>= fun s6 => IncrementStamp s6 t) := by
    have hm : GetMasterTree (((sC.setNode (s.nodeNext + 31)
      (fun x => ⟨obj, some bb, none, x.a, x.b, 0, none⟩)).setTree t
      (fun tr => { tr with leaves := mapSet hashId (s.nodeNext + 31) tr.leaves })).setTree t
      (fun tr => { tr with root := some (s.nodeNext + 31) })) t = .ok t := by
      simp [GetMasterTree, hC3, hsi, hC4.2.2.2.1, hdyn, SpatialIndex.GetTree, deref, bind,
        Except.bind, pure, Except.pure]
    have hroot2 : (sC.trees t).root = none := by rw [hC3]; simp [hroot]
    unfold Insert
    simp only [hNL, bind, Except.bind, setTree_trees, setNode_trees, if_true]
    rw [hroot2]
    simp only [SubtreeInsert, pure, Except.pure, hm]
    rw [hsF]
    simp
  obtain ⟨sG, hG, hGs⟩ := LeafAddPairs_ok (f + 1) sF.nodeNext 0 1
    heF (by rw [hFm, hFt]) (by rw [hFm]; simp) (by
      unfold Climbable
      rw [hFm]
      trivial) (by omega) (by omega)
  have heG : LoneEnv sG t bound d :=
    heF.frame (by have := congrArg BBTree.spatialIndex (hGs.2.2.1 t); simpa [BBTree.shape] using this)
      hGs.2.2.2.2.1 (fun k _ => by
        have := congrArg BBTree.root (hGs.2.2.1 k); simpa [BBTree.shape] using this)
      (fun p _ => hGs.1 p) (by rw [hGs.2.1])
  refine ⟨sG.setTree t (fun tr => { tr with stamp := (tr.stamp + 1) % uintMod }),
    ?_, ?_, ?_, ?_⟩
  · rw [hstep]
    simp only [hG, bind, Except.bind]
    exact IncrementStamp_lone heG
  · exact heG.frame (by simp) rfl (fun k hk => by simp [hk]) (fun p _ => rfl) (le_refl _)
  · have h1 := congrArg BBTree.root (hGs.2.2.1 t)
    have h2 := congrArg BBTree.pooledNodes (hGs.2.2.1 t)
    simp only [BBTree.shape, hFt] at h1 h2
    refine ⟨s.nodeNext + 31, by simp [h1], by simp [h2], ?_, by omega, ?_⟩
    · simp only [setTree_nodes, shape_parent hGs, hFm]
    · simp only [setTree_nodeNext, hGs.2.1, hFn]; omega
  · have h1 := congrArg BBTree.leaves (hGs.2.2.1 t)
    simp only [BBTree.shape, hFt] at h1
    simp [h1]

theorem mapGet_mapSet (k v k1 : Nat) (m : List (Nat × Nat)) :
    mapGet k1 (mapSet k v m) = if k1 = k then some v else mapGet k1 m := by
  induction m with
  | nil =>
    by_cases h : k1 = k
    · simp [mapSet, mapGet, h]
    · have h2 : ¬ k = k1 := fun e => h e.symm
      simp [mapSet, mapGet, h, h2]
  | cons e rest ih =>
    obtain ⟨a, b⟩ := e
    unfold mapSet
    by_cases h : a = k
    · subst h
      by_cases h1 : k1 = a
      · simp [mapGet, h1]
      · have h2 : ¬ a = k1 := fun e => h1 e.symm
        simp [mapGet, h1, h2]
    · simp only [h, if_false]
      by_cases h1 : a = k1
      · subst h1
        simp [mapGet, h]
      · have : mapGet k1 ((a, b) :: mapSet k v rest) = mapGet k1 (mapSet k v rest) := by
          simp [mapGet, h1]
        rw [this, ih]
        simp [mapGet, h1]

theorem length_mapSet (k v : Nat) (m : List (Nat × Nat)) :
    (mapSet k v m).length = if (mapGet k m).isSome then m.length else m.length + 1 := by
  induction m with
  | nil => simp [mapSet, mapGet]
  | cons e rest ih =>
    obtain ⟨a, b⟩ := e
    unfold mapSet
    by_cases h : a = k
    · subst h; simp [mapGet]
    · have : mapGet k ((a, b) :: rest) = mapGet k rest := by simp [mapGet, h]
      simp only [h, if_false, List.length_cons, ih, this]
      split <;> rfl

/-- What a run of `Insert` calls leaves in the map of a tree that started out
empty or in the state `Rooted`. -/
theorem insertAll_lone {t bound d fuel : Nat} (hfuel : d + 3 ≤ fuel) :
    ∀ (ops : List (Option Nat × Nat)) (s : State), LoneEnv s t bound d →
      (((s.trees t).root = none ∧ (s.trees t).pooledNodes = none) ∨ Rooted s t bound) →
      (∀ e ∈ ops, e.1 ≠ none) → (ops.map Prod.snd).Nodup →
      (∀ e ∈ ops, Contains s t e.2 = false) →
      ∃ s1, insertAll fuel t ops s = .ok s1 ∧
        (∀ k, Contains s1 t k = (Contains s t k || decide (k ∈ ops.map Prod.snd))) ∧
        Count s1 t = Count s t + ops.length := by
  intro ops
  induction ops with
  | nil => intro s _ _ _ _ _; exact ⟨s, rfl, by simp, rfl⟩
  | cons e rest ih =>
    intro s he hs hobj hnd hnew
    obtain ⟨obj, hashId⟩ := e
    have hstep : ∃ s1 leaf, Insert fuel s t obj hashId = .ok s1 ∧ LoneEnv s1 t bound d ∧
        Rooted s1 t bound ∧ (s1.trees t).leaves = mapSet hashId leaf (s.trees t).leaves := by
      rcases hs with ⟨h1, h2⟩ | ⟨r, h1, h2, h3, h4, h5⟩
      · obtain ⟨s1, a, b, c, e⟩ := Insert_first he h1 h2 obj hashId hfuel
        exact ⟨s1, _, a, b, c, e⟩
      · obtain ⟨s1, a, b, c, e⟩ := Insert_next he h1 h2 h3 h4 h5
          (hobj (obj, hashId) (List.mem_cons_self _ _)) hashId hfuel
        exact ⟨s1, _, a, b, c, e⟩
    obtain ⟨s1, leaf, h1, h2, h3, h4⟩ := hstep
    have hc1 : ∀ k, Contains s1 t k = (decide (k = hashId) || Contains s t k) := by
      intro k
      unfold Contains
      rw [h4, mapGet_mapSet]
      by_cases hk : k = hashId <;> simp [hk]
    simp only [List.map_cons, List.nodup_cons] at hnd
    obtain ⟨s2, h5, h6, h7⟩ := ih s1 h2 (Or.inr h3)
      (fun e he => hobj e (List.mem_cons_of_mem _ he)) hnd.2
      (fun e he => by
        rw [hc1, hnew e (List.mem_cons_of_mem _ he)]
        have : e.2 ≠ hashId := by
          intro h
          exact hnd.1 (h ▸ List.mem_map_of_mem Prod.snd he)
        simp [this])
    refine ⟨s2, ?_, ?_, ?_⟩
    · simp only [insertAll, h1, bind, Except.bind]
      exact h5
    · intro k
      rw [h6, hc1]
      by_cases hk : k = hashId
      · simp [hk]
      · have hk2 : (k == hashId) = false := by simp [hk]
        simp [hk, hk2]
    · rw [h7]
      unfold Count
      rw [h4, length_mapSet]
      have := hnew (obj, hashId) (List.mem_cons_self _ _)
      unfold Contains at this
      simp only [this, List.length_cons]
      simp
      omega

@[simp] theorem setIndex_indexes (s : State) (i : Nat) (f : SpatialIndex → SpatialIndex)
    (j : Nat) : (s.setIndex i f).indexes j = if j = i then f (s.indexes i) else s.indexes j := by
  unfold State.setIndex
  by_cases h : j = i
  · subst h; simp
  · simp [Function.update_noteq h, h]

@[simp] theorem setIndex_nodes (s : State) (i : Nat) (f : SpatialIndex → SpatialIndex) :
    (s.setIndex i f).nodes = s.nodes := rfl

@[simp] theorem setIndex_pairs (s : State) (i : Nat) (f : SpatialIndex → SpatialIndex) :
    (s.setIndex i f).pairs = s.pairs := rfl

@[simp] theorem setIndex_trees (s : State) (i : Nat) (f : SpatialIndex → SpatialIndex) :
    (s.setIndex i f).trees = s.trees := rfl

@[simp] theorem setIndex_nodeNext (s : State) (i : Nat) (f : SpatialIndex → SpatialIndex) :
    (s.setIndex i f).nodeNext = s.nodeNext := rfl

@[simp] theorem setIndex_pairNext (s : State) (i : Nat) (f : SpatialIndex → SpatialIndex) :
    (s.setIndex i f).pairNext = s.pairNext := rfl

@[simp] theorem setIndex_treeNext (s : State) (i : Nat) (f : SpatialIndex → SpatialIndex) :
    (s.setIndex i f).treeNext = s.treeNext := rfl

@[simp] theorem setIndex_indexNext (s : State) (i : Nat) (f : SpatialIndex → SpatialIndex) :
    (s.setIndex i f).indexNext = s.indexNext := rfl

@[simp] theorem setIndex_calls (s : State) (i : Nat) (f : SpatialIndex → SpatialIndex) :
    (s.setIndex i f).calls = s.calls := rfl

theorem NewBBTree_lone {s : State} {staticIndex : Option Nat} {d : Nat}
    (h : StaticOK s staticIndex d) (bbfunc : Option Nat → BB) :
    LoneEnv (NewBBTree s bbfunc staticIndex).1 (NewBBTree s bbfunc staticIndex).2.2 s.nodeNext d ∧
    ((NewBBTree s bbfunc staticIndex).1.trees (NewBBTree s bbfunc staticIndex).2.2).root = none ∧
    ((NewBBTree s bbfunc staticIndex).1.trees
      (NewBBTree s bbfunc staticIndex).2.2).pooledNodes = none ∧
    ((NewBBTree s bbfunc staticIndex).1.trees (NewBBTree s bbfunc staticIndex).2.2).leaves = [] := by
  cases staticIndex with
  | none =>
    refine ⟨⟨s.indexNext, ?_, ?_, ?_, ?_⟩, ?_, ?_, ?_⟩ <;>
      simp [NewBBTree, NewSpatialIndex, SpatialIndex.GetTree]
  | some st =>
    obtain ⟨hst, hk⟩ := h st rfl
    have hne : s.indexNext ≠ st := by omega
    refine ⟨⟨s.indexNext, ?_, ?_, ?_, ?_⟩, ?_, ?_, ?_⟩
    · simp [NewBBTree, NewSpatialIndex]
    · simp [NewBBTree, NewSpatialIndex, hne]
    · intro k hk1
      have hk2 : (s.indexes st).klass = some k := by
        simpa [NewBBTree, NewSpatialIndex, SpatialIndex.GetTree, hne, hne.symm,
          Function.update_noteq hne.symm] using hk1
      obtain ⟨hlt, hw⟩ := hk k hk2
      have hkt : k ≠ s.treeNext := by omega
      refine ⟨by simpa [NewBBTree] using hkt, ?_⟩
      have hroot : ((NewBBTree s bbfunc (some st)).1.trees k).root = (s.trees k).root := by
        simp [NewBBTree, NewSpatialIndex, hkt, Function.update_noteq hkt]
      rw [hroot]
      rcases hw with hw | hw
      · exact Or.inl hw
      · exact Or.inr (@Walkable_congr s (NewBBTree s bbfunc (some st)).1 _ (fun p _ => rfl) _ _ hw)
    · simp [NewBBTree, NewSpatialIndex]
    · simp [NewBBTree, NewSpatialIndex]
    · simp [NewBBTree, NewSpatialIndex]
    · simp [NewBBTree, NewSpatialIndex]

/-- C1 (as amended): on a tree just made by `NewBBTree` (with no static partner,
or one whose tree can be walked), every run of `Insert` calls with non-nil
objects and pairwise distinct ids returns, and afterwards `Contains` holds of
exactly the inserted ids and `Count` is the number of calls. -/
theorem insert_contains_count (s : State) (bbfunc : Option Nat → BB) (staticIndex : Option Nat)
    (d fuel : Nat) (ops : List (Option Nat × Nat)) (hstatic : StaticOK s staticIndex d)
    (hobj : ∀ e ∈ ops, e.1 ≠ none) (hids : (ops.map Prod.snd).Nodup) (hfuel : d + 3 ≤ fuel) :
    ∃ s1, insertAll fuel (NewBBTree s bbfunc staticIndex).2.2 ops
        (NewBBTree s bbfunc staticIndex).1 = .ok s1 ∧
      (∀ k, Contains s1 (NewBBTree s bbfunc staticIndex).2.2 k = decide (k ∈ ops.map Prod.snd)) ∧
      Count s1 (NewBBTree s bbfunc staticIndex).2.2 = ops.length := by
  obtain ⟨h1, h2, h3, h4⟩ := NewBBTree_lone hstatic bbfunc
  have hc : ∀ k, Contains (NewBBTree s bbfunc staticIndex).1
      (NewBBTree s bbfunc staticIndex).2.2 k = false := by
    intro k; simp [Contains, h4, mapGet]
  obtain ⟨s1, h5, h6, h7⟩ := insertAll_lone hfuel ops _ h1 (Or.inl ⟨h2, h3⟩) hobj hids
    (fun e _ => hc e.2)
  refine ⟨s1, h5, fun k => by rw [h6, hc]; simp, ?_⟩
  rw [h7]; simp [Count, h4]

/-- The run of C1 at a concrete input: two objects on a tree made in the empty heap. -/
theorem insert_contains_count_witness :
    ∃ s1, insertAll 3 (NewBBTree State.empty (fun _ => ⟨0, 0, 1, 1⟩) none).2.2
        [(some 1, 10), (some 2, 20)] (NewBBTree State.empty (fun _ => ⟨0, 0, 1, 1⟩) none).1 = .ok s1 ∧
      (∀ k, Contains s1 (NewBBTree State.empty (fun _ => ⟨0, 0, 1, 1⟩) none).2.2 k =
        decide (k ∈ [(some 1, 10), (some 2, 20)].map Prod.snd)) ∧
      Count s1 (NewBBTree State.empty (fun _ => ⟨0, 0, 1, 1⟩) none).2.2 =
        [(some 1, 10), (some 2, 20)].length :=
  insert_contains_count State.empty (fun _ => ⟨0, 0, 1, 1⟩) none 0 3 [(some 1, 10), (some 2, 20)]
    (fun st h => by cases h) (by decide) (by decide) (by decide)

/-- C1 as stated fails: two `Insert` calls with nil objects and distinct ids on
a new tree do not return, whatever the recursion budget; the second call
dereferences a nil child. -/
theorem insert_nil_objects_panics :
    ¬ ∃ fuel s1, insertAll fuel (NewBBTree State.empty (fun _ => ⟨0, 0, 1, 1⟩) none).2.2
        [(none, 10), (none, 20)] (NewBBTree State.empty (fun _ => ⟨0, 0, 1, 1⟩) none).1 = .ok s1 := by
  rintro ⟨fuel, s1, h⟩
  cases fuel with
  | zero =>
    have h0 : insertAll 0 (NewBBTree State.empty (fun _ => ⟨0, 0, 1, 1⟩) none).2.2
        [(none, 10), (none, 20)] (NewBBTree State.empty (fun _ => ⟨0, 0, 1, 1⟩) none).1 =
        Except.error Err.fuel := rfl
    rw [h0] at h; cases h
  | succ f =>
    have h0 : insertAll (f + 1) (NewBBTree State.empty (fun _ => ⟨0, 0, 1, 1⟩) none).2.2
        [(none, 10), (none, 20)] (NewBBTree State.empty (fun _ => ⟨0, 0, 1, 1⟩) none).1 =
        Except.error Err.nilDeref := rfl
    rw [h0] at h; cases h

/-- C2 fails on the code: after inserting object 1 under id 10 and object 2
under id 20 into a new tree without partner index, `Each` visits object 2
twice and object 1 never. -/
theorem each_after_two_inserts :
    eachAfter 3 (NewBBTree State.empty (fun _ => ⟨0, 0, 1, 1⟩) none).2.2
      [(some 1, 10), (some 2, 20)] (NewBBTree State.empty (fun _ => ⟨0, 0, 1, 1⟩) none).1 =
      .ok [some 2, some 2] := by
  rfl

theorem PairSeg_congr {s s1 : State} {l : Nat} :
    ∀ (ps : List Nat) (prev head tail : Option Nat),
      (∀ q ∈ ps, threadOf s1 l q = threadOf s l q) →
      PairSeg s l prev head ps tail → PairSeg s1 l prev head ps tail := by
  intro ps
  induction ps with
  | nil => intro prev head tail _ h; exact h
  | cons p ps ih =>
    intro prev head tail hq h
    obtain ⟨h1, h2, h3, h4⟩ := h
    have hp := hq p (List.mem_cons_self _ _)
    refine ⟨h1, by rw [hp]; exact h2, by rw [hp]; exact h3, ?_⟩
    rw [hp]
    exact ih _ _ _ (fun q hq1 => hq q (List.mem_cons_of_mem _ hq1)) h4

theorem PairSeg_append {s : State} {l : Nat} :
    ∀ (xs ys : List Nat) (prev head tail : Option Nat),
      PairSeg s l prev head (xs ++ ys) tail ↔
        ∃ mid, PairSeg s l prev head xs mid ∧ PairSeg s l (lastOr prev xs) mid ys tail := by
  intro xs
  induction xs with
  | nil =>
    intro ys prev head tail
    constructor
    · intro h; exact ⟨head, rfl, h⟩
    · rintro ⟨mid, h1, h2⟩
      have : head = mid := h1
      subst this; exact h2
  | cons x xs ih =>
    intro ys prev head tail
    constructor
    · rintro ⟨h1, h2, h3, h4⟩
      obtain ⟨mid, h5, h6⟩ := (ih ys _ _ _).mp h4
      exact ⟨mid, ⟨h1, h2, h3, h5⟩, h6⟩
    · rintro ⟨mid, ⟨h1, h2, h3, h5⟩, h6⟩
      exact ⟨h1, h2, h3, (ih ys _ _ _).mpr ⟨mid, h5, h6⟩⟩

/-- The end of a non-empty stretch: its last pair points on to `tail`. -/
theorem PairSeg_snoc {s : State} {l : Nat} (xs : List Nat) (v : Nat)
    (prev head tail : Option Nat) :
    PairSeg s l prev head (xs ++ [v]) tail ↔
      PairSeg s l prev head xs (some v) ∧ (threadOf s l v).leaf = some l ∧
        (threadOf s l v).prev = lastOr prev xs ∧ (threadOf s l v).next = tail := by
  rw [PairSeg_append]
  constructor
  · rintro ⟨mid, h1, h2, h3, h4, h5⟩
    subst h2
    exact ⟨h1, h3, h4, h5⟩
  · rintro ⟨h1, h3, h4, h5⟩
    exact ⟨some v, h1, rfl, h3, h4, h5⟩

theorem lastOr_append (prev : Option Nat) (xs : List Nat) (v : Nat) :
    lastOr prev (xs ++ [v]) = some v := by
  induction xs generalizing prev with
  | nil => rfl
  | cons x xs ih => exact ih (some x)

@[simp] theorem sideOf_setPrev (q : Pair) (sd : Side) (v x : Option Nat) :
    (q.setPrev sd v).sideOf x = q.sideOf x := by
  cases sd <;> rfl

@[simp] theorem sideOf_setNext (q : Pair) (sd : Side) (v x : Option Nat) :
    (q.setNext sd v).sideOf x = q.sideOf x := by
  cases sd <;> rfl

theorem thread_setPrev (q : Pair) (sd sd1 : Side) (v : Option Nat) :
    (q.setPrev sd v).thread sd1 =
      if sd1 = sd then { q.thread sd with prev := v } else q.thread sd1 := by
  cases sd <;> cases sd1 <;> rfl

theorem thread_setNext (q : Pair) (sd sd1 : Side) (v : Option Nat) :
    (q.setNext sd v).thread sd1 =
      if sd1 = sd then { q.thread sd with next := v } else q.thread sd1 := by
  cases sd <;> cases sd1 <;> rfl

theorem threadOf_setPair_ne (s : State) (l q r : Nat) (f : Pair → Pair) (h : q ≠ r) :
    threadOf (s.setPair r f) l q = threadOf s l q := by
  simp [threadOf, h]

theorem threadOf_setPrev (s : State) (l r : Nat) (v : Option Nat) :
    threadOf (s.setPair r (fun q => q.setPrev (q.sideOf (some l)) v)) l r =
      { threadOf s l r with prev := v } := by
  simp [threadOf, thread_setPrev]

theorem threadOf_setNext (s : State) (l r : Nat) (v : Option Nat) :
    threadOf (s.setPair r (fun q => q.setNext (q.sideOf (some l)) v)) l r =
      { threadOf s l r with next := v } := by
  simp [threadOf, thread_setNext]

theorem threadOf_setNode (s : State) (l q r : Nat) (f : Node → Node) :
    threadOf (s.setNode r f) l q = threadOf s l q := rfl

/-- The first pair of a non-empty stretch is its head. -/
theorem PairSeg_head {s : State} {l : Nat} {prev head tail : Option Nat} {p : Nat}
    {ps : List Nat} (h : PairSeg s l prev head (p :: ps) tail) : head = some p := h.1

/-- What `Thread.Unlink` does to the list it is applied in: the pair `p`
between the stretches `pre` and `post` of leaf `l` is taken out. -/
theorem Unlink_seg {s : State} {l p : Nat} {pre post : List Nat}
    (h : PairSeg s l none (s.nodes l).pairs (pre ++ p :: post) none)
    (hnd : (pre ++ p :: post).Nodup) :
    ∃ s1, Thread.Unlink s p ((s.pairs p).sideOf (some l)) = .ok s1 ∧
      PairSeg s1 l none (s1.nodes l).pairs (pre ++ post) none ∧
      (∀ q, q ≠ l → s1.nodes q = s.nodes q) ∧
      (s1.nodes l = { s.nodes l with pairs := (s1.nodes l).pairs }) ∧
      (pre = [] → (s1.nodes l).pairs = (threadOf s l p).next) ∧
      (pre ≠ [] → (s1.nodes l).pairs = (s.nodes l).pairs) ∧
      (∀ q, (s1.pairs q).a.leaf = (s.pairs q).a.leaf ∧ (s1.pairs q).b.leaf = (s.pairs q).b.leaf ∧
        (s1.pairs q).collisionId = (s.pairs q).collisionId) ∧
      (∀ q sd, (q ∉ pre ++ post ∨ sd ≠ (s.pairs q).sideOf (some l)) →
        (s1.pairs q).thread sd = (s.pairs q).thread sd) ∧
      s1.trees = s.trees ∧ s1.indexes = s.indexes ∧ s1.nodeNext = s.nodeNext ∧
      s1.pairNext = s.pairNext ∧ s1.calls = s.calls := by
  obtain ⟨mid, hpre, hmid, hleaf, hprev, hpost⟩ := (PairSeg_append pre (p :: post) _ _ _).mp h
  have hth : (s.pairs p).thread ((s.pairs p).sideOf (some l)) = threadOf s l p := rfl
  have hp_pre : p ∉ pre := fun hm => by
    have := List.nodup_append.mp hnd
    exact this.2.2 hm (List.mem_cons_self _ _)
  have hp_post : p ∉ post := fun hm => by
    have := (List.nodup_append.mp hnd).2.1
    exact (List.nodup_cons.mp this).1 hm
  have hdisj : ∀ q, q ∈ pre → q ∈ post → False := fun q h1 h2 =>
    (List.nodup_append.mp hnd).2.2 h1 (List.mem_cons_of_mem _ h2)
  have hnd_post : post.Nodup := (List.nodup_cons.mp (List.nodup_append.mp hnd).2.1).2
  have hnd_pre : pre.Nodup := (List.nodup_append.mp hnd).1
  -- first step: the successor is linked back to the predecessor
  obtain ⟨sA, hsA⟩ : ∃ sA : State, sA = (match (threadOf s l p).next with
      | some n => s.setPair n (fun q => q.setPrev (q.sideOf (some l)) (threadOf s l p).prev)
      | none => s) := ⟨_, rfl⟩
  have hA_nodes : sA.nodes = s.nodes := by
    rw [hsA]; cases (threadOf s l p).next <;> rfl
  have hA_other : ∀ q, q ∉ post → sA.pairs q = s.pairs q := by
    intro q hq
    rw [hsA]
    cases hn : (threadOf s l p).next with
    | none => rfl
    | some n =>
      cases post with
      | nil => rw [hn] at hpost; cases hpost
      | cons n1 post1 =>
        have : some n = some n1 := by rw [← hn]; exact hpost.1
        cases this
        have : q ≠ n := fun e => hq (e ▸ List.mem_cons_self _ _)
        simp [this]
  have hA_post : PairSeg sA l (threadOf s l p).prev (threadOf s l p).next post none := by
    cases post with
    | nil =>
      have hn : (threadOf s l p).next = none := hpost
      rw [hn]; rfl
    | cons n post1 =>
      obtain ⟨h1, h2, h3, h4⟩ := hpost
      have hnn : n ∉ post1 := (List.nodup_cons.mp hnd_post).1
      have hsA2 : sA = s.setPair n (fun q => q.setPrev (q.sideOf (some l)) (threadOf s l p).prev) := by
        rw [hsA, h1]
      have hthn : threadOf sA l n = { threadOf s l n with prev := (threadOf s l p).prev } := by
        rw [hsA2]; exact threadOf_setPrev s l n _
      refine ⟨h1, by rw [hthn]; exact h2, by rw [hthn], ?_⟩
      rw [hthn]
      refine PairSeg_congr post1 _ _ _ (fun q hq => ?_) h4
      rw [hsA2]
      exact threadOf_setPair_ne s l q n _ (fun e => hnn (e ▸ hq))
  have hA_th : ∀ q, q ∉ post → threadOf sA l q = threadOf s l q := by
    intro q hq
    unfold threadOf
    rw [hA_other q hq]
  have hA_pre : PairSeg sA l none (s.nodes l).pairs pre (some p) := by
    rw [hmid] at hpre
    exact PairSeg_congr pre _ _ _ (fun q hq => hA_th q (fun hq2 => hdisj q hq hq2)) hpre
  have hA_leaf : ∀ q, (sA.pairs q).a.leaf = (s.pairs q).a.leaf ∧
      (sA.pairs q).b.leaf = (s.pairs q).b.leaf ∧
      (sA.pairs q).collisionId = (s.pairs q).collisionId := by
    intro q
    rw [hsA]
    cases (threadOf s l p).next with
    | none => exact ⟨rfl, rfl, rfl⟩
    | some n =>
      by_cases hq : q = n
      · subst hq
        simp only [setPair_pairs, if_true]
        cases (s.pairs q).sideOf (some l) <;> exact ⟨rfl, rfl, rfl⟩
      · simp [hq]
  have hA_side : ∀ q, (sA.pairs q).sideOf (some l) = (s.pairs q).sideOf (some l) := by
    intro q; unfold Pair.sideOf; rw [(hA_leaf q).1]
  have hA_thread : ∀ q sd, (q ∉ post ∨ sd ≠ (s.pairs q).sideOf (some l)) →
      (sA.pairs q).thread sd = (s.pairs q).thread sd := by
    intro q sd hq
    rcases hq with hq | hq
    · rw [hA_other q hq]
    · rw [hsA]
      cases (threadOf s l p).next with
      | none => rfl
      | some n =>
        by_cases hqn : q = n
        · subst hqn
          simp only [setPair_pairs, if_true, thread_setPrev, hq, if_false]
        · simp [hqn]
  have hA_rest : sA.trees = s.trees ∧ sA.indexes = s.indexes ∧ sA.nodeNext = s.nodeNext ∧
      sA.pairNext = s.pairNext ∧ sA.calls = s.calls := by
    rw [hsA]; cases (threadOf s l p).next <;> exact ⟨rfl, rfl, rfl, rfl, rfl⟩
  have hUn : Thread.Unlink s p ((s.pairs p).sideOf (some l)) =
      (match (threadOf s l p).prev with
      | some pv => pure (sA.setPair pv (fun q => q.setNext (q.sideOf (some l)) (threadOf s l p).next))
      | none => pure (sA.setNode l (fun n => { n with pairs := (threadOf s l p).next }))) := by
    unfold Thread.Unlink
    simp only [hth, hleaf, deref, bind, Except.bind, pure, Except.pure]
    rw [hsA]
  rcases List.eq_nil_or_concat pre with hpre0 | ⟨pre1, v, hpre1⟩
  all_goals try rw [List.concat_eq_append] at hpre1
  · -- the pair is the head of the list
    subst hpre0
    have hpv : (threadOf s l p).prev = none := hprev
    refine ⟨sA.setNode l (fun n => { n with pairs := (threadOf s l p).next }), ?_, ?_, ?_, ?_,
      ?_, ?_, ?_, ?_, ?_⟩
    · rw [hUn, hpv]; rfl
    · simp only [List.nil_append, setNode_nodes, if_true]
      rw [hpv] at hA_post
      exact PairSeg_congr post _ _ _ (fun q _ => threadOf_setNode sA l q l _) hA_post
    · intro q hq; simp [hq, hA_nodes]
    · simp [hA_nodes]
    · intro _; simp
    · intro hne; exact absurd rfl hne
    · intro q; exact hA_leaf q
    · intro q sd hq; simpa using hA_thread q sd hq
    · exact hA_rest
  · -- the pair has a predecessor `v`
    subst hpre1
    have hpv : (threadOf s l p).prev = some v := by rw [hprev, lastOr_append]
    have hv_post : v ∉ post := fun hm => hdisj v (by simp) hm
    have hvp : v ≠ p := fun e => hp_pre (e ▸ (by simp))
    obtain ⟨hB1, hB2, hB3, hB4⟩ := (PairSeg_snoc pre1 v _ _ _).mp hA_pre
    have hv_pre1 : v ∉ pre1 := by
      have := List.nodup_append.mp hnd_pre
      exact fun hm => this.2.2 hm (List.mem_singleton_self v)
    have hthv : threadOf (sA.setPair v (fun q => q.setNext (q.sideOf (some l))
        (threadOf s l p).next)) l v = { threadOf sA l v with next := (threadOf s l p).next } :=
      threadOf_setNext sA l v _
    have hth_ne : ∀ q, q ≠ v → threadOf (sA.setPair v (fun q => q.setNext (q.sideOf (some l))
        (threadOf s l p).next)) l q = threadOf sA l q :=
      fun q hq => threadOf_setPair_ne sA l q v _ hq
    refine ⟨sA.setPair v (fun q => q.setNext (q.sideOf (some l)) (threadOf s l p).next), ?_, ?_,
      ?_, ?_, ?_, ?_, ?_, ?_, ?_⟩
    · rw [hUn, hpv]; rfl
    · simp only [setPair_nodes, hA_nodes]
      rw [List.append_assoc, PairSeg_append]
      refine ⟨some v, ?_, ?_⟩
      · exact PairSeg_congr pre1 _ _ _
          (fun q hq => hth_ne q (fun e => hv_pre1 (e ▸ hq))) hB1
      · refine ⟨rfl, by rw [hthv]; exact hB2, by rw [hthv]; exact hB3, ?_⟩
        rw [hthv]
        rw [hpv] at hA_post
        exact PairSeg_congr post _ _ _ (fun q hq => hth_ne q (fun e => hv_post (e ▸ hq))) hA_post
    · intro q _; simp [hA_nodes]
    · simp [hA_nodes]
    · intro h0; simp at h0
    · intro _; simp [hA_nodes]
    · intro q
      by_cases hq : q = v
      · subst hq
        simp only [setPair_pairs, if_true]
        have := hA_leaf q
        cases (sA.pairs q).sideOf (some l) <;> exact this
      · simp only [setPair_pairs, hq, if_false]; exact hA_leaf q
    · intro q sd hq
      by_cases hqv : q = v
      · subst hqv
        have hsd : sd ≠ (s.pairs q).sideOf (some l) := by
          rcases hq with hq | hq
          · exact absurd (by simp) hq
          · exact hq
        simp only [setPair_pairs, if_true, thread_setNext, hA_side, hsd, if_false]
        exact hA_thread q sd (Or.inr hsd)
      · simp only [setPair_pairs, hqv, if_false]
        refine hA_thread q sd ?_
        rcases hq with hq | hq
        · exact Or.inl (fun hm => hq (by simp [hm]))
        · exact Or.inr hq
    · exact hA_rest

/-- Every pair of a stretch names the leaf in the leaf's thread. -/
theorem PairSeg_leaf {s : State} {l : Nat} : ∀ (ps : List Nat) (prev head tail : Option Nat),
    PairSeg s l prev head ps tail → ∀ q ∈ ps, (threadOf s l q).leaf = some l := by
  intro ps
  induction ps with
  | nil => intro _ _ _ _ q hq; cases hq
  | cons p ps ih =>
    intro prev head tail h q hq
    rcases List.mem_cons.mp hq with rfl | hq
    · exact h.2.1
    · exact ih _ _ _ h.2.2.2 q hq

/-- A state change that keeps the node, the leaf fields of all pairs, and the
threads of another leaf's pairs keeps that leaf's list. -/
theorem PairList_frame {s s1 : State} {m : Nat} {qs : List Nat} (h : PairList s m qs)
    (hn : s1.nodes m = s.nodes m)
    (hl : ∀ q, (s1.pairs q).a.leaf = (s.pairs q).a.leaf)
    (ht : ∀ q, q ∈ qs → (s1.pairs q).thread ((s.pairs q).sideOf (some m)) =
      (s.pairs q).thread ((s.pairs q).sideOf (some m))) : PairList s1 m qs := by
  refine ⟨?_, h.2⟩
  rw [hn]
  refine PairSeg_congr qs _ _ _ (fun q hq => ?_) h.1
  unfold threadOf
  have : (s1.pairs q).sideOf (some m) = (s.pairs q).sideOf (some m) := by
    unfold Pair.sideOf; rw [hl q]
  rw [this]
  exact ht q hq

/-- C10: `Thread.Unlink` applied to the thread of leaf `l` in a pair `p` of the
well-formed list `ps` of `l` returns, leaves `l` with the well-formed list
`ps` without `p` (same order, one shorter), moves the head pointer of `l` to
the next pair exactly when `p` was the head, and keeps the list of every other
leaf. -/
theorem unlink_removes_pair (s : State) (l p : Nat) (ps : List Nat) (h : PairList s l ps)
    (hp : p ∈ ps) :
    ∃ s1, Thread.Unlink s p ((s.pairs p).sideOf (some l)) = .ok s1 ∧
      PairList s1 l (ps.erase p) ∧ (ps.erase p).length + 1 = ps.length ∧
      (ps.head? = some p → (s1.nodes l).pairs = (threadOf s l p).next) ∧
      (ps.head? ≠ some p → (s1.nodes l).pairs = (s.nodes l).pairs) ∧
      (∀ m qs, m ≠ l → PairList s m qs → PairList s1 m qs) := by
  obtain ⟨pre, post, hsplit, hpre⟩ := List.eq_append_cons_of_mem hp
  subst hsplit
  obtain ⟨s1, h1, h2, h3, h4, h5, h6, h7, h8, h9⟩ := Unlink_seg h.1 h.2
  have herase : (pre ++ p :: post).erase p = pre ++ post := by
    rw [List.erase_append_right _ hpre, List.erase_cons_head]
  refine ⟨s1, h1, ?_, ?_, ?_, ?_, ?_⟩
  · rw [herase]
    refine ⟨h2, ?_⟩
    have := List.nodup_append.mp h.2
    exact List.nodup_append.mpr ⟨this.1, (List.nodup_cons.mp this.2.1).2,
      fun q hq1 hq2 => this.2.2 hq1 (List.mem_cons_of_mem _ hq2)⟩
  · rw [herase]; simp only [List.length_append, List.length_cons]; omega
  · intro hh
    cases pre with
    | nil => exact h5 rfl
    | cons x pre1 =>
      simp only [List.cons_append, List.head?_cons, Option.some.injEq] at hh
      exact absurd (hh ▸ List.mem_cons_self _ _) hpre
  · intro hh
    cases pre with
    | nil => exact absurd rfl hh
    | cons x pre1 => exact h6 (by simp)
  · intro m qs hml hm
    refine PairList_frame hm (h3 m hml) (fun q => (h7 q).1) (fun q hq => h8 q _ ?_)
    by_cases hq2 : q ∈ pre ++ post
    · right
      intro hside
      have hq3 : q ∈ pre ++ p :: post := by
        rcases List.mem_append.mp hq2 with h0 | h0
        · exact List.mem_append_left _ h0
        · exact List.mem_append_right _ (List.mem_cons_of_mem _ h0)
      have e1 := PairSeg_leaf _ _ _ _ h.1 q hq3
      have e2 := PairSeg_leaf _ _ _ _ hm.1 q hq
      unfold threadOf at e1 e2
      rw [hside, e1] at e2
      exact hml (Option.some.inj e2).symm
    · exact Or.inl hq2

/-- C10 at a concrete heap: unlinking the head pair 0 of a two-pair list. -/
theorem unlink_removes_pair_witness :
    ∃ s1, Thread.Unlink unlinkDemo 0 ((unlinkDemo.pairs 0).sideOf (some 0)) = .ok s1 ∧
      PairList s1 0 ([0, 1].erase 0) ∧ ([0, 1].erase 0).length + 1 = [0, 1].length ∧
      ([0, 1].head? = some 0 → (s1.nodes 0).pairs = (threadOf unlinkDemo 0 0).next) ∧
      ([0, 1].head? ≠ some 0 → (s1.nodes 0).pairs = (unlinkDemo.nodes 0).pairs) ∧
      (∀ m qs, m ≠ 0 → PairList unlinkDemo m qs → PairList s1 m qs) :=
  unlink_removes_pair unlinkDemo 0 0 [0, 1]
    ⟨⟨rfl, rfl, rfl, rfl, rfl, rfl, rfl⟩, by decide⟩ (by decide)

theorem refillPairs_nodes {t : Nat} : ∀ (k : Nat) (s s1 : State),
    PairFromPool.refill t k s = .ok s1 → s1.nodes = s.nodes ∧ s1.calls = s.calls ∧
      (∀ q, q < s.pairNext → s1.pairs q = s.pairs q) ∧ s.pairNext ≤ s1.pairNext := by
  intro k
  induction k with
  | zero =>
    intro s s1 h
    simp only [PairFromPool.refill, pure, Except.pure] at h
    cases h; exact ⟨rfl, rfl, fun _ _ => rfl, le_refl _⟩
  | succ k ih =>
    intro s s1 h
    simp only [PairFromPool.refill, RecyclePair, bind, Except.bind] at h
    cases hm : GetMasterTree s.allocPair.1 t with
    | error e => rw [hm] at h; cases h
    | ok m =>
      rw [hm] at h
      simp only [pure, Except.pure] at h
      obtain ⟨h1, h2, h3, h4⟩ := ih _ _ h
      refine ⟨h1, h2, ?_, ?_⟩
      · intro q hq
        rw [h3 q (by simp [State.allocPair]; omega)]
        have : q ≠ s.pairNext := by omega
        simp [State.allocPair, this, Function.update_noteq this]
      · have : s.pairNext + 1 ≤ s1.pairNext := by simpa [State.allocPair] using h4
        omega

theorem PairFromPool_nodes {s s1 : State} {t : Nat} {r : Option Nat}
    (h : PairFromPool s t = .ok (s1, r)) : s1.nodes = s.nodes ∧ s1.calls = s.calls := by
  unfold PairFromPool at h
  simp only [bind, Except.bind] at h
  cases hm : GetMasterTree s t with
  | error e => rw [hm] at h; cases h
  | ok m =>
    rw [hm] at h
    simp only at h
    cases hp : (s.trees m).pooledPairs with
    | some pair =>
      rw [hp] at h
      simp only [pure, Except.pure, Except.ok.injEq, Prod.mk.injEq] at h
      rw [← h.1]; exact ⟨rfl, rfl⟩
    | none =>
      rw [hp] at h
      simp only at h
      cases hr : PairFromPool.refill m 32 s with
      | error e => rw [hr] at h; cases h
      | ok s2 =>
        rw [hr] at h
        simp only [pure, Except.pure, Except.ok.injEq, Prod.mk.injEq] at h
        rw [← h.1]
        exact ⟨(refillPairs_nodes 32 s s2 hr).1, (refillPairs_nodes 32 s s2 hr).2.1⟩

/-- Two leaves that share a pair use different threads of it. -/
theorem side_ne {s : State} {l m q : Nat} (hl : (threadOf s l q).leaf = some l)
    (hm : (threadOf s m q).leaf = some m) (hlm : l ≠ m) :
    (s.pairs q).sideOf (some l) ≠ (s.pairs q).sideOf (some m) := by
  intro h
  unfold threadOf at hl hm
  rw [h, hm] at hl
  exact hlm (Option.some.inj hl).symm

/-- Re-linking the head of a stretch to a new predecessor. -/
theorem PairSeg_relink {s s1 : State} {l : Nat} {prev x head tail : Option Nat}
    {ps : List Nat} (h : PairSeg s l prev head ps tail) (hnd : ps.Nodup)
    (hhead : ∀ n, ps.head? = some n → threadOf s1 l n = { threadOf s l n with prev := x })
    (hrest : ∀ q, q ∈ ps.tail → threadOf s1 l q = threadOf s l q) :
    PairSeg s1 l x head ps tail := by
  cases ps with
  | nil => exact h
  | cons n rest =>
    obtain ⟨h1, h2, h3, h4⟩ := h
    have hn := hhead n rfl
    refine ⟨h1, by rw [hn]; exact h2, by rw [hn], ?_⟩
    rw [hn]
    exact PairSeg_congr rest _ _ _ hrest h4

theorem linkHead_nodes (s : State) (l : Nat) (head : Option Nat) (pr : Nat) :
    (linkHead s l head pr).nodes = s.nodes := by
  cases head <;> rfl

theorem linkHead_leaf (s : State) (l : Nat) (head : Option Nat) (pr q : Nat) :
    ((linkHead s l head pr).pairs q).a.leaf = (s.pairs q).a.leaf ∧
    ((linkHead s l head pr).pairs q).b.leaf = (s.pairs q).b.leaf ∧
    ((linkHead s l head pr).pairs q).collisionId = (s.pairs q).collisionId := by
  cases head with
  | none => exact ⟨rfl, rfl, rfl⟩
  | some n =>
    by_cases hq : q = n
    · subst hq
      simp only [linkHead, setPair_pairs, if_true]
      cases (s.pairs q).sideOf (some l) <;> exact ⟨rfl, rfl, rfl⟩
    · simp [linkHead, hq]

theorem linkHead_side (s : State) (l : Nat) (head : Option Nat) (pr q : Nat) (x : Option Nat) :
    ((linkHead s l head pr).pairs q).sideOf x = (s.pairs q).sideOf x := by
  unfold Pair.sideOf; rw [(linkHead_leaf s l head pr q).1]

theorem linkHead_thread (s : State) (l : Nat) (head : Option Nat) (pr q : Nat) (sd : Side) :
    ((linkHead s l head pr).pairs q).thread sd =
      if head = some q ∧ sd = (s.pairs q).sideOf (some l)
      then { (s.pairs q).thread sd with prev := some pr } else (s.pairs q).thread sd := by
  cases head with
  | none => simp [linkHead]
  | some n =>
    by_cases hq : q = n
    · subst hq
      simp only [linkHead, setPair_pairs, if_true, thread_setPrev, true_and]
      by_cases hsd : sd = (s.pairs q).sideOf (some l)
      · simp [hsd]
      · simp [hsd]
    · have : ¬ (some n = some q) := fun e => hq (Option.some.inj e).symm
      simp [linkHead, hq, this]

theorem linkHead_threadOf (s : State) (l m : Nat) (head : Option Nat) (pr q : Nat) :
    threadOf (linkHead s l head pr) m q =
      if head = some q ∧ (s.pairs q).sideOf (some m) = (s.pairs q).sideOf (some l)
      then { threadOf s m q with prev := some pr } else threadOf s m q := by
  unfold threadOf
  rw [linkHead_side, linkHead_thread]

theorem PairInsert_explicit {s s1 : State} {t pr : Nat} (a b : Nat)
    (hpool : PairFromPool s t = .ok (s1, some pr)) :
    PairInsert s t a b = .ok (linkHead (linkHead (((s1.setNode a
      (fun n => { n with pairs := some pr })).setNode b
      (fun n => { n with pairs := some pr })).setPair pr
      (fun _ => ⟨⟨none, (s.nodes a).pairs, some a⟩, ⟨none, (s.nodes b).pairs, some b⟩, 0⟩))
      a (s.nodes a).pairs pr) b (s.nodes b).pairs pr) := by
  unfold PairInsert
  simp only [hpool, bind, Except.bind, deref, pure, Except.pure]
  cases (s.nodes a).pairs <;> cases (s.nodes b).pairs <;> rfl

/-- The head pointer of a well-formed list is its first pair. -/
theorem PairList_head {s : State} {l : Nat} {ps : List Nat} (h : PairList s l ps) :
    (s.nodes l).pairs = ps.head? := by
  cases ps with
  | nil => exact h.1
  | cons p ps => exact h.1.1

theorem PairList_head_mem {s : State} {l : Nat} {ps : List Nat} (h : PairList s l ps) {q : Nat}
    (hq : (s.nodes l).pairs = some q) : q ∈ ps := by
  rw [PairList_head h] at hq
  cases ps with
  | nil => cases hq
  | cons p ps => cases hq; exact List.mem_cons_self _ _

/-- What `PairInsert(a, b)` does to well-formed, symmetric pair lists when the
pool hands out a pair `pr` that is in no list and leaves the listed pairs alone. -/
theorem PairInsert_spec {s s1 : State} {t pr a b : Nat} {lists : Nat → List Nat}
    (hwf : PairsWF s lists) (ha : (s.nodes a).IsLeaf = true) (hb : (s.nodes b).IsLeaf = true)
    (hab : a ≠ b) (hpool : PairFromPool s t = .ok (s1, some pr))
    (hfresh : ∀ l, (s.nodes l).IsLeaf = true → pr ∉ lists l)
    (hkeep : ∀ l q, (s.nodes l).IsLeaf = true → q ∈ lists l → s1.pairs q = s.pairs q) :
    ∃ s2, PairInsert s t a b = .ok s2 ∧ PairsWF s2 (listsInsert lists a b pr) ∧
      (∀ q, (s2.nodes q).shape = (s.nodes q).shape) ∧
      (s2.nodes a).pairs = some pr ∧ (s2.nodes b).pairs = some pr ∧
      (∀ q, q ≠ a → q ≠ b → s2.nodes q = s.nodes q) ∧
      s2.pairs pr = ⟨⟨none, (s.nodes a).pairs, some a⟩, ⟨none, (s.nodes b).pairs, some b⟩, 0⟩ ∧
      (∀ n, (s.nodes a).pairs = some n → (threadOf s2 a n).prev = some pr) ∧
      (∀ n, (s.nodes b).pairs = some n → (threadOf s2 b n).prev = some pr) ∧
      (∀ l q, (s.nodes l).IsLeaf = true → q ∈ lists l →
        (s2.pairs q).collisionId = (s.pairs q).collisionId ∧
        (s2.pairs q).a.leaf = (s.pairs q).a.leaf ∧ (s2.pairs q).b.leaf = (s.pairs q).b.leaf) ∧
      s2.calls = s.calls := by
  have hn1 := (PairFromPool_nodes hpool).1
  obtain ⟨S4, hS4⟩ : ∃ S4 : State, S4 = ((s1.setNode a
      (fun n => { n with pairs := some pr })).setNode b
      (fun n => { n with pairs := some pr })).setPair pr
      (fun _ => ⟨⟨none, (s.nodes a).pairs, some a⟩, ⟨none, (s.nodes b).pairs, some b⟩, 0⟩) :=
    ⟨_, rfl⟩
  have hE := PairInsert_explicit a b hpool
  rw [← hS4] at hE
  refine ⟨_, hE, ?_⟩
  -- the nodes
  have hN : ∀ q, (linkHead (linkHead S4 a (s.nodes a).pairs pr) b (s.nodes b).pairs pr).nodes q =
      if q = a ∨ q = b then { s.nodes q with pairs := some pr } else s.nodes q := by
    intro q
    rw [linkHead_nodes, linkHead_nodes, hS4]
    simp only [setPair_nodes, setNode_nodes, hn1]
    by_cases hqb : q = b
    · subst hqb
      have hqa : ¬ (q = a) := fun e => hab e.symm
      simp [hqa]
    · by_cases hqa : q = a
      · subst hqa; simp [hqb]
      · simp [hqa, hqb]
  have hLeaf : ∀ q, ((linkHead (linkHead S4 a (s.nodes a).pairs pr) b (s.nodes b).pairs
      pr).nodes q).IsLeaf = (s.nodes q).IsLeaf := by
    intro q; rw [hN q]; split <;> rfl
  -- the pairs
  have hP4 : ∀ q, S4.pairs q = if q = pr then
      ⟨⟨none, (s.nodes a).pairs, some a⟩, ⟨none, (s.nodes b).pairs, some b⟩, 0⟩
      else s1.pairs q := by
    intro q; rw [hS4]; simp
  have hheadA : ∀ q, (s.nodes a).pairs = some q → q ∈ lists a :=
    fun q hq => PairList_head_mem (hwf.1 a ha) hq
  have hheadB : ∀ q, (s.nodes b).pairs = some q → q ∈ lists b :=
    fun q hq => PairList_head_mem (hwf.1 b hb) hq
  have hprA : (s.nodes a).pairs ≠ some pr := fun h => hfresh a ha (hheadA pr h)
  have hprB : (s.nodes b).pairs ≠ some pr := fun h => hfresh b hb (hheadB pr h)
  have hPr : (linkHead (linkHead S4 a (s.nodes a).pairs pr) b (s.nodes b).pairs pr).pairs pr =
      ⟨⟨none, (s.nodes a).pairs, some a⟩, ⟨none, (s.nodes b).pairs, some b⟩, 0⟩ := by
    have h1 : ∀ sd, ((linkHead (linkHead S4 a (s.nodes a).pairs pr) b (s.nodes b).pairs
        pr).pairs pr).thread sd = (S4.pairs pr).thread sd := by
      intro sd
      rw [linkHead_thread, linkHead_thread]
      simp [hprA, hprB]
    have h2 := linkHead_leaf (linkHead S4 a (s.nodes a).pairs pr) b (s.nodes b).pairs pr pr
    have h3 := linkHead_leaf S4 a (s.nodes a).pairs pr pr
    have ha1 := h1 Side.A
    have hb1 := h1 Side.B
    simp only [Pair.thread] at ha1 hb1
    have h4 : S4.pairs pr = ⟨⟨none, (s.nodes a).pairs, some a⟩,
        ⟨none, (s.nodes b).pairs, some b⟩, 0⟩ := by rw [hP4]; simp
    rw [h4] at ha1 hb1 h3
    cases hx : (linkHead (linkHead S4 a (s.nodes a).pairs pr) b (s.nodes b).pairs pr).pairs pr
    rw [hx] at ha1 hb1 h2
    simp only at ha1 hb1 h2 h3
    rw [ha1, hb1, h2.2.2, h3.2.2]
  -- pairs that are in a list keep their leaf fields and sides
  have hOld : ∀ l q, (s.nodes l).IsLeaf = true → q ∈ lists l → S4.pairs q = s.pairs q := by
    intro l q hl hq
    have : q ≠ pr := fun e => hfresh l hl (e ▸ hq)
    rw [hP4]; simp only [this, if_false]; exact hkeep l q hl hq
  have hTh : ∀ l q, (s.nodes l).IsLeaf = true → q ∈ lists l → ∀ m,
      threadOf (linkHead (linkHead S4 a (s.nodes a).pairs pr) b (s.nodes b).pairs pr) m q =
      if (s.nodes b).pairs = some q ∧ (s.pairs q).sideOf (some m) = (s.pairs q).sideOf (some b)
      then { (if (s.nodes a).pairs = some q ∧
          (s.pairs q).sideOf (some m) = (s.pairs q).sideOf (some a)
        then { threadOf s m q with prev := some pr } else threadOf s m q) with prev := some pr }
      else (if (s.nodes a).pairs = some q ∧
          (s.pairs q).sideOf (some m) = (s.pairs q).sideOf (some a)
        then { threadOf s m q with prev := some pr } else threadOf s m q) := by
    intro l q hl hq m
    have h4 := hOld l q hl hq
    rw [linkHead_threadOf, linkHead_threadOf]
    simp only [linkHead_side]
    have e1 : threadOf S4 m q = threadOf s m q := by unfold threadOf; rw [h4]
    rw [e1, h4]
  have hSide : ∀ l q, (s.nodes l).IsLeaf = true → q ∈ lists l → ∀ m, m ≠ l →
      (s.nodes m).IsLeaf = true → q ∈ lists m →
      (s.pairs q).sideOf (some l) ≠ (s.pairs q).sideOf (some m) := by
    intro l q hl hq m hml hm hqm
    exact side_ne (PairSeg_leaf _ _ _ _ (hwf.1 l hl).1 q hq)
      (PairSeg_leaf _ _ _ _ (hwf.1 m hm).1 q hqm) (fun e => hml e.symm)
  -- the list of a leaf other than the new pair's ends, and the tails
  have hKeepTh : ∀ l q, (s.nodes l).IsLeaf = true → q ∈ lists l →
      (s.nodes l).pairs ≠ some q ∨ (l ≠ a ∧ l ≠ b) →
      threadOf (linkHead (linkHead S4 a (s.nodes a).pairs pr) b (s.nodes b).pairs pr) l q =
        threadOf s l q := by
    intro l q hl hq hcase
    rw [hTh l q hl hq l]
    have hA : ¬ ((s.nodes a).pairs = some q ∧
        (s.pairs q).sideOf (some l) = (s.pairs q).sideOf (some a)) := by
      rintro ⟨h1, h2⟩
      by_cases hla : l = a
      · subst hla
        rcases hcase with h | h
        · exact h h1
        · exact h.1 rfl
      · exact hSide l q hl hq a (fun e => hla e.symm) ha (hheadA q h1) h2
    have hB : ¬ ((s.nodes b).pairs = some q ∧
        (s.pairs q).sideOf (some l) = (s.pairs q).sideOf (some b)) := by
      rintro ⟨h1, h2⟩
      by_cases hlb : l = b
      · subst hlb
        rcases hcase with h | h
        · exact h h1
        · exact h.2 rfl
      · exact hSide l q hl hq b (fun e => hlb e.symm) hb (hheadB q h1) h2
    simp only [hA, hB, if_false]
  have hHeadTh : ∀ l n, (l = a ∨ l = b) → (s.nodes l).pairs = some n →
      threadOf (linkHead (linkHead S4 a (s.nodes a).pairs pr) b (s.nodes b).pairs pr) l n =
        { threadOf s l n with prev := some pr } := by
    intro l n hl hn
    have hleaf : (s.nodes l).IsLeaf = true := by rcases hl with rfl | rfl <;> assumption
    have hmem : n ∈ lists l := PairList_head_mem (hwf.1 l hleaf) hn
    rw [hTh l n hleaf hmem l]
    rcases hl with rfl | rfl
    · have hB : ¬ ((s.nodes b).pairs = some n ∧
          (s.pairs n).sideOf (some l) = (s.pairs n).sideOf (some b)) := by
        rintro ⟨h1, h2⟩
        exact hSide l n ha hmem b (fun e => hab e.symm) hb (hheadB n h1) h2
      simp only [hB, if_false, hn, true_and, if_true]
    · by_cases hA : (s.nodes a).pairs = some n ∧
          (s.pairs n).sideOf (some l) = (s.pairs n).sideOf (some a)
      · exact absurd hA.2 (hSide l n hb hmem a hab ha (hheadA n hA.1))
      · simp only [hA, if_false, hn, true_and, if_true]
  refine ⟨⟨?_, ?_⟩, ?_, ?_, ?_, ?_, hPr, ?_, ?_, ?_, ?_⟩
  · -- every list is well formed
    intro l hl
    rw [hLeaf] at hl
    have hwl := hwf.1 l hl
    by_cases hlab : l = a ∨ l = b
    · have hpl : ((linkHead (linkHead S4 a (s.nodes a).pairs pr) b (s.nodes b).pairs
          pr).nodes l).pairs = some pr := by rw [hN]; simp [hlab]
      have hside : ((linkHead (linkHead S4 a (s.nodes a).pairs pr) b (s.nodes b).pairs
          pr).pairs pr).sideOf (some l) = if l = a then Side.A else Side.B := by
        rw [hPr]; unfold Pair.sideOf
        by_cases hla : l = a
        · simp [hla]
        · have : ¬ (a = l) := fun e => hla e.symm
          simp [hla, this]
      have hthr : threadOf (linkHead (linkHead S4 a (s.nodes a).pairs pr) b (s.nodes b).pairs
          pr) l pr = ⟨none, (s.nodes l).pairs, some l⟩ := by
        unfold threadOf
        rw [hside, hPr]
        rcases hlab with rfl | rfl
        · simp [Pair.thread]
        · have : ¬ (l = a) := fun e => hab e.symm
          simp [Pair.thread, this]
      have hlist : listsInsert lists a b pr l = pr :: lists l := by simp [listsInsert, hlab]
      rw [hlist]
      refine ⟨⟨hpl, by rw [hthr], by rw [hthr], ?_⟩,
        List.nodup_cons.mpr ⟨hfresh l hl, hwl.2⟩⟩
      rw [hthr]
      refine PairSeg_relink hwl.1 hwl.2 (fun n hn => hHeadTh l n hlab ?_)
        (fun q hq => hKeepTh l q hl (List.mem_of_mem_tail hq) (Or.inl ?_))
      · rw [PairList_head hwl]; exact hn
      · rw [PairList_head hwl]
        intro e
        cases hps : lists l with
        | nil => rw [hps] at hq; cases hq
        | cons x xs =>
          rw [hps] at hq e hwl
          simp only [List.head?_cons, Option.some.injEq] at e
          subst e
          exact (List.nodup_cons.mp hwl.2).1 hq
    · have hla : l ≠ a := fun e => hlab (Or.inl e)
      have hlb : l ≠ b := fun e => hlab (Or.inr e)
      have hlist : listsInsert lists a b pr l = lists l := by simp [listsInsert, hlab]
      rw [hlist]
      refine ⟨?_, hwl.2⟩
      have : ((linkHead (linkHead S4 a (s.nodes a).pairs pr) b (s.nodes b).pairs
          pr).nodes l).pairs = (s.nodes l).pairs := by rw [hN]; simp [hlab]
      rw [this]
      exact PairSeg_congr _ _ _ _ (fun q hq => hKeepTh l q hl hq (Or.inr ⟨hla, hlb⟩)) hwl.1
  · -- the lists are symmetric
    intro l p hl hp
    rw [hLeaf] at hl
    have hold : p ∈ lists l → ∃ m, m ≠ l ∧
        ((linkHead (linkHead S4 a (s.nodes a).pairs pr) b (s.nodes b).pairs pr).nodes m).IsLeaf =
          true ∧
        otherLeaf (linkHead (linkHead S4 a (s.nodes a).pairs pr) b (s.nodes b).pairs pr) l p =
          some m ∧ p ∈ listsInsert lists a b pr m := by
      intro hp1
      obtain ⟨m, h1, h2, h3, h4⟩ := hwf.2 l p hl hp1
      refine ⟨m, h1, by rw [hLeaf]; exact h2, ?_, ?_⟩
      · unfold otherLeaf at h3 ⊢
        rw [linkHead_side, linkHead_side, hOld l p hl hp1]
        have e1 := linkHead_leaf (linkHead S4 a (s.nodes a).pairs pr) b (s.nodes b).pairs pr p
        have e2 := linkHead_leaf S4 a (s.nodes a).pairs pr p
        rw [hOld l p hl hp1] at e2
        cases hsd : ((s.pairs p).sideOf (some l)).other with
        | A => rw [hsd] at h3; simp only [Pair.thread] at h3 ⊢; rw [e1.1, e2.1]; exact h3
        | B => rw [hsd] at h3; simp only [Pair.thread] at h3 ⊢; rw [e1.2.1, e2.2.1]; exact h3
      · unfold listsInsert
        split
        · exact List.mem_cons_of_mem _ h4
        · exact h4
    by_cases hlab : l = a ∨ l = b
    · have hlist : listsInsert lists a b pr l = pr :: lists l := by simp [listsInsert, hlab]
      rw [hlist] at hp
      rcases List.mem_cons.mp hp with rfl | hp1
      · rcases hlab with rfl | rfl
        · refine ⟨b, fun e => hab e.symm, by rw [hLeaf]; exact hb, ?_, by simp [listsInsert]⟩
          unfold otherLeaf; rw [hPr]; simp [Pair.sideOf, Side.other, Pair.thread]
        · refine ⟨a, hab, by rw [hLeaf]; exact ha, ?_, by simp [listsInsert]⟩
          have : ¬ (a = l) := hab
          unfold otherLeaf; rw [hPr]; simp [Pair.sideOf, Side.other, Pair.thread, this]
      · exact hold hp1
    · have hlist : listsInsert lists a b pr l = lists l := by simp [listsInsert, hlab]
      rw [hlist] at hp
      exact hold hp
  · intro q; rw [hN]; split <;> rfl
  · rw [hN]; simp
  · rw [hN]; simp
  · intro q hqa hqb; rw [hN]; simp [hqa, hqb]
  · intro n hn
    rw [hHeadTh a n (Or.inl rfl) hn]
  · intro n hn
    rw [hHeadTh b n (Or.inr rfl) hn]
  · intro l q hl hq
    have e1 := linkHead_leaf (linkHead S4 a (s.nodes a).pairs pr) b (s.nodes b).pairs pr q
    have e2 := linkHead_leaf S4 a (s.nodes a).pairs pr q
    rw [hOld l q hl hq] at e2
    exact ⟨e1.2.2.trans e2.2.2, e1.1.trans e2.1, e1.2.1.trans e2.2.1⟩
  · have : ∀ (x : State) (l : Nat) (h : Option Nat), (linkHead x l h pr).calls = x.calls := by
      intro x l h; cases h <;> rfl
    rw [this, this, hS4]
    exact (PairFromPool_nodes hpool).2

/-- C9: `PairInsert(a, b)` on two distinct leaves keeps the pair lists well
formed and symmetric when the pair `pr` handed out by the pool is fresh (in no
list, and the pool leaves the listed pairs alone); afterwards `pr` heads the
lists of `a` and of `b`, its threads have no `prev`, their `next` links are the
former heads, each former head's `prev` on the side of that leaf points to
`pr`, and the collision id of `pr` is 0. -/
theorem pairInsert_keeps_symmetry (s s1 : State) (t pr a b : Nat) (lists : Nat → List Nat)
    (hwf : PairsWF s lists) (ha : (s.nodes a).IsLeaf = true) (hb : (s.nodes b).IsLeaf = true)
    (hab : a ≠ b) (hpool : PairFromPool s t = .ok (s1, some pr))
    (hfresh : ∀ l, (s.nodes l).IsLeaf = true → pr ∉ lists l)
    (hkeep : ∀ l q, (s.nodes l).IsLeaf = true → q ∈ lists l → s1.pairs q = s.pairs q) :
    ∃ s2, PairInsert s t a b = .ok s2 ∧ PairsWF s2 (listsInsert lists a b pr) ∧
      listsInsert lists a b pr a = pr :: lists a ∧ listsInsert lists a b pr b = pr :: lists b ∧
      (s2.nodes a).pairs = some pr ∧ (s2.nodes b).pairs = some pr ∧
      s2.pairs pr = ⟨⟨none, (s.nodes a).pairs, some a⟩, ⟨none, (s.nodes b).pairs, some b⟩, 0⟩ ∧
      (∀ n, (s.nodes a).pairs = some n → (threadOf s2 a n).prev = some pr) ∧
      (∀ n, (s.nodes b).pairs = some n → (threadOf s2 b n).prev = some pr) := by
  obtain ⟨s2, h1, h2, -, h4, h5, -, h7, h8, h9, -⟩ :=
    PairInsert_spec hwf ha hb hab hpool hfresh hkeep
  exact ⟨s2, h1, h2, by simp [listsInsert], by simp [listsInsert], h4, h5, h7, h8, h9⟩

theorem pairDemo_leaves (l : Nat) (h : (pairDemo.nodes l).IsLeaf = true) : l = 0 ∨ l = 1 := by
  by_cases h0 : l = 0
  · exact Or.inl h0
  · by_cases h1 : l = 1
    · exact Or.inr h1
    · simp [pairDemo, h0, h1, Node.IsLeaf, Node.zero] at h

/-- C9 at a concrete heap: the first pair between two leaves. -/
theorem pairInsert_keeps_symmetry_witness :
    ∃ s2, PairInsert pairDemo 0 0 1 = .ok s2 ∧ PairsWF s2 (listsInsert (fun _ => []) 0 1 5) ∧
      listsInsert (fun _ => []) 0 1 5 0 = 5 :: [] ∧ listsInsert (fun _ => []) 0 1 5 1 = 5 :: [] ∧
      (s2.nodes 0).pairs = some 5 ∧ (s2.nodes 1).pairs = some 5 ∧
      s2.pairs 5 = ⟨⟨none, (pairDemo.nodes 0).pairs, some 0⟩,
        ⟨none, (pairDemo.nodes 1).pairs, some 1⟩, 0⟩ ∧
      (∀ n, (pairDemo.nodes 0).pairs = some n → (threadOf s2 0 n).prev = some 5) ∧
      (∀ n, (pairDemo.nodes 1).pairs = some n → (threadOf s2 1 n).prev = some 5) :=
  pairInsert_keeps_symmetry pairDemo
    (pairDemo.setTree 0 (fun tr => { tr with pooledPairs := (pairDemo.pairs 5).a.next }))
    0 5 0 1 (fun _ => [])
    ⟨fun l hl => by
        rcases pairDemo_leaves l hl with rfl | rfl
        · exact ⟨rfl, List.nodup_nil⟩
        · exact ⟨rfl, List.nodup_nil⟩,
      fun l p _ hp => by cases hp⟩
    rfl rfl (by decide) rfl (fun l _ hp => by cases hp) (fun l q _ hq => by cases hq)

theorem PoolSeg_congr {s s1 : State} : ∀ (ps : List Nat) (head tail : Option Nat),
    (∀ q ∈ ps, (s1.pairs q).a.next = (s.pairs q).a.next) →
    PoolSeg s head ps tail → PoolSeg s1 head ps tail := by
  intro ps
  induction ps with
  | nil => intro _ _ _ h; exact h
  | cons p ps ih =>
    intro head tail hq h
    refine ⟨h.1, ?_⟩
    rw [hq p (List.mem_cons_self _ _)]
    exact ih _ _ (fun q hq1 => hq q (List.mem_cons_of_mem _ hq1)) h.2

/-- What `Thread.Unlink` does to the heap when it takes the pair `p` out of
the well-formed list `qs` of leaf `m`: the list of `m` loses `p`, the lists of
the other leaves and the threads of other leaves in all pairs are kept. -/
theorem Unlink_list {s : State} {m p : Nat} {qs : List Nat} (h : PairList s m qs)
    (hp : p ∈ qs) :
    ∃ s1, Thread.Unlink s p ((s.pairs p).sideOf (some m)) = .ok s1 ∧
      PairList s1 m (qs.erase p) ∧
      (∀ q, q ≠ m → s1.nodes q = s.nodes q) ∧
      (∀ q, (s1.nodes q).shape = (s.nodes q).shape) ∧
      (∀ q, (s1.pairs q).a.leaf = (s.pairs q).a.leaf ∧ (s1.pairs q).b.leaf = (s.pairs q).b.leaf ∧
        (s1.pairs q).collisionId = (s.pairs q).collisionId) ∧
      (∀ q sd, (q ∉ qs.erase p ∨ sd ≠ (s.pairs q).sideOf (some m)) →
        (s1.pairs q).thread sd = (s.pairs q).thread sd) ∧
      s1.trees = s.trees ∧ s1.indexes = s.indexes ∧ s1.nodeNext = s.nodeNext ∧
      s1.pairNext = s.pairNext ∧ s1.calls = s.calls := by
  obtain ⟨pre, post, hsplit, hpre⟩ := List.eq_append_cons_of_mem hp
  subst hsplit
  obtain ⟨s1, h1, h2, h3, h4, -, -, h7, h8, h9⟩ := Unlink_seg h.1 h.2
  have herase : (pre ++ p :: post).erase p = pre ++ post := by
    rw [List.erase_append_right _ hpre, List.erase_cons_head]
  rw [herase]
  refine ⟨s1, h1, ⟨h2, ?_⟩, h3, ?_, h7, h8, h9⟩
  · have := List.nodup_append.mp h.2
    exact List.nodup_append.mpr ⟨this.1, (List.nodup_cons.mp this.2.1).2,
      fun q hq1 hq2 => this.2.2 hq1 (List.mem_cons_of_mem _ hq2)⟩
  · intro q
    by_cases hq : q = m
    · subst hq; rw [h4]; rfl
    · rw [h3 q hq]

/-- The thread of a leaf `l` in a pair is kept by `Thread.Unlink` in the list
of another leaf `m` when the pair names `l` in that thread. -/
theorem Unlink_keeps_thread {s s1 : State} {l m q : Nat} {qs : List Nat}
    (hleaf : ∀ q, (s1.pairs q).a.leaf = (s.pairs q).a.leaf)
    (hth : ∀ q sd, (q ∉ qs ∨ sd ≠ (s.pairs q).sideOf (some m)) →
      (s1.pairs q).thread sd = (s.pairs q).thread sd)
    (hqs : ∀ q ∈ qs, (threadOf s m q).leaf = some m)
    (hl : (threadOf s l q).leaf = some l) (hlm : l ≠ m) :
    threadOf s1 l q = threadOf s l q := by
  unfold threadOf
  have : (s1.pairs q).sideOf (some l) = (s.pairs q).sideOf (some l) := by
    unfold Pair.sideOf; rw [hleaf q]
  rw [this]
  refine hth q _ ?_
  by_cases hq : q ∈ qs
  · exact Or.inr (side_ne hl (hqs q hq) hlm)
  · exact Or.inl hq

theorem GetMasterTree_congr {s s1 : State} (h1 : ∀ k, (s1.trees k).shape = (s.trees k).shape)
    (h2 : s1.indexes = s.indexes) (t : Nat) : GetMasterTree s1 t = GetMasterTree s t := by
  have h3 : (s1.trees t).spatialIndex = (s.trees t).spatialIndex := by
    have := congrArg BBTree.spatialIndex (h1 t); simpa [BBTree.shape] using this
  unfold GetMasterTree SpatialIndex.GetTree
  rw [h3, h2]

/-- One round of the loop of `PairsClear`, for a pair of `leaf` whose other
end is the leaf `m`. -/
theorem PairsClear_loop_step (t l m p fuel : Nat) (u : State)
    (hm : otherLeaf u l p = some m) (hlm : m ≠ l) :
    PairsClear.loop t l (fuel + 1) u (some p) = (do
      let s1 ← Thread.Unlink u p ((u.pairs p).sideOf (some m))
      let s2 ← RecyclePair s1 t p
      PairsClear.loop t l fuel s2 (threadOf u l p).next) := by
  conv_lhs => unfold PairsClear.loop
  unfold threadOf otherLeaf at *
  by_cases ha : (u.pairs p).a.leaf = some l
  · have hs : (u.pairs p).sideOf (some l) = Side.A := by simp [Pair.sideOf, ha]
    rw [hs] at hm ⊢
    have hs2 : (u.pairs p).sideOf (some m) = Side.B := by
      have : ¬ (some l = some m) := fun e => hlm (Option.some.inj e).symm
      simp [Pair.sideOf, ha, this]
    simp only [ha, if_true, hs2, Pair.thread]
  · have hs : (u.pairs p).sideOf (some l) = Side.B := by simp [Pair.sideOf, ha]
    rw [hs] at hm ⊢
    simp only [Side.other, Pair.thread] at hm
    have hs2 : (u.pairs p).sideOf (some m) = Side.A := by simp [Pair.sideOf, hm]
    simp only [ha, if_false, hs2, Pair.thread]

theorem filter_erase_notMem (xs rest : List Nat) (p : Nat) (h : xs.Nodup) :
    (xs.erase p).filter (fun q => decide (q ∉ rest)) =
      xs.filter (fun q => decide (q ∉ p :: rest)) := by
  rw [h.erase_eq_filter, List.filter_filter]
  congr 1
  funext q
  by_cases hq : q = p
  · subst hq; simp
  · simp [hq]

theorem otherLeaf_congr {s s1 : State} (l p : Nat)
    (h : (s1.pairs p).a.leaf = (s.pairs p).a.leaf ∧ (s1.pairs p).b.leaf = (s.pairs p).b.leaf) :
    otherLeaf s1 l p = otherLeaf s l p := by
  unfold otherLeaf Pair.sideOf
  rw [h.1]
  split <;> simp [Side.other, Pair.thread, h.1, h.2]

/-- A pair in the list of a leaf `m1` names `m1` in one of its two threads. -/
theorem mem_list_names {s : State} {m1 p : Nat} {qs : List Nat} (h : PairList s m1 qs)
    (hp : p ∈ qs) : (s.pairs p).a.leaf = some m1 ∨ (s.pairs p).b.leaf = some m1 := by
  have := PairSeg_leaf _ _ _ _ h.1 p hp
  unfold threadOf at this
  cases hsd : (s.pairs p).sideOf (some m1) with
  | A => rw [hsd] at this; exact Or.inl this
  | B => rw [hsd] at this; exact Or.inr this

/-- A pair of leaf `l` whose other end is `m` is in the list of no third leaf. -/
theorem third_leaf_free {s : State} {l m m1 p : Nat} {qs : List Nat}
    (hl : (threadOf s l p).leaf = some l) (hm : otherLeaf s l p = some m)
    (h : PairList s m1 qs) (h1 : m1 ≠ l) (h2 : m1 ≠ m) : p ∉ qs := by
  intro hp
  unfold threadOf at hl
  unfold otherLeaf at hm
  rcases mem_list_names h hp with h3 | h3
  · cases hsd : (s.pairs p).sideOf (some l) with
    | A =>
      rw [hsd] at hl; simp only [Pair.thread] at hl
      rw [h3] at hl; exact h1 (Option.some.inj hl)
    | B =>
      rw [hsd] at hm; simp only [Side.other, Pair.thread] at hm
      rw [h3] at hm; exact h2 (Option.some.inj hm)
  · cases hsd : (s.pairs p).sideOf (some l) with
    | A =>
      rw [hsd] at hm; simp only [Side.other, Pair.thread] at hm
      rw [h3] at hm; exact h2 (Option.some.inj hm)
    | B =>
      rw [hsd] at hl; simp only [Pair.thread] at hl
      rw [h3] at hl; exact h1 (Option.some.inj hl)

/-- The loop of `PairsClear` on the remaining pairs `rest` of leaf `l`: every
pair is taken out of the list of its other leaf and pushed on the pool. -/
theorem PairsClear_loop_spec {t l master : Nat} :
    ∀ (rest : List Nat) (fuel : Nat) (u : State) (L : Nat → List Nat) (prev cur : Option Nat)
      (D : List Nat) (oldPool : Option Nat),
      rest.length ≤ fuel → PairSeg u l prev cur rest none → rest.Nodup →
      (∀ m, m ≠ l → (u.nodes m).IsLeaf = true → PairList u m (L m)) →
      (∀ p ∈ rest, ∃ m, m ≠ l ∧ (u.nodes m).IsLeaf = true ∧ otherLeaf u l p = some m ∧
        p ∈ L m) →
      GetMasterTree u t = .ok master →
      PoolSeg u (u.trees master).pooledPairs D oldPool →
      (∀ q ∈ D, q ∉ rest ∧ ∀ m, m ≠ l → (u.nodes m).IsLeaf = true → q ∉ L m) →
      ∃ u1, PairsClear.loop t l fuel u cur = .ok u1 ∧
        (∀ m, m ≠ l → (u.nodes m).IsLeaf = true →
          PairList u1 m ((L m).filter (fun q => decide (q ∉ rest)))) ∧
        (∀ q, (u1.nodes q).shape = (u.nodes q).shape) ∧ u1.nodes l = u.nodes l ∧
        (∀ q, (u1.pairs q).a.leaf = (u.pairs q).a.leaf ∧
          (u1.pairs q).b.leaf = (u.pairs q).b.leaf) ∧
        PoolSeg u1 (u1.trees master).pooledPairs (rest.reverse ++ D) oldPool ∧
        (∀ k, (u1.trees k).shape = (u.trees k).shape) ∧ u1.indexes = u.indexes ∧
        u1.calls = u.calls := by
  intro rest
  induction rest with
  | nil =>
    intro fuel u L prev cur D oldPool _ hseg _ hL _ _ hpool _
    have hcur : cur = none := hseg
    subst hcur
    refine ⟨u, ?_, ?_, fun _ => rfl, rfl, fun _ => ⟨rfl, rfl⟩, by simpa using hpool,
      fun _ => rfl, rfl, rfl⟩
    · cases fuel <;> rfl
    · intro m h1 h2
      have : (L m).filter (fun q => decide (q ∉ ([] : List Nat))) = L m := by simp
      rw [this]; exact hL m h1 h2
  | cons p rest ih =>
    intro fuel u L prev cur D oldPool hfuel hseg hnd hL hsym hmaster hpool hD
    obtain ⟨f, rfl⟩ : ∃ f, fuel = f + 1 := ⟨fuel - 1, by simp at hfuel; omega⟩
    obtain ⟨hcur, hleaf, -, hrest⟩ := hseg
    subst hcur
    obtain ⟨m, hml, hmleaf, hother, hpm⟩ := hsym p (List.mem_cons_self _ _)
    have hp_rest : p ∉ rest := (List.nodup_cons.mp hnd).1
    have hnd_rest : rest.Nodup := (List.nodup_cons.mp hnd).2
    -- the pair is taken out of the list of its other leaf
    obtain ⟨v, hv, hv1, hv2, hv3, hv4, hv5, hv6, hv7, hv8, hv9, hv10⟩ :=
      Unlink_list (hL m hml hmleaf) hpm
    -- and pushed on the pool
    have hmv : GetMasterTree v t = .ok master := by
      rw [GetMasterTree_congr (fun k => by rw [hv6]) hv7]; exact hmaster
    obtain ⟨w, hw⟩ : ∃ w : State, w = (v.setPair p (fun q =>
        q.setNext Side.A (v.trees master).pooledPairs)).setTree master
        (fun tr => { tr with pooledPairs := some p }) := ⟨_, rfl⟩
    have hrec : RecyclePair v t p = .ok w := by
      rw [hw]; simp [RecyclePair, hmv, bind, Except.bind, pure, Except.pure]
    have hw_nodes : w.nodes = v.nodes := by rw [hw]; rfl
    have hw_pairs : ∀ q, q ≠ p → w.pairs q = v.pairs q := by
      intro q hq; rw [hw]; simp [hq]
    have hw_leaf : ∀ q, (w.pairs q).a.leaf = (v.pairs q).a.leaf ∧
        (w.pairs q).b.leaf = (v.pairs q).b.leaf := by
      intro q
      by_cases hq : q = p
      · subst hq; rw [hw]; simp [Pair.setNext]
      · rw [hw_pairs q hq]; exact ⟨rfl, rfl⟩
    have hleafW : ∀ q, (w.nodes q).IsLeaf = (u.nodes q).IsLeaf := by
      intro q
      rw [hw_nodes]
      have := congrArg Node.obj (hv3 q)
      simp only [Node.shape] at this
      simp [Node.IsLeaf, this]
    have hstep := PairsClear_loop_step t l m p f u hother hml
    -- the lists after this round
    have hLw : ∀ m1, m1 ≠ l → (w.nodes m1).IsLeaf = true → PairList w m1 ((L m1).erase p) := by
      intro m1 h1 h2
      rw [hleafW] at h2
      by_cases hm1 : m1 = m
      · subst hm1
        refine PairList_frame hv1 (by rw [hw_nodes]) (fun q => (hw_leaf q).1) (fun q hq => ?_)
        have : q ≠ p := fun e => (hL m1 hml hmleaf).2.not_mem_erase (e ▸ hq)
        rw [hw_pairs q this]
      · have hp1 : p ∉ L m1 := third_leaf_free hleaf hother (hL m1 h1 h2) h1 hm1
        rw [List.erase_of_not_mem hp1]
        have hv_list : PairList v m1 (L m1) := by
          refine PairList_frame (hL m1 h1 h2) (hv2 m1 hm1) (fun q => (hv4 q).1) (fun q hq => ?_)
          refine hv5 q _ ?_
          by_cases hq2 : q ∈ (L m).erase p
          · right
            exact side_ne (PairSeg_leaf _ _ _ _ (hL m1 h1 h2).1 q hq)
              (PairSeg_leaf _ _ _ _ (hL m hml hmleaf).1 q (List.mem_of_mem_erase hq2)) hm1
          · exact Or.inl hq2
        refine PairList_frame hv_list (by rw [hw_nodes]) (fun q => (hw_leaf q).1) (fun q hq => ?_)
        have : q ≠ p := fun e => hp1 (e ▸ hq)
        rw [hw_pairs q this]
    have hthW : ∀ q, q ∈ rest → threadOf w l q = threadOf u l q := by
      intro q hq
      have hqp : q ≠ p := fun e => hp_rest (e ▸ hq)
      have e1 : threadOf w l q = threadOf v l q := by unfold threadOf; rw [hw_pairs q hqp]
      rw [e1]
      exact Unlink_keeps_thread (fun q => (hv4 q).1) hv5
        (fun q hq => PairSeg_leaf _ _ _ _ (hL m hml hmleaf).1 q (List.mem_of_mem_erase hq))
        (PairSeg_leaf _ _ _ _ hrest q hq) (fun e => hml e.symm)
    have hmw : GetMasterTree w t = .ok master := by
      rw [GetMasterTree_congr (s := v) (fun k => ?_) (by rw [hw]; rfl)]
      · exact hmv
      · rw [hw]
        by_cases hk : k = master
        · subst hk; simp [BBTree.shape]
        · simp [hk]
    have hpoolW : PoolSeg w (w.trees master).pooledPairs (p :: D) oldPool := by
      have e1 : (w.trees master).pooledPairs = some p := by rw [hw]; simp
      have e2 : (w.pairs p).a.next = (u.trees master).pooledPairs := by
        rw [hw]; simp [Pair.setNext, hv6]
      refine ⟨e1, ?_⟩
      rw [e2]
      refine PoolSeg_congr D _ _ (fun q hq => ?_) hpool
      have hqp : q ≠ p := fun e => (hD q hq).1 (e ▸ List.mem_cons_self _ _)
      rw [hw_pairs q hqp]
      have := hv5 q Side.A (Or.inl (fun hm => (hD q hq).2 m hml hmleaf (List.mem_of_mem_erase hm)))
      simp only [Pair.thread] at this
      rw [this]
    obtain ⟨u1, h1, h2, h3, h4, h5, h6, h7, h8, h9⟩ := ih f w (fun m1 => (L m1).erase p) (some p)
      (threadOf u l p).next (p :: D) oldPool (by simp at hfuel; omega)
      (PairSeg_congr rest _ _ _ hthW hrest) hnd_rest hLw
      (fun p1 hp1 => by
        obtain ⟨m2, a1, a2, a3, a4⟩ := hsym p1 (List.mem_cons_of_mem _ hp1)
        refine ⟨m2, a1, by rw [hleafW]; exact a2, ?_, ?_⟩
        · rw [otherLeaf_congr (s := u) l p1 ⟨(hw_leaf p1).1.trans (hv4 p1).1,
            (hw_leaf p1).2.trans (hv4 p1).2.1⟩]
          exact a3
        · have hne : p1 ≠ p := fun e => hp_rest (e ▸ hp1)
          exact (List.mem_erase_of_ne hne).mpr a4)
      hmw hpoolW
      (fun q hq => by
        rcases List.mem_cons.mp hq with rfl | hq1
        · refine ⟨hp_rest, fun m1 a1 a2 => ?_⟩
          rw [hleafW] at a2
          exact (hL m1 a1 a2).2.not_mem_erase
        · refine ⟨fun hm => (hD q hq1).1 (List.mem_cons_of_mem _ hm), fun m1 a1 a2 hm => ?_⟩
          rw [hleafW] at a2
          exact (hD q hq1).2 m1 a1 a2 (List.mem_of_mem_erase hm))
    refine ⟨u1, ?_, ?_, ?_, ?_, ?_, ?_, ?_, ?_, ?_⟩
    · rw [hstep]
      simp only [hv, hrec, bind, Except.bind]
      exact h1
    · intro m1 a1 a2
      have := h2 m1 a1 (by rw [hleafW]; exact a2)
      rw [filter_erase_notMem _ _ _ (hL m1 a1 a2).2] at this
      exact this
    · intro q; rw [h3 q, hw_nodes, hv3 q]
    · rw [h4, hw_nodes, hv2 l (fun e => hml e.symm)]
    · intro q
      exact ⟨(h5 q).1.trans ((hw_leaf q).1.trans (hv4 q).1),
        (h5 q).2.trans ((hw_leaf q).2.trans (hv4 q).2.1)⟩
    · have : (p :: rest).reverse ++ D = rest.reverse ++ (p :: D) := by simp
      rw [this]; exact h6
    · intro k
      rw [h7 k, hw]
      by_cases hk : k = master
      · subst hk; simp [BBTree.shape, hv6]
      · simp [hk, hv6]
    · rw [h8, hw]; exact hv7
    · rw [h9, hw]; exact hv10

/-- With symmetric lists, a pair in the list of `m` that names another leaf
`l` is in the list of `l`. -/
theorem names_mem {s : State} {lists : Nat → List Nat} (hwf : PairsWF s lists) {l m q : Nat}
    (hm : (s.nodes m).IsLeaf = true) (hml : m ≠ l) (hq : q ∈ lists m)
    (hn : (s.pairs q).a.leaf = some l ∨ (s.pairs q).b.leaf = some l) : q ∈ lists l := by
  obtain ⟨m1, h1, -, h3, h4⟩ := hwf.2 m q hm hq
  have h5 := PairSeg_leaf _ _ _ _ (hwf.1 m hm).1 q hq
  unfold threadOf at h5
  unfold otherLeaf at h3
  have hlm : ¬ (some l = some m) := fun e => hml (Option.some.inj e).symm
  rcases hn with hn | hn
  · have hs : (s.pairs q).sideOf (some m) = Side.B := by simp [Pair.sideOf, hn, hlm]
    rw [hs] at h3
    simp only [Side.other, Pair.thread] at h3
    rw [hn] at h3
    cases h3; exact h4
  · by_cases ha : (s.pairs q).a.leaf = some m
    · have hs : (s.pairs q).sideOf (some m) = Side.A := by simp [Pair.sideOf, ha]
      rw [hs] at h3
      simp only [Side.other, Pair.thread] at h3
      rw [hn] at h3
      cases h3; exact h4
    · have hs : (s.pairs q).sideOf (some m) = Side.B := by simp [Pair.sideOf, ha]
      rw [hs] at h5
      simp only [Pair.thread] at h5
      rw [hn] at h5
      exact absurd h5 hlm

/-- C8: on well-formed, symmetric pair lists, `PairsClear(l)` (on a tree that
resolves its master tree, with a budget of at least the length of the list)
returns; afterwards the list of `l` is empty, every other leaf has its former
list without the pairs of `l`, in the same order and well formed, no pair left
in such a list names `l`, and the pool starts with the pairs of `l`. -/
theorem pairsClear_clears (s : State) (t master l fuel : Nat) (lists : Nat → List Nat)
    (hwf : PairsWF s lists) (hl : (s.nodes l).IsLeaf = true)
    (hm : GetMasterTree s t = .ok master) (hfuel : (lists l).length ≤ fuel) :
    ∃ s1, PairsClear fuel s t l = .ok s1 ∧ PairList s1 l [] ∧
      (∀ m, m ≠ l → (s.nodes m).IsLeaf = true →
        PairList s1 m ((lists m).filter (fun q => decide (q ∉ lists l))) ∧
        (∀ q, q ∈ lists m → (q ∈ lists l ↔
          ((s.pairs q).a.leaf = some l ∨ (s.pairs q).b.leaf = some l))) ∧
        (∀ q, q ∈ (lists m).filter (fun q => decide (q ∉ lists l)) →
          (s1.pairs q).a.leaf ≠ some l ∧ (s1.pairs q).b.leaf ≠ some l)) ∧
      PoolSeg s1 (s1.trees master).pooledPairs (lists l).reverse (s.trees master).pooledPairs := by
  have hleaf0 : ∀ q, ((s.setNode l (fun n => { n with pairs := none })).nodes q).IsLeaf =
      (s.nodes q).IsLeaf := by
    intro q
    by_cases hq : q = l
    · subst hq; simp [Node.IsLeaf]
    · simp [hq]
  obtain ⟨s1, h1, h2, h3, h4, h5, h6, -, -, -⟩ := PairsClear_loop_spec (t := t) (l := l)
    (lists l) fuel (s.setNode l (fun n => { n with pairs := none })) lists none
    (s.nodes l).pairs [] (s.trees master).pooledPairs hfuel
    (PairSeg_congr _ _ _ _ (fun q _ => threadOf_setNode s l q l _) (hwf.1 l hl).1) (hwf.1 l hl).2
    (fun m h1 h2 => by
      rw [hleaf0] at h2
      exact PairList_frame (hwf.1 m h2) (by simp [h1]) (fun _ => rfl) (fun _ _ => rfl))
    (fun p hp => by
      obtain ⟨m, a1, a2, a3, a4⟩ := hwf.2 l p hl hp
      exact ⟨m, a1, by rw [hleaf0]; exact a2, a3, a4⟩)
    hm rfl (fun q hq => by cases hq)
  have hnames : ∀ m, m ≠ l → (s.nodes m).IsLeaf = true → ∀ q, q ∈ lists m →
      (q ∈ lists l ↔ ((s.pairs q).a.leaf = some l ∨ (s.pairs q).b.leaf = some l)) :=
    fun m a1 a2 q hq => ⟨fun h => mem_list_names (hwf.1 l hl) h, fun h => names_mem hwf a2 a1 hq h⟩
  refine ⟨s1, h1, ⟨?_, List.nodup_nil⟩, fun m a1 a2 => ⟨?_, hnames m a1 a2, ?_⟩, ?_⟩
  · show (s1.nodes l).pairs = none
    rw [h4]; simp
  · exact h2 m a1 (by rw [hleaf0]; exact a2)
  · intro q hq
    obtain ⟨hq1, hq2⟩ := List.mem_filter.mp hq
    have hq3 : q ∉ lists l := by simpa using hq2
    have e := h5 q
    simp only [setNode_pairs] at e
    rw [e.1, e.2]
    exact ⟨fun h => hq3 ((hnames m a1 a2 q hq1).mpr (Or.inl h)),
      fun h => hq3 ((hnames m a1 a2 q hq1).mpr (Or.inr h))⟩
  · simpa using h6

theorem clearDemo_leaves (l : Nat) (h : (clearDemo.nodes l).IsLeaf = true) : l = 0 ∨ l = 1 := by
  by_cases h0 : l = 0
  · exact Or.inl h0
  · by_cases h1 : l = 1
    · exact Or.inr h1
    · simp [clearDemo, h0, h1, Node.IsLeaf, Node.zero] at h

theorem clearDemo_wf : PairsWF clearDemo clearDemoLists := by
  refine ⟨fun l hl => ?_, fun l p hl hp => ?_⟩
  · rcases clearDemo_leaves l hl with rfl | rfl
    · exact ⟨⟨rfl, rfl, rfl, rfl⟩, by decide⟩
    · exact ⟨⟨rfl, rfl, rfl, rfl⟩, by decide⟩
  · rcases clearDemo_leaves l hl with rfl | rfl
    · have : p = 5 := by simpa [clearDemoLists] using hp
      subst this
      exact ⟨1, by decide, rfl, rfl, by decide⟩
    · have : p = 5 := by simpa [clearDemoLists] using hp
      subst this
      exact ⟨0, by decide, rfl, rfl, by decide⟩

/-- C8 at a concrete heap: clearing leaf 0, whose one pair is shared with leaf 1. -/
theorem pairsClear_clears_witness :
    ∃ s1, PairsClear 1 clearDemo 0 0 = .ok s1 ∧ PairList s1 0 [] ∧
      (∀ m, m ≠ 0 → (clearDemo.nodes m).IsLeaf = true →
        PairList s1 m ((clearDemoLists m).filter (fun q => decide (q ∉ clearDemoLists 0))) ∧
        (∀ q, q ∈ clearDemoLists m → (q ∈ clearDemoLists 0 ↔
          ((clearDemo.pairs q).a.leaf = some 0 ∨ (clearDemo.pairs q).b.leaf = some 0))) ∧
        (∀ q, q ∈ (clearDemoLists m).filter (fun q => decide (q ∉ clearDemoLists 0)) →
          (s1.pairs q).a.leaf ≠ some 0 ∧ (s1.pairs q).b.leaf ≠ some 0)) ∧
      PoolSeg s1 (s1.trees 0).pooledPairs (clearDemoLists 0).reverse
        (clearDemo.trees 0).pooledPairs :=
  pairsClear_clears clearDemo 0 0 0 1 clearDemoLists clearDemo_wf rfl rfl (by decide)

theorem BB.merge_comm (a b : BB) : a.Merge b = b.Merge a := by
  simp [BB.Merge, min_comm, max_comm]

theorem BB.merge_assoc (a b c : BB) : (a.Merge b).Merge c = a.Merge (b.Merge c) := by
  simp [BB.Merge, min_assoc, max_assoc]

theorem Shape.root_mem (T : Shape) : T.root ∈ T.addrs := by
  cases T <;> simp [Shape.root, Shape.addrs]

theorem Shape.insert_root (s : State) (n leaf : Nat) (T : Shape) :
    (T.insert s n leaf).root = match T with
      | Shape.leaf _ => n
      | Shape.node p _ _ => p := by
  cases T with
  | leaf p => rfl
  | node p l r => simp only [Shape.insert]; split <;> rfl

theorem Shape.mem_insert_addrs (s : State) (n leaf : Nat) (T : Shape) (q : Nat) :
    q ∈ (T.insert s n leaf).addrs ↔ q = n ∨ q = leaf ∨ q ∈ T.addrs := by
  induction T with
  | leaf p => simp [Shape.insert, Shape.addrs]
  | node p l r ihl ihr =>
    simp only [Shape.insert]
    split
    · simp only [Shape.addrs, List.mem_cons, List.mem_append, ihr]; tauto
    · simp only [Shape.addrs, List.mem_cons, List.mem_append, ihl]; tauto

theorem Shape.insert_addrs_nodup (s : State) (n leaf : Nat) (T : Shape) (h : T.addrs.Nodup)
    (hn : n ∉ T.addrs) (hl : leaf ∉ T.addrs) (hnl : n ≠ leaf) :
    (T.insert s n leaf).addrs.Nodup := by
  induction T with
  | leaf p =>
    simp only [Shape.addrs, List.mem_singleton] at hn hl
    simp [Shape.insert, Shape.addrs, hn, hl, hnl]
  | node p l r ihl ihr =>
    simp only [Shape.addrs, List.nodup_cons, List.mem_cons, List.mem_append, not_or,
      List.nodup_append] at h hn hl
    obtain ⟨⟨hpl, hpr⟩, hndl, hndr, hdisj⟩ := h
    simp only [Shape.insert]
    split
    · simp only [Shape.addrs, List.nodup_cons, List.mem_append, not_or, List.nodup_append]
      refine ⟨⟨hpl, ?_⟩, hndl, ihr hndr hn.2.2 hl.2.2, ?_⟩
      · rw [Shape.mem_insert_addrs]
        rintro (h1 | h1 | h1)
        · exact hn.1 h1.symm
        · exact hl.1 h1.symm
        · exact hpr h1
      · intro q hq1 hq2
        rw [Shape.mem_insert_addrs] at hq2
        rcases hq2 with h1 | h1 | h1
        · exact hn.2.1 (h1 ▸ hq1)
        · exact hl.2.1 (h1 ▸ hq1)
        · exact hdisj hq1 h1
    · simp only [Shape.addrs, List.nodup_cons, List.mem_append, not_or, List.nodup_append]
      refine ⟨⟨?_, hpr⟩, ihl hndl hn.2.1 hl.2.1, hndr, ?_⟩
      · rw [Shape.mem_insert_addrs]
        rintro (h1 | h1 | h1)
        · exact hn.1 h1.symm
        · exact hl.1 h1.symm
        · exact hpl h1
      · intro q hq1 hq2
        rw [Shape.mem_insert_addrs] at hq1
        rcases hq1 with h1 | h1 | h1
        · exact hn.2.2 (h1 ▸ hq2)
        · exact hl.2.2 (h1 ▸ hq2)
        · exact hdisj h1 hq2

theorem Shape.insert_leaves (s : State) (n leaf : Nat) (T : Shape) :
    (T.insert s n leaf).leaves.Perm (leaf :: T.leaves) := by
  induction T with
  | leaf p => exact List.Perm.refl _
  | node p l r ihl ihr =>
    simp only [Shape.insert]
    split
    · simp only [Shape.leaves]
      exact (List.Perm.append_left _ ihr).trans List.perm_middle
    · simp only [Shape.leaves]
      exact List.Perm.append_right _ ihl

theorem Linked_congr {s s1 : State} : ∀ (T : Shape),
    (∀ q ∈ T.addrs, (s1.nodes q).obj = (s.nodes q).obj ∧ (s1.nodes q).a = (s.nodes q).a ∧
      (s1.nodes q).b = (s.nodes q).b) → Linked s T → Linked s1 T := by
  intro T
  induction T with
  | leaf p =>
    intro h hl
    have := (h p (by simp [Shape.addrs])).1
    simpa [Linked, Node.IsLeaf, this] using hl
  | node p l r ihl ihr =>
    intro h hl
    obtain ⟨h1, h2, h3, h4, h5⟩ := hl
    obtain ⟨e1, e2, e3⟩ := h p (by simp [Shape.addrs])
    refine ⟨by simpa [Node.IsLeaf, e1] using h1, by rw [e2]; exact h2, by rw [e3]; exact h3,
      ihl (fun q hq => h q (by simp [Shape.addrs, hq])) h4,
      ihr (fun q hq => h q (by simp [Shape.addrs, hq])) h5⟩

theorem Boxed_congr {s s1 : State} : ∀ (T : Shape),
    (∀ q ∈ T.addrs, (s1.nodes q).bb = (s.nodes q).bb) → Boxed s T → Boxed s1 T := by
  intro T
  induction T with
  | leaf p =>
    intro h hb
    have := h p (by simp [Shape.addrs])
    simpa [Boxed, this] using hb
  | node p l r ihl ihr =>
    intro h hb
    obtain ⟨⟨x, y, h1, h2, h3⟩, h4, h5⟩ := hb
    refine ⟨⟨x, y, ?_, ?_, ?_⟩, ihl (fun q hq => h q (by simp [Shape.addrs, hq])) h4,
      ihr (fun q hq => h q (by simp [Shape.addrs, hq])) h5⟩
    · rw [h l.root (by simp [Shape.addrs, Shape.root_mem])]; exact h1
    · rw [h r.root (by simp [Shape.addrs, Shape.root_mem])]; exact h2
    · rw [h p (by simp [Shape.addrs])]; exact h3

theorem Parented_congr {s s1 : State} : ∀ (T : Shape),
    (∀ q ∈ T.addrs, q ≠ T.root → (s1.nodes q).parent = (s.nodes q).parent) → T.addrs.Nodup →
    Parented s T → Parented s1 T := by
  intro T
  induction T with
  | leaf p => intro _ _ _; trivial
  | node p l r ihl ihr =>
    intro h hnd hp
    obtain ⟨h1, h2, h3, h4⟩ := hp
    simp only [Shape.addrs, List.nodup_cons, List.mem_append, not_or, List.nodup_append] at hnd
    obtain ⟨⟨hpl, hpr⟩, hndl, hndr, hdisj⟩ := hnd
    have hlroot : l.root ≠ p := fun e => hpl (e ▸ l.root_mem)
    have hrroot : r.root ≠ p := fun e => hpr (e ▸ r.root_mem)
    refine ⟨?_, ?_, ihl (fun q hq _ => h q (by simp [Shape.addrs, hq]) ?_) hndl h3,
      ihr (fun q hq _ => h q (by simp [Shape.addrs, hq]) ?_) hndr h4⟩
    · rw [h l.root (by simp [Shape.addrs, Shape.root_mem]) hlroot]; exact h1
    · rw [h r.root (by simp [Shape.addrs, Shape.root_mem]) hrroot]; exact h2
    · intro e
      have e1 : q = p := e
      exact hpl (e1 ▸ hq)
    · intro e
      have e1 : q = p := e
      exact hpr (e1 ▸ hq)

theorem Boxed_root {s : State} {T : Shape} (h : Boxed s T) :
    ∃ x, (s.nodes T.root).bb = some x := by
  cases T with
  | leaf p => exact Option.ne_none_iff_exists'.mp h
  | node p l r => obtain ⟨⟨x, y, -, -, h3⟩, -, -⟩ := h; exact ⟨_, h3⟩

theorem boxOf_eq {s : State} {p : Nat} {x : BB} (h : (s.nodes p).bb = some x) : boxOf s p = x := by
  simp [boxOf, h]

theorem NodeFromPool_rest {s s1 : State} {t : Nat} {r : Option Nat}
    (h : NodeFromPool s t = .ok (s1, r)) : SameRest s s1 := by
  unfold NodeFromPool at h
  cases hp : (s.trees t).pooledNodes with
  | some node =>
    rw [hp] at h
    simp only [pure, Except.pure, Except.ok.injEq, Prod.mk.injEq] at h
    rw [← h.1]; exact ⟨rfl, rfl, rfl, rfl, rfl, rfl⟩
  | none =>
    rw [hp] at h
    obtain ⟨s2, h1, -, -, -, h5⟩ := refillNodes_ok (t := t) 32 s
    simp only [h1, bind, Except.bind, pure, Except.pure, Except.ok.injEq, Prod.mk.injEq] at h
    rw [← h.1]; exact h5

/-- The step of `SubtreeInsert` after the recursive call: the result `r` of
the call becomes a child of `p` and the box of `p` grows by the box of the leaf. -/
theorem SubtreeInsert_node (t : Nat) {leaf : Nat} (fuel : Nat) {s : State} {p a b : Nat}
    {abb bbb lbb : BB}
    (hleafp : (s.nodes p).IsLeaf = false) (ha : (s.nodes p).a = some a)
    (hb : (s.nodes p).b = some b) (hab : (s.nodes a).bb = some abb)
    (hbb : (s.nodes b).bb = some bbb) (hlb : (s.nodes leaf).bb = some lbb) :
    SubtreeInsert t leaf (fuel + 1) s (some p) =
      (if s.arith.lt (insertCosts s.arith abb bbb lbb).2 (insertCosts s.arith abb bbb lbb).1
      then do
        let (s1, r) ← SubtreeInsert t leaf fuel s (some b)
        let s2 ← NodeSetB s1 (some p) (some r)
        let bb ← mergeBB (s2.nodes p).bb (s2.nodes leaf).bb
        pure (s2.setNode p (fun x => { x with bb := some bb }), p)
      else do
        let (s1, r) ← SubtreeInsert t leaf fuel s (some a)
        let s2 ← NodeSetA s1 (some p) (some r)
        let bb ← mergeBB (s2.nodes p).bb (s2.nodes leaf).bb
        pure (s2.setNode p (fun x => { x with bb := some bb }), p)) := by
  conv_lhs => unfold SubtreeInsert
  simp only [hleafp, Bool.false_eq_true, if_false, ha, hb, hab, hbb, hlb, deref, bind,
    Except.bind, pure, Except.pure]

theorem NodeSetB_ok (s : State) (p r : Nat) :
    NodeSetB s (some p) (some r) = .ok ((s.setNode p (fun x => { x with b := some r })).setNode r
      (fun x => { x with parent := some p })) := rfl

theorem NodeSetA_ok (s : State) (p r : Nat) :
    NodeSetA s (some p) (some r) = .ok ((s.setNode p (fun x => { x with a := some r })).setNode r
      (fun x => { x with parent := some p })) := rfl

theorem Shape.insert_root_ne (s : State) {n leaf : Nat} (T : Shape) (hnl : n ≠ leaf)
    (hl : leaf ∉ T.addrs) : (T.insert s n leaf).root ≠ leaf := by
  rw [Shape.insert_root]
  cases T with
  | leaf _ => exact hnl
  | node q _ _ =>
    intro e
    have e1 : q = leaf := e
    exact hl (by simp [Shape.addrs, e1])

/-- What `SubtreeInsert` does on a tree `T` of the heap when the pool hands
out a node `n` outside the tree: it builds `T.insert`. -/
theorem SubtreeInsert_spec {s s1 : State} {t n leaf : Nat} {lb : BB}
    (hpool : NodeFromPool s t = .ok (s1, some n)) (hnl : n ≠ leaf)
    (hleaf : (s.nodes leaf).IsLeaf = true) (hlb : (s.nodes leaf).bb = some lb)
    (hkl : s1.nodes leaf = s.nodes leaf) :
    ∀ (T : Shape) (fuel : Nat), T.depth ≤ fuel → Linked s T → Boxed s T → T.addrs.Nodup →
      leaf ∉ T.addrs → n ∉ T.addrs → (∀ q ∈ T.addrs, s1.nodes q = s.nodes q) →
      ∃ s2, SubtreeInsert t leaf fuel s (some T.root) = .ok (s2, (T.insert s n leaf).root) ∧
        Linked s2 (T.insert s n leaf) ∧ Boxed s2 (T.insert s n leaf) ∧
        (Parented s T → Parented s2 (T.insert s n leaf)) ∧
        (s2.nodes (T.insert s n leaf).root).bb = some ((boxOf s T.root).Merge lb) ∧
        (∀ q, q ∉ T.addrs → q ≠ leaf → q ≠ n → s2.nodes q = s1.nodes q) ∧
        (s2.nodes leaf).obj = (s.nodes leaf).obj ∧ (s2.nodes leaf).bb = (s.nodes leaf).bb ∧
        (∀ q ∈ T.addrs, (s2.nodes q).obj = (s.nodes q).obj ∧
          (s2.nodes q).stamp = (s.nodes q).stamp ∧ (s2.nodes q).pairs = (s.nodes q).pairs) ∧
        s2.trees = s1.trees ∧ SameRest s s2 := by
  intro T
  induction T with
  | leaf p =>
    intro fuel hfuel hlink hbox _ hlT hnT hkeep
    obtain ⟨f, rfl⟩ : ∃ f, fuel = f + 1 := ⟨fuel - 1, by simp [Shape.depth] at hfuel; omega⟩
    simp only [Shape.addrs, List.mem_singleton] at hlT hnT
    have hkp : s1.nodes p = s.nodes p := hkeep p (by simp [Shape.addrs])
    obtain ⟨pb, hpb⟩ := Option.ne_none_iff_exists'.mp hbox
    have hNN := NewNode_of leaf p lb pb hpool (by rw [hkl]; exact hlb) (by rw [hkp]; exact hpb)
      hnl hnT
    have hlp : leaf ≠ p := hlT
    have hpn : p ≠ n := fun e => hnT e.symm
    have hln : leaf ≠ n := fun e => hnl e.symm
    obtain ⟨sN, hsN⟩ : ∃ sN : State, sN = ((s1.setNode n (fun x =>
        ⟨none, some (lb.Merge pb), none, some leaf, some p, x.stamp, x.pairs⟩)).setNode leaf
        (fun x => { x with parent := some n })).setNode p
        (fun x => { x with parent := some n }) := ⟨_, rfl⟩
    rw [← hsN] at hNN
    have hNp : sN.nodes p = { s.nodes p with parent := some n } := by
      rw [hsN]; simp [hlp.symm, hpn, hkp]
    have hNl : sN.nodes leaf = { s.nodes leaf with parent := some n } := by
      rw [hsN]; simp [hlp, hln, hkl]
    have hNn : sN.nodes n = ⟨none, some (lb.Merge pb), none, some leaf, some p,
        (s1.nodes n).stamp, (s1.nodes n).pairs⟩ := by
      rw [hsN]; simp [hpn.symm, hln.symm]
    have hNq : ∀ q, q ≠ p → q ≠ leaf → q ≠ n → sN.nodes q = s1.nodes q := by
      intro q h1 h2 h3; rw [hsN]; simp [h1, h2, h3]
    have hlf : (s.nodes p).IsLeaf = true := hlink
    refine ⟨sN, ?_, ?_, ?_, ?_, ?_, ?_, ?_, ?_, ?_, ?_, ?_⟩
    · show SubtreeInsert t leaf (f + 1) s (some p) = _
      rw [SubtreeInsert_leaf t leaf f s p hlink]; exact hNN
    · refine ⟨?_, ?_, ?_, ?_, ?_⟩
      · rw [hNn]; rfl
      · rw [hNn]; rfl
      · rw [hNn]; rfl
      · show (sN.nodes leaf).IsLeaf = true
        rw [hNl]; exact hleaf
      · show (sN.nodes p).IsLeaf = true
        rw [hNp]; exact hlf
    · refine ⟨⟨lb, pb, ?_, ?_, ?_⟩, ?_, ?_⟩
      · show (sN.nodes leaf).bb = some lb
        rw [hNl]; exact hlb
      · show (sN.nodes p).bb = some pb
        rw [hNp]; exact hpb
      · rw [hNn]
      · show (sN.nodes leaf).bb ≠ none
        rw [hNl]; simp [hlb]
      · show (sN.nodes p).bb ≠ none
        rw [hNp]; simp [hpb]
    · intro _
      refine ⟨?_, ?_, trivial, trivial⟩
      · show (sN.nodes leaf).parent = some n
        rw [hNl]
      · show (sN.nodes p).parent = some n
        rw [hNp]
    · show (sN.nodes n).bb = some ((boxOf s p).Merge lb)
      rw [hNn, boxOf_eq hpb, BB.merge_comm]
    · intro q hq1 hq2 hq3
      have : q ≠ p := by simpa [Shape.addrs] using hq1
      exact hNq q this hq2 hq3
    · rw [hNl]
    · rw [hNl]
    · intro q hq
      have : q = p := by simpa [Shape.addrs] using hq
      subst this
      rw [hNp]; exact ⟨rfl, rfl, rfl⟩
    · rw [hsN]; rfl
    · have := NodeFromPool_rest hpool
      rw [hsN]; exact this
  | node p l r ihl ihr =>
    intro fuel hfuel hlink hbox hnd hlT hnT hkeep
    obtain ⟨f, rfl⟩ : ∃ f, fuel = f + 1 := ⟨fuel - 1, by simp [Shape.depth] at hfuel; omega⟩
    have hfl : l.depth ≤ f := by simp [Shape.depth] at hfuel; omega
    have hfr : r.depth ≤ f := by simp [Shape.depth] at hfuel; omega
    obtain ⟨hp1, hp2, hp3, hll, hlr⟩ := hlink
    obtain ⟨⟨x, y, hx, hy, hpbb⟩, hbl, hbr⟩ := hbox
    simp only [Shape.addrs, List.nodup_cons, List.mem_cons, List.mem_append, not_or,
      List.nodup_append] at hnd hlT hnT
    obtain ⟨⟨hpl, hpr⟩, hndl, hndr, hdisj⟩ := hnd
    have hkeepl : ∀ q ∈ l.addrs, s1.nodes q = s.nodes q :=
      fun q hq => hkeep q (by simp [Shape.addrs, hq])
    have hkeepr : ∀ q ∈ r.addrs, s1.nodes q = s.nodes q :=
      fun q hq => hkeep q (by simp [Shape.addrs, hq])
    have hkp : s1.nodes p = s.nodes p := hkeep p (by simp [Shape.addrs])
    have hstep := SubtreeInsert_node t f hp1 hp2 hp3 hx hy hlb
    have hbx : boxOf s l.root = x := boxOf_eq hx
    have hby : boxOf s r.root = y := boxOf_eq hy
    have hbl2 : boxOf s leaf = lb := boxOf_eq hlb
    have hbp : boxOf s p = x.Merge y := boxOf_eq hpbb
    have hpleaf : p ≠ leaf := fun e => hlT.1 e.symm
    have hpn : p ≠ n := fun e => hnT.1 e.symm
    by_cases hc : s.arith.lt (insertCosts s.arith x y lb).2 (insertCosts s.arith x y lb).1 = true
    · -- the leaf goes below the child `b`
      have hT : (Shape.node p l r).insert s n leaf = Shape.node p l (r.insert s n leaf) := by
        simp [Shape.insert, hbx, hby, hbl2, hc]
      obtain ⟨s2, h1, h2, h3, h4, h5, h6, h7, h8, h9, h10, h11⟩ :=
        ihr f hfr hlr hbr hndr hlT.2.2 hnT.2.2 hkeepr
      rw [hT]
      obtain ⟨c, hcdef⟩ : ∃ c, c = (r.insert s n leaf).root := ⟨_, rfl⟩
      have hroots : c ∈ (r.insert s n leaf).addrs := hcdef ▸ Shape.root_mem _
      have hmemR : ∀ q, q ∈ (r.insert s n leaf).addrs → q ≠ p ∧ q ∉ l.addrs := by
        intro q hq
        rw [Shape.mem_insert_addrs] at hq
        rcases hq with e1 | e1 | e1
        · exact ⟨fun e => hpn (e ▸ e1), fun h => hnT.2.1 (e1 ▸ h)⟩
        · exact ⟨fun e => hpleaf (e ▸ e1), fun h => hlT.2.1 (e1 ▸ h)⟩
        · exact ⟨fun e => hpr (e ▸ e1), fun h => hdisj h e1⟩
      have hcp : c ≠ p := (hmemR c hroots).1
      have hcleaf : c ≠ leaf := by
        rw [hcdef]; exact Shape.insert_root_ne s r hnl hlT.2.2
      have hs2p : s2.nodes p = s.nodes p := by
        rw [h6 p hpr hpleaf hpn, hkp]
      have hs2l : ∀ q ∈ l.addrs, s2.nodes q = s.nodes q := by
        intro q hq
        rw [h6 q (fun h => hdisj hq h) (fun e => hlT.2.1 (e ▸ hq)) (fun e => hnT.2.1 (e ▸ hq)),
          hkeepl q hq]
      obtain ⟨sN, hsN⟩ : ∃ sN : State, sN = ((s2.setNode p (fun x => { x with b := some c })).setNode
          c (fun x => { x with parent := some p })).setNode p
          (fun z => { z with bb := some ((x.Merge y).Merge lb) }) := ⟨_, rfl⟩
      have hNp : sN.nodes p = { s.nodes p with b := some c, bb := some ((x.Merge y).Merge lb) } := by
        rw [hsN]; simp [hcp.symm, hs2p]
      have hNc : sN.nodes c = { s2.nodes c with parent := some p } := by
        rw [hsN]; simp [hcp]
      have hNq : ∀ q, q ≠ p → q ≠ c → sN.nodes q = s2.nodes q := by
        intro q e1 e2; rw [hsN]; simp [e1, e2]
      have hNl : ∀ q ∈ l.addrs, sN.nodes q = s.nodes q := by
        intro q hq
        rw [hNq q (fun e => hpl (e ▸ hq)) (fun e => (hmemR c hroots).2 (e ▸ hq)), hs2l q hq]
      have hNr : ∀ q ∈ (r.insert s n leaf).addrs, (sN.nodes q).obj = (s2.nodes q).obj ∧
          (sN.nodes q).a = (s2.nodes q).a ∧ (sN.nodes q).b = (s2.nodes q).b ∧
          (sN.nodes q).bb = (s2.nodes q).bb ∧ (sN.nodes q).stamp = (s2.nodes q).stamp ∧
          (sN.nodes q).pairs = (s2.nodes q).pairs ∧
          (q ≠ c → (sN.nodes q).parent = (s2.nodes q).parent) := by
        intro q hq
        by_cases e2 : q = c
        · subst e2; rw [hNc]; exact ⟨rfl, rfl, rfl, rfl, rfl, rfl, fun h => absurd rfl h⟩
        · rw [hNq q (hmemR q hq).1 e2]; exact ⟨rfl, rfl, rfl, rfl, rfl, rfl, fun _ => rfl⟩
      refine ⟨sN, ?_, ?_, ?_, ?_, ?_, ?_, ?_, ?_, ?_, ?_, ?_⟩
      · show SubtreeInsert t leaf (f + 1) s (some p) = Except.ok (sN, p)
        rw [hstep, if_pos hc]
        simp only [h1, bind, Except.bind, NodeSetB_ok, mergeBB, ← hcdef,
          setNode_nodes, hcp, hcp.symm, hpleaf, hpleaf.symm, hcleaf.symm, if_false, if_true,
          hs2p, hpbb, h8, hlb, deref, pure, Except.pure]
        rw [hsN]
      · refine ⟨?_, ?_, ?_, ?_, ?_⟩
        · rw [hNp]; exact hp1
        · rw [hNp]; exact hp2
        · rw [hNp, hcdef]
        · exact Linked_congr l (fun q hq => by rw [hNl q hq]; exact ⟨rfl, rfl, rfl⟩) hll
        · exact Linked_congr _ (fun q hq => ⟨(hNr q hq).1, (hNr q hq).2.1, (hNr q hq).2.2.1⟩) h2
      · refine ⟨⟨x, y.Merge lb, ?_, ?_, ?_⟩, ?_, ?_⟩
        · rw [hNl l.root l.root_mem]; exact hx
        · rw [← hcdef, (hNr c hroots).2.2.2.1, hcdef, h5, hby]
        · rw [hNp, BB.merge_assoc]
        · exact Boxed_congr l (fun q hq => by rw [hNl q hq]) hbl
        · exact Boxed_congr _ (fun q hq => (hNr q hq).2.2.2.1) h3
      · intro hpar
        obtain ⟨q1, q2, q3, q4⟩ := hpar
        refine ⟨?_, ?_, ?_, ?_⟩
        · rw [hNl l.root l.root_mem]; exact q1
        · rw [← hcdef, hNc]
        · exact Parented_congr l (fun q hq _ => by rw [hNl q hq]) hndl q3
        · exact Parented_congr _ (fun q hq hqr => (hNr q hq).2.2.2.2.2.2 (hcdef ▸ hqr))
            (Shape.insert_addrs_nodup s n leaf r hndr hnT.2.2 hlT.2.2 hnl) (h4 q4)
      · show (sN.nodes p).bb = some ((boxOf s p).Merge lb)
        rw [hNp, hbp]
      · intro q hq1 hq2 hq3
        simp only [Shape.addrs, List.mem_cons, List.mem_append, not_or] at hq1
        have e2 : q ≠ c := by
          intro e
          have := hroots
          rw [← e, Shape.mem_insert_addrs] at this
          rcases this with e1 | e1 | e1
          · exact hq3 e1
          · exact hq2 e1
          · exact hq1.2.2 e1
        rw [hNq q hq1.1 e2, h6 q hq1.2.2 hq2 hq3]
      · rw [hNq leaf hpleaf.symm hcleaf.symm, h7]
      · rw [hNq leaf hpleaf.symm hcleaf.symm, h8]
      · intro q hq
        simp only [Shape.addrs, List.mem_cons, List.mem_append] at hq
        rcases hq with h | h | h
        · subst h; rw [hNp]; exact ⟨rfl, rfl, rfl⟩
        · rw [hNl q h]; exact ⟨rfl, rfl, rfl⟩
        · have hq2 : q ∈ (r.insert s n leaf).addrs := by
            rw [Shape.mem_insert_addrs]; exact Or.inr (Or.inr h)
          have := hNr q hq2
          rw [this.1, this.2.2.2.2.1, this.2.2.2.2.2.1]
          exact h9 q h
      · rw [hsN]; simpa using h10
      · rw [hsN]; exact h11
    · -- the leaf goes below the child `a`
      have hT : (Shape.node p l r).insert s n leaf = Shape.node p (l.insert s n leaf) r := by
        simp [Shape.insert, hbx, hby, hbl2, hc]
      obtain ⟨s2, h1, h2, h3, h4, h5, h6, h7, h8, h9, h10, h11⟩ :=
        ihl f hfl hll hbl hndl hlT.2.1 hnT.2.1 hkeepl
      rw [hT]
      obtain ⟨c, hcdef⟩ : ∃ c, c = (l.insert s n leaf).root := ⟨_, rfl⟩
      have hroots : c ∈ (l.insert s n leaf).addrs := hcdef ▸ Shape.root_mem _
      have hmemL : ∀ q, q ∈ (l.insert s n leaf).addrs → q ≠ p ∧ q ∉ r.addrs := by
        intro q hq
        rw [Shape.mem_insert_addrs] at hq
        rcases hq with e1 | e1 | e1
        · exact ⟨fun e => hpn (e ▸ e1), fun h => hnT.2.2 (e1 ▸ h)⟩
        · exact ⟨fun e => hpleaf (e ▸ e1), fun h => hlT.2.2 (e1 ▸ h)⟩
        · exact ⟨fun e => hpl (e ▸ e1), fun h => hdisj e1 h⟩
      have hcp : c ≠ p := (hmemL c hroots).1
      have hcleaf : c ≠ leaf := by
        rw [hcdef]; exact Shape.insert_root_ne s l hnl hlT.2.1
      have hs2p : s2.nodes p = s.nodes p := by
        rw [h6 p hpl hpleaf hpn, hkp]
      have hs2r : ∀ q ∈ r.addrs, s2.nodes q = s.nodes q := by
        intro q hq
        rw [h6 q (fun h => hdisj h hq) (fun e => hlT.2.2 (e ▸ hq)) (fun e => hnT.2.2 (e ▸ hq)),
          hkeepr q hq]
      obtain ⟨sN, hsN⟩ : ∃ sN : State, sN = ((s2.setNode p (fun x => { x with a := some c })).setNode
          c (fun x => { x with parent := some p })).setNode p
          (fun z => { z with bb := some ((x.Merge y).Merge lb) }) := ⟨_, rfl⟩
      have hNp : sN.nodes p = { s.nodes p with a := some c, bb := some ((x.Merge y).Merge lb) } := by
        rw [hsN]; simp [hcp.symm, hs2p]
      have hNc : sN.nodes c = { s2.nodes c with parent := some p } := by
        rw [hsN]; simp [hcp]
      have hNq : ∀ q, q ≠ p → q ≠ c → sN.nodes q = s2.nodes q := by
        intro q e1 e2; rw [hsN]; simp [e1, e2]
      have hNr : ∀ q ∈ r.addrs, sN.nodes q = s.nodes q := by
        intro q hq
        rw [hNq q (fun e => hpr (e ▸ hq)) (fun e => (hmemL c hroots).2 (e ▸ hq)), hs2r q hq]
      have hNl : ∀ q ∈ (l.insert s n leaf).addrs, (sN.nodes q).obj = (s2.nodes q).obj ∧
          (sN.nodes q).a = (s2.nodes q).a ∧ (sN.nodes q).b = (s2.nodes q).b ∧
          (sN.nodes q).bb = (s2.nodes q).bb ∧ (sN.nodes q).stamp = (s2.nodes q).stamp ∧
          (sN.nodes q).pairs = (s2.nodes q).pairs ∧
          (q ≠ c → (sN.nodes q).parent = (s2.nodes q).parent) := by
        intro q hq
        by_cases e2 : q = c
        · subst e2; rw [hNc]; exact ⟨rfl, rfl, rfl, rfl, rfl, rfl, fun h => absurd rfl h⟩
        · rw [hNq q (hmemL q hq).1 e2]; exact ⟨rfl, rfl, rfl, rfl, rfl, rfl, fun _ => rfl⟩
      refine ⟨sN, ?_, ?_, ?_, ?_, ?_, ?_, ?_, ?_, ?_, ?_, ?_⟩
      · show SubtreeInsert t leaf (f + 1) s (some p) = Except.ok (sN, p)
        rw [hstep, if_neg hc]
        simp only [h1, bind, Except.bind, NodeSetA_ok, mergeBB, ← hcdef,
          setNode_nodes, hcp, hcp.symm, hpleaf, hpleaf.symm, hcleaf.symm, if_false, if_true,
          hs2p, hpbb, h8, hlb, deref, pure, Except.pure]
        rw [hsN]
      · refine ⟨?_, ?_, ?_, ?_, ?_⟩
        · rw [hNp]; exact hp1
        · rw [hNp, hcdef]
        · rw [hNp]; exact hp3
        · exact Linked_congr _ (fun q hq => ⟨(hNl q hq).1, (hNl q hq).2.1, (hNl q hq).2.2.1⟩) h2
        · exact Linked_congr r (fun q hq => by rw [hNr q hq]; exact ⟨rfl, rfl, rfl⟩) hlr
      · refine ⟨⟨x.Merge lb, y, ?_, ?_, ?_⟩, ?_, ?_⟩
        · rw [← hcdef, (hNl c hroots).2.2.2.1, hcdef, h5, hbx]
        · rw [hNr r.root r.root_mem]; exact hy
        · rw [hNp, BB.merge_assoc, BB.merge_assoc, BB.merge_comm y lb]
        · exact Boxed_congr _ (fun q hq => (hNl q hq).2.2.2.1) h3
        · exact Boxed_congr r (fun q hq => by rw [hNr q hq]) hbr
      · intro hpar
        obtain ⟨q1, q2, q3, q4⟩ := hpar
        refine ⟨?_, ?_, ?_, ?_⟩
        · rw [← hcdef, hNc]
        · rw [hNr r.root r.root_mem]; exact q2
        · exact Parented_congr _ (fun q hq hqr => (hNl q hq).2.2.2.2.2.2 (hcdef ▸ hqr))
            (Shape.insert_addrs_nodup s n leaf l hndl hnT.2.1 hlT.2.1 hnl) (h4 q3)
        · exact Parented_congr r (fun q hq _ => by rw [hNr q hq]) hndr q4
      · show (sN.nodes p).bb = some ((boxOf s p).Merge lb)
        rw [hNp, hbp]
      · intro q hq1 hq2 hq3
        simp only [Shape.addrs, List.mem_cons, List.mem_append, not_or] at hq1
        have e2 : q ≠ c := by
          intro e
          have := hroots
          rw [← e, Shape.mem_insert_addrs] at this
          rcases this with e1 | e1 | e1
          · exact hq3 e1
          · exact hq2 e1
          · exact hq1.2.1 e1
        rw [hNq q hq1.1 e2, h6 q hq1.2.1 hq2 hq3]
      · rw [hNq leaf hpleaf.symm hcleaf.symm, h7]
      · rw [hNq leaf hpleaf.symm hcleaf.symm, h8]
      · intro q hq
        simp only [Shape.addrs, List.mem_cons, List.mem_append] at hq
        rcases hq with h | h | h
        · subst h; rw [hNp]; exact ⟨rfl, rfl, rfl⟩
        · have hq2 : q ∈ (l.insert s n leaf).addrs := by
            rw [Shape.mem_insert_addrs]; exact Or.inr (Or.inr h)
          have := hNl q hq2
          rw [this.1, this.2.2.2.2.1, this.2.2.2.2.2.1]
          exact h9 q h
        · rw [hNr q h]; exact ⟨rfl, rfl, rfl⟩
      · rw [hsN]; simpa using h10
      · rw [hsN]; exact h11

/-- C5: on a tree `T` of the heap in which every internal box is the union of
the boxes of its children, with a boxed leaf outside `T` and a pool that hands
out a node `n` outside `T` and other than the leaf (leaving both untouched),
`SubtreeInsert` returns the root of the tree `T.insert`, in which every
internal box is again the union of the boxes of its children; on an absent
subtree it returns the leaf. -/
theorem subtreeInsert_keeps_boxes (s s1 : State) (t n leaf fuel : Nat) (T : Shape)
    (hlink : Linked s T) (hnd : T.addrs.Nodup) (hbox : Boxed s T)
    (hleaf : (s.nodes leaf).IsLeaf = true) (hlb : (s.nodes leaf).bb ≠ none)
    (hlT : leaf ∉ T.addrs) (hpool : NodeFromPool s t = .ok (s1, some n)) (hnT : n ∉ T.addrs)
    (hnl : n ≠ leaf) (hkeep : ∀ q, q ∈ leaf :: T.addrs → s1.nodes q = s.nodes q)
    (hfuel : T.depth ≤ fuel) :
    (SubtreeInsert t leaf fuel s none = .ok (s, leaf) ∧ Boxed s (Shape.leaf leaf)) ∧
    ∃ s2, SubtreeInsert t leaf fuel s (some T.root) = .ok (s2, (T.insert s n leaf).root) ∧
      Linked s2 (T.insert s n leaf) ∧ (T.insert s n leaf).addrs.Nodup ∧
      Boxed s2 (T.insert s n leaf) := by
  obtain ⟨lb, hlb1⟩ := Option.ne_none_iff_exists'.mp hlb
  obtain ⟨s2, h1, h2, h3, -⟩ := SubtreeInsert_spec hpool hnl hleaf hlb1
    (hkeep leaf (List.mem_cons_self _ _)) T fuel hfuel hlink hbox hnd hlT hnT
    (fun q hq => hkeep q (List.mem_cons_of_mem _ hq))
  refine ⟨⟨?_, hlb⟩, s2, h1, h2, Shape.insert_addrs_nodup s n leaf T hnd hnT hlT hnl, h3⟩
  cases fuel <;> rfl

/-- C5 at a concrete heap: a fourth node joins a tree of two leaves. -/
theorem subtreeInsert_keeps_boxes_witness :
    (SubtreeInsert 0 3 2 insertDemo none = .ok (insertDemo, 3) ∧
      Boxed insertDemo (Shape.leaf 3)) ∧
    ∃ s2, SubtreeInsert 0 3 2 insertDemo (some insertDemoTree.root) =
        .ok (s2, (insertDemoTree.insert insertDemo 4 3).root) ∧
      Linked s2 (insertDemoTree.insert insertDemo 4 3) ∧
      (insertDemoTree.insert insertDemo 4 3).addrs.Nodup ∧
      Boxed s2 (insertDemoTree.insert insertDemo 4 3) :=
  subtreeInsert_keeps_boxes insertDemo
    (insertDemo.setTree 0 (fun tr => { tr with pooledNodes := (insertDemo.nodes 4).parent }))
    0 4 3 2 insertDemoTree ⟨rfl, rfl, rfl, rfl, rfl⟩ (by decide)
    ⟨⟨_, _, rfl, rfl, rfl⟩, by simp [Boxed, insertDemo], by simp [Boxed, insertDemo]⟩
    rfl (by simp [insertDemo]) (by decide) rfl (by decide) (by decide) (fun _ _ => rfl)
    (by decide)

/-- C7: on a well-formed tree `T` of the heap (children linked, parent links
pointing back, boxes in place) with a boxed leaf outside `T` and a pool that
hands out a node `n` outside `T` and other than the leaf, `SubtreeInsert`
returns the root of a tree whose leaves are those of `T` and the new leaf and
in which every node is a leaf or an internal node with two children that
point back to it; on an absent subtree the result is the leaf, and on a
single leaf `p` it is the new node `n` over the new leaf and `p`. -/
theorem subtreeInsert_adds_leaf (s s1 : State) (t n leaf fuel : Nat) (T : Shape)
    (hlink : Linked s T) (hpar : Parented s T) (hnd : T.addrs.Nodup) (hbox : Boxed s T)
    (hleaf : (s.nodes leaf).IsLeaf = true) (hlb : (s.nodes leaf).bb ≠ none)
    (hlT : leaf ∉ T.addrs) (hpool : NodeFromPool s t = .ok (s1, some n)) (hnT : n ∉ T.addrs)
    (hnl : n ≠ leaf) (hkeep : ∀ q, q ∈ leaf :: T.addrs → s1.nodes q = s.nodes q)
    (hfuel : T.depth ≤ fuel) :
    SubtreeInsert t leaf fuel s none = .ok (s, leaf) ∧
    (∀ p, T = Shape.leaf p → T.insert s n leaf = Shape.node n (Shape.leaf leaf) (Shape.leaf p)) ∧
    ∃ s2, SubtreeInsert t leaf fuel s (some T.root) = .ok (s2, (T.insert s n leaf).root) ∧
      Linked s2 (T.insert s n leaf) ∧ Parented s2 (T.insert s n leaf) ∧
      (T.insert s n leaf).addrs.Nodup ∧ (T.insert s n leaf).leaves.Perm (leaf :: T.leaves) := by
  obtain ⟨lb, hlb1⟩ := Option.ne_none_iff_exists'.mp hlb
  obtain ⟨s2, h1, h2, -, h4, -⟩ := SubtreeInsert_spec hpool hnl hleaf hlb1
    (hkeep leaf (List.mem_cons_self _ _)) T fuel hfuel hlink hbox hnd hlT hnT
    (fun q hq => hkeep q (List.mem_cons_of_mem _ hq))
  refine ⟨?_, ?_, s2, h1, h2, h4 hpar, Shape.insert_addrs_nodup s n leaf T hnd hnT hlT hnl,
    Shape.insert_leaves s n leaf T⟩
  · cases fuel <;> rfl
  · intro p hp; subst hp; rfl

/-- C7 at a concrete heap: a fourth node joins a tree of two leaves. -/
theorem subtreeInsert_adds_leaf_witness :
    SubtreeInsert 0 3 2 insertDemo none = .ok (insertDemo, 3) ∧
    (∀ p, insertDemoTree = Shape.leaf p →
      insertDemoTree.insert insertDemo 4 3 = Shape.node 4 (Shape.leaf 3) (Shape.leaf p)) ∧
    ∃ s2, SubtreeInsert 0 3 2 insertDemo (some insertDemoTree.root) =
        .ok (s2, (insertDemoTree.insert insertDemo 4 3).root) ∧
      Linked s2 (insertDemoTree.insert insertDemo 4 3) ∧
      Parented s2 (insertDemoTree.insert insertDemo 4 3) ∧
      (insertDemoTree.insert insertDemo 4 3).addrs.Nodup ∧
      (insertDemoTree.insert insertDemo 4 3).leaves.Perm (3 :: insertDemoTree.leaves) :=
  subtreeInsert_adds_leaf insertDemo
    (insertDemo.setTree 0 (fun tr => { tr with pooledNodes := (insertDemo.nodes 4).parent }))
    0 4 3 2 insertDemoTree ⟨rfl, rfl, rfl, rfl, rfl⟩ ⟨rfl, rfl, trivial, trivial⟩ (by decide)
    ⟨⟨_, _, rfl, rfl, rfl⟩, by simp [Boxed, insertDemo], by simp [Boxed, insertDemo]⟩
    rfl (by simp [insertDemo]) (by decide) rfl (by decide) (by decide) (fun _ _ => rfl)
    (by decide)

theorem Frame.fill_root (f : Frame) (X : Shape) : (f.fill X).root = f.p := by
  unfold Frame.fill; split <;> rfl

theorem Linked_plug {s : State} : ∀ (ctx : List Frame) (X : Shape),
    Linked s (plug ctx X) ↔ Linked s X ∧ CtxLinked s ctx X.root := by
  intro ctx
  induction ctx with
  | nil => intro X; simp [plug, CtxLinked]
  | cons f rest ih =>
    intro X
    rw [plug, ih, Frame.fill_root]
    simp only [Frame.fill, CtxLinked]
    cases hf : f.left <;> simp [Linked] <;> tauto

theorem Parented_plug {s : State} : ∀ (ctx : List Frame) (X : Shape),
    (Parented s (plug ctx X) ∧ (s.nodes (plug ctx X).root).parent = none) ↔
      Parented s X ∧ CtxParented s ctx X.root := by
  intro ctx
  induction ctx with
  | nil => intro X; simp [plug, CtxParented]
  | cons f rest ih =>
    intro X
    rw [plug, ih, Frame.fill_root]
    simp only [Frame.fill, CtxParented]
    cases hf : f.left <;> simp [Parented] <;> tauto

theorem Boxed_plug {s : State} : ∀ (ctx : List Frame) (X : Shape),
    Boxed s (plug ctx X) ↔ Boxed s X ∧ CtxBoxed s ctx X.root := by
  intro ctx
  induction ctx with
  | nil => intro X; simp [plug, CtxBoxed]
  | cons f rest ih =>
    intro X
    rw [plug, ih, Frame.fill_root]
    simp only [Frame.fill, CtxBoxed]
    cases hf : f.left
    · simp only [Bool.false_eq_true, if_false, Boxed]
      constructor
      · rintro ⟨⟨⟨x, y, h1, h2, h3⟩, h4, h5⟩, h6⟩
        exact ⟨h5, ⟨y, x, h2, h1, h3⟩, h4, h6⟩
      · rintro ⟨h5, ⟨y, x, h2, h1, h3⟩, h4, h6⟩
        exact ⟨⟨⟨x, y, h1, h2, h3⟩, h4, h5⟩, h6⟩
    · simp only [if_true, Boxed]
      constructor
      · rintro ⟨⟨⟨x, y, h1, h2, h3⟩, h4, h5⟩, h6⟩
        exact ⟨h4, ⟨x, y, h1, h2, h3⟩, h5, h6⟩
      · rintro ⟨h4, ⟨x, y, h1, h2, h3⟩, h5, h6⟩
        exact ⟨⟨⟨x, y, h1, h2, h3⟩, h4, h5⟩, h6⟩

theorem addrs_plug : ∀ (ctx : List Frame) (X : Shape),
    (plug ctx X).addrs.Perm (X.addrs ++ ctxAddrs ctx) := by
  intro ctx
  induction ctx with
  | nil => intro X; simp [plug, ctxAddrs]
  | cons f rest ih =>
    intro X
    rw [plug]
    refine (ih _).trans ?_
    simp only [Frame.fill, ctxAddrs]
    cases hf : f.left
    · simp only [Bool.false_eq_true, if_false, Shape.addrs]
      have h1 : (f.p :: (f.sib.addrs ++ X.addrs)).Perm (X.addrs ++ f.p :: f.sib.addrs) := by
        refine List.Perm.trans ?_ List.perm_middle.symm
        exact List.Perm.cons _ List.perm_append_comm
      have := List.Perm.append_right (ctxAddrs rest) h1
      simpa [List.append_assoc] using this
    · simp only [if_true, Shape.addrs]
      have h1 : (f.p :: (X.addrs ++ f.sib.addrs)).Perm (X.addrs ++ f.p :: f.sib.addrs) :=
        List.perm_middle.symm
      have := List.Perm.append_right (ctxAddrs rest) h1
      simpa [List.append_assoc] using this

theorem leaves_plug : ∀ (ctx : List Frame) (X : Shape),
    (plug ctx X).leaves.Perm (X.leaves ++ ctxLeaves ctx) := by
  intro ctx
  induction ctx with
  | nil => intro X; simp [plug, ctxLeaves]
  | cons f rest ih =>
    intro X
    rw [plug]
    refine (ih _).trans ?_
    simp only [Frame.fill, ctxLeaves]
    cases hf : f.left
    · simp only [Bool.false_eq_true, if_false, Shape.leaves]
      have := List.Perm.append_right (ctxLeaves rest)
        (List.perm_append_comm : (f.sib.leaves ++ X.leaves).Perm (X.leaves ++ f.sib.leaves))
      simpa [List.append_assoc] using this
    · simp only [if_true, Shape.leaves, List.append_assoc]
      exact List.Perm.refl _

theorem plug_root_mem : ∀ (rest : List Frame) (f : Frame) (X : Shape),
    (plug (f :: rest) X).root ∈ ctxAddrs (f :: rest) := by
  intro rest
  induction rest with
  | nil => intro f X; simp [plug, Frame.fill_root, ctxAddrs]
  | cons g rest ih =>
    intro f X
    rw [plug]
    have := ih g (f.fill X)
    rw [ctxAddrs]
    exact List.mem_cons_of_mem _ (List.mem_append_right _ this)

theorem plug_root_irrel : ∀ (rest : List Frame) (f : Frame) (X Y : Shape),
    (plug (f :: rest) X).root = (plug (f :: rest) Y).root := by
  intro rest
  induction rest with
  | nil => intro f X Y; simp [plug, Frame.fill_root]
  | cons g rest ih =>
    intro f X Y
    rw [plug, plug]
    exact ih g _ _

/-- Every leaf of a tree sits at the end of a path from the root. -/
theorem exists_plug (l : Nat) : ∀ (T : Shape), l ∈ T.leaves →
    ∃ ctx, T = plug ctx (Shape.leaf l) := by
  intro T
  induction T with
  | leaf p =>
    intro h
    have : l = p := by simpa [Shape.leaves] using h
    subst this
    exact ⟨[], rfl⟩
  | node p a b iha ihb =>
    intro h
    simp only [Shape.leaves, List.mem_append] at h
    rcases h with h | h
    · obtain ⟨ctx, hctx⟩ := iha h
      refine ⟨ctx ++ [⟨p, true, b⟩], ?_⟩
      have : ∀ (c : List Frame) (X : Shape) (f : Frame), plug (c ++ [f]) X = f.fill (plug c X) := by
        intro c
        induction c with
        | nil => intro X f; rfl
        | cons g c ih => intro X f; simp only [List.cons_append, plug]; exact ih _ _
      rw [this, ← hctx]; rfl
    · obtain ⟨ctx, hctx⟩ := ihb h
      refine ⟨ctx ++ [⟨p, false, a⟩], ?_⟩
      have : ∀ (c : List Frame) (X : Shape) (f : Frame), plug (c ++ [f]) X = f.fill (plug c X) := by
        intro c
        induction c with
        | nil => intro X f; rfl
        | cons g c ih => intro X f; simp only [List.cons_append, plug]; exact ih _ _
      rw [this, ← hctx]; rfl

theorem ctxPath_sub : ∀ (ctx : List Frame) (q : Nat), q ∈ ctxPath ctx → q ∈ ctxAddrs ctx := by
  intro ctx
  induction ctx with
  | nil => intro q h; simp [ctxPath] at h
  | cons f rest ih =>
    intro q h
    simp only [ctxPath, List.mem_cons] at h
    simp only [ctxAddrs, List.mem_cons, List.mem_append]
    rcases h with h | h
    · exact Or.inl h
    · exact Or.inr (Or.inr (ih q h))

theorem sib_sub : ∀ (ctx : List Frame) (fr : Frame) (q : Nat), fr ∈ ctx → q ∈ fr.sib.addrs →
    q ∈ ctxAddrs ctx := by
  intro ctx
  induction ctx with
  | nil => intro fr q h; simp at h
  | cons f rest ih =>
    intro fr q h hq
    simp only [ctxAddrs, List.mem_cons, List.mem_append]
    rcases List.mem_cons.mp h with h | h
    · subst h; exact Or.inr (Or.inl hq)
    · exact Or.inr (Or.inr (ih fr q h hq))

theorem CtxLinked_congr {s s1 : State} : ∀ (ctx : List Frame) (x : Nat),
    (∀ q ∈ ctxAddrs ctx, (s1.nodes q).obj = (s.nodes q).obj ∧ (s1.nodes q).a = (s.nodes q).a ∧
      (s1.nodes q).b = (s.nodes q).b) → CtxLinked s ctx x → CtxLinked s1 ctx x := by
  intro ctx
  induction ctx with
  | nil => intro x _ _; trivial
  | cons f rest ih =>
    intro x h hl
    obtain ⟨h1, h2, h3, h4, h5⟩ := hl
    obtain ⟨e1, e2, e3⟩ := h f.p (by simp [ctxAddrs])
    refine ⟨by simpa [Node.IsLeaf, e1] using h1, by rw [e2]; exact h2, by rw [e3]; exact h3,
      Linked_congr f.sib (fun q hq => h q (by simp [ctxAddrs, hq])) h4,
      ih f.p (fun q hq => h q (by simp [ctxAddrs, hq])) h5⟩

theorem Parented_congr_all {s s1 : State} : ∀ (T : Shape),
    (∀ q ∈ T.addrs, (s1.nodes q).parent = (s.nodes q).parent) → Parented s T →
    Parented s1 T := by
  intro T
  induction T with
  | leaf p => intro _ _; trivial
  | node p l r ihl ihr =>
    intro h hp
    obtain ⟨h1, h2, h3, h4⟩ := hp
    refine ⟨?_, ?_, ihl (fun q hq => h q (by simp [Shape.addrs, hq])) h3,
      ihr (fun q hq => h q (by simp [Shape.addrs, hq])) h4⟩
    · rw [h l.root (by simp [Shape.addrs, Shape.root_mem])]; exact h1
    · rw [h r.root (by simp [Shape.addrs, Shape.root_mem])]; exact h2

theorem CtxParented_congr {s s1 : State} : ∀ (ctx : List Frame) (x : Nat),
    (∀ q ∈ x :: ctxAddrs ctx, (s1.nodes q).parent = (s.nodes q).parent) →
    CtxParented s ctx x → CtxParented s1 ctx x := by
  intro ctx
  induction ctx with
  | nil =>
    intro x h hp
    simp only [CtxParented] at hp ⊢
    rw [h x (by simp)]; exact hp
  | cons f rest ih =>
    intro x h hp
    obtain ⟨h1, h2, h3, h4⟩ := hp
    refine ⟨?_, ?_, Parented_congr_all f.sib (fun q hq => h q (by simp [ctxAddrs, hq])) h3,
      ih f.p (fun q hq => h q ?_) h4⟩
    · rw [h x (by simp)]; exact h1
    · rw [h f.sib.root (by simp [ctxAddrs, Shape.root_mem])]; exact h2
    · simp only [ctxAddrs, List.mem_cons, List.mem_append] at hq ⊢
      rcases hq with hq | hq
      · exact Or.inr (Or.inl hq)
      · exact Or.inr (Or.inr (Or.inr hq))

theorem CtxParented_start {s : State} {ctx : List Frame} {x : Nat} (h : CtxParented s ctx x) :
    (s.nodes x).parent = ctxStart ctx := by
  cases ctx with
  | nil => exact h
  | cons f rest => exact h.1

theorem loop_none (fuel : Nat) (s : State) : ReplaceChild.loop fuel s none = .ok s := by
  cases fuel <;> rfl

/-- The loop of `ReplaceChild` climbs a path whose nodes are linked and
parented: it ends, leaves the boxes on the path equal to the unions of the
boxes of the children, and writes nothing else. -/
theorem loop_ctx : ∀ (ctx : List Frame) (x : Nat) (s : State) (f : Nat) (bx : BB),
    CtxLinked s ctx x → CtxParented s ctx x → (∀ fr ∈ ctx, Boxed s fr.sib) →
    (s.nodes x).bb = some bx → (x :: ctxAddrs ctx).Nodup →
    ∃ s1, ReplaceChild.loop (f + ctx.length) s (ctxStart ctx) = .ok s1 ∧ CtxBoxed s1 ctx x ∧
      (∀ q, (s1.nodes q).obj = (s.nodes q).obj ∧ (s1.nodes q).a = (s.nodes q).a ∧
        (s1.nodes q).b = (s.nodes q).b ∧ (s1.nodes q).parent = (s.nodes q).parent) ∧
      (∀ q, q ∉ ctxPath ctx → s1.nodes q = s.nodes q) ∧ s1.trees = s.trees := by
  intro ctx
  induction ctx with
  | nil =>
    intro x s f bx _ _ _ _ _
    exact ⟨s, loop_none _ _, trivial, fun q => ⟨rfl, rfl, rfl, rfl⟩, fun q _ => rfl, rfl⟩
  | cons fr rest ih =>
    intro x s f bx hL hP hB hbx hnd
    obtain ⟨hleafp, ha, hb, hLsib, hLrest⟩ := hL
    obtain ⟨hpx, hpsib, hPsib, hPrest⟩ := hP
    obtain ⟨bs, hbs⟩ := Boxed_root (hB fr (List.mem_cons_self _ _))
    simp only [ctxAddrs, List.nodup_cons, List.mem_cons, List.mem_append, not_or,
      List.nodup_append] at hnd
    obtain ⟨⟨hxp, hxsib, hxrest⟩, ⟨hpsibn, hprest⟩, hndsib, hndrest, hdisj⟩ := hnd
    obtain ⟨s0, hs0⟩ : ∃ s0, s0 = s.setNode fr.p (fun n =>
      { n with bb := some (if fr.left then bx.Merge bs else bs.Merge bx) }) := ⟨_, rfl⟩
    have hN : ∀ q, (s0.nodes q).obj = (s.nodes q).obj ∧ (s0.nodes q).a = (s.nodes q).a ∧
        (s0.nodes q).b = (s.nodes q).b ∧ (s0.nodes q).parent = (s.nodes q).parent := by
      intro q
      rw [hs0, setNode_nodes]
      by_cases hq : q = fr.p
      · subst hq; simp
      · simp [hq]
    have hNe : ∀ q, q ≠ fr.p → s0.nodes q = s.nodes q := by
      intro q hq
      rw [hs0, setNode_nodes, if_neg hq]
    have hNp : (s0.nodes fr.p).bb = some (if fr.left then bx.Merge bs else bs.Merge bx) := by
      rw [hs0, setNode_nodes, if_pos rfl]
    have hstep : ReplaceChild.loop (f + (fr :: rest).length) s (ctxStart (fr :: rest)) =
        ReplaceChild.loop (f + rest.length) s0 (ctxStart rest) := by
      show ReplaceChild.loop ((f + rest.length) + 1) s (some fr.p) = _
      rw [ReplaceChild.loop]
      have hpar : (s0.nodes fr.p).parent = ctxStart rest := by
        rw [(hN fr.p).2.2.2]; exact CtxParented_start hPrest
      cases hside : fr.left
      · simp only [hside, Bool.false_eq_true, if_false] at ha hb hs0
        simp only [ha, hb, hbs, hbx, deref, mergeBB, bind, Except.bind, pure, Except.pure]
        rw [← hs0, hpar]
      · simp only [hside, if_true] at ha hb hs0
        simp only [ha, hb, hbs, hbx, deref, mergeBB, bind, Except.bind, pure, Except.pure]
        rw [← hs0, hpar]
    have hL0 : CtxLinked s0 rest fr.p :=
      CtxLinked_congr rest fr.p (fun q _ => ⟨(hN q).1, (hN q).2.1, (hN q).2.2.1⟩) hLrest
    have hP0 : CtxParented s0 rest fr.p :=
      CtxParented_congr rest fr.p (fun q _ => (hN q).2.2.2) hPrest
    have hB0 : ∀ g ∈ rest, Boxed s0 g.sib := by
      intro g hg
      refine Boxed_congr g.sib (fun q hq => ?_) (hB g (List.mem_cons_of_mem _ hg))
      rw [hNe q]
      intro e
      exact hprest (e ▸ sib_sub rest g q hg hq)
    obtain ⟨s1, hloop, hCB, hsame, hframe, htrees⟩ := ih fr.p s0 f _ hL0 hP0 hB0 hNp
      (List.nodup_cons.mpr ⟨hprest, hndrest⟩)
    have hx1 : s1.nodes x = s.nodes x := by
      rw [hframe x (fun h => hxrest (ctxPath_sub rest x h)), hNe x hxp]
    have hsib1 : ∀ q ∈ fr.sib.addrs, s1.nodes q = s.nodes q := by
      intro q hq
      rw [hframe q (fun h => hdisj hq (ctxPath_sub rest q h)), hNe q]
      intro e; exact hpsibn (e ▸ hq)
    have hp1 : s1.nodes fr.p = s0.nodes fr.p :=
      hframe fr.p (fun h => hprest (ctxPath_sub rest _ h))
    refine ⟨s1, hstep.trans hloop, ⟨⟨bx, bs, ?_, ?_, ?_⟩, ?_, hCB⟩, ?_, ?_, ?_⟩
    · rw [hx1]; exact hbx
    · rw [hsib1 _ fr.sib.root_mem]; exact hbs
    · rw [hp1]; exact hNp
    · exact Boxed_congr fr.sib (fun q hq => by rw [hsib1 q hq]) (hB fr (List.mem_cons_self _ _))
    · intro q
      obtain ⟨e1, e2, e3, e4⟩ := hsame q
      obtain ⟨k1, k2, k3, k4⟩ := hN q
      exact ⟨e1.trans k1, e2.trans k2, e3.trans k3, e4.trans k4⟩
    · intro q hq
      simp only [ctxPath, List.mem_cons, not_or] at hq
      rw [hframe q hq.2, hNe q hq.1]
    · rw [htrees, hs0]; rfl

theorem depth_plug : ∀ (ctx : List Frame) (X : Shape),
    ctx.length + X.depth ≤ (plug ctx X).depth := by
  intro ctx
  induction ctx with
  | nil => intro X; simp [plug]
  | cons f rest ih =>
    intro X
    rw [plug]
    refine le_trans ?_ (ih (f.fill X))
    have : X.depth + 1 ≤ (f.fill X).depth := by
      unfold Frame.fill
      split <;> simp [Shape.depth]
    simp only [List.length_cons]
    omega

/-- The first part of `ReplaceChild`: the child `p` of `g` goes to the pool
and `o` takes its place. -/
theorem ReplaceChild_relink (fuel : Nat) (s : State) (t g p o : Nat) (hgp : g ≠ p)
    (hpo : p ≠ o) (hgo : g ≠ o)
    (h : (s.nodes g).a = some p ∨ ((s.nodes g).a ≠ some p ∧ (s.nodes g).b = some p)) :
    ∃ s2, ReplaceChild fuel s t (some g) (some p) (some o) = ReplaceChild.loop fuel s2 (some g) ∧
      (∀ q, q ≠ p → q ≠ g → q ≠ o → s2.nodes q = s.nodes q) ∧
      s2.nodes p = { s.nodes p with parent := (s.trees t).pooledNodes } ∧
      s2.nodes g = (if (s.nodes g).a = some p then { s.nodes g with a := some o }
        else { s.nodes g with b := some o }) ∧
      s2.nodes o = { s.nodes o with parent := some g } ∧
      (s2.trees t).pooledNodes = some p ∧ (∀ u, u ≠ t → s2.trees u = s.trees u) := by
  have hpg : p ≠ g := fun e => hgp e.symm
  have hop : o ≠ p := fun e => hpo e.symm
  have hog : o ≠ g := fun e => hgo e.symm
  by_cases ha : (s.nodes g).a = some p
  · refine ⟨(((s.setNode p (fun x => { x with parent := (s.trees t).pooledNodes })).setTree t
      (fun tr => { tr with pooledNodes := some p })).setNode g
        (fun x => { x with a := some o })).setNode o (fun x => { x with parent := some g }),
      ?_, ?_, ?_, ?_, ?_, ?_, ?_⟩
    · unfold ReplaceChild
      simp only [deref, bind, Except.bind, pure, Except.pure, ha, if_true, RecycleNode, NodeSetA]
    · intro q h1 h2 h3; simp [h1, h2, h3]
    · simp [hpg, hpo]
    · simp [hgo, ha, hgp]
    · simp [hog, hop]
    · simp
    · intro u hu; simp [hu]
  · have hb : (s.nodes g).b = some p := by
      rcases h with h | h
      · exact absurd h ha
      · exact h.2
    refine ⟨(((s.setNode p (fun x => { x with parent := (s.trees t).pooledNodes })).setTree t
      (fun tr => { tr with pooledNodes := some p })).setNode g
        (fun x => { x with b := some o })).setNode o (fun x => { x with parent := some g }),
      ?_, ?_, ?_, ?_, ?_, ?_, ?_⟩
    · unfold ReplaceChild
      simp only [deref, bind, Except.bind, pure, Except.pure, ha, if_false, hb, RecycleNode,
        NodeSetB]
    · intro q h1 h2 h3; simp [h1, h2, h3]
    · simp [hpg, hpo]
    · simp [hgo, ha, hgp]
    · simp [hog, hop]
    · simp
    · intro u hu; simp [hu]

theorem CtxBoxed_sibs {s : State} : ∀ (ctx : List Frame) (x : Nat), CtxBoxed s ctx x →
    ∀ fr ∈ ctx, Boxed s fr.sib := by
  intro ctx
  induction ctx with
  | nil => intro x _ fr h; simp at h
  | cons f rest ih =>
    intro x h fr hfr
    obtain ⟨-, h2, h3⟩ := h
    rcases List.mem_cons.mp hfr with e | e
    · subst e; exact h2
    · exact ih f.p h3 fr e

theorem SubtreeRemove_deep (s : State) (t l fuel : Nat) (f g : Frame) (rest : List Frame)
    (hlink : Linked s (plug (f :: g :: rest) (Shape.leaf l)))
    (hpar : Parented s (plug (f :: g :: rest) (Shape.leaf l)))
    (hbox : ∀ fr ∈ f :: g :: rest, Boxed s fr.sib)
    (hnd : (plug (f :: g :: rest) (Shape.leaf l)).addrs.Nodup)
    (hroot : (s.nodes (plug (f :: g :: rest) (Shape.leaf l)).root).parent = none)
    (hfuel : (plug (f :: g :: rest) (Shape.leaf l)).depth ≤ fuel) :
    ∃ s1, SubtreeRemove fuel s t (some (plug (f :: g :: rest) (Shape.leaf l)).root) l =
        .ok (s1, some (plug (g :: rest) f.sib).root) ∧
      (s1.nodes (plug (g :: rest) f.sib).root).parent = none ∧
      Linked s1 (plug (g :: rest) f.sib) ∧ Parented s1 (plug (g :: rest) f.sib) ∧
      Boxed s1 (plug (g :: rest) f.sib) ∧
      (s.nodes l).parent = some f.p ∧ (s.nodes f.p).IsLeaf = false ∧
      (s1.trees t).pooledNodes = some f.p ∧ (s1.nodes f.p).parent = (s.trees t).pooledNodes ∧
      (∀ q, q ∉ (plug (f :: g :: rest) (Shape.leaf l)).addrs → s1.nodes q = s.nodes q) ∧
      (∀ u, u ≠ t → s1.trees u = s.trees u) ∧ s1.nodes l = s.nodes l := by
  obtain ⟨hLl, hLf1, hLfa, hLfb, hLO, hLg1, hLga, hLgb, hLS, hLrest⟩ :=
    (Linked_plug _ _).mp hlink
  obtain ⟨-, hPl, hPO, hPOs, hPf, hPS, hPSs, hPrest⟩ := (Parented_plug _ _).mp ⟨hpar, hroot⟩
  have hBO : Boxed s f.sib := hbox f (List.mem_cons_self _ _)
  have hBS : Boxed s g.sib := hbox g (List.mem_cons_of_mem _ (List.mem_cons_self _ _))
  have hnd1 := (addrs_plug (f :: g :: rest) (Shape.leaf l)).nodup_iff.mp hnd
  simp only [Shape.addrs, ctxAddrs, List.singleton_append, List.nodup_cons, List.mem_cons,
    List.mem_append, not_or, List.nodup_append] at hnd1
  obtain ⟨⟨hlf, hlO, hlg, hlS, hlrest⟩, ⟨hfO, hfg, hfS, hfrest⟩, hndO,
    ⟨⟨hgS, hgrest⟩, hndS, hndrest, hdSr⟩, hdO⟩ := hnd1
  replace hLfa : (s.nodes f.p).a = some (if f.left = true then l else f.sib.root) := hLfa
  replace hLfb : (s.nodes f.p).b = some (if f.left = true then f.sib.root else l) := hLfb
  replace hPl : (s.nodes l).parent = some f.p := hPl
  have hOg : ∀ q ∈ f.sib.addrs, q ≠ g.p ∧ q ∉ g.sib.addrs ∧ q ∉ ctxAddrs rest := by
    intro q hq
    have := hdO hq
    exact ⟨fun h => this (by simp [h]), fun h => this (by simp [h]), fun h => this (by simp [h])⟩
  have hOf : ∀ q ∈ f.sib.addrs, q ≠ f.p := fun q hq e => by subst e; exact hfO hq
  have hOl : ∀ q ∈ f.sib.addrs, q ≠ l := fun q hq e => by subst e; exact hlO hq
  have hOm := f.sib.root_mem
  obtain ⟨hOgp, hOS, hOrest⟩ := hOg _ hOm
  have hSm := g.sib.root_mem
  have hSf : g.sib.root ≠ f.p := fun e => hfS (e ▸ hSm)
  have hother : (s.nodes f.p).Other (some l) = some f.sib.root := by
    unfold Node.Other
    cases hside : f.left
    · simp only [hside, Bool.false_eq_true, if_false] at hLfa hLfb
      rw [hLfa, if_neg]
      intro e
      exact hOl _ hOm (Option.some.inj e)
    · simp only [hside, if_true] at hLfa hLfb
      rw [hLfa, if_pos rfl, hLfb]
  have hrootmem := plug_root_mem rest g (f.fill (Shape.leaf l))
  have hrooteq : (plug (f :: g :: rest) (Shape.leaf l)).root = (plug (g :: rest) f.sib).root :=
    plug_root_irrel rest g _ _
  have hrl : (plug (f :: g :: rest) (Shape.leaf l)).root ≠ l := by
    intro e
    have h1 : l ∈ ctxAddrs (g :: rest) := e ▸ hrootmem
    simp only [ctxAddrs, List.mem_cons, List.mem_append] at h1
    rcases h1 with h1 | h1 | h1
    · exact hlg h1
    · exact hlS h1
    · exact hlrest h1
  have hrf : (plug (f :: g :: rest) (Shape.leaf l)).root ≠ f.p := by
    intro e
    have h1 : f.p ∈ ctxAddrs (g :: rest) := e ▸ hrootmem
    simp only [ctxAddrs, List.mem_cons, List.mem_append] at h1
    rcases h1 with h1 | h1 | h1
    · exact hfg h1
    · exact hfS h1
    · exact hfrest h1
  have hga : (s.nodes g.p).a = some f.p ∨ ((s.nodes g.p).a ≠ some f.p ∧
      (s.nodes g.p).b = some f.p) := by
    cases hside : g.left
    · simp only [hside, Bool.false_eq_true, if_false] at hLga hLgb
      refine Or.inr ⟨?_, hLgb⟩
      rw [hLga]
      intro e
      exact hSf (Option.some.inj e)
    · simp only [hside, if_true] at hLga hLgb
      exact Or.inl hLga
  obtain ⟨s2, hRC, hN1, hNp, hNg, hNO, hpool, htrees⟩ := ReplaceChild_relink fuel s t g.p f.p
    f.sib.root (fun e => hfg e.symm) (fun e => hOf _ hOm e.symm) (fun e => hOgp e.symm) hga
  have hNg2 : (s2.nodes g.p).obj = (s.nodes g.p).obj ∧
      (s2.nodes g.p).a = some (if g.left then f.sib.root else g.sib.root) ∧
      (s2.nodes g.p).b = some (if g.left then g.sib.root else f.sib.root) ∧
      (s2.nodes g.p).parent = (s.nodes g.p).parent ∧ (s2.nodes g.p).bb = (s.nodes g.p).bb := by
    rw [hNg]
    cases hside : g.left
    · simp only [hside, Bool.false_eq_true, if_false] at hLga hLgb ⊢
      rw [if_neg (by rw [hLga]; intro e; exact hSf (Option.some.inj e))]
      exact ⟨rfl, hLga, rfl, rfl, rfl⟩
    · simp only [hside, if_true] at hLga hLgb ⊢
      rw [if_pos hLga]
      exact ⟨rfl, rfl, hLgb, rfl, rfl⟩
  have hobj : ∀ q, q ≠ g.p → (s2.nodes q).obj = (s.nodes q).obj ∧
      (s2.nodes q).a = (s.nodes q).a ∧ (s2.nodes q).b = (s.nodes q).b := by
    intro q hq
    by_cases h1 : q = f.p
    · subst h1; rw [hNp]; exact ⟨rfl, rfl, rfl⟩
    · by_cases h2 : q = f.sib.root
      · subst h2; rw [hNO]; exact ⟨rfl, rfl, rfl⟩
      · rw [hN1 q h1 hq h2]; exact ⟨rfl, rfl, rfl⟩
  have hbb : ∀ q, (s2.nodes q).bb = (s.nodes q).bb := by
    intro q
    by_cases h0 : q = g.p
    · subst h0; exact hNg2.2.2.2.2
    · by_cases h1 : q = f.p
      · subst h1; rw [hNp]
      · by_cases h2 : q = f.sib.root
        · subst h2; rw [hNO]
        · rw [hN1 q h1 h0 h2]
  have hparent : ∀ q, q ≠ f.p → q ≠ f.sib.root → (s2.nodes q).parent = (s.nodes q).parent := by
    intro q h1 h2
    by_cases h0 : q = g.p
    · subst h0; exact hNg2.2.2.2.1
    · rw [hN1 q h1 h0 h2]
  have hL2 : CtxLinked s2 (g :: rest) f.sib.root := by
    refine ⟨?_, hNg2.2.1, hNg2.2.2.1, ?_, ?_⟩
    · simpa [Node.IsLeaf, hNg2.1] using hLg1
    · refine Linked_congr g.sib (fun q hq => hobj q ?_) hLS
      intro e; subst e; exact hgS hq
    · refine CtxLinked_congr rest g.p (fun q hq => hobj q ?_) hLrest
      intro e; subst e; exact hgrest hq
  have hP2 : CtxParented s2 (g :: rest) f.sib.root := by
    refine ⟨by rw [hNO], ?_, ?_, ?_⟩
    · rw [hparent _ hSf (fun e => hOS (e ▸ hSm))]; exact hPS
    · refine Parented_congr_all g.sib (fun q hq => hparent q ?_ ?_) hPSs
      · intro e; subst e; exact hfS hq
      · intro e; subst e; exact hOS hq
    · refine CtxParented_congr rest g.p (fun q hq => hparent q ?_ ?_) hPrest
      · intro e; subst e
        rcases List.mem_cons.mp hq with h | h
        · exact hfg h
        · exact hfrest h
      · intro e; subst e
        rcases List.mem_cons.mp hq with h | h
        · exact hOgp h
        · exact hOrest h
  have hB2 : ∀ fr ∈ g :: rest, Boxed s2 fr.sib := by
    intro fr hfr
    refine Boxed_congr fr.sib (fun q _ => hbb q) ?_
    rcases List.mem_cons.mp hfr with e | e
    · subst e; exact hBS
    · exact hbox fr (List.mem_cons_of_mem _ (List.mem_cons_of_mem _ e))
  obtain ⟨bO, hbO⟩ := Boxed_root hBO
  have hbO2 : (s2.nodes f.sib.root).bb = some bO := by rw [hbb]; exact hbO
  have hnd2 : (f.sib.root :: ctxAddrs (g :: rest)).Nodup := by
    simp only [ctxAddrs, List.nodup_cons, List.mem_cons, List.mem_append, not_or,
      List.nodup_append]
    exact ⟨⟨hOgp, hOS, hOrest⟩, ⟨hgS, hgrest⟩, hndS, hndrest, hdSr⟩
  have hdepth := depth_plug (f :: g :: rest) (Shape.leaf l)
  simp only [List.length_cons, Shape.depth] at hdepth
  obtain ⟨s3, hloop, hCB, hsame, hframe, htr3⟩ := loop_ctx (g :: rest) f.sib.root s2
    (fuel - (rest.length + 1)) bO hL2 hP2 hB2 hbO2 hnd2
  have hfe : fuel - (rest.length + 1) + (g :: rest).length = fuel := by
    simp only [List.length_cons]; omega
  rw [hfe] at hloop
  replace hloop : ReplaceChild.loop fuel s2 (some g.p) = .ok s3 := hloop
  have hpath : ∀ q, q ∉ ctxAddrs (g :: rest) → s3.nodes q = s2.nodes q :=
    fun q hq => hframe q (fun h => hq (ctxPath_sub _ q h))
  have hOnot : ∀ q ∈ f.sib.addrs, q ∉ ctxAddrs (g :: rest) := by
    intro q hq h
    simp only [ctxAddrs, List.mem_cons, List.mem_append] at h
    obtain ⟨h1, h2, h3⟩ := hOg q hq
    rcases h with h | h | h
    · exact h1 h
    · exact h2 h
    · exact h3 h
  have hfnot : f.p ∉ ctxAddrs (g :: rest) := by
    intro h
    simp only [ctxAddrs, List.mem_cons, List.mem_append] at h
    rcases h with h | h | h
    · exact hfg h
    · exact hfS h
    · exact hfrest h
  have hLfin : Linked s3 f.sib ∧ CtxLinked s3 (g :: rest) f.sib.root := by
    refine ⟨Linked_congr f.sib (fun q hq => ?_) hLO,
      CtxLinked_congr (g :: rest) _ (fun q _ => ⟨(hsame q).1, (hsame q).2.1, (hsame q).2.2.1⟩) hL2⟩
    obtain ⟨e1, e2, e3, -⟩ := hsame q
    obtain ⟨k1, k2, k3⟩ := hobj q (hOg q hq).1
    exact ⟨e1.trans k1, e2.trans k2, e3.trans k3⟩
  have hPfin : Parented s3 f.sib ∧ CtxParented s3 (g :: rest) f.sib.root := by
    refine ⟨Parented_congr f.sib (fun q hq hqr => ?_) hndO hPOs,
      CtxParented_congr (g :: rest) _ (fun q _ => (hsame q).2.2.2) hP2⟩
    rw [(hsame q).2.2.2, hparent q (hOf q hq) hqr]
  have hBfin : Boxed s3 f.sib ∧ CtxBoxed s3 (g :: rest) f.sib.root := by
    refine ⟨Boxed_congr f.sib (fun q hq => ?_) hBO, hCB⟩
    rw [hpath q (hOnot q hq), hbb]
  obtain ⟨hPar3, hroot3⟩ := (Parented_plug (g :: rest) f.sib).mpr hPfin
  refine ⟨s3, ?_, hroot3, (Linked_plug _ _).mpr hLfin, hPar3, (Boxed_plug _ _).mpr hBfin, hPl,
    hLf1, ?_, ?_, ?_, ?_, ?_⟩
  · unfold SubtreeRemove
    rw [if_neg (fun e => hrl (Option.some.inj e).symm), hPl,
      if_neg (fun e => hrf (Option.some.inj e).symm)]
    simp only [deref, bind, Except.bind, pure, Except.pure, hPf, hother]
    rw [hRC, hloop, hrooteq]
  · rw [htr3]; exact hpool
  · rw [hpath _ hfnot, hNp]
  · intro q hq
    have hq1 : q ∉ (Shape.leaf l).addrs ++ ctxAddrs (f :: g :: rest) :=
      fun h => hq ((addrs_plug (f :: g :: rest) (Shape.leaf l)).mem_iff.mpr h)
    simp only [Shape.addrs, ctxAddrs, List.singleton_append, List.mem_cons, List.mem_append,
      not_or] at hq1
    obtain ⟨-, h1, h2, h3, h4, h5⟩ := hq1
    rw [hpath q, hN1 q h1 h3 (fun e => h2 (e ▸ hOm))]
    simp only [ctxAddrs, List.mem_cons, List.mem_append, not_or]
    exact ⟨h3, h4, h5⟩
  · intro u hu
    rw [htr3]; exact htrees u hu
  · rw [hpath l (by
      simp only [ctxAddrs, List.mem_cons, List.mem_append, not_or]
      exact ⟨hlg, hlS, hlrest⟩), hN1 l hlf hlg (fun e => hlO (e ▸ hOm))]

theorem SubtreeRemove_child (s : State) (t l fuel : Nat) (f : Frame)
    (hlink : Linked s (plug [f] (Shape.leaf l)))
    (hpar : Parented s (plug [f] (Shape.leaf l)))
    (hbox : Boxed s f.sib)
    (hnd : (plug [f] (Shape.leaf l)).addrs.Nodup)
    (hroot : (s.nodes (plug [f] (Shape.leaf l)).root).parent = none) :
    ∃ s1, SubtreeRemove fuel s t (some (plug [f] (Shape.leaf l)).root) l =
        .ok (s1, some f.sib.root) ∧
      (s1.nodes f.sib.root).parent = none ∧
      Linked s1 f.sib ∧ Parented s1 f.sib ∧ Boxed s1 f.sib ∧
      (s.nodes l).parent = some f.p ∧ (s.nodes f.p).IsLeaf = false ∧
      (s1.trees t).pooledNodes = some f.p ∧ (s1.nodes f.p).parent = (s.trees t).pooledNodes ∧
      (∀ q, q ∉ (plug [f] (Shape.leaf l)).addrs → s1.nodes q = s.nodes q) ∧
      (∀ u, u ≠ t → s1.trees u = s.trees u) ∧ s1.nodes l = s.nodes l := by
  obtain ⟨hLl, hLf1, hLfa, hLfb, hLO, -⟩ := (Linked_plug _ _).mp hlink
  obtain ⟨-, hPl, hPO, hPOs, hPtop⟩ := (Parented_plug _ _).mp ⟨hpar, hroot⟩
  have hBO : Boxed s f.sib := hbox
  have hnd1 := (addrs_plug [f] (Shape.leaf l)).nodup_iff.mp hnd
  simp only [Shape.addrs, ctxAddrs, List.singleton_append, List.nodup_cons, List.mem_cons,
    List.mem_append, not_or, List.nodup_append, List.append_nil] at hnd1
  obtain ⟨⟨hlf, hlO⟩, hfO, hndO⟩ := hnd1
  replace hLfa : (s.nodes f.p).a = some (if f.left = true then l else f.sib.root) := hLfa
  replace hLfb : (s.nodes f.p).b = some (if f.left = true then f.sib.root else l) := hLfb
  replace hPl : (s.nodes l).parent = some f.p := hPl
  replace hPtop : (s.nodes f.p).parent = none := hPtop
  have hOm := f.sib.root_mem
  have hOf : ∀ q ∈ f.sib.addrs, q ≠ f.p := fun q hq e => by subst e; exact hfO hq
  have hOl : ∀ q ∈ f.sib.addrs, q ≠ l := fun q hq e => by subst e; exact hlO hq
  have hother : (s.nodes f.p).Other (some l) = some f.sib.root := by
    unfold Node.Other
    cases hside : f.left
    · simp only [hside, Bool.false_eq_true, if_false] at hLfa hLfb
      rw [hLfa, if_neg]
      intro e
      exact hOl _ hOm (Option.some.inj e)
    · simp only [hside, if_true] at hLfa hLfb
      rw [hLfa, if_pos rfl, hLfb]
  have hrooteq : (plug [f] (Shape.leaf l)).root = f.p := Frame.fill_root f _
  obtain ⟨s2, hs2⟩ : ∃ s2, s2 = ((s.setNode f.sib.root (fun x =>
      { x with parent := (s.nodes f.p).parent })).setNode f.p (fun x =>
      { x with parent := (s.trees t).pooledNodes })).setTree t
        (fun tr => { tr with pooledNodes := some f.p }) := ⟨_, rfl⟩
  have hN1 : ∀ q, q ≠ f.p → q ≠ f.sib.root → s2.nodes q = s.nodes q := by
    intro q h1 h2; rw [hs2]; simp [h1, h2]
  have hNO : s2.nodes f.sib.root = { s.nodes f.sib.root with parent := none } := by
    rw [hs2]; simp [hOf _ hOm, hPtop]
  have hNp : s2.nodes f.p = { s.nodes f.p with parent := (s.trees t).pooledNodes } := by
    have hne : f.p ≠ f.sib.root := fun e => hOf _ hOm e.symm
    rw [hs2]; simp [hne]
  have hsame : ∀ q, q ≠ f.p → (s2.nodes q).obj = (s.nodes q).obj ∧
      (s2.nodes q).a = (s.nodes q).a ∧ (s2.nodes q).b = (s.nodes q).b ∧
      (s2.nodes q).bb = (s.nodes q).bb := by
    intro q h1
    by_cases h2 : q = f.sib.root
    · subst h2; rw [hNO]; exact ⟨rfl, rfl, rfl, rfl⟩
    · rw [hN1 q h1 h2]; exact ⟨rfl, rfl, rfl, rfl⟩
  refine ⟨s2, ?_, by rw [hNO], ?_, ?_, ?_, hPl, hLf1, ?_, by rw [hNp], ?_, ?_,
    hN1 l hlf (fun e => hlO (e ▸ hOm))⟩
  · unfold SubtreeRemove
    rw [hrooteq, if_neg (fun e => hlf (Option.some.inj e)), hPl, if_pos rfl]
    simp only [deref, bind, Except.bind, pure, Except.pure, hother, RecycleNode, setNode_trees]
    rw [hs2]
  · exact Linked_congr f.sib (fun q hq =>
      ⟨(hsame q (hOf q hq)).1, (hsame q (hOf q hq)).2.1, (hsame q (hOf q hq)).2.2.1⟩) hLO
  · refine Parented_congr f.sib (fun q hq hqr => ?_) hndO hPOs
    rw [hN1 q (hOf q hq) hqr]
  · exact Boxed_congr f.sib (fun q hq => (hsame q (hOf q hq)).2.2.2) hBO
  · rw [hs2]; simp
  · intro q hq
    have hq1 : q ∉ (Shape.leaf l).addrs ++ ctxAddrs [f] :=
      fun h => hq ((addrs_plug [f] (Shape.leaf l)).mem_iff.mpr h)
    simp only [Shape.addrs, ctxAddrs, List.singleton_append, List.mem_cons, List.mem_append,
      not_or, List.append_nil] at hq1
    obtain ⟨-, h1, h2⟩ := hq1
    exact hN1 q h1 (fun e => h2 (e ▸ hOm))
  · intro u hu
    rw [hs2]; simp [hu]

theorem plug_drop (f : Frame) (rest : List Frame) (l : Nat)
    (hnd : (plug (f :: rest) (Shape.leaf l)).addrs.Nodup) :
    (plug rest f.sib).addrs.Nodup ∧ f.p ∈ (plug (f :: rest) (Shape.leaf l)).addrs ∧
      f.p ∉ (plug rest f.sib).addrs ∧
      (plug (f :: rest) (Shape.leaf l)).leaves.Perm (l :: (plug rest f.sib).leaves) := by
  have h1 := addrs_plug (f :: rest) (Shape.leaf l)
  have h2 := addrs_plug rest f.sib
  have hnd1 := h1.nodup_iff.mp hnd
  simp only [Shape.addrs, ctxAddrs, List.singleton_append, List.nodup_cons, List.mem_cons,
    List.mem_append, not_or] at hnd1
  obtain ⟨-, ⟨hfO, hfrest⟩, hndr⟩ := hnd1
  refine ⟨h2.nodup_iff.mpr hndr, h1.mem_iff.mpr (by simp [Shape.addrs, ctxAddrs]), ?_, ?_⟩
  · intro h
    rcases List.mem_append.mp (h2.mem_iff.mp h) with h | h
    · exact hfO h
    · exact hfrest h
  · refine (leaves_plug (f :: rest) (Shape.leaf l)).trans ?_
    simp only [Shape.leaves, ctxLeaves, List.singleton_append]
    exact List.Perm.cons _ (leaves_plug rest f.sib).symm

/-- C6: on a well-formed tree `T` of the heap (children linked, parent links
pointing back, every internal box the union of the boxes of its children, no
address twice, the root without a parent) and a leaf `l` of it,
`SubtreeRemove` returns nil when `l` is the root, and otherwise returns the
root of a tree `T1` without a parent, whose leaves are those of `T` other than
`l` and whose internal boxes are the unions of the boxes of their children;
the former parent `p` of `l`, an internal node of `T` that is no node of
`T1`, becomes the head of the node pool with the old pool behind it, and no
node outside `T` is written. -/
theorem subtreeRemove_removes_leaf (s : State) (t l fuel : Nat) (T : Shape)
    (hlink : Linked s T) (hpar : Parented s T) (hbox : Boxed s T) (hnd : T.addrs.Nodup)
    (hroot : (s.nodes T.root).parent = none) (hl : l ∈ T.leaves) (hfuel : T.depth ≤ fuel) :
    (l = T.root → SubtreeRemove fuel s t (some T.root) l = .ok (s, none)) ∧
    (l ≠ T.root → ∃ s1 T1 p, SubtreeRemove fuel s t (some T.root) l = .ok (s1, some T1.root) ∧
      (s1.nodes T1.root).parent = none ∧ Linked s1 T1 ∧ Parented s1 T1 ∧ Boxed s1 T1 ∧
      T1.addrs.Nodup ∧ T.leaves.Perm (l :: T1.leaves) ∧
      (s.nodes l).parent = some p ∧ (s.nodes p).IsLeaf = false ∧ p ∈ T.addrs ∧ p ∉ T1.addrs ∧
      (s1.trees t).pooledNodes = some p ∧ (s1.nodes p).parent = (s.trees t).pooledNodes ∧
      (∀ q, q ∉ T.addrs → s1.nodes q = s.nodes q) ∧ (∀ u, u ≠ t → s1.trees u = s.trees u)) := by
  constructor
  · intro e
    unfold SubtreeRemove
    rw [if_pos (by rw [e])]
    rfl
  · intro hne
    obtain ⟨ctx, hctx⟩ := exists_plug l T hl
    subst hctx
    cases ctx with
    | nil => exact absurd rfl hne
    | cons f rest =>
      obtain ⟨k1, k2, k3, k4⟩ := plug_drop f rest l hnd
      cases rest with
      | nil =>
        obtain ⟨s1, h1, h2, h3, h4, h5, h6, h7, h8, h9, h10, h11, -⟩ :=
          SubtreeRemove_child s t l fuel f hlink hpar
            (CtxBoxed_sibs _ _ ((Boxed_plug _ _).mp hbox).2 f (List.mem_cons_self _ _)) hnd hroot
        exact ⟨s1, f.sib, f.p, h1, h2, h3, h4, h5, k1, k4, h6, h7, k2, k3, h8, h9, h10, h11⟩
      | cons g rest =>
        obtain ⟨s1, h1, h2, h3, h4, h5, h6, h7, h8, h9, h10, h11, -⟩ :=
          SubtreeRemove_deep s t l fuel f g rest hlink hpar
            (CtxBoxed_sibs _ _ ((Boxed_plug _ _).mp hbox).2) hnd hroot hfuel
        exact ⟨s1, plug (g :: rest) f.sib, f.p, h1, h2, h3, h4, h5, k1, k4, h6, h7, k2, k3, h8,
          h9, h10, h11⟩

/-- C6 at a concrete heap: the leaf 0 leaves a tree of three leaves. -/
theorem subtreeRemove_removes_leaf_witness :
    (0 = removeDemoTree.root →
      SubtreeRemove 3 removeDemo 0 (some removeDemoTree.root) 0 = .ok (removeDemo, none)) ∧
    (0 ≠ removeDemoTree.root → ∃ s1 T1 p,
      SubtreeRemove 3 removeDemo 0 (some removeDemoTree.root) 0 = .ok (s1, some T1.root) ∧
      (s1.nodes T1.root).parent = none ∧ Linked s1 T1 ∧ Parented s1 T1 ∧ Boxed s1 T1 ∧
      T1.addrs.Nodup ∧ removeDemoTree.leaves.Perm (0 :: T1.leaves) ∧
      (removeDemo.nodes 0).parent = some p ∧ (removeDemo.nodes p).IsLeaf = false ∧
      p ∈ removeDemoTree.addrs ∧ p ∉ T1.addrs ∧
      (s1.trees 0).pooledNodes = some p ∧
      (s1.nodes p).parent = (removeDemo.trees 0).pooledNodes ∧
      (∀ q, q ∉ removeDemoTree.addrs → s1.nodes q = removeDemo.nodes q) ∧
      (∀ u, u ≠ 0 → s1.trees u = removeDemo.trees u)) :=
  subtreeRemove_removes_leaf removeDemo 0 0 3 removeDemoTree
    ⟨rfl, rfl, rfl, ⟨rfl, rfl, rfl, rfl, rfl⟩, rfl⟩
    ⟨rfl, rfl, ⟨rfl, rfl, trivial, trivial⟩, trivial⟩
    ⟨⟨_, _, rfl, rfl, rfl⟩, ⟨⟨_, _, rfl, rfl, rfl⟩, by simp [Boxed, removeDemo],
      by simp [Boxed, removeDemo]⟩, by simp [Boxed, removeDemo]⟩
    (by decide) rfl (by decide) (by decide)

theorem BB.intersects_merge_left (x u v : BB) (h : x.Intersects u = true) :
    x.Intersects (u.Merge v) = true := by
  unfold BB.Intersects at h ⊢
  unfold BB.Merge
  simp only [Bool.and_eq_true, decide_eq_true_eq] at h ⊢
  obtain ⟨⟨⟨h1, h2⟩, h3⟩, h4⟩ := h
  exact ⟨⟨⟨le_trans h1 (le_max_left _ _), le_trans (min_le_left _ _) h2⟩,
    le_trans h3 (le_max_left _ _)⟩, le_trans (min_le_left _ _) h4⟩

theorem BB.intersects_merge_right (x u v : BB) (h : x.Intersects v = true) :
    x.Intersects (u.Merge v) = true := by
  unfold BB.Intersects at h ⊢
  unfold BB.Merge
  simp only [Bool.and_eq_true, decide_eq_true_eq] at h ⊢
  obtain ⟨⟨⟨h1, h2⟩, h3⟩, h4⟩ := h
  exact ⟨⟨⟨le_trans h1 (le_max_right _ _), le_trans (min_le_right _ _) h2⟩,
    le_trans h3 (le_max_right _ _)⟩, le_trans (min_le_right _ _) h4⟩

/-- A subtree whose box misses the box of the leaf holds no leaf that meets it. -/
theorem queryIns_nil (s : State) (leaf : Nat) (left : Bool) {lbb : BB}
    (hl : (s.nodes leaf).bb = some lbb) : ∀ (U : Shape) (ub : BB), Boxed s U →
    (s.nodes U.root).bb = some ub → lbb.Intersects ub = false →
    queryIns s leaf left U = [] := by
  intro U
  induction U with
  | leaf y =>
    intro ub _ hub hni
    have hub1 : (s.nodes y).bb = some ub := hub
    simp [queryIns, boxI, hl, hub1, hni]
  | node p a b iha ihb =>
    intro ub hb hub hni
    obtain ⟨⟨x, y, h1, h2, h3⟩, h4, h5⟩ := hb
    have hub1 : (s.nodes p).bb = some ub := hub
    rw [h3] at hub1
    have e : ub = x.Merge y := (Option.some.inj hub1).symm
    subst e
    have hx : lbb.Intersects x = false := by
      cases hc : lbb.Intersects x
      · rfl
      · rw [BB.intersects_merge_left lbb x y hc] at hni; cases hni
    have hy : lbb.Intersects y = false := by
      cases hc : lbb.Intersects y
      · rfl
      · rw [BB.intersects_merge_right lbb x y hc] at hni; cases hni
    simp [queryIns, iha x h4 h1 hx, ihb y h5 h2 hy]

theorem SameShape.linkHead (s : State) (l : Nat) (head : Option Nat) (pr : Nat) :
    SameShape s (linkHead s l head pr) := by
  cases head with
  | none => exact SameShape.refl s
  | some n => exact SameShape.setPair _ _ _

theorem linkHead_trees (s : State) (l : Nat) (head : Option Nat) (pr : Nat) :
    (linkHead s l head pr).trees = s.trees := by
  cases head <;> rfl

theorem linkHead_pairs_ne (s : State) (l : Nat) (head : Option Nat) (pr q : Nat)
    (h : head ≠ some q) : (linkHead s l head pr).pairs q = s.pairs q := by
  cases head with
  | none => rfl
  | some n =>
    have : q ≠ n := fun e => h (by rw [e])
    simp [linkHead, this]

theorem length_listsInsert (lists : Nat → List Nat) (a b pr l : Nat) :
    (listsInsert lists a b pr l).length ≤ (lists l).length + 1 := by
  unfold listsInsert
  split <;> simp

/-- One `PairInsert` during a pass: the head of the pool goes to the two lists. -/
theorem PairInsert_pass {s0 s : State} {t m K pr a b : Nat} {L : List Nat}
    {lists : Nat → List Nat} {pool : List Nat} (hm : GetMasterTree s0 t = .ok m)
    (hinv : PassInv s0 s m L K lists (pr :: pool)) (ha : (s0.nodes a).IsLeaf = true)
    (hb : (s0.nodes b).IsLeaf = true) (hab : a ≠ b) :
    ∃ s2, PairInsert s t a b = .ok s2 ∧
      PassInv s0 s2 m L K (listsInsert lists a b pr) pool := by
  obtain ⟨hsh, hwf, hps, hnd, hfresh, hlen⟩ := hinv
  have hms : GetMasterTree s t = .ok m := (GetMasterTree_shape hsh t).trans hm
  have ha1 : (s.nodes a).IsLeaf = true := (shape_isLeaf hsh a).trans ha
  have hb1 : (s.nodes b).IsLeaf = true := (shape_isLeaf hsh b).trans hb
  obtain ⟨hhead, htail⟩ := hps
  obtain ⟨s1, hs1⟩ : ∃ s1, s1 = s.setTree m
      (fun tr => { tr with pooledPairs := (s.pairs pr).a.next }) := ⟨_, rfl⟩
  have hpf : PairFromPool s t = .ok (s1, some pr) := by
    unfold PairFromPool
    simp only [hms, bind, Except.bind, hhead, pure, Except.pure]
    rw [hs1]
  have hfr : ∀ l, (s.nodes l).IsLeaf = true → pr ∉ lists l :=
    fun l hl hp => hfresh l pr hl hp (List.mem_cons_self _ _)
  obtain ⟨s2, hPI, hwf2, hshape, -, -, -, -, -, -, -, -⟩ := PairInsert_spec hwf ha1 hb1 hab hpf hfr
    (fun l q _ _ => by rw [hs1]; rfl)
  have hE := PairInsert_explicit a b hpf
  rw [hPI] at hE
  have hs2 := Except.ok.inj hE
  have hsh1 : SameShape s s1 := by
    rw [hs1]
    refine ⟨fun p => rfl, rfl, fun u => ?_, rfl, rfl, rfl⟩
    by_cases hu : u = m
    · subst hu; simp [BBTree.shape]
    · simp [hu]
  have hsh2 : SameShape s s2 := by
    rw [hs2]
    refine SameShape.trans ?_ (SameShape.linkHead _ _ _ _)
    refine SameShape.trans ?_ (SameShape.linkHead _ _ _ _)
    refine SameShape.trans ?_ (SameShape.setPair _ _ _)
    refine SameShape.trans ?_ (SameShape.setNodePairs _ _ _)
    exact SameShape.trans hsh1 (SameShape.setNodePairs _ _ _)
  have htr : (s2.trees m).pooledPairs = (s.pairs pr).a.next := by
    rw [hs2, linkHead_trees, linkHead_trees, hs1]
    simp
  have hndp := List.nodup_cons.mp hnd
  have hpq : ∀ q ∈ pool, s2.pairs q = s.pairs q := by
    intro q hq
    have hqpr : q ≠ pr := fun e => hndp.1 (e ▸ hq)
    have hqa : (s.nodes a).pairs ≠ some q := fun e =>
      hfresh a q ha1 (PairList_head_mem (hwf.1 a ha1) e) (List.mem_cons_of_mem _ hq)
    have hqb : (s.nodes b).pairs ≠ some q := fun e =>
      hfresh b q hb1 (PairList_head_mem (hwf.1 b hb1) e) (List.mem_cons_of_mem _ hq)
    rw [hs2, linkHead_pairs_ne _ _ _ _ _ hqb, linkHead_pairs_ne _ _ _ _ _ hqa, hs1]
    simp [hqpr]
  refine ⟨s2, hPI, SameShape.trans hsh hsh2, hwf2, ?_, hndp.2, ?_, ?_⟩
  · rw [htr]
    exact PoolSeg_congr pool _ _ (fun q hq => by rw [hpq q hq]) htail
  · intro l p hl hp hpp
    have hl1 : (s.nodes l).IsLeaf = true := (shape_isLeaf hsh2 l).symm.trans hl
    unfold listsInsert at hp
    split at hp
    · rcases List.mem_cons.mp hp with e | e
      · subst e; exact hndp.1 hpp
      · exact hfresh l p hl1 e (List.mem_cons_of_mem _ hpp)
    · exact hfresh l p hl1 hp (List.mem_cons_of_mem _ hpp)
  · intro l hl
    have h1 := hlen l hl
    have h2 := length_listsInsert lists a b pr l
    simp only [List.length_cons] at h1
    omega

theorem zip_append_drop {α β : Type} : ∀ (xs ys : List α) (pool : List β),
    xs.length ≤ pool.length →
    (xs ++ ys).zip pool = xs.zip pool ++ ys.zip (pool.drop xs.length) := by
  intro xs
  induction xs with
  | nil => intro ys pool _; simp
  | cons x xs ih =>
    intro ys pool h
    cases pool with
    | nil => simp at h
    | cons p pool =>
      simp only [List.length_cons, Nat.add_le_add_iff_right] at h
      simp [ih ys pool h]

theorem listsAfter_append (lists : Nat → List Nat) (z1 z2 : List ((Nat × Nat) × Nat)) :
    listsAfter lists (z1 ++ z2) = listsAfter (listsAfter lists z1) z2 := by
  unfold listsAfter
  rw [List.foldl_append]

theorem listsAfter_zip_append (lists : Nat → List Nat) (xs ys : List (Nat × Nat))
    (pool : List Nat) (h : xs.length ≤ pool.length) :
    listsAfter lists ((xs ++ ys).zip pool) =
      listsAfter (listsAfter lists (xs.zip pool)) (ys.zip (pool.drop xs.length)) := by
  rw [zip_append_drop xs ys pool h, listsAfter_append]

theorem PairsWF_congr {s s1 : State} {lists : Nat → List Nat} (hn : s1.nodes = s.nodes)
    (hp : ∀ q, (s1.pairs q).a = (s.pairs q).a ∧ (s1.pairs q).b = (s.pairs q).b)
    (h : PairsWF s lists) : PairsWF s1 lists := by
  have hth : ∀ q sd, (s1.pairs q).thread sd = (s.pairs q).thread sd := by
    intro q sd
    cases sd
    · exact (hp q).1
    · exact (hp q).2
  have hside : ∀ q x, (s1.pairs q).sideOf x = (s.pairs q).sideOf x := by
    intro q x
    unfold Pair.sideOf
    rw [(hp q).1]
  constructor
  · intro l hl
    have hl1 : (s.nodes l).IsLeaf = true := by rw [← hn]; exact hl
    exact PairList_frame (h.1 l hl1) (by rw [hn]) (fun q => by rw [(hp q).1])
      (fun q _ => hth q _)
  · intro l p hl hpl
    have hl1 : (s.nodes l).IsLeaf = true := by rw [← hn]; exact hl
    obtain ⟨m, h1, h2, h3, h4⟩ := h.2 l p hl1 hpl
    refine ⟨m, h1, by rw [hn]; exact h2, ?_, h4⟩
    unfold otherLeaf at h3 ⊢
    rw [hside, hth]
    exact h3

/-- A pass is not disturbed by writes to the callback log and to collision ids. -/
theorem PassInv_congr {s0 s s1 : State} {m K : Nat} {L : List Nat} {lists : Nat → List Nat}
    {pool : List Nat} (h : PassInv s0 s m L K lists pool) (hsh : SameShape s s1)
    (hn : s1.nodes = s.nodes) (htr : s1.trees = s.trees)
    (hp : ∀ q, (s1.pairs q).a = (s.pairs q).a ∧ (s1.pairs q).b = (s.pairs q).b) :
    PassInv s0 s1 m L K lists pool := by
  obtain ⟨h1, h2, h3, h4, h5, h6⟩ := h
  refine ⟨SameShape.trans h1 hsh, PairsWF_congr hn hp h2, ?_, h4, ?_, h6⟩
  · rw [htr]
    exact PoolSeg_congr pool _ _ (fun q _ => by rw [(hp q).1]) h3
  · intro l p hl
    rw [hn] at hl
    exact h5 l p hl

theorem callF_pass {s0 s : State} {m K : Nat} {L : List Nat} {lists : Nat → List Nat}
    {pool : List Nat} {ctx : MarkContext} {g : QueryFn} (hcf : ctx.f = some g)
    (h : PassInv s0 s m L K lists pool) (o1 o2 : Option Nat) (cid : Nat) :
    ∃ s1, callF s ctx o1 o2 cid = .ok (s1, g o1 o2 cid) ∧ PassInv s0 s1 m L K lists pool ∧
      s1.nodes = s.nodes ∧ s1.pairs = s.pairs := by
  refine ⟨{ s with calls := s.calls ++ [⟨o1, o2, cid⟩] }, ?_, ?_, rfl, rfl⟩
  · simp [callF, hcf, deref, bind, Except.bind, pure, Except.pure]
  · exact PassInv_congr h (SameShape.log s _) rfl rfl (fun q => ⟨rfl, rfl⟩)

/-- `MarkLeafQuery` over a linked and boxed subtree that does not hold the
leaf: it returns, and its insertions are those of `queryIns`, each with the
next record of the pool. -/
theorem MLQ_pass {s0 : State} {t m K : Nat} {L : List Nat} (ctx : MarkContext) (g : QueryFn)
    (leaf : Nat) (left : Bool) {lbb : BB} (hct : ctx.tree = some t) (hcf : ctx.f = some g)
    (hm : GetMasterTree s0 t = .ok m) (hleaf : (s0.nodes leaf).IsLeaf = true)
    (hlbb : (s0.nodes leaf).bb = some lbb) :
    ∀ (U : Shape), Linked s0 U → Boxed s0 U → leaf ∉ U.addrs →
    ∀ (fuel : Nat) (s : State) (lists : Nat → List Nat) (pool : List Nat), U.depth ≤ fuel →
      PassInv s0 s m L K lists pool → (queryIns s0 leaf left U).length ≤ pool.length →
      ∃ s1, MarkLeafQuery ctx leaf left fuel s (some U.root) = .ok s1 ∧
        PassInv s0 s1 m L K (listsAfter lists ((queryIns s0 leaf left U).zip pool))
          (pool.drop (queryIns s0 leaf left U).length) := by
  intro U
  induction U with
  | leaf y =>
    intro hL hB hnot fuel s lists pool hfuel hinv hlen
    obtain ⟨f, rfl⟩ : ∃ f, fuel = f + 1 := ⟨fuel - 1, by simp [Shape.depth] at hfuel; omega⟩
    have hy : (s0.nodes y).IsLeaf = true := hL
    obtain ⟨yb, hyb⟩ := Option.ne_none_iff_exists'.mp (show (s0.nodes y).bb ≠ none from hB)
    have hly : leaf ≠ y := fun e => hnot (by simp [Shape.addrs, e])
    have hsh := hinv.1
    have e1 : (s.nodes leaf).bb = some lbb := (shape_bb hsh leaf).trans hlbb
    have e2 : (s.nodes y).bb = some yb := (shape_bb hsh y).trans hyb
    have e3 : (s.nodes y).IsLeaf = true := (shape_isLeaf hsh y).trans hy
    have e4 : (s.nodes y).stamp = (s0.nodes y).stamp := shape_stamp hsh y
    have e5 : (s.nodes leaf).stamp = (s0.nodes leaf).stamp := shape_stamp hsh leaf
    show ∃ s1, MarkLeafQuery ctx leaf left (f + 1) s (some y) = .ok s1 ∧ _
    unfold MarkLeafQuery
    simp only [e1, e2, e3, deref, bind, Except.bind, pure, Except.pure, if_true]
    have hbI : boxI s0 leaf y = lbb.Intersects yb := by simp [boxI, hlbb, hyb]
    cases hi : lbb.Intersects yb
    · have hq : queryIns s0 leaf left (Shape.leaf y) = [] := by simp [queryIns, hbI, hi]
      rw [hq]
      exact ⟨s, by simp, by simpa [listsAfter] using hinv⟩
    · simp only [if_true]
      cases left
      · simp only [Bool.false_eq_true, if_false, e4, e5]
        by_cases hst : (s0.nodes y).stamp < (s0.nodes leaf).stamp
        · have hq : queryIns s0 leaf false (Shape.leaf y) = [(y, leaf)] := by
            simp [queryIns, hbI, hi, hst]
          rw [hq] at hlen ⊢
          obtain ⟨pr, pool1, rfl⟩ : ∃ pr pool1, pool = pr :: pool1 := by
            cases pool with
            | nil => simp at hlen
            | cons pr pool1 => exact ⟨pr, pool1, rfl⟩
          obtain ⟨s2, h1, h2⟩ := PairInsert_pass hm hinv hy hleaf (fun e => hly e.symm)
          obtain ⟨s3, h3, h4, -, -⟩ := callF_pass hcf h2 (s2.nodes leaf).obj (s2.nodes y).obj 0
          refine ⟨s3, ?_, by simpa [listsAfter] using h4⟩
          simp only [if_pos hst, ctxPairInsert, hct, deref, bind, Except.bind, pure,
            Except.pure, h1, h3]
        · have hq : queryIns s0 leaf false (Shape.leaf y) = [] := by
            simp [queryIns, hbI, hi, hst]
          rw [hq]
          obtain ⟨s3, h3, h4, -, -⟩ := callF_pass hcf hinv (s.nodes leaf).obj (s.nodes y).obj 0
          refine ⟨s3, ?_, by simpa [listsAfter] using h4⟩
          simp only [if_neg hst, bind, Except.bind, pure, Except.pure, h3]
      · have hq : queryIns s0 leaf true (Shape.leaf y) = [(leaf, y)] := by
          simp [queryIns, hbI, hi]
        rw [hq] at hlen ⊢
        obtain ⟨pr, pool1, rfl⟩ : ∃ pr pool1, pool = pr :: pool1 := by
          cases pool with
          | nil => simp at hlen
          | cons pr pool1 => exact ⟨pr, pool1, rfl⟩
        obtain ⟨s2, h1, h2⟩ := PairInsert_pass hm hinv hleaf hy hly
        refine ⟨s2, ?_, by simpa [listsAfter] using h2⟩
        simp only [if_true, ctxPairInsert, hct, deref, bind, Except.bind, pure, Except.pure, h1]
  | node p a b iha ihb =>
    intro hL hB hnot fuel s lists pool hfuel hinv hlen
    obtain ⟨f, rfl⟩ : ∃ f, fuel = f + 1 := ⟨fuel - 1, by simp [Shape.depth] at hfuel; omega⟩
    obtain ⟨hp1, hpa, hpb, hLa, hLb⟩ := hL
    obtain ⟨⟨x, y, hx, hy, hpbb⟩, hBa, hBb⟩ := id hB
    simp only [Shape.addrs, List.mem_cons, List.mem_append, not_or] at hnot
    obtain ⟨-, hna, hnb⟩ := hnot
    simp only [Shape.depth] at hfuel
    have hsh := hinv.1
    have e1 : (s.nodes leaf).bb = some lbb := (shape_bb hsh leaf).trans hlbb
    have e2 : (s.nodes p).bb = some (x.Merge y) := (shape_bb hsh p).trans hpbb
    have e3 : (s.nodes p).IsLeaf = false := (shape_isLeaf hsh p).trans hp1
    show ∃ s1, MarkLeafQuery ctx leaf left (f + 1) s (some p) = .ok s1 ∧ _
    unfold MarkLeafQuery
    simp only [e1, e2, e3, deref, bind, Except.bind, pure, Except.pure]
    cases hi : lbb.Intersects (x.Merge y)
    · have hq : queryIns s0 leaf left (Shape.node p a b) = [] :=
        queryIns_nil s0 leaf left hlbb (Shape.node p a b) (x.Merge y) hB hpbb hi
      rw [hq]
      exact ⟨s, by simp, by simpa [listsAfter] using hinv⟩
    · simp only [if_true, Bool.false_eq_true, if_false]
      have hq : queryIns s0 leaf left (Shape.node p a b) =
          queryIns s0 leaf left a ++ queryIns s0 leaf left b := rfl
      rw [hq] at hlen ⊢
      simp only [List.length_append] at hlen
      obtain ⟨s1, h1, h2⟩ := iha hLa hBa hna f s lists pool (by omega) hinv (by omega)
      have ea : (s.nodes p).a = some a.root := (shape_a hsh p).trans hpa
      have eb : (s1.nodes p).b = some b.root := (shape_b h2.1 p).trans hpb
      obtain ⟨s2, h3, h4⟩ := ihb hLb hBb hnb f s1 _ _ (by omega) h2
        (by simp only [List.length_drop]; omega)
      refine ⟨s2, ?_, ?_⟩
      · rw [ea, h1]
        simp only [eb, h3]
      · rw [listsAfter_zip_append _ _ _ _ (by omega), List.length_append, ← List.drop_drop]
        exact h4

/-- The climbing loop of `MarkLeaf` along a linked and parented path whose
sibling subtrees are boxed and do not hold the leaf: it returns, and its
insertions are those of `climbIns`. -/
theorem climb_pass {s0 : State} {t m K : Nat} {L : List Nat} (ctx : MarkContext) (g : QueryFn)
    (leaf : Nat) {lbb : BB} (hct : ctx.tree = some t) (hcf : ctx.f = some g)
    (hm : GetMasterTree s0 t = .ok m) (hleaf : (s0.nodes leaf).IsLeaf = true)
    (hlbb : (s0.nodes leaf).bb = some lbb) :
    ∀ (path : List Frame) (x : Nat), CtxLinked s0 path x → CtxParented s0 path x →
    (∀ fr ∈ path, Boxed s0 fr.sib) → (x :: ctxAddrs path).Nodup → leaf ∉ ctxAddrs path →
    ∀ (D fuel : Nat) (s : State) (lists : Nat → List Nat) (pool : List Nat),
      (∀ fr ∈ path, fr.sib.depth ≤ D) → path.length + D < fuel →
      PassInv s0 s m L K lists pool → (climbIns s0 leaf path).length ≤ pool.length →
      ∃ s1, MarkLeaf.climb ctx leaf fuel s x = .ok s1 ∧
        PassInv s0 s1 m L K (listsAfter lists ((climbIns s0 leaf path).zip pool))
          (pool.drop (climbIns s0 leaf path).length) := by
  intro path
  induction path with
  | nil =>
    intro x _ hP _ _ _ D fuel s lists pool _ hfuel hinv _
    obtain ⟨f, rfl⟩ : ∃ f, fuel = f + 1 := ⟨fuel - 1, by omega⟩
    have hp : (s.nodes x).parent = none := (shape_parent hinv.1 x).trans hP
    refine ⟨s, ?_, by simpa [listsAfter, climbIns] using hinv⟩
    unfold MarkLeaf.climb
    rw [hp]
    rfl
  | cons fr rest ih =>
    intro x hL hP hB hnd hlf D fuel s lists pool hD hfuel hinv hlen
    obtain ⟨f, rfl⟩ : ∃ f, fuel = f + 1 := ⟨fuel - 1, by omega⟩
    obtain ⟨hp1, hpa, hpb, hLsib, hLrest⟩ := hL
    obtain ⟨hpx, -, -, hPrest⟩ := hP
    simp only [ctxAddrs, List.nodup_cons, List.mem_cons, List.mem_append, not_or,
      List.nodup_append] at hnd hlf
    obtain ⟨⟨hxp, hxsib, hxrest⟩, ⟨hpsib, hprest⟩, hndsib, hndrest, hdisj⟩ := hnd
    obtain ⟨hlp, hlsib, hlrest⟩ := hlf
    simp only [List.length_cons] at hfuel
    have hq : climbIns s0 leaf (fr :: rest) =
        queryIns s0 leaf fr.left fr.sib ++ climbIns s0 leaf rest := rfl
    rw [hq] at hlen ⊢
    simp only [List.length_append] at hlen
    have hsh := hinv.1
    have e1 : (s.nodes x).parent = some fr.p := (shape_parent hsh x).trans hpx
    obtain ⟨s1, h1, h2⟩ := MLQ_pass ctx g leaf fr.left hct hcf hm hleaf hlbb fr.sib hLsib
      (hB fr (List.mem_cons_self _ _)) hlsib f s lists pool
      (by have := hD fr (List.mem_cons_self _ _); omega) hinv (by omega)
    have e2 : (s1.nodes x).parent = some fr.p := (shape_parent h2.1 x).trans hpx
    obtain ⟨s2, h3, h4⟩ := ih fr.p hLrest hPrest (fun g hg => hB g (List.mem_cons_of_mem _ hg))
      (List.nodup_cons.mpr ⟨hprest, hndrest⟩) hlrest D f s1 _ _
      (fun g hg => hD g (List.mem_cons_of_mem _ hg)) (by omega) h2
      (by simp only [List.length_drop]; omega)
    refine ⟨s2, ?_, ?_⟩
    · unfold MarkLeaf.climb
      simp only [e1]
      have ea : (s.nodes fr.p).a = _ := (shape_a hsh fr.p).trans hpa
      have eb : (s.nodes fr.p).b = _ := (shape_b hsh fr.p).trans hpb
      cases hside : fr.left
      · simp only [hside, Bool.false_eq_true, if_false] at ea eb h1
        have hne : ¬ (some x = some fr.sib.root) :=
          fun e => hxsib ((Option.some.inj e) ▸ fr.sib.root_mem)
        rw [ea, if_neg hne, h1]
        simp only [bind, Except.bind, e2, deref, pure, Except.pure]
        exact h3
      · simp only [hside, if_true] at ea eb h1
        rw [ea, if_pos rfl, eb, h1]
        simp only [bind, Except.bind, e2, deref, pure, Except.pure]
        exact h3
    · rw [listsAfter_zip_append _ _ _ _ (by omega), List.length_append, ← List.drop_drop]
      exact h4

theorem threadOf_congr {s s1 : State} (l q : Nat) (ha : (s1.pairs q).a = (s.pairs q).a)
    (hb : (s1.pairs q).b = (s.pairs q).b) : threadOf s1 l q = threadOf s l q := by
  unfold threadOf Pair.sideOf
  rw [ha]
  split
  · exact ha
  · exact hb

theorem replay_none (ctx : MarkContext) (leaf fuel : Nat) (s : State) :
    MarkLeaf.replay ctx leaf fuel s none = .ok s := by
  cases fuel <;> rfl

/-- The replay loop of `MarkLeaf` over a stretch of the well-formed list of a
leaf: it returns and writes collision ids and the callback log only. -/
theorem replay_seg {s0 : State} {m K : Nat} {L : List Nat} {lists : Nat → List Nat}
    {pool : List Nat} (ctx : MarkContext) (g : QueryFn) (leaf : Nat) (hcf : ctx.f = some g)
    (hleaf : (s0.nodes leaf).IsLeaf = true) :
    ∀ (ps : List Nat) (prev head : Option Nat) (s : State) (fuel : Nat),
      PassInv s0 s m L K lists pool → PairSeg s leaf prev head ps none →
      (∀ p ∈ ps, p ∈ lists leaf) → ps.length ≤ fuel →
      ∃ s1, MarkLeaf.replay ctx leaf fuel s head = .ok s1 ∧ PassInv s0 s1 m L K lists pool := by
  intro ps
  induction ps with
  | nil =>
    intro prev head s fuel hinv hseg _ _
    have : head = none := hseg
    subst this
    exact ⟨s, replay_none _ _ _ _, hinv⟩
  | cons p ps ih =>
    intro prev head s fuel hinv hseg hmem hfuel
    obtain ⟨f, rfl⟩ : ∃ f, fuel = f + 1 := ⟨fuel - 1, by simp at hfuel; omega⟩
    obtain ⟨hhead, hlf, -, hrest⟩ := hseg
    subst hhead
    have hl1 : (s.nodes leaf).IsLeaf = true := (shape_isLeaf hinv.1 leaf).trans hleaf
    obtain ⟨o, hol, -, hother, -⟩ := hinv.2.1.2 leaf p hl1 (hmem p (List.mem_cons_self _ _))
    simp only [List.length_cons, Nat.add_le_add_iff_right] at hfuel
    unfold threadOf at hlf
    unfold otherLeaf at hother
    unfold MarkLeaf.replay
    cases hside : (s.pairs p).sideOf (some leaf) with
    | A =>
      rw [hside] at hlf hother
      simp only [Pair.thread, Side.other] at hlf hother
      have hne : ¬ (some leaf = (s.pairs p).b.leaf) := by
        rw [hother]; intro e; exact hol (Option.some.inj e).symm
      rw [if_neg hne]
      have hnext : (threadOf s leaf p).next = (s.pairs p).a.next := by
        unfold threadOf; rw [hside]; rfl
      rw [← hnext]
      exact ih _ _ s f hinv hrest (fun q hq => hmem q (List.mem_cons_of_mem _ hq)) hfuel
    | B =>
      rw [hside] at hlf hother
      simp only [Pair.thread, Side.other] at hlf hother
      rw [if_pos hlf.symm]
      obtain ⟨s1, h1, h2, h3, h4⟩ := callF_pass hcf hinv (s.nodes o).obj (s.nodes leaf).obj
        (s.pairs p).collisionId
      obtain ⟨s2, hs2⟩ : ∃ s2, s2 = s1.setPair p (fun q =>
        { q with collisionId := g (s.nodes o).obj (s.nodes leaf).obj (s.pairs p).collisionId }) :=
        ⟨_, rfl⟩
      have hpa : ∀ q, (s2.pairs q).a = (s.pairs q).a ∧ (s2.pairs q).b = (s.pairs q).b := by
        intro q
        rw [hs2, setPair_pairs, ← h4]
        by_cases hq : q = p
        · subst hq; simp
        · simp [hq]
      have hinv2 : PassInv s0 s2 m L K lists pool := by
        refine PassInv_congr h2 (by rw [hs2]; exact SameShape.setPair _ _ _) (by rw [hs2]; rfl)
          (by rw [hs2]; rfl) (fun q => ?_)
        rw [h4]; exact hpa q
      have hnext : (threadOf s leaf p).next = (s2.pairs p).b.next := by
        unfold threadOf; rw [hside, (hpa p).2]; rfl
      have hseg2 : PairSeg s2 leaf (some p) (s2.pairs p).b.next ps none := by
        rw [← hnext]
        exact PairSeg_congr ps _ _ _ (fun q _ => threadOf_congr leaf q (hpa q).1 (hpa q).2) hrest
      obtain ⟨s3, h5, h6⟩ := ih _ _ s2 f hinv2 hseg2
        (fun q hq => hmem q (List.mem_cons_of_mem _ hq)) hfuel
      refine ⟨s3, ?_, h6⟩
      simp only [hother, deref, bind, Except.bind, pure, Except.pure, h1]
      rw [← hs2]
      exact h5

/-- `MarkLeaf` on a leaf at the end of a path, with no static root: a leaf
that carries the tick climbs, any other leaf replays its list. -/
theorem MarkLeaf_pass {s0 : State} {t m K : Nat} {L : List Nat} (ctx : MarkContext)
    (g : QueryFn) (x : Nat) {lbb : BB} (hct : ctx.tree = some t) (hcf : ctx.f = some g)
    (hsr : ctx.staticRoot = none) (hm : GetMasterTree s0 t = .ok m)
    (hleaf : (s0.nodes x).IsLeaf = true) (hlbb : (s0.nodes x).bb = some lbb) (hxL : x ∈ L)
    (path : List Frame) (hL : CtxLinked s0 path x) (hP : CtxParented s0 path x)
    (hB : ∀ fr ∈ path, Boxed s0 fr.sib) (hnd : (x :: ctxAddrs path).Nodup)
    (D fuel : Nat) (s : State) (lists : Nat → List Nat) (pool : List Nat)
    (hD : ∀ fr ∈ path, fr.sib.depth ≤ D) (hfuel : path.length + D < fuel) (hK : K ≤ fuel)
    (hinv : PassInv s0 s m L K lists pool)
    (hlen : (passIns s0 (s0.trees m).stamp path (Shape.leaf x)).length ≤ pool.length) :
    ∃ s1, MarkLeaf fuel s ctx x = .ok s1 ∧
      PassInv s0 s1 m L K
        (listsAfter lists ((passIns s0 (s0.trees m).stamp path (Shape.leaf x)).zip pool))
        (pool.drop (passIns s0 (s0.trees m).stamp path (Shape.leaf x)).length) := by
  have hsh := hinv.1
  have hms : GetMasterTree s t = .ok m := (GetMasterTree_shape hsh t).trans hm
  have hst : (s.trees m).stamp = (s0.trees m).stamp := by
    have := congrArg BBTree.stamp (hsh.2.2.1 m); simpa [BBTree.shape] using this
  have hsx : (s.nodes x).stamp = (s0.nodes x).stamp := shape_stamp hsh x
  unfold MarkLeaf
  simp only [hct, deref, bind, Except.bind, pure, Except.pure, hms, hst, hsx, hsr]
  by_cases hcur : (s0.nodes x).stamp = (s0.trees m).stamp
  · have hq : passIns s0 (s0.trees m).stamp path (Shape.leaf x) = climbIns s0 x path := by
      simp [passIns, hcur]
    rw [hq] at hlen ⊢
    rw [if_pos hcur]
    exact climb_pass ctx g x hct hcf hm hleaf hlbb path x hL hP hB hnd
      (List.nodup_cons.mp hnd).1 D fuel s lists pool hD hfuel hinv hlen
  · have hq : passIns s0 (s0.trees m).stamp path (Shape.leaf x) = [] := by
      simp [passIns, hcur]
    rw [hq]
    rw [if_neg hcur]
    have hl1 : (s.nodes x).IsLeaf = true := (shape_isLeaf hsh x).trans hleaf
    have hlist := hinv.2.1.1 x hl1
    have hbound := hinv.2.2.2.2.2 x hxL
    obtain ⟨s1, h1, h2⟩ := replay_seg ctx g x hcf hleaf (lists x) none (s.nodes x).pairs s fuel
      hinv hlist.1 (fun p hp => hp) (by omega)
    exact ⟨s1, h1, by simpa [listsAfter] using h2⟩

theorem sib_depth_plug : ∀ (path : List Frame) (U : Shape) (fr : Frame), fr ∈ path →
    fr.sib.depth ≤ (plug path U).depth := by
  intro path
  induction path with
  | nil => intro U fr h; simp at h
  | cons f rest ih =>
    intro U fr h
    rw [plug]
    rcases List.mem_cons.mp h with e | e
    · subst e
      have h1 := depth_plug rest (fr.fill U)
      have h2 : fr.sib.depth ≤ (fr.fill U).depth := by
        unfold Frame.fill
        split
        · exact le_trans (le_max_right _ _) (Nat.le_succ _)
        · exact le_trans (le_max_left _ _) (Nat.le_succ _)
      omega
    · exact ih _ fr e

/-- `MarkSubtree` over a subtree `U` of the tree `T`, reached along `path`,
with no static root: it returns, and its insertions are those of `passIns`,
each with the next record of the pool. -/
theorem MarkSubtree_pass {s0 : State} {t m K : Nat} {L : List Nat} (ctx : MarkContext)
    (g : QueryFn) (hct : ctx.tree = some t) (hcf : ctx.f = some g)
    (hsr : ctx.staticRoot = none) (hm : GetMasterTree s0 t = .ok m) (T : Shape)
    (hlink : Linked s0 T) (hpar : Parented s0 T) (hroot : (s0.nodes T.root).parent = none)
    (hbox : Boxed s0 T) (hnd : T.addrs.Nodup) (hTL : ∀ l ∈ T.leaves, l ∈ L) :
    ∀ (U : Shape) (path : List Frame), plug path U = T →
    ∀ (fuel : Nat) (s : State) (lists : Nat → List Nat) (pool : List Nat),
      2 * U.depth + path.length + T.depth + K ≤ fuel → PassInv s0 s m L K lists pool →
      (passIns s0 (s0.trees m).stamp path U).length ≤ pool.length →
      ∃ s1, MarkSubtree ctx fuel s (some U.root) = .ok s1 ∧
        PassInv s0 s1 m L K
          (listsAfter lists ((passIns s0 (s0.trees m).stamp path U).zip pool))
          (pool.drop (passIns s0 (s0.trees m).stamp path U).length) := by
  intro U
  induction U with
  | leaf x =>
    intro path hT fuel s lists pool hfuel hinv hlen
    obtain ⟨f, rfl⟩ : ∃ f, fuel = f + 1 := ⟨fuel - 1, by simp [Shape.depth] at hfuel; omega⟩
    simp only [Shape.depth] at hfuel
    have hD : ∀ fr ∈ path, fr.sib.depth ≤ T.depth := by
      intro fr hfr; rw [← hT]; exact sib_depth_plug path _ fr hfr
    have hxT : x ∈ T.leaves := by
      rw [← hT]
      exact (leaves_plug path (Shape.leaf x)).mem_iff.mpr (by simp [Shape.leaves])
    subst hT
    obtain ⟨hLx, hLc⟩ := (Linked_plug _ _).mp hlink
    obtain ⟨-, hPc⟩ := (Parented_plug _ _).mp ⟨hpar, hroot⟩
    obtain ⟨hBx, hBc⟩ := (Boxed_plug _ _).mp hbox
    have hnd1 := (addrs_plug path (Shape.leaf x)).nodup_iff.mp hnd
    obtain ⟨lbb, hlbb⟩ := Option.ne_none_iff_exists'.mp (show (s0.nodes x).bb ≠ none from hBx)
    obtain ⟨s1, h1, h2⟩ := MarkLeaf_pass ctx g x hct hcf hsr hm hLx hlbb (hTL x hxT) path hLc hPc
      (CtxBoxed_sibs path _ hBc) hnd1 _ f s lists pool hD (by omega) (by omega) hinv hlen
    refine ⟨s1, ?_, h2⟩
    have e3 : (s.nodes x).IsLeaf = true := (shape_isLeaf hinv.1 x).trans hLx
    show MarkSubtree ctx (f + 1) s (some x) = _
    unfold MarkSubtree
    simp only [deref, bind, Except.bind, pure, Except.pure, e3, if_true]
    exact h1
  | node p a b iha ihb =>
    intro path hT fuel s lists pool hfuel hinv hlen
    obtain ⟨f, rfl⟩ : ∃ f, fuel = f + 1 := ⟨fuel - 1, by simp [Shape.depth] at hfuel; omega⟩
    simp only [Shape.depth] at hfuel
    have hTa : plug (⟨p, true, b⟩ :: path) a = T := by rw [← hT]; simp [plug, Frame.fill]
    have hTb : plug (⟨p, false, a⟩ :: path) b = T := by rw [← hT]; simp [plug, Frame.fill]
    have hLp : Linked s0 (Shape.node p a b) := by
      have := hlink; rw [← hT] at this; exact ((Linked_plug _ _).mp this).1
    obtain ⟨hp1, hpa, hpb, -, -⟩ := hLp
    have hq : passIns s0 (s0.trees m).stamp path (Shape.node p a b) =
        passIns s0 (s0.trees m).stamp (⟨p, true, b⟩ :: path) a ++
          passIns s0 (s0.trees m).stamp (⟨p, false, a⟩ :: path) b := rfl
    rw [hq] at hlen ⊢
    simp only [List.length_append] at hlen
    have hda : a.depth ≤ max a.depth b.depth := le_max_left _ _
    have hdb : b.depth ≤ max a.depth b.depth := le_max_right _ _
    obtain ⟨s1, h1, h2⟩ := iha _ hTa f s lists pool
      (by simp only [List.length_cons]; omega) hinv (by omega)
    obtain ⟨s2, h3, h4⟩ := ihb _ hTb f s1 _ _
      (by simp only [List.length_cons]; omega) h2 (by simp only [List.length_drop]; omega)
    have e3 : (s.nodes p).IsLeaf = false := (shape_isLeaf hinv.1 p).trans hp1
    have ea : (s.nodes p).a = some a.root := (shape_a hinv.1 p).trans hpa
    have eb : (s1.nodes p).b = some b.root := (shape_b h2.1 p).trans hpb
    refine ⟨s2, ?_, ?_⟩
    · show MarkSubtree ctx (f + 1) s (some p) = _
      unfold MarkSubtree
      simp only [deref, bind, Except.bind, pure, Except.pure, e3, Bool.false_eq_true, if_false,
        ea, h1, eb, h3]
    · rw [listsAfter_zip_append _ _ _ _ (by omega), List.length_append, ← List.drop_drop]
      exact h4

theorem linkB_comm (x y : Nat) : linkB x y = linkB y x := by
  funext e
  unfold linkB
  exact Bool.or_comm _ _

theorem boxI_comm (s : State) (x y : Nat) : boxI s x y = boxI s y x := by
  unfold boxI
  cases (s.nodes x).bb <;> cases (s.nodes y).bb <;> simp only []
  unfold BB.Intersects
  simp only [Bool.and_comm, Bool.and_left_comm, Bool.and_assoc]

theorem queryIns_ends (s : State) (z : Nat) (left : Bool) : ∀ (U : Shape) (e : Nat × Nat),
    e ∈ queryIns s z left U → (e.1 = z ∧ e.2 ∈ U.leaves) ∨ (e.2 = z ∧ e.1 ∈ U.leaves) := by
  intro U
  induction U with
  | leaf y =>
    intro e he
    unfold queryIns at he
    split at he
    · split at he
      · simp only [List.mem_singleton] at he
        subst he; exact Or.inl ⟨rfl, by simp [Shape.leaves]⟩
      · split at he
        · simp only [List.mem_singleton] at he
          subst he; exact Or.inr ⟨rfl, by simp [Shape.leaves]⟩
        · simp at he
    · simp at he
  | node p a b iha ihb =>
    intro e he
    simp only [queryIns, List.mem_append] at he
    simp only [Shape.leaves, List.mem_append]
    rcases he with he | he
    · rcases iha e he with h | h
      · exact Or.inl ⟨h.1, Or.inl h.2⟩
      · exact Or.inr ⟨h.1, Or.inl h.2⟩
    · rcases ihb e he with h | h
      · exact Or.inl ⟨h.1, Or.inr h.2⟩
      · exact Or.inr ⟨h.1, Or.inr h.2⟩

theorem climbIns_ends (s : State) (z : Nat) : ∀ (path : List Frame) (e : Nat × Nat),
    e ∈ climbIns s z path →
      (e.1 = z ∧ e.2 ∈ ctxLeaves path) ∨ (e.2 = z ∧ e.1 ∈ ctxLeaves path) := by
  intro path
  induction path with
  | nil => intro e he; simp [climbIns] at he
  | cons fr rest ih =>
    intro e he
    simp only [climbIns, List.mem_append] at he
    simp only [ctxLeaves, List.mem_append]
    rcases he with he | he
    · rcases queryIns_ends s z fr.left fr.sib e he with h | h
      · exact Or.inl ⟨h.1, Or.inl h.2⟩
      · exact Or.inr ⟨h.1, Or.inl h.2⟩
    · rcases ih e he with h | h
      · exact Or.inl ⟨h.1, Or.inr h.2⟩
      · exact Or.inr ⟨h.1, Or.inr h.2⟩

theorem linkB_iff {x y : Nat} {e : Nat × Nat} :
    linkB x y e = true ↔ (e.1 = x ∧ e.2 = y) ∨ (e.1 = y ∧ e.2 = x) := by
  unfold linkB
  simp only [Bool.or_eq_true, decide_eq_true_eq, Prod.ext_iff]

/-- The insertions of one climb that link `x` and `y`, when `y` is in no
sibling subtree along the path: none. -/
theorem climbIns_count_zero (s : State) (x y : Nat) (path : List Frame)
    (hy : y ∉ ctxLeaves path) (hxy : x ≠ y) :
    (climbIns s x path).countP (linkB x y) = 0 := by
  rw [List.countP_eq_zero]
  intro e he hl
  rw [linkB_iff] at hl
  rcases climbIns_ends s x path e he with h | h
  · rcases hl with hl | hl
    · exact hy (hl.2 ▸ h.2)
    · exact hxy (h.1.symm.trans hl.1)
  · rcases hl with hl | hl
    · exact hxy (hl.2.symm.trans h.1).symm
    · exact hy (hl.1 ▸ h.2)

theorem queryIns_count (s : State) (x y : Nat) (left : Bool) (hxy : x ≠ y) :
    ∀ (U : Shape), U.leaves.Nodup → y ∈ U.leaves →
    (queryIns s x left U).countP (linkB x y) =
      if (boxI s x y && (left || decide ((s.nodes y).stamp < (s.nodes x).stamp))) = true
      then 1 else 0 := by
  intro U
  induction U with
  | leaf z =>
    intro _ hy
    have : y = z := by simpa [Shape.leaves] using hy
    subst this
    have h1 : linkB x y (x, y) = true := by simp [linkB]
    have h2 : linkB x y (y, x) = true := by simp [linkB]
    unfold queryIns
    cases hb : boxI s x y
    · simp
    · cases left
      · by_cases hst : (s.nodes y).stamp < (s.nodes x).stamp
        · simp [hst, h2]
        · simp [hst]
      · simp [h1]
  | node p a b iha ihb =>
    intro hnd hy
    simp only [Shape.leaves, List.nodup_append, List.mem_append] at hnd hy
    obtain ⟨hna, hnb, hdisj⟩ := hnd
    simp only [queryIns, List.countP_append]
    have hzero : ∀ (V : Shape), y ∉ V.leaves → (queryIns s x left V).countP (linkB x y) = 0 := by
      intro V hV
      rw [List.countP_eq_zero]
      intro e he hl
      rw [linkB_iff] at hl
      rcases queryIns_ends s x left V e he with h | h
      · rcases hl with hl | hl
        · exact hV (hl.2 ▸ h.2)
        · exact hxy (h.1.symm.trans hl.1)
      · rcases hl with hl | hl
        · exact hxy (hl.2.symm.trans h.1).symm
        · exact hV (hl.1 ▸ h.2)
    rcases hy with hy | hy
    · rw [iha hna hy, hzero b (fun h => hdisj hy h), Nat.add_zero]
    · rw [ihb hnb hy, hzero a (fun h => hdisj h hy), Nat.zero_add]

/-- The insertions over a subtree that holds neither `x` nor `y` do not link them. -/
theorem passIns_count_zero (s : State) (now x y : Nat) : ∀ (U : Shape) (path : List Frame),
    x ∉ U.leaves → y ∉ U.leaves → (passIns s now path U).countP (linkB x y) = 0 := by
  intro U
  induction U with
  | leaf z =>
    intro path hx hy
    simp only [Shape.leaves, List.mem_singleton] at hx hy
    unfold passIns
    split
    · rw [List.countP_eq_zero]
      intro e he hl
      rw [linkB_iff] at hl
      rcases climbIns_ends s z path e he with h | h
      · rcases hl with hl | hl
        · exact hx (hl.1.symm.trans h.1)
        · exact hy (hl.1.symm.trans h.1)
      · rcases hl with hl | hl
        · exact hy (hl.2.symm.trans h.1)
        · exact hx (hl.2.symm.trans h.1)
    · rfl
  | node p a b iha ihb =>
    intro path hx hy
    simp only [Shape.leaves, List.mem_append, not_or] at hx hy
    simp only [passIns, List.countP_append]
    rw [iha _ hx.1 hy.1, ihb _ hx.2 hy.2]

/-- The insertions over a subtree that holds `x` but not `y`: those of the
climb of `x`, when `x` carries the tick. -/
theorem passIns_count_one (s : State) (now x y : Nat) : ∀ (U : Shape) (path : List Frame),
    U.leaves.Nodup → x ∈ U.leaves → y ∉ U.leaves →
    (passIns s now path U).countP (linkB x y) =
      if (s.nodes x).stamp = now
      then (climbIns s x path).countP (linkB x y) else 0 := by
  intro U
  induction U with
  | leaf z =>
    intro path _ hx _
    have : x = z := by simpa [Shape.leaves] using hx
    subst this
    unfold passIns
    split <;> simp
  | node p a b iha ihb =>
    intro path hnd hx hy
    simp only [Shape.leaves, List.nodup_append, List.mem_append, not_or] at hnd hx hy
    obtain ⟨hna, hnb, hdisj⟩ := hnd
    have hxy : x ≠ y := by
      intro e; subst e
      rcases hx with hx | hx
      · exact hy.1 hx
      · exact hy.2 hx
    have hzero : ∀ (V : Shape) (left : Bool), y ∉ V.leaves →
        (queryIns s x left V).countP (linkB x y) = 0 := by
      intro V left hV
      rw [List.countP_eq_zero]
      intro e he hl
      rw [linkB_iff] at hl
      rcases queryIns_ends s x left V e he with h | h
      · rcases hl with hl | hl
        · exact hV (hl.2 ▸ h.2)
        · exact hxy (h.1.symm.trans hl.1)
      · rcases hl with hl | hl
        · exact hxy (hl.2.symm.trans h.1).symm
        · exact hV (hl.1 ▸ h.2)
    simp only [passIns, List.countP_append]
    rcases hx with hx | hx
    · rw [iha _ hna hx hy.1, passIns_count_zero s now x y b _ (fun h => hdisj hx h) hy.2]
      simp only [climbIns, List.countP_append, hzero b true hy.2, Nat.add_zero, Nat.zero_add]
    · rw [ihb _ hnb hx hy.2, passIns_count_zero s now x y a _ (fun h => hdisj h hx) hy.1]
      simp only [climbIns, List.countP_append, hzero a false hy.1, Nat.add_zero, Nat.zero_add]

/-- The insertions over a node whose left subtree holds `x` and whose right
subtree holds `y`: one that links them when their boxes meet and one of them
carries the tick, none otherwise. -/
theorem passIns_count_cross (s : State) (now x y p : Nat) (a b : Shape) (path : List Frame)
    (hxy : x ≠ y) (hsx : (s.nodes x).stamp ≤ now) (hsy : (s.nodes y).stamp ≤ now)
    (hcur : (s.nodes x).stamp = now ∨ (s.nodes y).stamp = now)
    (hnd : ((a.leaves ++ b.leaves) ++ ctxLeaves path).Nodup) (hx : x ∈ a.leaves)
    (hy : y ∈ b.leaves) :
    (passIns s now path (Shape.node p a b)).countP (linkB x y) =
      if boxI s x y = true then 1 else 0 := by
  simp only [List.nodup_append, List.mem_append] at hnd
  obtain ⟨⟨hna, hnb, hdab⟩, hnc, hdc⟩ := hnd
  have hya : y ∉ a.leaves := fun h => hdab h hy
  have hxb : x ∉ b.leaves := fun h => hdab hx h
  have hyc : y ∉ ctxLeaves path := fun h => hdc (List.mem_append_right _ hy) h
  have hxc : x ∉ ctxLeaves path := fun h => hdc (List.mem_append_left _ hx) h
  simp only [passIns, List.countP_append]
  rw [passIns_count_one s now x y a _ hna hx hya, linkB_comm x y,
    passIns_count_one s now y x b _ hnb hy hxb]
  simp only [climbIns, List.countP_append]
  rw [climbIns_count_zero s y x path hxc (fun e => hxy e.symm), ← linkB_comm x y,
    climbIns_count_zero s x y path hyc hxy, queryIns_count s x y true hxy b hnb hy,
    linkB_comm x y, queryIns_count s y x false (fun e => hxy e.symm) a hna hx, boxI_comm s y x]
  cases boxI s x y
  · simp
  · simp only [Bool.true_or, Bool.and_true, Bool.false_or, Bool.true_and, decide_eq_true_eq,
      if_true, Nat.add_zero]
    split_ifs <;> omega

/-- The insertions of a pass over a subtree that holds the leaves `x` and
`y`: exactly one links them when their boxes meet and one of them carries the
tick, none when their boxes do not meet. -/
theorem passIns_count (s : State) (now x y : Nat) (hxy : x ≠ y)
    (hsx : (s.nodes x).stamp ≤ now) (hsy : (s.nodes y).stamp ≤ now)
    (hcur : (s.nodes x).stamp = now ∨ (s.nodes y).stamp = now) :
    ∀ (U : Shape) (path : List Frame), (U.leaves ++ ctxLeaves path).Nodup → x ∈ U.leaves →
    y ∈ U.leaves →
    (passIns s now path U).countP (linkB x y) = if boxI s x y = true then 1 else 0 := by
  intro U
  induction U with
  | leaf z =>
    intro path _ hx hy
    simp only [Shape.leaves, List.mem_singleton] at hx hy
    exact absurd (hx.trans hy.symm) hxy
  | node p a b iha ihb =>
    intro path hnd hx hy
    have hnd0 := hnd
    simp only [Shape.leaves, List.nodup_append, List.mem_append] at hnd hx hy
    obtain ⟨⟨hna, hnb, hdab⟩, hnc, hdc⟩ := hnd
    have hnda : (a.leaves ++ ctxLeaves (⟨p, true, b⟩ :: path)).Nodup := by
      have : (a.leaves ++ (b.leaves ++ ctxLeaves path)).Nodup := by
        rw [← List.append_assoc]; exact hnd0
      exact this
    have hndb : (b.leaves ++ ctxLeaves (⟨p, false, a⟩ :: path)).Nodup := by
      have h1 : ((b.leaves ++ a.leaves) ++ ctxLeaves path).Perm
          ((a.leaves ++ b.leaves) ++ ctxLeaves path) :=
        List.Perm.append_right _ List.perm_append_comm
      have : (b.leaves ++ (a.leaves ++ ctxLeaves path)).Nodup := by
        rw [← List.append_assoc]; exact h1.nodup_iff.mpr hnd0
      exact this
    rcases hx with hx | hx
    · rcases hy with hy | hy
      · simp only [passIns, List.countP_append]
        rw [iha _ hnda hx hy, passIns_count_zero s now x y b _ (fun h => hdab hx h)
          (fun h => hdab hy h), Nat.add_zero]
      · exact passIns_count_cross s now x y p a b path hxy hsx hsy hcur hnd0 hx hy
    · rcases hy with hy | hy
      · rw [linkB_comm x y, boxI_comm s x y]
        exact passIns_count_cross s now y x p a b path (fun e => hxy e.symm) hsy hsx hcur.symm
          hnd0 hy hx
      · simp only [passIns, List.countP_append]
        rw [ihb _ hndb hx hy, passIns_count_zero s now x y a _ (fun h => hdab h hx)
          (fun h => hdab h hy), Nat.zero_add]

theorem mem_listsInsert (lists : Nat → List Nat) (a b pr x p : Nat) :
    p ∈ listsInsert lists a b pr x ↔ (p = pr ∧ (x = a ∨ x = b)) ∨ p ∈ lists x := by
  unfold listsInsert
  by_cases h : x = a ∨ x = b
  · simp [h]
  · simp [h]

theorem mem_listsAfter : ∀ (zs : List ((Nat × Nat) × Nat)) (lists : Nat → List Nat) (x p : Nat),
    p ∈ listsAfter lists zs x ↔
      p ∈ lists x ∨ ∃ z ∈ zs, z.2 = p ∧ (x = z.1.1 ∨ x = z.1.2) := by
  intro zs
  induction zs with
  | nil => intro lists x p; simp [listsAfter]
  | cons z zs ih =>
    intro lists x p
    have : listsAfter lists (z :: zs) = listsAfter (listsInsert lists z.1.1 z.1.2 z.2) zs := rfl
    rw [this, ih, mem_listsInsert]
    constructor
    · rintro ((⟨h1, h2⟩ | h) | ⟨w, hw, h⟩)
      · exact Or.inr ⟨z, List.mem_cons_self _ _, h1.symm, h2⟩
      · exact Or.inl h
      · exact Or.inr ⟨w, List.mem_cons_of_mem _ hw, h⟩
    · rintro (h | ⟨w, hw, h⟩)
      · exact Or.inl (Or.inr h)
      · rcases List.mem_cons.mp hw with e | e
        · subst e; exact Or.inl (Or.inl ⟨h.1.symm, h.2⟩)
        · exact Or.inr ⟨w, e, h⟩

theorem zip_snd_inj {α : Type} : ∀ (ins : List α) (pool : List Nat), pool.Nodup →
    ∀ z ∈ ins.zip pool, ∀ w ∈ ins.zip pool, z.2 = w.2 → z = w := by
  intro ins
  induction ins with
  | nil => intro pool _ z hz; simp at hz
  | cons e ins ih =>
    intro pool hnd z hz w hw hzw
    cases pool with
    | nil => simp at hz
    | cons q pool =>
      obtain ⟨hq, hnd1⟩ := List.nodup_cons.mp hnd
      simp only [List.zip_cons_cons, List.mem_cons] at hz hw
      rcases hz with hz | hz
      · rcases hw with hw | hw
        · rw [hz, hw]
        · exfalso
          have := (List.of_mem_zip (show (w.1, w.2) ∈ ins.zip pool from hw)).2
          rw [← hzw, hz] at this
          exact hq this
      · rcases hw with hw | hw
        · exfalso
          have := (List.of_mem_zip (show (z.1, z.2) ∈ ins.zip pool from hz)).2
          rw [hzw, hw] at this
          exact hq this
        · exact ih pool hnd1 z hz w hw hzw

theorem zip_count_zero {α : Type} (P : α → Bool) (ins : List α) (pool : List Nat)
    (h : ins.countP P = 0) : ∀ z ∈ ins.zip pool, P z.1 = false := by
  intro z hz
  have h1 := (List.of_mem_zip (show (z.1, z.2) ∈ ins.zip pool from hz)).1
  rw [List.countP_eq_zero] at h
  cases hp : P z.1
  · rfl
  · exact absurd hp (h z.1 h1)

theorem zip_count_one {α : Type} (P : α → Bool) : ∀ (ins : List α) (pool : List Nat),
    ins.length ≤ pool.length → ins.countP P = 1 →
    ∃ z ∈ ins.zip pool, P z.1 = true ∧ ∀ w ∈ ins.zip pool, P w.1 = true → w = z := by
  intro ins
  induction ins with
  | nil => intro pool _ h; simp at h
  | cons e ins ih =>
    intro pool hlen h
    cases pool with
    | nil => simp at hlen
    | cons q pool =>
      simp only [List.length_cons, Nat.add_le_add_iff_right] at hlen
      rw [List.countP_cons] at h
      cases hp : P e
      · simp only [hp, Bool.false_eq_true, if_false, Nat.add_zero] at h
        obtain ⟨z, hz, hPz, huniq⟩ := ih pool hlen h
        refine ⟨z, by simp [hz], hPz, ?_⟩
        intro w hw hPw
        simp only [List.zip_cons_cons, List.mem_cons] at hw
        rcases hw with hw | hw
        · subst hw; rw [hp] at hPw; cases hPw
        · exact huniq w hw hPw
      · simp only [hp, if_true] at h
        have h0 : ins.countP P = 0 := by omega
        refine ⟨(e, q), by simp, hp, ?_⟩
        intro w hw hPw
        simp only [List.zip_cons_cons, List.mem_cons] at hw
        rcases hw with hw | hw
        · exact hw
        · rw [zip_count_zero P ins pool h0 w hw] at hPw; cases hPw

theorem Linked_leaf {s : State} : ∀ (T : Shape), Linked s T → ∀ l ∈ T.leaves,
    (s.nodes l).IsLeaf = true := by
  intro T
  induction T with
  | leaf p =>
    intro h l hl
    have : l = p := by simpa [Shape.leaves] using hl
    subst this; exact h
  | node p a b iha ihb =>
    intro h l hl
    simp only [Shape.leaves, List.mem_append] at hl
    rcases hl with hl | hl
    · exact iha h.2.2.2.1 l hl
    · exact ihb h.2.2.2.2 l hl

theorem Shape.leaves_sublist : ∀ (T : Shape), T.leaves.Sublist T.addrs := by
  intro T
  induction T with
  | leaf p => exact List.Sublist.refl _
  | node p a b iha ihb =>
    exact List.Sublist.cons _ (List.Sublist.append iha ihb)

theorem le_sum_map (f : Nat → Nat) : ∀ (L : List Nat) (l : Nat), l ∈ L → f l ≤ (L.map f).sum := by
  intro L
  induction L with
  | nil => intro l h; simp at h
  | cons a L ih =>
    intro l h
    simp only [List.map_cons, List.sum_cons]
    rcases List.mem_cons.mp h with e | e
    · subst e; omega
    · have := ih l e; omega

/-- A pair in the lists of two leaves names both of them. -/
theorem Links_of_mem {s : State} {lists : Nat → List Nat} (hwf : PairsWF s lists) {x y p : Nat}
    (hx : (s.nodes x).IsLeaf = true) (hy : (s.nodes y).IsLeaf = true) (hxy : x ≠ y)
    (hpx : p ∈ lists x) (hpy : p ∈ lists y) : Links s p x y := by
  have h1 := mem_list_names (hwf.1 x hx) hpx
  have h2 := mem_list_names (hwf.1 y hy) hpy
  rcases h1 with h1 | h1
  · rcases h2 with h2 | h2
    · exact absurd (Option.some.inj (h1.symm.trans h2)) hxy
    · exact Or.inl ⟨h1, h2⟩
  · rcases h2 with h2 | h2
    · exact Or.inr ⟨h2, h1⟩
    · exact absurd (Option.some.inj (h1.symm.trans h2)) hxy

/-- A pair in the list of `x` that names `y` is in the list of `y`. -/
theorem mem_of_Links {s : State} {lists : Nat → List Nat} (hwf : PairsWF s lists) {x y p : Nat}
    (hx : (s.nodes x).IsLeaf = true) (hxy : x ≠ y) (hpx : p ∈ lists x) (hl : Links s p x y) :
    p ∈ lists y := by
  refine names_mem hwf hx hxy hpx ?_
  rcases hl with hl | hl
  · exact Or.inr hl.2
  · exact Or.inl hl.1

/-- C3, amended: on a well-formed tree `T` (children linked, parent links
pointing back, boxes the unions of the children's boxes, no address twice, a
root without parent) of a tree record that resolves its master tree, with no
static root, every leaf's stamp at most the tick of the master tree, an empty
pair list at every leaf that carries the tick, well-formed symmetric pair
lists, and a pair pool that is a freelist of distinct records, none of them in
a pair list, with a record for every insertion of the pass: with enough fuel
`MarkSubtree` from the root returns, the pair lists are again well formed and
symmetric, and for every two distinct leaves `x`, `y` of which one carries the
tick, the list of `x` holds exactly one pair that names `x` and `y` when their
boxes meet and no such pair when they do not. -/
theorem markSubtree_links_pairs (s : State) (t m : Nat) (g : QueryFn) (T : Shape)
    (lists : Nat → List Nat) (pool : List Nat)
    (hlink : Linked s T) (hpar : Parented s T) (hroot : (s.nodes T.root).parent = none)
    (hbox : Boxed s T) (hnd : T.addrs.Nodup) (hm : GetMasterTree s t = .ok m)
    (hstamp : ∀ l ∈ T.leaves, (s.nodes l).stamp ≤ (s.trees m).stamp)
    (hempty : ∀ l ∈ T.leaves, (s.nodes l).stamp = (s.trees m).stamp → (s.nodes l).pairs = none)
    (hwf : PairsWF s lists) (hpool : PoolSeg s (s.trees m).pooledPairs pool none)
    (hpnd : pool.Nodup)
    (hfresh : ∀ l p, (s.nodes l).IsLeaf = true → p ∈ lists l → p ∉ pool)
    (henough : (passIns s (s.trees m).stamp [] T).length ≤ pool.length) :
    ∃ N, ∀ fuel, N ≤ fuel → ∃ s1 lists1,
      MarkSubtree ⟨some t, none, some g⟩ fuel s (some T.root) = .ok s1 ∧ PairsWF s1 lists1 ∧
      ∀ x ∈ T.leaves, ∀ y ∈ T.leaves, x ≠ y →
        ((s.nodes x).stamp = (s.trees m).stamp ∨ (s.nodes y).stamp = (s.trees m).stamp) →
        (boxI s x y = true → ∃! p, p ∈ lists1 x ∧ Links s1 p x y) ∧
        (boxI s x y = false → ∀ p, p ∈ lists1 x → ¬ Links s1 p x y) := by
  obtain ⟨K, hK⟩ : ∃ K, K = pool.length + (T.leaves.map (fun l => (lists l).length)).sum :=
    ⟨_, rfl⟩
  refine ⟨3 * T.depth + K, fun fuel hfuel => ?_⟩
  have hinv0 : PassInv s s m T.leaves K lists pool :=
    ⟨SameShape.refl s, hwf, hpool, hpnd, hfresh, fun l hl => by
      have := le_sum_map (fun l => (lists l).length) T.leaves l hl
      simp only at this
      omega⟩
  obtain ⟨s1, h1, h2⟩ := MarkSubtree_pass ⟨some t, none, some g⟩ g rfl rfl rfl hm T hlink hpar
    hroot hbox hnd (fun l hl => hl) T [] rfl fuel s lists pool
    (by simp only [List.length_nil]; omega) hinv0 henough
  refine ⟨s1, _, h1, h2.2.1, ?_⟩
  intro x hx y hy hxy hcur
  have hwf1 := h2.2.1
  have hndl : T.leaves.Nodup := hnd.sublist T.leaves_sublist
  have hcount := passIns_count s (s.trees m).stamp x y hxy (hstamp x hx) (hstamp y hy) hcur T []
    (by simpa [ctxLeaves] using hndl) hx hy
  have hlx : (s.nodes x).IsLeaf = true := Linked_leaf T hlink x hx
  have hly : (s.nodes y).IsLeaf = true := Linked_leaf T hlink y hy
  have hlx1 : (s1.nodes x).IsLeaf = true := (shape_isLeaf h2.1 x).trans hlx
  have hly1 : (s1.nodes y).IsLeaf = true := (shape_isLeaf h2.1 y).trans hly
  have hnil : ∀ l ∈ T.leaves, (s.nodes l).stamp = (s.trees m).stamp → lists l = [] := by
    intro l hl hc
    have h3 := PairList_head (hwf.1 l (Linked_leaf T hlink l hl))
    rw [hempty l hl hc] at h3
    exact List.head?_eq_none_iff.mp h3.symm
  have hemp : lists x = [] ∨ lists y = [] := by
    rcases hcur with h | h
    · exact Or.inl (hnil x hx h)
    · exact Or.inr (hnil y hy h)
  have hzpool : ∀ z ∈ (passIns s (s.trees m).stamp [] T).zip pool, z.2 ∈ pool :=
    fun z hz => (List.of_mem_zip (show (z.1, z.2) ∈ _ from hz)).2
  have key : ∀ p, (p ∈ listsAfter lists ((passIns s (s.trees m).stamp [] T).zip pool) x ∧
      Links s1 p x y) ↔
      ∃ z ∈ (passIns s (s.trees m).stamp [] T).zip pool, z.2 = p ∧ linkB x y z.1 = true := by
    intro p
    constructor
    · rintro ⟨hpx, hl⟩
      have hpy := mem_of_Links hwf1 hlx1 hxy hpx hl
      rw [mem_listsAfter] at hpx hpy
      rcases hpx with hpx | ⟨z, hz, hzp, hzx⟩
      · rcases hpy with hpy | ⟨w, hw, hwp, -⟩
        · rcases hemp with e | e
          · rw [e] at hpx; cases hpx
          · rw [e] at hpy; cases hpy
        · exact absurd (hwp ▸ hzpool w hw) (hfresh x p hlx hpx)
      · rcases hpy with hpy | ⟨w, hw, hwp, hwy⟩
        · exact absurd (hzp ▸ hzpool z hz) (hfresh y p hly hpy)
        · have e := zip_snd_inj _ pool hpnd z hz w hw (hzp.trans hwp.symm)
          subst e
          refine ⟨z, hz, hzp, linkB_iff.mpr ?_⟩
          rcases hzx with a | a
          · rcases hwy with b | b
            · exact absurd (a.trans b.symm) hxy
            · exact Or.inl ⟨a.symm, b.symm⟩
          · rcases hwy with b | b
            · exact Or.inr ⟨b.symm, a.symm⟩
            · exact absurd (a.trans b.symm) hxy
    · rintro ⟨z, hz, hzp, hl⟩
      rw [linkB_iff] at hl
      have hpx : p ∈ listsAfter lists ((passIns s (s.trees m).stamp [] T).zip pool) x := by
        rw [mem_listsAfter]
        refine Or.inr ⟨z, hz, hzp, ?_⟩
        rcases hl with hl | hl
        · exact Or.inl hl.1.symm
        · exact Or.inr hl.2.symm
      have hpy : p ∈ listsAfter lists ((passIns s (s.trees m).stamp [] T).zip pool) y := by
        rw [mem_listsAfter]
        refine Or.inr ⟨z, hz, hzp, ?_⟩
        rcases hl with hl | hl
        · exact Or.inr hl.2.symm
        · exact Or.inl hl.1.symm
      exact ⟨hpx, Links_of_mem hwf1 hlx1 hly1 hxy hpx hpy⟩
  constructor
  · intro hb
    rw [if_pos hb] at hcount
    obtain ⟨z, hz, hPz, huniq⟩ := zip_count_one (linkB x y) _ pool henough hcount
    refine ⟨z.2, (key _).mpr ⟨z, hz, rfl, hPz⟩, ?_⟩
    intro p hp
    obtain ⟨w, hw, hwp, hPw⟩ := (key p).mp hp
    rw [← hwp, huniq w hw hPw]
  · intro hb p hpx hl
    have hb1 : ¬ (boxI s x y = true) := by rw [hb]; simp
    rw [if_neg hb1] at hcount
    obtain ⟨w, hw, -, hPw⟩ := (key p).mp ⟨hpx, hl⟩
    rw [zip_count_zero (linkB x y) _ pool hcount w hw] at hPw
    cases hPw

theorem markDemo_pairs (l : Nat) : (markDemo.nodes l).pairs = none := by
  unfold markDemo
  simp only
  split_ifs <;> rfl

/-- C3, amended, at a concrete heap: an old and a new leaf whose boxes meet. -/
theorem markSubtree_links_pairs_witness :
    ∃ N, ∀ fuel, N ≤ fuel → ∃ s1 lists1,
      MarkSubtree ⟨some 0, none, some VoidQueryFunc⟩ fuel markDemo
        (some insertDemoTree.root) = .ok s1 ∧ PairsWF s1 lists1 ∧
      ∀ x ∈ insertDemoTree.leaves, ∀ y ∈ insertDemoTree.leaves, x ≠ y →
        ((markDemo.nodes x).stamp = (markDemo.trees 0).stamp ∨
          (markDemo.nodes y).stamp = (markDemo.trees 0).stamp) →
        (boxI markDemo x y = true → ∃! p, p ∈ lists1 x ∧ Links s1 p x y) ∧
        (boxI markDemo x y = false → ∀ p, p ∈ lists1 x → ¬ Links s1 p x y) :=
  markSubtree_links_pairs markDemo 0 0 VoidQueryFunc insertDemoTree (fun _ => []) [5]
    ⟨rfl, rfl, rfl, rfl, rfl⟩ ⟨rfl, rfl, trivial, trivial⟩ rfl
    ⟨⟨_, _, rfl, rfl, rfl⟩, by simp [Boxed, markDemo], by simp [Boxed, markDemo]⟩
    (by decide) rfl (by decide) (fun l _ _ => markDemo_pairs l)
    ⟨fun l _ => ⟨markDemo_pairs l, List.nodup_nil⟩, fun l p _ hp => by cases hp⟩
    ⟨rfl, rfl⟩ (by decide) (fun l p _ hp => by cases hp) (by decide)

/-- C3 as stated fails: the heap `staleDemo` meets what the claim asks for (a
well-formed tree of two leaves, no static root, stamps at most the tick 1, an
empty pair list at the leaf that carries the tick, an unused pair in the
pool), the pass returns and leaves the heap as it was, and afterwards the
list of leaf 0 still starts with the pair 0, which names the leaves 0 and 1,
although their boxes do not meet. -/
theorem markSubtree_keeps_stale_pair :
    Linked staleDemo insertDemoTree ∧ Parented staleDemo insertDemoTree ∧
    (staleDemo.nodes insertDemoTree.root).parent = none ∧ Boxed staleDemo insertDemoTree ∧
    GetMasterTree staleDemo 0 = .ok 0 ∧
    (∀ l ∈ insertDemoTree.leaves, (staleDemo.nodes l).stamp ≤ (staleDemo.trees 0).stamp) ∧
    (∀ l ∈ insertDemoTree.leaves, (staleDemo.nodes l).stamp = (staleDemo.trees 0).stamp →
      (staleDemo.nodes l).pairs = none) ∧
    PoolSeg staleDemo (staleDemo.trees 0).pooledPairs [5] none ∧
    MarkSubtree ⟨some 0, none, some VoidQueryFunc⟩ 4 staleDemo (some insertDemoTree.root) =
      .ok staleDemo ∧
    (staleDemo.nodes 0).pairs = some 0 ∧ Links staleDemo 0 0 1 ∧
    boxI staleDemo 0 1 = false := by
  refine ⟨⟨rfl, rfl, rfl, rfl, rfl⟩, ⟨rfl, rfl, trivial, trivial⟩, rfl,
    ⟨⟨_, _, rfl, rfl, rfl⟩, by simp [Boxed, staleDemo], by simp [Boxed, staleDemo]⟩, rfl,
    by decide, by decide, ⟨rfl, rfl⟩, rfl, rfl, Or.inl ⟨rfl, rfl⟩, by decide⟩

theorem passDemo_pairs (l : Nat) : (passDemo.nodes l).pairs = none := by
  unfold passDemo
  simp only
  split_ifs <;> rfl

/-- C4 fails on the code: the heap `passDemo` meets what the claim asks for
(a well-formed tree of three leaves that carry the tick, no static root,
empty pair lists) and its pair pool is empty.  The pass returns; it invokes
the callback for the leaves 1 and 0 (objects 8 and 7), for 2 and 1, and for 2
and 0, but when it ends the pair lists hold the records 31 and 63 only, and
neither names the leaves 0 and 1: the record 31, made for the leaves 0 and 1,
was handed out a second time and names the leaves 0 and 2. -/
theorem markSubtree_empty_pool :
    Linked passDemo passDemoTree ∧ Parented passDemo passDemoTree ∧
    (passDemo.nodes passDemoTree.root).parent = none ∧ Boxed passDemo passDemoTree ∧
    GetMasterTree passDemo 0 = .ok 0 ∧
    (∀ l ∈ passDemoTree.leaves, (passDemo.nodes l).stamp = (passDemo.trees 0).stamp) ∧
    PairsWF passDemo (fun _ => []) ∧ (passDemo.trees 0).pooledPairs = none ∧
    MarkSubtree ⟨some 0, none, some VoidQueryFunc⟩ 6 passDemo (some passDemoTree.root) =
      .ok passDemoEnd ∧
    passDemoEnd.calls = [⟨some 8, some 7, 0⟩, ⟨some 9, some 8, 0⟩, ⟨some 9, some 7, 0⟩] ∧
    (passDemoEnd.nodes 0).pairs = some 31 ∧ (passDemoEnd.nodes 1).pairs = some 63 ∧
    (passDemoEnd.nodes 2).pairs = some 63 ∧
    passDemoEnd.pairs 31 = ⟨⟨some 31, some 31, some 0⟩, ⟨some 63, none, some 2⟩, 0⟩ ∧
    passDemoEnd.pairs 63 = ⟨⟨none, some 31, some 1⟩, ⟨none, some 31, some 2⟩, 0⟩ := by
  refine ⟨⟨rfl, rfl, rfl, rfl, rfl, rfl, rfl, rfl, rfl⟩, ⟨rfl, rfl, trivial, rfl, rfl, trivial, trivial⟩,
    rfl, ⟨⟨_, _, rfl, rfl, rfl⟩, by simp [Boxed, passDemo],
      ⟨_, _, rfl, rfl, rfl⟩, by simp [Boxed, passDemo], by simp [Boxed, passDemo]⟩, rfl,
    by decide, ⟨fun l _ => ⟨passDemo_pairs l, List.nodup_nil⟩, fun l p _ hp => by cases hp⟩,
    rfl, rfl, by decide, by decide, by decide, by decide, by decide, by decide⟩

/-- C11: on a tree with a spatial index, for a leaf whose stored box contains
the box that the bounding-box provider reports for its object, `LeafUpdate`
returns false and the heap is the heap before the call (so the root, every
node, the pair lists, the stamps and both pools are unchanged). -/
theorem leafUpdate_unchanged (fuel : Nat) (s : State) (t si leaf : Nat) (lbb : BB)
    (hsi : (s.trees t).spatialIndex = some si) (hbb : (s.nodes leaf).bb = some lbb)
    (hc : lbb.Contains ((s.indexes si).bbfunc (s.nodes leaf).obj) = true) :
    LeafUpdate fuel s t leaf = .ok (s, false) := by
  unfold LeafUpdate
  simp only [hsi, hbb, deref, bind, Except.bind, pure, Except.pure, hc, Bool.not_true,
    Bool.false_eq_true, if_false]

/-- C11 at a concrete heap: leaf 0 of `insertDemo`, whose provider reports
the box `[0,0,0,0]`, inside the stored box `[0,0,1,1]`. -/
theorem leafUpdate_unchanged_witness : LeafUpdate 2 insertDemo 0 0 = .ok (insertDemo, false) :=
  leafUpdate_unchanged 2 insertDemo 0 0 0 ⟨0, 0, 1, 1⟩ rfl rfl (by decide)

/-- C17: on a tree with a spatial index, for an object whose tight box has
`L ≤ R` and `B ≤ T`, `GetBB` returns a box that contains the tight box,
whatever the velocity predictor returns; without a velocity predictor it
returns the tight box itself. -/
theorem getBB_contains_tight (s : State) (t si : Nat) (obj : Option Nat)
    (hsi : (s.trees t).spatialIndex = some si)
    (hx : ((s.indexes si).bbfunc obj).L ≤ ((s.indexes si).bbfunc obj).R)
    (hy : ((s.indexes si).bbfunc obj).B ≤ ((s.indexes si).bbfunc obj).T) :
    ∃ fat, GetBB s t obj = .ok fat ∧ fat.Contains ((s.indexes si).bbfunc obj) = true ∧
      ((s.trees t).velocityFunc = none → fat = (s.indexes si).bbfunc obj) := by
  unfold GetBB
  simp only [hsi, deref, bind, Except.bind, pure, Except.pure]
  cases hv : (s.trees t).velocityFunc with
  | none =>
    refine ⟨_, rfl, ?_, fun _ => rfl⟩
    simp [BB.Contains]
  | some vf =>
    refine ⟨_, rfl, ?_, fun h => by cases h⟩
    have h1 : 0 ≤ (((s.indexes si).bbfunc obj).R - ((s.indexes si).bbfunc obj).L) * (1 / 10) :=
      mul_nonneg (sub_nonneg.mpr hx) (by norm_num)
    have h2 : 0 ≤ (((s.indexes si).bbfunc obj).T - ((s.indexes si).bbfunc obj).B) * (1 / 10) :=
      mul_nonneg (sub_nonneg.mpr hy) (by norm_num)
    simp only [BB.Contains, Bool.and_eq_true, decide_eq_true_eq]
    refine ⟨⟨⟨?_, ?_⟩, ?_⟩, ?_⟩
    · have := min_le_left
        (-((((s.indexes si).bbfunc obj).R - ((s.indexes si).bbfunc obj).L) * (1 / 10)))
        ((vf obj).Mult (1 / 10)).X
      linarith
    · have := le_max_left
        ((((s.indexes si).bbfunc obj).R - ((s.indexes si).bbfunc obj).L) * (1 / 10))
        ((vf obj).Mult (1 / 10)).X
      linarith
    · have := min_le_left
        (-((((s.indexes si).bbfunc obj).T - ((s.indexes si).bbfunc obj).B) * (1 / 10)))
        ((vf obj).Mult (1 / 10)).Y
      linarith
    · have := le_max_left
        ((((s.indexes si).bbfunc obj).T - ((s.indexes si).bbfunc obj).B) * (1 / 10))
        ((vf obj).Mult (1 / 10)).Y
      linarith

/-- C17 at a concrete heap: the provider of `insertDemo` reports `[0,0,0,0]`. -/
theorem getBB_contains_tight_witness :
    ∃ fat, GetBB insertDemo 0 (some 7) = .ok fat ∧
      fat.Contains ((insertDemo.indexes 0).bbfunc (some 7)) = true ∧
      ((insertDemo.trees 0).velocityFunc = none →
        fat = (insertDemo.indexes 0).bbfunc (some 7)) :=
  getBB_contains_tight insertDemo 0 0 (some 7) rfl (by decide) (by decide)

/-- C18 fails on the code: after `Insert` of object 1 under id 10 into a new
tree, `Contains` is true for the id and `Count` is 1, and `Remove` panics with
"implement me", as it does on every input. -/
theorem remove_is_a_stub :
    (Insert 3 (NewBBTree State.empty (fun _ => ⟨0, 0, 1, 1⟩) none).1
        (NewBBTree State.empty (fun _ => ⟨0, 0, 1, 1⟩) none).2.2 (some 1) 10).map
      (fun s1 => (Contains s1 (NewBBTree State.empty (fun _ => ⟨0, 0, 1, 1⟩) none).2.2 10,
        Count s1 (NewBBTree State.empty (fun _ => ⟨0, 0, 1, 1⟩) none).2.2)) = .ok (true, 1) ∧
    ∀ (s : State) (t : Nat) (obj : Option Nat) (hashId : Nat),
      Remove s t obj hashId = .error Err.unimplemented :=
  ⟨rfl, fun _ _ _ _ => rfl⟩

/-- C13 fails on the code: on a new tree, whose pools are empty, the node
that `NodeFromPool` returns (node 31 of the batch of 32) is still the head of
the node pool when the call returns, and the next `NodeFromPool` returns the
same node; likewise `PairFromPool` returns the pair 31 twice. -/
theorem acquire_keeps_record_on_pool :
    twoNodes (NewBBTree State.empty (fun _ => ⟨0, 0, 1, 1⟩) none).1
      (NewBBTree State.empty (fun _ => ⟨0, 0, 1, 1⟩) none).2.2 = .ok (some 31, some 31, some 31) ∧
    twoPairs (NewBBTree State.empty (fun _ => ⟨0, 0, 1, 1⟩) none).1
      (NewBBTree State.empty (fun _ => ⟨0, 0, 1, 1⟩) none).2.2 = .ok (some 31, some 31, some 31) :=
  ⟨rfl, rfl⟩

/-- C20: whether `CircleSegmentQuery` records a hit, and the shape, the
normal and the alpha it records, do not depend on the end point of the
segment: for two end points `b` and `c` the recorded hits agree in these
fields, and so do the records after the call. -/
theorem circleSegmentQuery_ignores_end {F : Type} (o : FloatOps F)
    (normalize : FVector F → FVector F) (shape : Option Nat) (center : FVector F) (r1 : F)
    (a b c : FVector F) (r2 : F) (info : SegmentQueryInfo F) :
    (CircleSegmentQuery.hit o normalize shape center r1 a b r2).map
        (fun h => (h.shape, h.normal, h.alpha)) =
      (CircleSegmentQuery.hit o normalize shape center r1 a c r2).map
        (fun h => (h.shape, h.normal, h.alpha)) ∧
    (CircleSegmentQuery o normalize shape center r1 a b r2 info).shape =
      (CircleSegmentQuery o normalize shape center r1 a c r2 info).shape ∧
    (CircleSegmentQuery o normalize shape center r1 a b r2 info).normal =
      (CircleSegmentQuery o normalize shape center r1 a c r2 info).normal ∧
    (CircleSegmentQuery o normalize shape center r1 a b r2 info).alpha =
      (CircleSegmentQuery o normalize shape center r1 a c r2 info).alpha := by
  unfold CircleSegmentQuery CircleSegmentQuery.hit
  simp only
  split_ifs <;> exact ⟨rfl, rfl, rfl, rfl⟩

/-- The comparison of the source and the choice in the words of the
specification agree, for every interpretation of the `float64` operations. -/
theorem insertCosts_descends (fa : FloatArith) (abb bbb lbb : BB) :
    fa.lt (insertCosts fa abb bbb lbb).2 (insertCosts fa abb bbb lbb).1 = true ↔
      descendsToB fa abb bbb lbb = true := by
  unfold insertCosts descendsToB
  simp only [Bool.or_eq_true, Bool.and_eq_true]
  cases h : fa.eq (fa.add (fa.area bbb) (fa.mergedArea abb lbb))
      (fa.add (fa.area abb) (fa.mergedArea bbb lbb))
  · simp
  · have h1 := fa.eq_not_lt _ _ h
    simp [h1]

/-- C16, amended: on an internal node `p` over the subtrees `A` and `B` of a
tree of the heap (linked, boxed, no address twice), with a boxed leaf outside
the tree and a node pool that hands out a node `n` that is not part of the
tree and is not the leaf, `SubtreeInsert` returns `p`; when
`area(a) + mergedArea(b, leaf) < area(b) + mergedArea(a, leaf)`, or the two
costs are equal and `Proximity(b, leaf) < Proximity(a, leaf)`, all computed and
compared with the `float64` operations of the machine, whatever they are, the
child `a` of `p` is still the root of `A`, no node of `A` is written, and the
child `b` is the root of the tree `B.insert`, whose leaves are the leaf and
those of `B`; in every other case the same holds with `A` and `B` swapped. -/
theorem subtreeInsert_chooses_child (s s1 : State) (t n leaf fuel p : Nat) (A B : Shape)
    (hlink : Linked s (Shape.node p A B)) (hnd : (Shape.node p A B).addrs.Nodup)
    (hbox : Boxed s (Shape.node p A B)) (hleaf : (s.nodes leaf).IsLeaf = true)
    (hlb : (s.nodes leaf).bb ≠ none) (hlT : leaf ∉ (Shape.node p A B).addrs)
    (hpool : NodeFromPool s t = .ok (s1, some n)) (hnT : n ∉ (Shape.node p A B).addrs)
    (hnl : n ≠ leaf)
    (hkeep : ∀ q, q ∈ leaf :: (Shape.node p A B).addrs → s1.nodes q = s.nodes q)
    (hfuel : (Shape.node p A B).depth ≤ fuel) :
    ∃ s2, SubtreeInsert t leaf fuel s (some p) = .ok (s2, p) ∧
      (descendsToB s.arith (boxOf s A.root) (boxOf s B.root) (boxOf s leaf) = true →
        (s2.nodes p).a = some A.root ∧ (∀ q ∈ A.addrs, s2.nodes q = s.nodes q) ∧
        (s2.nodes p).b = some (B.insert s n leaf).root ∧ Linked s2 (B.insert s n leaf) ∧
        (B.insert s n leaf).leaves.Perm (leaf :: B.leaves)) ∧
      (descendsToB s.arith (boxOf s A.root) (boxOf s B.root) (boxOf s leaf) = false →
        (s2.nodes p).b = some B.root ∧ (∀ q ∈ B.addrs, s2.nodes q = s.nodes q) ∧
        (s2.nodes p).a = some (A.insert s n leaf).root ∧ Linked s2 (A.insert s n leaf) ∧
        (A.insert s n leaf).leaves.Perm (leaf :: A.leaves)) := by
  obtain ⟨lb, hlb1⟩ := Option.ne_none_iff_exists'.mp hlb
  obtain ⟨f, rfl⟩ : ∃ f, fuel = f + 1 := ⟨fuel - 1, by simp [Shape.depth] at hfuel; omega⟩
  have hfl : A.depth ≤ f := by simp [Shape.depth] at hfuel; omega
  have hfr : B.depth ≤ f := by simp [Shape.depth] at hfuel; omega
  obtain ⟨hp1, hp2, hp3, hll, hlr⟩ := hlink
  obtain ⟨⟨x, y, hx, hy, hpbb⟩, hbl, hbr⟩ := hbox
  simp only [Shape.addrs, List.nodup_cons, List.mem_cons, List.mem_append, not_or,
    List.nodup_append] at hnd hlT hnT
  obtain ⟨⟨hpl, hpr⟩, hndl, hndr, hdisj⟩ := hnd
  have hkl : s1.nodes leaf = s.nodes leaf := hkeep leaf (List.mem_cons_self _ _)
  have hkeepl : ∀ q ∈ A.addrs, s1.nodes q = s.nodes q :=
    fun q hq => hkeep q (by simp [Shape.addrs, hq])
  have hkeepr : ∀ q ∈ B.addrs, s1.nodes q = s.nodes q :=
    fun q hq => hkeep q (by simp [Shape.addrs, hq])
  have hkp : s1.nodes p = s.nodes p := hkeep p (by simp [Shape.addrs])
  have hstep := SubtreeInsert_node t f hp1 hp2 hp3 hx hy hlb1
  have hbx : boxOf s A.root = x := boxOf_eq hx
  have hby : boxOf s B.root = y := boxOf_eq hy
  have hbl2 : boxOf s leaf = lb := boxOf_eq hlb1
  have hpleaf : p ≠ leaf := fun e => hlT.1 e.symm
  have hpn : p ≠ n := fun e => hnT.1 e.symm
  rw [hbx, hby, hbl2]
  by_cases hc : s.arith.lt (insertCosts s.arith x y lb).2 (insertCosts s.arith x y lb).1 = true
  · have hd : descendsToB s.arith x y lb = true := (insertCosts_descends s.arith x y lb).mp hc
    obtain ⟨s2, h1, h2, -, -, -, h6, -, h8, -, -, -⟩ :=
      SubtreeInsert_spec hpool hnl hleaf hlb1 hkl B f hfr hlr hbr hndr hlT.2.2 hnT.2.2 hkeepr
    obtain ⟨c, hcdef⟩ : ∃ c, c = (B.insert s n leaf).root := ⟨_, rfl⟩
    have hroots : c ∈ (B.insert s n leaf).addrs := hcdef ▸ Shape.root_mem _
    have hmemR : ∀ q, q ∈ (B.insert s n leaf).addrs → q ≠ p ∧ q ∉ A.addrs := by
      intro q hq
      rw [Shape.mem_insert_addrs] at hq
      rcases hq with e1 | e1 | e1
      · exact ⟨fun e => hpn (e ▸ e1), fun h => hnT.2.1 (e1 ▸ h)⟩
      · exact ⟨fun e => hpleaf (e ▸ e1), fun h => hlT.2.1 (e1 ▸ h)⟩
      · exact ⟨fun e => hpr (e ▸ e1), fun h => hdisj h e1⟩
    have hcp : c ≠ p := (hmemR c hroots).1
    have hcleaf : c ≠ leaf := by
      rw [hcdef]; exact Shape.insert_root_ne s B hnl hlT.2.2
    have hs2p : s2.nodes p = s.nodes p := by
      rw [h6 p hpr hpleaf hpn, hkp]
    have hs2l : ∀ q ∈ A.addrs, s2.nodes q = s.nodes q := by
      intro q hq
      rw [h6 q (fun h => hdisj hq h) (fun e => hlT.2.1 (e ▸ hq)) (fun e => hnT.2.1 (e ▸ hq)),
        hkeepl q hq]
    obtain ⟨sN, hsN⟩ : ∃ sN : State, sN = ((s2.setNode p (fun x => { x with b := some c })).setNode
        c (fun x => { x with parent := some p })).setNode p
        (fun z => { z with bb := some ((x.Merge y).Merge lb) }) := ⟨_, rfl⟩
    have hNp : sN.nodes p = { s.nodes p with b := some c, bb := some ((x.Merge y).Merge lb) } := by
      rw [hsN]; simp [hcp.symm, hs2p]
    have hNq : ∀ q, q ≠ p → q ≠ c → sN.nodes q = s2.nodes q := by
      intro q e1 e2; rw [hsN]; simp [e1, e2]
    have hNc : sN.nodes c = { s2.nodes c with parent := some p } := by
      rw [hsN]; simp [hcp]
    rw [hd]
    refine ⟨sN, ?_, fun _ => ⟨?_, ?_, ?_, ?_, Shape.insert_leaves s n leaf B⟩,
      fun h => Bool.noConfusion h⟩
    · show SubtreeInsert t leaf (f + 1) s (some p) = Except.ok (sN, p)
      rw [hstep, if_pos hc]
      simp only [h1, bind, Except.bind, NodeSetB_ok, mergeBB, ← hcdef,
        setNode_nodes, hcp, hcp.symm, hpleaf, hpleaf.symm, hcleaf.symm, if_false, if_true,
        hs2p, hpbb, h8, hlb1, deref, pure, Except.pure]
      rw [hsN]
    · rw [hNp]; exact hp2
    · intro q hq
      rw [hNq q (fun e => hpl (e ▸ hq)) (fun e => (hmemR c hroots).2 (e ▸ hq)), hs2l q hq]
    · rw [hNp, hcdef]
    · refine Linked_congr _ (fun q hq => ?_) h2
      by_cases e2 : q = c
      · subst e2; rw [hNc]; exact ⟨rfl, rfl, rfl⟩
      · rw [hNq q (hmemR q hq).1 e2]; exact ⟨rfl, rfl, rfl⟩
  · have hd : descendsToB s.arith x y lb = false := by
      cases hdd : descendsToB s.arith x y lb
      · rfl
      · exact absurd ((insertCosts_descends s.arith x y lb).mpr hdd) hc
    obtain ⟨s2, h1, h2, -, -, -, h6, -, h8, -, -, -⟩ :=
      SubtreeInsert_spec hpool hnl hleaf hlb1 hkl A f hfl hll hbl hndl hlT.2.1 hnT.2.1 hkeepl
    obtain ⟨c, hcdef⟩ : ∃ c, c = (A.insert s n leaf).root := ⟨_, rfl⟩
    have hroots : c ∈ (A.insert s n leaf).addrs := hcdef ▸ Shape.root_mem _
    have hmemR : ∀ q, q ∈ (A.insert s n leaf).addrs → q ≠ p ∧ q ∉ B.addrs := by
      intro q hq
      rw [Shape.mem_insert_addrs] at hq
      rcases hq with e1 | e1 | e1
      · exact ⟨fun e => hpn (e ▸ e1), fun h => hnT.2.2 (e1 ▸ h)⟩
      · exact ⟨fun e => hpleaf (e ▸ e1), fun h => hlT.2.2 (e1 ▸ h)⟩
      · exact ⟨fun e => hpl (e ▸ e1), fun h => hdisj e1 h⟩
    have hcp : c ≠ p := (hmemR c hroots).1
    have hcleaf : c ≠ leaf := by
      rw [hcdef]; exact Shape.insert_root_ne s A hnl hlT.2.1
    have hs2p : s2.nodes p = s.nodes p := by
      rw [h6 p hpl hpleaf hpn, hkp]
    have hs2r : ∀ q ∈ B.addrs, s2.nodes q = s.nodes q := by
      intro q hq
      rw [h6 q (fun h => hdisj h hq) (fun e => hlT.2.2 (e ▸ hq)) (fun e => hnT.2.2 (e ▸ hq)),
        hkeepr q hq]
    obtain ⟨sN, hsN⟩ : ∃ sN : State, sN = ((s2.setNode p (fun x => { x with a := some c })).setNode
        c (fun x => { x with parent := some p })).setNode p
        (fun z => { z with bb := some ((x.Merge y).Merge lb) }) := ⟨_, rfl⟩
    have hNp : sN.nodes p = { s.nodes p with a := some c, bb := some ((x.Merge y).Merge lb) } := by
      rw [hsN]; simp [hcp.symm, hs2p]
    have hNq : ∀ q, q ≠ p → q ≠ c → sN.nodes q = s2.nodes q := by
      intro q e1 e2; rw [hsN]; simp [e1, e2]
    have hNc : sN.nodes c = { s2.nodes c with parent := some p } := by
      rw [hsN]; simp [hcp]
    rw [hd]
    refine ⟨sN, ?_, fun h => Bool.noConfusion h,
      fun _ => ⟨?_, ?_, ?_, ?_, Shape.insert_leaves s n leaf A⟩⟩
    · show SubtreeInsert t leaf (f + 1) s (some p) = Except.ok (sN, p)
      rw [hstep, if_neg hc]
      simp only [h1, bind, Except.bind, NodeSetA_ok, mergeBB, ← hcdef,
        setNode_nodes, hcp, hcp.symm, hpleaf, hpleaf.symm, hcleaf.symm, if_false, if_true,
        hs2p, hpbb, h8, hlb1, deref, pure, Except.pure]
      rw [hsN]
    · rw [hNp]; exact hp3
    · intro q hq
      rw [hNq q (fun e => hpr (e ▸ hq)) (fun e => (hmemR c hroots).2 (e ▸ hq)), hs2r q hq]
    · rw [hNp, hcdef]
    · refine Linked_congr _ (fun q hq => ?_) h2
      by_cases e2 : q = c
      · subst e2; rw [hNc]; exact ⟨rfl, rfl, rfl⟩
      · rw [hNq q (hmemR q hq).1 e2]; exact ⟨rfl, rfl, rfl⟩

/-- C16 at a concrete heap: the leaf 3 joins the tree of `insertDemo`. -/
theorem subtreeInsert_chooses_child_witness :
    ∃ s2, SubtreeInsert 0 3 2 insertDemo (some 2) = .ok (s2, 2) ∧
      (descendsToB insertDemo.arith (boxOf insertDemo (Shape.leaf 0).root)
          (boxOf insertDemo (Shape.leaf 1).root)
          (boxOf insertDemo 3) = true →
        (s2.nodes 2).a = some (Shape.leaf 0).root ∧
        (∀ q ∈ (Shape.leaf 0).addrs, s2.nodes q = insertDemo.nodes q) ∧
        (s2.nodes 2).b = some ((Shape.leaf 1).insert insertDemo 4 3).root ∧
        Linked s2 ((Shape.leaf 1).insert insertDemo 4 3) ∧
        ((Shape.leaf 1).insert insertDemo 4 3).leaves.Perm (3 :: (Shape.leaf 1).leaves)) ∧
      (descendsToB insertDemo.arith (boxOf insertDemo (Shape.leaf 0).root)
          (boxOf insertDemo (Shape.leaf 1).root)
          (boxOf insertDemo 3) = false →
        (s2.nodes 2).b = some (Shape.leaf 1).root ∧
        (∀ q ∈ (Shape.leaf 1).addrs, s2.nodes q = insertDemo.nodes q) ∧
        (s2.nodes 2).a = some ((Shape.leaf 0).insert insertDemo 4 3).root ∧
        Linked s2 ((Shape.leaf 0).insert insertDemo 4 3) ∧
        ((Shape.leaf 0).insert insertDemo 4 3).leaves.Perm (3 :: (Shape.leaf 0).leaves)) :=
  subtreeInsert_chooses_child insertDemo
    (insertDemo.setTree 0 (fun tr => { tr with pooledNodes := (insertDemo.nodes 4).parent }))
    0 4 3 2 2 (Shape.leaf 0) (Shape.leaf 1) ⟨rfl, rfl, rfl, rfl, rfl⟩ (by decide)
    ⟨⟨_, _, rfl, rfl, rfl⟩, by simp [Boxed, insertDemo], by simp [Boxed, insertDemo]⟩
    rfl (by simp [insertDemo]) (by decide) rfl (by decide) (by decide) (fun _ _ => rfl)
    (by decide)

/-- The replay loop of `MarkLeaf` over a stretch of the list of a leaf: it
returns, calls the callback for the pairs in which the leaf is the second
leaf, in the order of the list, and writes their collision ids only. -/
theorem replay_calls (ctx : MarkContext) (g : QueryFn) (leaf : Nat) (hcf : ctx.f = some g) :
    ∀ (ps : List Nat) (prev head : Option Nat) (s : State) (fuel : Nat),
      PairSeg s leaf prev head ps none → ps.Nodup →
      (∀ p ∈ ps, ∃ o, o ≠ leaf ∧ otherLeaf s leaf p = some o) → ps.length ≤ fuel →
      ∃ s1, MarkLeaf.replay ctx leaf fuel s head = .ok s1 ∧
        s1.calls = s.calls ++ (secondIn s leaf ps).map (replayCall s leaf) ∧
        (∀ p ∈ secondIn s leaf ps, (s1.pairs p).collisionId =
          g (replayCall s leaf p).obj1 (replayCall s leaf p).obj2
            (replayCall s leaf p).collisionId) ∧
        (∀ p, p ∉ secondIn s leaf ps → s1.pairs p = s.pairs p) ∧
        (∀ p, (s1.pairs p).a = (s.pairs p).a ∧ (s1.pairs p).b = (s.pairs p).b) ∧
        s1.nodes = s.nodes ∧ s1.trees = s.trees ∧ s1.indexes = s.indexes ∧
        s1.pairNext = s.pairNext ∧ s1.nodeNext = s.nodeNext := by
  intro ps
  induction ps with
  | nil =>
    intro prev head s fuel hseg _ _ _
    have : head = none := hseg
    subst this
    exact ⟨s, replay_none _ _ _ _, by simp [secondIn], by simp [secondIn],
      fun _ _ => rfl, fun _ => ⟨rfl, rfl⟩, rfl, rfl, rfl, rfl, rfl⟩
  | cons p ps ih =>
    intro prev head s fuel hseg hnd hmem hfuel
    obtain ⟨f, rfl⟩ : ∃ f, fuel = f + 1 := ⟨fuel - 1, by simp at hfuel; omega⟩
    obtain ⟨hhead, hlf, -, hrest⟩ := hseg
    subst hhead
    obtain ⟨o, hol, hother⟩ := hmem p (List.mem_cons_self _ _)
    obtain ⟨hpps, hnd1⟩ := List.nodup_cons.mp hnd
    simp only [List.length_cons, Nat.add_le_add_iff_right] at hfuel
    unfold threadOf at hlf
    unfold otherLeaf at hother
    unfold MarkLeaf.replay
    cases hside : (s.pairs p).sideOf (some leaf) with
    | A =>
      rw [hside] at hlf hother
      simp only [Pair.thread, Side.other] at hlf hother
      have hne : ¬ (some leaf = (s.pairs p).b.leaf) := by
        rw [hother]; intro e; exact hol (Option.some.inj e).symm
      have hne2 : ¬ ((s.pairs p).b.leaf = some leaf) := fun e => hne e.symm
      rw [if_neg hne]
      have hnext : (threadOf s leaf p).next = (s.pairs p).a.next := by
        unfold threadOf; rw [hside]; rfl
      rw [← hnext]
      have hsec : secondIn s leaf (p :: ps) = secondIn s leaf ps := by
        simp [secondIn, List.filter_cons, hne2]
      rw [hsec]
      exact ih _ _ s f hrest hnd1 (fun q hq => hmem q (List.mem_cons_of_mem _ hq)) hfuel
    | B =>
      rw [hside] at hlf hother
      simp only [Pair.thread, Side.other] at hlf hother
      rw [if_pos hlf.symm]
      obtain ⟨s2, hs2⟩ : ∃ s2 : State, s2 =
        State.setPair { s with calls := s.calls ++
            [⟨(s.nodes o).obj, (s.nodes leaf).obj, (s.pairs p).collisionId⟩] } p (fun q =>
        { q with collisionId := g (s.nodes o).obj (s.nodes leaf).obj (s.pairs p).collisionId }) :=
        ⟨_, rfl⟩
      have hpp : s2.pairs p = { s.pairs p with
          collisionId := g (s.nodes o).obj (s.nodes leaf).obj (s.pairs p).collisionId } := by
        rw [hs2, setPair_pairs]; simp
      have hpq : ∀ q, q ≠ p → s2.pairs q = s.pairs q := by
        intro q hq; rw [hs2, setPair_pairs]; simp [hq]
      have hpa : ∀ q, (s2.pairs q).a = (s.pairs q).a ∧ (s2.pairs q).b = (s.pairs q).b := by
        intro q
        by_cases hq : q = p
        · subst hq; rw [hpp]; exact ⟨rfl, rfl⟩
        · rw [hpq q hq]; exact ⟨rfl, rfl⟩
      have hn2 : s2.nodes = s.nodes := by rw [hs2]; rfl
      have hc2 : s2.calls = s.calls ++
          [⟨(s.nodes o).obj, (s.nodes leaf).obj, (s.pairs p).collisionId⟩] := by rw [hs2]; rfl
      have hnext : (threadOf s leaf p).next = (s2.pairs p).b.next := by
        unfold threadOf; rw [hside, (hpa p).2]; rfl
      have hseg2 : PairSeg s2 leaf (some p) (s2.pairs p).b.next ps none := by
        rw [← hnext]
        exact PairSeg_congr ps _ _ _ (fun q _ => threadOf_congr leaf q (hpa q).1 (hpa q).2) hrest
      have hmem2 : ∀ q ∈ ps, ∃ o, o ≠ leaf ∧ otherLeaf s2 leaf q = some o := by
        intro q hq
        have e : otherLeaf s2 leaf q = otherLeaf s leaf q :=
          otherLeaf_congr leaf q ⟨by rw [(hpa q).1], by rw [(hpa q).2]⟩
        rw [e]
        exact hmem q (List.mem_cons_of_mem _ hq)
      obtain ⟨s3, h5, h6, h7, h8, h9, h10, h11, h12, h13, h14⟩ := ih _ _ s2 f hseg2 hnd1 hmem2 hfuel
      have hsec2 : secondIn s2 leaf ps = secondIn s leaf ps := by
        unfold secondIn
        exact List.filter_congr (fun q _ => by rw [(hpa q).2])
      have hcall2 : ∀ q ∈ ps, replayCall s2 leaf q = replayCall s leaf q := by
        intro q hq
        have : q ≠ p := fun e => hpps (e ▸ hq)
        unfold replayCall objOf
        rw [hpq q this, hn2]
      have hsec : secondIn s leaf (p :: ps) = p :: secondIn s leaf ps := by
        simp [secondIn, List.filter_cons, hlf]
      have hsub : ∀ q, q ∈ secondIn s leaf ps → q ∈ ps := fun q hq => (List.mem_filter.mp hq).1
      have hcp : replayCall s leaf p =
          ⟨(s.nodes o).obj, (s.nodes leaf).obj, (s.pairs p).collisionId⟩ := by
        unfold replayCall objOf; rw [hother]; rfl
      have hpn : p ∉ secondIn s leaf ps := fun h => hpps (hsub p h)
      refine ⟨s3, ?_, ?_, ?_, ?_, ?_, h10.trans hn2, h11.trans (by rw [hs2]; rfl),
        h12.trans (by rw [hs2]; rfl), h13.trans (by rw [hs2]; rfl),
        h14.trans (by rw [hs2]; rfl)⟩
      · simp only [hother, deref, bind, Except.bind, pure, Except.pure, callF, hcf]
        rw [← hs2]
        exact h5
      · rw [h6, hc2, hsec, hsec2, List.map_cons, hcp, List.append_assoc, List.singleton_append]
        congr 2
        exact List.map_congr_left (fun q hq => hcall2 q (hsub q hq))
      · intro q hq
        rw [hsec, List.mem_cons] at hq
        rcases hq with e | hq
        · subst e
          rw [h8 q (by rw [hsec2]; exact hpn), hpp, hcp]
        · rw [h7 q (by rw [hsec2]; exact hq), hcall2 q (hsub q hq)]
      · intro q hq
        rw [hsec, List.mem_cons, not_or] at hq
        rw [h8 q (by rw [hsec2]; exact hq.2), hpq q hq.1]
      · intro q
        exact ⟨(h9 q).1.trans (hpa q).1, (h9 q).2.trans (hpa q).2⟩

/-- C15, as the code has it: `MarkLeaf` on a leaf whose stamp is not the
current tick, with a callback, a well-formed pair list `ps` in which every
pair names a different leaf at its other end, and a budget of the length of
the list, returns; it calls the callback exactly for the pairs of the list in
which the leaf is the second leaf, once each and in the order of the list, with
the object of the first leaf, the object of the leaf and the stored collision
id, and stores the result as the collision id of that pair; every other pair
record is as before, no thread of any pair, no node, no tree and no allocation
counter is written, so no pair is created or removed. -/
theorem markLeaf_replays_second (s : State) (ctx : MarkContext) (g : QueryFn)
    (t m leaf fuel : Nat) (ps : List Nat) (ht : ctx.tree = some t)
    (hm : GetMasterTree s t = .ok m) (hstamp : (s.nodes leaf).stamp ≠ (s.trees m).stamp)
    (hf : ctx.f = some g) (hl : PairList s leaf ps)
    (hother : ∀ p ∈ ps, ∃ o, o ≠ leaf ∧ otherLeaf s leaf p = some o)
    (hfuel : ps.length ≤ fuel) :
    ∃ s1, MarkLeaf fuel s ctx leaf = .ok s1 ∧
      s1.calls = s.calls ++ (secondIn s leaf ps).map (replayCall s leaf) ∧
      (∀ p ∈ secondIn s leaf ps, (s1.pairs p).collisionId =
        g (replayCall s leaf p).obj1 (replayCall s leaf p).obj2
          (replayCall s leaf p).collisionId) ∧
      (∀ p, p ∉ secondIn s leaf ps → s1.pairs p = s.pairs p) ∧
      (∀ p, (s1.pairs p).a = (s.pairs p).a ∧ (s1.pairs p).b = (s.pairs p).b) ∧
      s1.nodes = s.nodes ∧ s1.trees = s.trees ∧ s1.indexes = s.indexes ∧
      s1.pairNext = s.pairNext ∧ s1.nodeNext = s.nodeNext := by
  obtain ⟨s1, h1, h2⟩ := replay_calls ctx g leaf hf ps none (s.nodes leaf).pairs s fuel hl.1 hl.2
    hother hfuel
  refine ⟨s1, ?_, h2⟩
  unfold MarkLeaf
  simp only [ht, deref, bind, Except.bind, pure, Except.pure, hm, if_neg hstamp]
  exact h1

/-- C15 at a concrete heap: the replay of the list of leaf 1 of `replayDemo`. -/
theorem markLeaf_replays_second_witness :
    ∃ s1, MarkLeaf 1 replayDemo ⟨some 0, none, some (fun _ _ c => c + 1)⟩ 1 = .ok s1 ∧
      s1.calls = replayDemo.calls ++ (secondIn replayDemo 1 [0]).map (replayCall replayDemo 1) ∧
      (∀ p ∈ secondIn replayDemo 1 [0], (s1.pairs p).collisionId =
        (fun _ _ c => c + 1) (replayCall replayDemo 1 p).obj1 (replayCall replayDemo 1 p).obj2
          (replayCall replayDemo 1 p).collisionId) ∧
      (∀ p, p ∉ secondIn replayDemo 1 [0] → s1.pairs p = replayDemo.pairs p) ∧
      (∀ p, (s1.pairs p).a = (replayDemo.pairs p).a ∧ (s1.pairs p).b = (replayDemo.pairs p).b) ∧
      s1.nodes = replayDemo.nodes ∧ s1.trees = replayDemo.trees ∧
      s1.indexes = replayDemo.indexes ∧
      s1.pairNext = replayDemo.pairNext ∧ s1.nodeNext = replayDemo.nodeNext :=
  markLeaf_replays_second replayDemo ⟨some 0, none, some (fun _ _ c => c + 1)⟩
    (fun _ _ c => c + 1) 0 0 1 1 [0] rfl rfl (by decide) rfl
    ⟨⟨rfl, rfl, rfl, rfl⟩, by decide⟩
    (fun p hp => by
      have : p = 0 := by simpa using hp
      subst this
      exact ⟨0, by decide, rfl⟩)
    (by decide)

/-- C15 fails as stated: the pair list of leaf 0 of `staleDemo` is well formed
and holds the pair 0, leaf 0 carries the tick 0 and the tree the tick 1, and
`MarkLeaf` on leaf 0 returns without a single call of the callback: leaf 0 is
the first leaf of the pair, and the loop calls the callback only for the
pairs in which the leaf is the second. -/
theorem markLeaf_skips_first_leaf :
    PairList staleDemo 0 [0] ∧
    (staleDemo.nodes 0).stamp ≠ (staleDemo.trees 0).stamp ∧
    GetMasterTree staleDemo 0 = .ok 0 ∧
    (MarkLeaf 1 staleDemo ⟨some 0, none, some VoidQueryFunc⟩ 0).map (fun s1 => s1.calls)
      = .ok [] :=
  ⟨⟨⟨rfl, rfl, rfl, rfl⟩, by decide⟩, by decide, rfl, rfl⟩

theorem bind_ok {α β : Type} {x : M α} {f : α → M β} {b : β} (h : (x >>= f) = .ok b) :
    ∃ a, x = .ok a ∧ f a = .ok b := by
  cases x with
  | error e => cases h
  | ok a => exact ⟨a, rfl, h⟩

theorem deref_ok {α : Type} {o : Option α} {a : α} (h : deref o = .ok a) : o = some a := by
  cases o with
  | none => cases h
  | some x => cases h; rfl

theorem pure_ok {α : Type} {a b : α} (h : (pure a : M α) = .ok b) : a = b := by
  cases h; rfl

theorem StampFrame.stampRefl (B : Nat) (s : State) : StampFrame B s s :=
  ⟨fun _ => ⟨rfl, rfl, rfl⟩, rfl, fun _ => Or.inl rfl⟩

theorem StampFrame.stampTrans {B : Nat} {s s1 s2 : State} (h1 : StampFrame B s s1)
    (h2 : StampFrame B s1 s2) : StampFrame B s s2 := by
  refine ⟨fun u => ⟨(h2.1 u).1.trans (h1.1 u).1, (h2.1 u).2.1.trans (h1.1 u).2.1,
    (h2.1 u).2.2.trans (h1.1 u).2.2⟩, h2.2.1.trans h1.2.1, fun q => ?_⟩
  rcases h2.2.2 q with e | e
  · rw [e]; exact h1.2.2 q
  · exact Or.inr e

theorem StampFrame.stampSetNode (B : Nat) (s : State) (p : Nat) (f : Node → Node)
    (h : (f (s.nodes p)).stamp = (s.nodes p).stamp ∨ (f (s.nodes p)).stamp ≤ B) :
    StampFrame B s (s.setNode p f) := by
  refine ⟨fun _ => ⟨rfl, rfl, rfl⟩, rfl, fun q => ?_⟩
  by_cases hq : q = p
  · subst hq; simpa [State.setNode] using h
  · left; simp [State.setNode, hq]

theorem StampFrame.stampSetPair (B : Nat) (s : State) (p : Nat) (f : Pair → Pair) :
    StampFrame B s (s.setPair p f) :=
  ⟨fun _ => ⟨rfl, rfl, rfl⟩, rfl, fun _ => Or.inl rfl⟩

theorem StampFrame.stampSetTree (B : Nat) (s : State) (t : Nat) (f : BBTree → BBTree)
    (h : (f (s.trees t)).stamp = (s.trees t).stamp ∧
      (f (s.trees t)).spatialIndex = (s.trees t).spatialIndex ∧
      (f (s.trees t)).leaves = (s.trees t).leaves) :
    StampFrame B s (s.setTree t f) := by
  refine ⟨fun u => ?_, rfl, fun _ => Or.inl rfl⟩
  by_cases hu : u = t
  · subst hu; simpa [State.setTree] using h
  · simp [State.setTree, hu]

theorem StampFrame.allocNode (B : Nat) (s : State) : StampFrame B s s.allocNode.1 := by
  refine ⟨fun _ => ⟨rfl, rfl, rfl⟩, rfl, fun q => ?_⟩
  by_cases hq : q = s.nodeNext
  · right; subst hq; simp [State.allocNode, Node.zero]
  · left; simp [State.allocNode, hq]

theorem StampFrame.allocPair (B : Nat) (s : State) : StampFrame B s s.allocPair.1 :=
  ⟨fun _ => ⟨rfl, rfl, rfl⟩, rfl, fun _ => Or.inl rfl⟩

/-- `GetMasterTree` reads what the frame keeps. -/
theorem GetMasterTree_frame {B : Nat} {s s1 : State} (h : StampFrame B s s1) (t : Nat) :
    GetMasterTree s1 t = GetMasterTree s t := by
  unfold GetMasterTree SpatialIndex.GetTree
  rw [(h.1 t).2.1, h.2.1]

theorem RecyclePair_frame (B : Nat) {s s1 : State} {t pair : Nat}
    (h : RecyclePair s t pair = .ok s1) : StampFrame B s s1 := by
  unfold RecyclePair at h
  obtain ⟨m, -, h⟩ := bind_ok h
  cases pure_ok h
  exact (StampFrame.stampSetPair B s _ _).stampTrans (StampFrame.stampSetTree B _ _ _ ⟨rfl, rfl, rfl⟩)

theorem refillPairs_frame (B : Nat) {t : Nat} : ∀ (k : Nat) {s s1 : State},
    PairFromPool.refill t k s = .ok s1 → StampFrame B s s1 := by
  intro k
  induction k with
  | zero => intro s s1 h; cases pure_ok h; exact StampFrame.stampRefl B s
  | succ k ih =>
    intro s s1 h
    unfold PairFromPool.refill at h
    obtain ⟨s2, h1, h2⟩ := bind_ok h
    exact ((StampFrame.allocPair B s).stampTrans (RecyclePair_frame B h1)).stampTrans (ih h2)

theorem PairFromPool_frame (B : Nat) {s s1 : State} {t : Nat} {r : Option Nat}
    (h : PairFromPool s t = .ok (s1, r)) : StampFrame B s s1 := by
  unfold PairFromPool at h
  obtain ⟨m, -, h⟩ := bind_ok h
  split at h
  · cases pure_ok h
    exact StampFrame.stampSetTree B _ _ _ ⟨rfl, rfl, rfl⟩
  · obtain ⟨s2, h1, h2⟩ := bind_ok h
    cases pure_ok h2
    exact refillPairs_frame B 32 h1

theorem PairInsert_frame (B : Nat) {s s1 : State} {t a b : Nat}
    (h : PairInsert s t a b = .ok s1) : StampFrame B s s1 := by
  unfold PairInsert at h
  obtain ⟨⟨s2, pair⟩, h1, h⟩ := bind_ok h
  obtain ⟨p, -, h⟩ := bind_ok h
  cases pure_ok h
  have f1 := PairFromPool_frame B h1
  have f2 := (f1.stampTrans (StampFrame.stampSetNode B s2 a (fun n => { n with pairs := pair })
    (Or.inl rfl))).stampTrans (StampFrame.stampSetNode B _ b (fun n => { n with pairs := pair })
    (Or.inl rfl))
  refine f2.stampTrans ?_
  cases (s.nodes a).pairs <;> cases (s.nodes b).pairs <;>
    exact ⟨fun _ => ⟨rfl, rfl, rfl⟩, rfl, fun _ => Or.inl rfl⟩

theorem callF_frame (B : Nat) {s s1 : State} {ctx : MarkContext} {o1 o2 : Option Nat}
    {cid r : Nat} (h : callF s ctx o1 o2 cid = .ok (s1, r)) : StampFrame B s s1 := by
  unfold callF at h
  obtain ⟨g, -, h⟩ := bind_ok h
  cases pure_ok h
  exact ⟨fun _ => ⟨rfl, rfl, rfl⟩, rfl, fun _ => Or.inl rfl⟩

theorem ctxPairInsert_frame (B : Nat) {s s1 : State} {ctx : MarkContext} {a b : Nat}
    (h : ctxPairInsert s ctx a b = .ok s1) : StampFrame B s s1 := by
  unfold ctxPairInsert at h
  obtain ⟨t, -, h⟩ := bind_ok h
  exact PairInsert_frame B h

theorem MarkLeafQuery_frame (B : Nat) (ctx : MarkContext) (leaf : Nat) (left : Bool) :
    ∀ (fuel : Nat) {s s1 : State} {sub : Option Nat},
      MarkLeafQuery ctx leaf left fuel s sub = .ok s1 → StampFrame B s s1 := by
  intro fuel
  induction fuel with
  | zero => intro s s1 sub h; cases h
  | succ fuel ih =>
    intro s s1 sub h
    unfold MarkLeafQuery at h
    obtain ⟨lbb, -, h⟩ := bind_ok h
    obtain ⟨x, -, h⟩ := bind_ok h
    obtain ⟨sbb, -, h⟩ := bind_ok h
    split at h
    · split at h
      · split at h
        · exact ctxPairInsert_frame B h
        · dsimp only at h
          split at h
          · obtain ⟨s2, h1, h⟩ := bind_ok h
            obtain ⟨⟨s3, r⟩, h2, h⟩ := bind_ok h
            cases pure_ok h
            exact (ctxPairInsert_frame B h1).stampTrans (callF_frame B h2)
          · obtain ⟨s2, h1, h⟩ := bind_ok h
            obtain ⟨⟨s3, r⟩, h2, h⟩ := bind_ok h
            cases pure_ok h
            cases pure_ok h1
            exact callF_frame B h2
      · obtain ⟨s2, h1, h⟩ := bind_ok h
        exact (ih h1).stampTrans (ih h)
    · cases pure_ok h; exact StampFrame.stampRefl B s

theorem climb_frame (B : Nat) (ctx : MarkContext) (leaf : Nat) :
    ∀ (fuel : Nat) {s s1 : State} {node : Nat},
      MarkLeaf.climb ctx leaf fuel s node = .ok s1 → StampFrame B s s1 := by
  intro fuel
  induction fuel with
  | zero => intro s s1 node h; cases h
  | succ fuel ih =>
    intro s s1 node h
    unfold MarkLeaf.climb at h
    split at h
    · cases pure_ok h; exact StampFrame.stampRefl B s
    · dsimp only at h
      split at h
      · obtain ⟨s2, h1, h⟩ := bind_ok h
        obtain ⟨nxt, -, h⟩ := bind_ok h
        exact (MarkLeafQuery_frame B ctx leaf true fuel h1).stampTrans (ih h)
      · obtain ⟨s2, h1, h⟩ := bind_ok h
        obtain ⟨nxt, -, h⟩ := bind_ok h
        exact (MarkLeafQuery_frame B ctx leaf false fuel h1).stampTrans (ih h)

theorem replay_frame (B : Nat) (ctx : MarkContext) (leaf : Nat) :
    ∀ (fuel : Nat) {s s1 : State} {pair : Option Nat},
      MarkLeaf.replay ctx leaf fuel s pair = .ok s1 → StampFrame B s s1 := by
  intro fuel
  induction fuel with
  | zero =>
    intro s s1 pair h
    cases pair with
    | none => cases pure_ok h; exact StampFrame.stampRefl B s
    | some p => cases h
  | succ fuel ih =>
    intro s s1 pair h
    cases pair with
    | none => cases pure_ok h; exact StampFrame.stampRefl B s
    | some p =>
      unfold MarkLeaf.replay at h
      split at h
      · obtain ⟨a, -, h⟩ := bind_ok h
        obtain ⟨⟨s2, cid⟩, h2, h⟩ := bind_ok h
        exact ((callF_frame B h2).stampTrans (StampFrame.stampSetPair B _ _ _)).stampTrans (ih h)
      · exact ih h

theorem MarkLeaf_frame (B : Nat) {fuel : Nat} {s s1 : State} {ctx : MarkContext} {leaf : Nat}
    (h : MarkLeaf fuel s ctx leaf = .ok s1) : StampFrame B s s1 := by
  unfold MarkLeaf at h
  obtain ⟨t, -, h⟩ := bind_ok h
  obtain ⟨m, -, h⟩ := bind_ok h
  split at h
  · dsimp only at h
    split at h
    · obtain ⟨s2, h1, h⟩ := bind_ok h
      exact (MarkLeafQuery_frame B ctx leaf false fuel h1).stampTrans (climb_frame B ctx leaf fuel h)
    · obtain ⟨s2, h1, h⟩ := bind_ok h
      cases pure_ok h1
      exact climb_frame B ctx leaf fuel h
  · exact replay_frame B ctx leaf fuel h

theorem MarkSubtree_frame (B : Nat) (ctx : MarkContext) :
    ∀ (fuel : Nat) {s s1 : State} {sub : Option Nat},
      MarkSubtree ctx fuel s sub = .ok s1 → StampFrame B s s1 := by
  intro fuel
  induction fuel with
  | zero => intro s s1 sub h; cases h
  | succ fuel ih =>
    intro s s1 sub h
    unfold MarkSubtree at h
    obtain ⟨x, -, h⟩ := bind_ok h
    split at h
    · exact MarkLeaf_frame B h
    · obtain ⟨s2, h1, h⟩ := bind_ok h
      exact (ih h1).stampTrans (ih h)

theorem LeafAddPairs_frame (B : Nat) {fuel : Nat} {s s1 : State} {t leaf : Nat}
    (h : LeafAddPairs fuel s t leaf = .ok s1) : StampFrame B s s1 := by
  unfold LeafAddPairs at h
  obtain ⟨si, -, h⟩ := bind_ok h
  dsimp only at h
  split at h
  · split at h
    · exact MarkLeafQuery_frame B _ leaf true fuel h
    · cases pure_ok h; exact StampFrame.stampRefl B s
  · exact MarkLeaf_frame B h

theorem RecycleNode_frame (B : Nat) {s s1 : State} {t : Nat} {node : Option Nat}
    (h : RecycleNode s t node = .ok s1) : StampFrame B s s1 := by
  unfold RecycleNode at h
  obtain ⟨n, -, h⟩ := bind_ok h
  cases pure_ok h
  exact (StampFrame.stampSetNode B s n _ (Or.inl rfl)).stampTrans
    (StampFrame.stampSetTree B _ _ _ ⟨rfl, rfl, rfl⟩)

theorem refillNodes_frame (B : Nat) {t : Nat} : ∀ (k : Nat) {s s1 : State},
    NodeFromPool.refill t k s = .ok s1 → StampFrame B s s1 := by
  intro k
  induction k with
  | zero => intro s s1 h; cases pure_ok h; exact StampFrame.stampRefl B s
  | succ k ih =>
    intro s s1 h
    unfold NodeFromPool.refill at h
    obtain ⟨s2, h1, h2⟩ := bind_ok h
    exact ((StampFrame.allocNode B s).stampTrans (RecycleNode_frame B h1)).stampTrans (ih h2)

theorem NodeFromPool_frame (B : Nat) {s s1 : State} {t : Nat} {r : Option Nat}
    (h : NodeFromPool s t = .ok (s1, r)) : StampFrame B s s1 := by
  unfold NodeFromPool at h
  split at h
  · cases pure_ok h
    exact StampFrame.stampSetTree B _ _ _ ⟨rfl, rfl, rfl⟩
  · obtain ⟨s2, h1, h2⟩ := bind_ok h
    cases pure_ok h2
    exact refillNodes_frame B 32 h1

theorem NodeSetA_frame (B : Nat) {s s1 : State} {node value : Option Nat}
    (h : NodeSetA s node value = .ok s1) : StampFrame B s s1 := by
  unfold NodeSetA at h
  obtain ⟨n, -, h⟩ := bind_ok h
  obtain ⟨v, -, h⟩ := bind_ok h
  cases pure_ok h
  exact (StampFrame.stampSetNode B s n _ (Or.inl rfl)).stampTrans (StampFrame.stampSetNode B _ v _ (Or.inl rfl))

theorem NodeSetB_frame (B : Nat) {s s1 : State} {node value : Option Nat}
    (h : NodeSetB s node value = .ok s1) : StampFrame B s s1 := by
  unfold NodeSetB at h
  obtain ⟨n, -, h⟩ := bind_ok h
  obtain ⟨v, -, h⟩ := bind_ok h
  cases pure_ok h
  exact (StampFrame.stampSetNode B s n _ (Or.inl rfl)).stampTrans (StampFrame.stampSetNode B _ v _ (Or.inl rfl))

theorem NewNode_frame (B : Nat) {s s1 : State} {t a b n : Nat}
    (h : NewNode s t a b = .ok (s1, n)) : StampFrame B s s1 := by
  unfold NewNode at h
  obtain ⟨⟨s2, node⟩, h1, h⟩ := bind_ok h
  obtain ⟨x, -, h⟩ := bind_ok h
  obtain ⟨bb, -, h⟩ := bind_ok h
  obtain ⟨s5, h5, h⟩ := bind_ok h
  obtain ⟨s6, h6, h⟩ := bind_ok h
  cases pure_ok h
  exact (((((NodeFromPool_frame B h1).stampTrans (StampFrame.stampSetNode B _ n _ (Or.inl rfl))).stampTrans
    (StampFrame.stampSetNode B _ n _ (Or.inl rfl))).stampTrans
    (StampFrame.stampSetNode B _ n _ (Or.inl rfl))).stampTrans (NodeSetA_frame B h5)).stampTrans
    (NodeSetB_frame B h6)

theorem NewLeaf_frame (B : Nat) {s s1 : State} {t n : Nat} {obj : Option Nat}
    (h : NewLeaf s t obj = .ok (s1, n)) : StampFrame B s s1 := by
  unfold NewLeaf at h
  obtain ⟨⟨s2, node⟩, h1, h⟩ := bind_ok h
  obtain ⟨x, -, h⟩ := bind_ok h
  obtain ⟨bb, -, h⟩ := bind_ok h
  cases pure_ok h
  exact (((((NodeFromPool_frame B h1).stampTrans (StampFrame.stampSetNode B _ n _ (Or.inl rfl))).stampTrans
    (StampFrame.stampSetNode B _ n _ (Or.inl rfl))).stampTrans
    (StampFrame.stampSetNode B _ n _ (Or.inl rfl))).stampTrans
    (StampFrame.stampSetNode B _ n (fun x => { x with stamp := 0 }) (Or.inr (Nat.zero_le B)))).stampTrans
    (StampFrame.stampSetNode B _ n _ (Or.inl rfl))

theorem SubtreeInsert_frame (B : Nat) (t leaf : Nat) :
    ∀ (fuel : Nat) {s s1 : State} {sub : Option Nat} {r : Nat},
      SubtreeInsert t leaf fuel s sub = .ok (s1, r) → StampFrame B s s1 := by
  intro fuel
  induction fuel with
  | zero =>
    intro s s1 sub r h
    cases sub with
    | none => cases pure_ok h; exact StampFrame.stampRefl B s
    | some p => cases h
  | succ fuel ih =>
    intro s s1 sub r h
    cases sub with
    | none => cases pure_ok h; exact StampFrame.stampRefl B s
    | some p =>
      unfold SubtreeInsert at h
      split at h
      · exact NewNode_frame B h
      · obtain ⟨a, -, h⟩ := bind_ok h
        obtain ⟨b, -, h⟩ := bind_ok h
        obtain ⟨abb, -, h⟩ := bind_ok h
        obtain ⟨bbb, -, h⟩ := bind_ok h
        obtain ⟨lbb, -, h⟩ := bind_ok h
        dsimp only at h
        split at h
        · obtain ⟨⟨s3, r3⟩, h3, h⟩ := bind_ok h
          obtain ⟨s2, h2, h⟩ := bind_ok h
          obtain ⟨bb, -, h⟩ := bind_ok h
          cases pure_ok h
          exact ((ih h3).stampTrans (NodeSetB_frame B h2)).stampTrans
            (StampFrame.stampSetNode B _ _ _ (Or.inl rfl))
        · obtain ⟨⟨s3, r3⟩, h3, h⟩ := bind_ok h
          obtain ⟨s2, h2, h⟩ := bind_ok h
          obtain ⟨bb, -, h⟩ := bind_ok h
          cases pure_ok h
          exact ((ih h3).stampTrans (NodeSetA_frame B h2)).stampTrans
            (StampFrame.stampSetNode B _ _ _ (Or.inl rfl))

theorem ReplaceChild_loop_frame (B : Nat) :
    ∀ (fuel : Nat) {s s1 : State} {node : Option Nat},
      ReplaceChild.loop fuel s node = .ok s1 → StampFrame B s s1 := by
  intro fuel
  induction fuel with
  | zero =>
    intro s s1 node h
    cases node with
    | none => cases pure_ok h; exact StampFrame.stampRefl B s
    | some p => cases h
  | succ fuel ih =>
    intro s s1 node h
    cases node with
    | none => cases pure_ok h; exact StampFrame.stampRefl B s
    | some p =>
      unfold ReplaceChild.loop at h
      obtain ⟨a, -, h⟩ := bind_ok h
      obtain ⟨b, -, h⟩ := bind_ok h
      obtain ⟨bb, -, h⟩ := bind_ok h
      exact (StampFrame.stampSetNode B _ p _ (Or.inl rfl)).stampTrans (ih h)

theorem ReplaceChild_frame (B : Nat) {fuel : Nat} {s s1 : State} {t : Nat}
    {parent child value : Option Nat}
    (h : ReplaceChild fuel s t parent child value = .ok s1) : StampFrame B s s1 := by
  unfold ReplaceChild at h
  obtain ⟨p, -, h⟩ := bind_ok h
  dsimp only at h
  split at h
  · obtain ⟨s3, h3, h⟩ := bind_ok h
    obtain ⟨s2, h2, h⟩ := bind_ok h
    exact ((RecycleNode_frame B h3).stampTrans (NodeSetA_frame B h2)).stampTrans
      (ReplaceChild_loop_frame B fuel h)
  · obtain ⟨s3, h3, h⟩ := bind_ok h
    obtain ⟨s2, h2, h⟩ := bind_ok h
    exact ((RecycleNode_frame B h3).stampTrans (NodeSetB_frame B h2)).stampTrans
      (ReplaceChild_loop_frame B fuel h)

theorem SubtreeRemove_frame (B : Nat) {fuel : Nat} {s s1 : State} {t leaf : Nat}
    {sub r : Option Nat} (h : SubtreeRemove fuel s t sub leaf = .ok (s1, r)) :
    StampFrame B s s1 := by
  unfold SubtreeRemove at h
  split at h
  · cases pure_ok h; exact StampFrame.stampRefl B s
  · dsimp only at h
    split at h
    · obtain ⟨x, -, h⟩ := bind_ok h
      obtain ⟨o, -, h⟩ := bind_ok h
      obtain ⟨s2, h2, h⟩ := bind_ok h
      cases pure_ok h
      exact (StampFrame.stampSetNode B _ o _ (Or.inl rfl)).stampTrans (RecycleNode_frame B h2)
    · obtain ⟨p, -, h⟩ := bind_ok h
      obtain ⟨s2, h2, h⟩ := bind_ok h
      cases pure_ok h
      exact ReplaceChild_frame B h2

theorem Unlink_frame (B : Nat) {s s1 : State} {p : Nat} {sd : Side}
    (h : Thread.Unlink s p sd = .ok s1) : StampFrame B s s1 := by
  unfold Thread.Unlink at h
  dsimp only at h
  have f1 : StampFrame B s (match ((s.pairs p).thread sd).next with
      | some n => s.setPair n (fun q =>
          q.setPrev (q.sideOf ((s.pairs p).thread sd).leaf) ((s.pairs p).thread sd).prev)
      | none => s) := by
    split
    · exact StampFrame.stampSetPair B _ _ _
    · exact StampFrame.stampRefl B s
  split at h
  · cases pure_ok h
    exact f1.stampTrans (StampFrame.stampSetPair B _ _ _)
  · obtain ⟨l, -, h⟩ := bind_ok h
    cases pure_ok h
    exact f1.stampTrans (StampFrame.stampSetNode B _ l _ (Or.inl rfl))

theorem PairsClear_loop_frame (B : Nat) (t leaf : Nat) :
    ∀ (fuel : Nat) {s s1 : State} {pair : Option Nat},
      PairsClear.loop t leaf fuel s pair = .ok s1 → StampFrame B s s1 := by
  intro fuel
  induction fuel with
  | zero =>
    intro s s1 pair h
    cases pair with
    | none => cases pure_ok h; exact StampFrame.stampRefl B s
    | some p => cases h
  | succ fuel ih =>
    intro s s1 pair h
    cases pair with
    | none => cases pure_ok h; exact StampFrame.stampRefl B s
    | some p =>
      unfold PairsClear.loop at h
      split at h
      · obtain ⟨s2, h2, h⟩ := bind_ok h
        obtain ⟨s3, h3, h⟩ := bind_ok h
        exact ((Unlink_frame B h2).stampTrans (RecyclePair_frame B h3)).stampTrans (ih h)
      · obtain ⟨s2, h2, h⟩ := bind_ok h
        obtain ⟨s3, h3, h⟩ := bind_ok h
        exact ((Unlink_frame B h2).stampTrans (RecyclePair_frame B h3)).stampTrans (ih h)

theorem PairsClear_frame (B : Nat) {fuel : Nat} {s s1 : State} {t leaf : Nat}
    (h : PairsClear fuel s t leaf = .ok s1) : StampFrame B s s1 := by
  unfold PairsClear at h
  exact (StampFrame.stampSetNode B _ leaf _ (Or.inl rfl)).stampTrans (PairsClear_loop_frame B t leaf fuel h)

/-- `LeafUpdate` writes no stamp above the stamp of the master tree. -/
theorem LeafUpdate_frame {B : Nat} {fuel : Nat} {s s1 : State} {t m leaf : Nat} {r : Bool}
    (hm : GetMasterTree s t = .ok m) (hB : (s.trees m).stamp ≤ B)
    (h : LeafUpdate fuel s t leaf = .ok (s1, r)) : StampFrame B s s1 := by
  unfold LeafUpdate at h
  dsimp only at h
  obtain ⟨si, -, h⟩ := bind_ok h
  obtain ⟨lbb, -, h⟩ := bind_ok h
  split at h
  · obtain ⟨nb, -, h⟩ := bind_ok h
    obtain ⟨⟨s2, root1⟩, h2, h⟩ := bind_ok h
    obtain ⟨⟨s3, r3⟩, h3, h⟩ := bind_ok h
    obtain ⟨s5, h5, h⟩ := bind_ok h
    obtain ⟨master, h6, h⟩ := bind_ok h
    cases pure_ok h
    have f5 : StampFrame B s s5 :=
      ((((StampFrame.stampSetNode B s leaf _ (Or.inl rfl)).stampTrans (SubtreeRemove_frame B h2)).stampTrans
        (SubtreeInsert_frame B t leaf fuel h3)).stampTrans
        (StampFrame.stampSetTree B _ t _ ⟨rfl, rfl, rfl⟩)).stampTrans (PairsClear_frame B h5)
    refine f5.stampTrans (StampFrame.stampSetNode B _ leaf _ (Or.inr ?_))
    rw [GetMasterTree_frame f5 t, hm] at h6
    cases h6
    show (s5.trees m).stamp ≤ B
    rw [(f5.1 m).1]
    exact hB
  · cases pure_ok h; exact StampFrame.stampRefl B s

theorem update_frame {B : Nat} {fuel t m : Nat} : ∀ (order : List Nat) {s s1 : State},
    GetMasterTree s t = .ok m → (s.trees m).stamp ≤ B →
    ReindexQuery.update fuel t order s = .ok s1 → StampFrame B s s1 := by
  intro order
  induction order with
  | nil => intro s s1 _ _ h; cases pure_ok h; exact StampFrame.stampRefl B s
  | cons x xs ih =>
    intro s s1 hm hB h
    unfold ReindexQuery.update at h
    obtain ⟨⟨s2, r⟩, h2, h⟩ := bind_ok h
    have f2 := LeafUpdate_frame hm hB h2
    exact f2.stampTrans (ih (by rw [GetMasterTree_frame f2 t]; exact hm)
      (by rw [(f2.1 m).1]; exact hB) h)

/-- The frame without the maps: tree stamps, index pointers and index records
are kept, node stamps are kept or at most `B`. -/
theorem StampFrame.nodes_le {B : Nat} {s s1 : State} (h : StampFrame B s s1) (q : Nat)
    (hq : (s.nodes q).stamp ≤ B) : (s1.nodes q).stamp ≤ B := by
  rcases h.2.2 q with e | e
  · rw [e]; exact hq
  · exact e

theorem mem_mapSet {k v : Nat} {e : Nat × Nat} : ∀ {m : List (Nat × Nat)},
    e ∈ mapSet k v m → e = (k, v) ∨ e ∈ m := by
  intro m
  induction m with
  | nil => intro h; left; simpa [mapSet] using h
  | cons x rest ih =>
    intro h
    obtain ⟨k1, v1⟩ := x
    unfold mapSet at h
    split at h
    · rcases List.mem_cons.mp h with e1 | e1
      · exact Or.inl e1
      · exact Or.inr (List.mem_cons_of_mem _ e1)
    · rcases List.mem_cons.mp h with e1 | e1
      · exact Or.inr (e1 ▸ List.mem_cons_self _ _)
      · rcases ih e1 with e2 | e2
        · exact Or.inl e2
        · exact Or.inr (List.mem_cons_of_mem _ e2)

/-- `IncrementStamp` adds one, modulo the word size, to the stamp of the tree
that `GetMasterTree` resolves to, and writes nothing else. -/
theorem IncrementStamp_master {s s1 : State} {t m : Nat} (hm : GetMasterTree s t = .ok m)
    (h : IncrementStamp s t = .ok s1) :
    s1 = s.setTree m (fun tr => { tr with stamp := (tr.stamp + 1) % uintMod }) := by
  unfold IncrementStamp at h
  unfold GetMasterTree at hm
  obtain ⟨si, hsi, h⟩ := bind_ok h
  rw [hsi] at hm
  simp only [bind, Except.bind] at hm
  split at h
  · rename_i d hd
    rw [hd] at hm
    cases pure_ok hm
    cases pure_ok h
    rfl
  · rename_i hd
    rw [hd] at hm
    cases pure_ok hm
    cases pure_ok h
    rfl

theorem IncrementStamp_total {s : State} {t m : Nat} (hm : GetMasterTree s t = .ok m) :
    IncrementStamp s t =
      .ok (s.setTree m (fun tr => { tr with stamp := (tr.stamp + 1) % uintMod })) := by
  unfold GetMasterTree at hm
  unfold IncrementStamp
  cases hsi : (s.trees t).spatialIndex with
  | none => rw [hsi] at hm; cases hm
  | some si =>
    rw [hsi] at hm
    simp only [deref, bind, Except.bind, pure, Except.pure] at hm ⊢
    cases hd : SpatialIndex.GetTree s (s.indexes si).dynamicIndex with
    | none => rw [hd] at hm; cases hm; rfl
    | some d => rw [hd] at hm; cases hm; rfl

/-- `Insert` up to its last step: all stamps the frame keeps are kept, the new
leaf is in the map and carries the tick, and the last step is `IncrementStamp`. -/
theorem Insert_pre {fuel : Nat} {s s1 : State} {t m : Nat} {obj : Option Nat} {hashId : Nat}
    (hm : GetMasterTree s t = .ok m) (h : Insert fuel s t obj hashId = .ok s1) :
    ∃ s6 leaf, IncrementStamp s6 t = .ok s1 ∧ GetMasterTree s6 t = .ok m ∧
      (∀ u, (s6.trees u).stamp = (s.trees u).stamp) ∧
      (s6.trees t).leaves = mapSet hashId leaf (s.trees t).leaves ∧
      (s6.nodes leaf).stamp ≤ (s.trees m).stamp ∧
      ∀ q, (s.nodes q).stamp ≤ (s.trees m).stamp → (s6.nodes q).stamp ≤ (s.trees m).stamp := by
  unfold Insert at h
  obtain ⟨⟨s1a, leaf⟩, h1, h⟩ := bind_ok h
  dsimp only at h
  obtain ⟨⟨s3, r⟩, h3, h⟩ := bind_ok h
  dsimp only at h
  obtain ⟨master, h4, h⟩ := bind_ok h
  obtain ⟨s6, h6, hinc⟩ := bind_ok h
  obtain ⟨B, hB⟩ : ∃ B, B = (s.trees m).stamp := ⟨_, rfl⟩
  rw [← hB]
  have f1 : StampFrame B s s1a := NewLeaf_frame B h1
  obtain ⟨s2, hs2⟩ : ∃ s2, s2 = s1a.setTree t
    (fun tr => { tr with leaves := mapSet hashId leaf tr.leaves }) := ⟨_, rfl⟩
  rw [← hs2] at h3
  have f3 : StampFrame B s2 s3 := SubtreeInsert_frame B t leaf fuel h3
  obtain ⟨s4, hs4⟩ : ∃ s4, s4 = s3.setTree t (fun tr => { tr with root := some r }) :=
    ⟨_, rfl⟩
  rw [← hs4] at h4 h6
  have f4 : StampFrame B s2 s4 := f3.stampTrans (by
    rw [hs4]; exact StampFrame.stampSetTree B _ _ _ ⟨rfl, rfl, rfl⟩)
  have e2 : ∀ u, (s2.trees u).stamp = (s1a.trees u).stamp ∧
      (s2.trees u).spatialIndex = (s1a.trees u).spatialIndex := by
    intro u
    rw [hs2]
    by_cases hu : u = t
    · subst hu; simp [State.setTree]
    · simp [State.setTree, hu]
  have hm2 : GetMasterTree s2 t = .ok m := by
    rw [← hm, ← GetMasterTree_frame f1 t]
    unfold GetMasterTree SpatialIndex.GetTree
    rw [(e2 t).2]
    rw [hs2]; rfl
  have hm4 : GetMasterTree s4 t = .ok m := by rw [GetMasterTree_frame f4 t]; exact hm2
  rw [hm4] at h4
  cases h4
  have hst4 : ∀ u, (s4.trees u).stamp = (s.trees u).stamp := fun u =>
    ((f4.1 u).1.trans (e2 u).1).trans (f1.1 u).1
  obtain ⟨s5, hs5⟩ : ∃ s5, s5 = s4.setNode leaf
    (fun x => { x with stamp := (s4.trees m).stamp }) := ⟨_, rfl⟩
  rw [← hs5] at h6
  have f5 : StampFrame B s4 s5 := by
    rw [hs5]
    refine StampFrame.stampSetNode B _ _ _ (Or.inr ?_)
    show (s4.trees m).stamp ≤ B
    rw [hst4, hB]
  have f6 : StampFrame B s5 s6 := LeafAddPairs_frame B h6
  have f46 : StampFrame B s4 s6 := f5.stampTrans f6
  have f26 : StampFrame B s2 s6 := f4.stampTrans f46
  refine ⟨s6, leaf, hinc, ?_, fun u => (f46.1 u).1.trans (hst4 u), ?_, ?_, ?_⟩
  · rw [GetMasterTree_frame f46 t]; exact hm4
  · rw [(f26.1 t).2.2, hs2, ← (f1.1 t).2.2]
    simp [State.setTree]
  · refine f6.nodes_le leaf ?_
    rw [hs5]
    simp only [State.setNode, Function.update_same]
    rw [hst4, hB]
  · intro q hq
    refine f26.nodes_le q ?_
    have : (s2.nodes q) = (s1a.nodes q) := by rw [hs2]; rfl
    rw [this]
    exact f1.nodes_le q hq

theorem CollideStatic_frame (B : Nat) {s s1 : State} {t st : Nat} {f : Option QueryFn}
    (h : CollideStatic s t st f = .ok s1) : StampFrame B s s1 := by
  unfold CollideStatic at h
  obtain ⟨k, -, h⟩ := bind_ok h
  split at h
  · obtain ⟨si, -, h⟩ := bind_ok h
    cases hl : (s.trees t).leaves with
    | nil => rw [hl] at h; cases pure_ok h; exact StampFrame.stampRefl B s
    | cons e rest =>
      rw [hl, List.foldlM_cons] at h
      obtain ⟨u, hu, -⟩ := bind_ok h
      cases hu
  · cases pure_ok h; exact StampFrame.stampRefl B s

/-- `ReindexQuery` on a tree with a root, up to its last step: the frame
holds, and the last step is `IncrementStamp`. -/
theorem ReindexQuery_pre {fuel : Nat} {s s1 : State} {t m : Nat} {f : Option QueryFn}
    {order : List Nat} (hroot : (s.trees t).root ≠ none) (hm : GetMasterTree s t = .ok m)
    (h : ReindexQuery fuel s t f order = .ok s1) :
    ∃ s3, IncrementStamp s3 t = .ok s1 ∧ StampFrame (s.trees m).stamp s s3 := by
  unfold ReindexQuery at h
  split at h
  · rename_i hr; exact absurd hr hroot
  · obtain ⟨sa, ha, h⟩ := bind_ok h
    obtain ⟨si, -, h⟩ := bind_ok h
    have fa := update_frame order hm (Nat.le_refl _) ha
    dsimp only at h
    split at h
    · obtain ⟨k, -, h⟩ := bind_ok h
      obtain ⟨y, -, h⟩ := bind_ok h
      obtain ⟨sb, hb, h⟩ := bind_ok h
      have fb := MarkSubtree_frame (s.trees m).stamp _ fuel hb
      split at h
      · obtain ⟨sc, hc, h⟩ := bind_ok h
        exact ⟨sc, h, (fa.stampTrans fb).stampTrans (CollideStatic_frame _ hc)⟩
      · obtain ⟨sc, hc, h⟩ := bind_ok h
        cases pure_ok hc
        exact ⟨sb, h, fa.stampTrans fb⟩
    · obtain ⟨y, -, h⟩ := bind_ok h
      obtain ⟨sb, hb, h⟩ := bind_ok h
      have fb := MarkSubtree_frame (s.trees m).stamp _ fuel hb
      split at h
      · obtain ⟨sc, hc, h⟩ := bind_ok h
        exact ⟨sc, h, (fa.stampTrans fb).stampTrans (CollideStatic_frame _ hc)⟩
      · obtain ⟨sc, hc, h⟩ := bind_ok h
        cases pure_ok hc
        exact ⟨sb, h, fa.stampTrans fb⟩

/-- A tree just made by `NewBBTree` is its own master. -/
theorem NewBBTree_master (s : State) (bbfunc : Option Nat → BB) (staticIndex : Option Nat) :
    GetMasterTree (NewBBTree s bbfunc staticIndex).1 (NewBBTree s bbfunc staticIndex).2.2 =
      .ok (NewBBTree s bbfunc staticIndex).2.2 ∧
    ((NewBBTree s bbfunc staticIndex).1.trees (NewBBTree s bbfunc staticIndex).2.2).leaves = [] ∧
    ((NewBBTree s bbfunc staticIndex).1.trees (NewBBTree s bbfunc staticIndex).2.2).stamp = 0 := by
  cases staticIndex with
  | none =>
    refine ⟨?_, ?_, ?_⟩ <;>
      simp [NewBBTree, NewSpatialIndex, GetMasterTree, SpatialIndex.GetTree, State.setTree,
        deref, bind, Except.bind, pure, Except.pure]
  | some st =>
    refine ⟨?_, ?_, ?_⟩
    · by_cases hst : st = s.indexNext
      · subst hst
        simp [NewBBTree, NewSpatialIndex, GetMasterTree, SpatialIndex.GetTree, State.setTree,
          State.setIndex, deref, bind, Except.bind, pure, Except.pure]
      · have hst2 : s.indexNext ≠ st := fun e => hst e.symm
        simp [NewBBTree, NewSpatialIndex, GetMasterTree, SpatialIndex.GetTree, State.setTree,
          State.setIndex, deref, bind, Except.bind, pure, Except.pure, hst, hst2]
    · simp [NewBBTree, NewSpatialIndex, State.setTree, State.setIndex]
    · simp [NewBBTree, NewSpatialIndex, State.setTree, State.setIndex]

/-- The invariant of a run on a tree that is its own master: after `k` calls
the stamp of the tree is at most `k` and above the stamp of every node that is
in the map or at most the stamp before the call. -/
theorem runOps_inv (t : Nat) : ∀ (ops : List Op) (s s1 : State) (k : Nat),
    GetMasterTree s t = .ok t → (s.trees t).stamp ≤ k → k + ops.length < uintMod →
    (∀ e ∈ (s.trees t).leaves, (s.nodes e.2).stamp < (s.trees t).stamp) →
    runOps t ops s = .ok s1 →
    GetMasterTree s1 t = .ok t ∧
      ∀ e ∈ (s1.trees t).leaves, (s1.nodes e.2).stamp < (s1.trees t).stamp := by
  intro ops
  induction ops with
  | nil =>
    intro s s1 k hm _ _ hinv h
    cases pure_ok h
    exact ⟨hm, hinv⟩
  | cons op rest ih =>
    intro s s1 k hm hk hlen hinv h
    simp only [List.length_cons] at hlen
    have hmod : ((s.trees t).stamp + 1) % uintMod = (s.trees t).stamp + 1 :=
      Nat.mod_eq_of_lt (by omega)
    cases op with
    | insert fuel obj hashId =>
      unfold runOps at h
      obtain ⟨s2, h2, h⟩ := bind_ok h
      obtain ⟨s6, leaf, hinc, hm6, hst, hlv, hleaf, hnodes⟩ := Insert_pre hm h2
      have e2 := IncrementStamp_master hm6 hinc
      have hstamp2 : (s2.trees t).stamp = (s.trees t).stamp + 1 := by
        rw [e2]; simp [State.setTree, hst, hmod]
      have hm2 : GetMasterTree s2 t = .ok t := by
        rw [← hm6, e2]
        unfold GetMasterTree SpatialIndex.GetTree
        simp [State.setTree]
      refine ih s2 s1 (k + 1) hm2 (by omega) (by omega) ?_ h
      intro e he
      have hl2 : (s2.trees t).leaves = mapSet hashId leaf (s.trees t).leaves := by
        rw [e2, ← hlv]; simp [State.setTree]
      have hn2 : s2.nodes = s6.nodes := by rw [e2]; rfl
      rw [hl2] at he
      rw [hstamp2, hn2]
      rcases mem_mapSet he with e1 | e1
      · rw [e1]; exact Nat.lt_succ_of_le hleaf
      · exact Nat.lt_succ_of_le (hnodes e.2 (Nat.le_of_lt (hinv e e1)))
    | reindex fuel f order =>
      unfold runOps at h
      obtain ⟨s2, h2, hrest⟩ := bind_ok h
      cases hroot : (s.trees t).root with
      | none =>
        have : s2 = s := by
          unfold ReindexQuery at h2
          rw [hroot] at h2
          exact (pure_ok h2).symm
        rw [this] at hrest
        exact ih s s1 (k + 1) hm (by omega) (by omega) hinv hrest
      | some x =>
        have h := hrest
        obtain ⟨s3, hinc, f3⟩ := ReindexQuery_pre (by rw [hroot]; exact Option.some_ne_none x)
          hm h2
        have hm3 : GetMasterTree s3 t = .ok t := by rw [GetMasterTree_frame f3 t]; exact hm
        have e2 := IncrementStamp_master hm3 hinc
        have hstamp2 : (s2.trees t).stamp = (s.trees t).stamp + 1 := by
          rw [e2]; simp [State.setTree, (f3.1 t).1, hmod]
        have hm2 : GetMasterTree s2 t = .ok t := by
          rw [← hm3, e2]
          unfold GetMasterTree SpatialIndex.GetTree
          simp [State.setTree]
        refine ih s2 s1 (k + 1) hm2 (by omega) (by omega) ?_ h
        intro e he
        have hl2 : (s2.trees t).leaves = (s.trees t).leaves := by
          rw [e2, ← (f3.1 t).2.2]; simp [State.setTree]
        have hn2 : s2.nodes = s3.nodes := by rw [e2]; rfl
        rw [hl2] at he
        rw [hstamp2, hn2]
        exact Nat.lt_succ_of_le (f3.nodes_le e.2 (Nat.le_of_lt (hinv e he)))

/-- C19: in the state reached from a tree just made by `NewBBTree` by a
sequence of `Insert` and `ReindexQuery` calls that is shorter than the word
size (so that the stamp does not wrap around), the tree is its own master tree
and the stamp of every leaf in its map is less than the stamp of the tree. -/
theorem stamps_below_tick (s0 : State) (bbfunc : Option Nat → BB) (staticIndex : Option Nat)
    (ops : List Op) (s1 : State) (hwrap : ops.length < uintMod)
    (hrun : runOps (NewBBTree s0 bbfunc staticIndex).2.2 ops
      (NewBBTree s0 bbfunc staticIndex).1 = .ok s1) :
    GetMasterTree s1 (NewBBTree s0 bbfunc staticIndex).2.2 =
      .ok (NewBBTree s0 bbfunc staticIndex).2.2 ∧
    ∀ e ∈ (s1.trees (NewBBTree s0 bbfunc staticIndex).2.2).leaves,
      (s1.nodes e.2).stamp < (s1.trees (NewBBTree s0 bbfunc staticIndex).2.2).stamp := by
  obtain ⟨h1, h2, h3⟩ := NewBBTree_master s0 bbfunc staticIndex
  refine runOps_inv _ ops _ s1 0 h1 (by rw [h3]) (by omega) ?_ hrun
  intro e he
  rw [h2] at he
  cases he

/-- C19 at a concrete run: one `Insert` and one `ReindexQuery` on a new tree. -/
theorem stamps_below_tick_witness :
    GetMasterTree tickDemoEnd (NewBBTree State.empty (fun _ => ⟨0, 0, 1, 1⟩) none).2.2 =
      .ok (NewBBTree State.empty (fun _ => ⟨0, 0, 1, 1⟩) none).2.2 ∧
    ∀ e ∈ (tickDemoEnd.trees (NewBBTree State.empty (fun _ => ⟨0, 0, 1, 1⟩) none).2.2).leaves,
      (tickDemoEnd.nodes e.2).stamp <
        (tickDemoEnd.trees (NewBBTree State.empty (fun _ => ⟨0, 0, 1, 1⟩) none).2.2).stamp :=
  stamps_below_tick State.empty (fun _ => ⟨0, 0, 1, 1⟩) none
    [Op.insert 3 (some 1) 10, Op.reindex 3 (some VoidQueryFunc) [31]] tickDemoEnd
    (by decide) rfl

/-- The run of `tickDemoEnd` in numbers: the map holds the leaf 31 under the id
10, the leaf carries the stamp 0 and the tree the stamp 2. -/
theorem tickDemoEnd_facts :
    (tickDemoEnd.trees 0).leaves = [(10, 31)] ∧ (tickDemoEnd.nodes 31).stamp = 0 ∧
    (tickDemoEnd.trees 0).stamp = 2 := by
  refine ⟨rfl, rfl, rfl⟩

/-- The stamps after a call of `ReindexQuery` that returns, on a tree that
resolves its master tree: on a tree with a nil root nothing is changed, and on
a tree with a root the stamp of the master tree is one more than before,
modulo the word size, and the stamp of every other tree is as before. -/
theorem ReindexQuery_stamps (fuel : Nat) (s s1 : State) (t m : Nat) (f : Option QueryFn)
    (order : List Nat) (hm : GetMasterTree s t = .ok m)
    (h : ReindexQuery fuel s t f order = .ok s1) :
    ((s.trees t).root = none → s1 = s) ∧
    ((s.trees t).root ≠ none →
      (s1.trees m).stamp = ((s.trees m).stamp + 1) % uintMod ∧
      ∀ u, u ≠ m → (s1.trees u).stamp = (s.trees u).stamp) := by
  constructor
  · intro hroot
    unfold ReindexQuery at h
    rw [hroot] at h
    exact (pure_ok h).symm
  · intro hroot
    obtain ⟨s3, hinc, f3⟩ := ReindexQuery_pre hroot hm h
    have hm3 : GetMasterTree s3 t = .ok m := by rw [GetMasterTree_frame f3 t]; exact hm
    have e2 := IncrementStamp_master hm3 hinc
    constructor
    · rw [e2]; simp [State.setTree, (f3.1 m).1]
    · intro u hu
      rw [e2]; simp [State.setTree, hu, (f3.1 u).1]

/-- C14 fails as stated: on a tree just made, whose root is nil, `ReindexQuery`
returns the heap as it is, and the stamp of the tree, which is its own master
tree, is still 0 and not 1. -/
theorem reindexQuery_empty_keeps_stamp :
    GetMasterTree (NewBBTree State.empty (fun _ => ⟨0, 0, 1, 1⟩) none).1
      (NewBBTree State.empty (fun _ => ⟨0, 0, 1, 1⟩) none).2.2 =
      .ok (NewBBTree State.empty (fun _ => ⟨0, 0, 1, 1⟩) none).2.2 ∧
    ((NewBBTree State.empty (fun _ => ⟨0, 0, 1, 1⟩) none).1.trees
      (NewBBTree State.empty (fun _ => ⟨0, 0, 1, 1⟩) none).2.2).stamp = 0 ∧
    (0 + 1) % uintMod = 1 ∧
    (ReindexQuery 3 (NewBBTree State.empty (fun _ => ⟨0, 0, 1, 1⟩) none).1
      (NewBBTree State.empty (fun _ => ⟨0, 0, 1, 1⟩) none).2.2 (some VoidQueryFunc) []).map
      (fun s1 => (s1.trees (NewBBTree State.empty (fun _ => ⟨0, 0, 1, 1⟩) none).2.2).stamp) =
      .ok 0 :=
  ⟨rfl, rfl, by decide, rfl⟩

theorem KeepLists.keepRefl (n : Option Nat) (s : State) : KeepLists n s s :=
  ⟨rfl, rfl, rfl, rfl, fun _ => ⟨rfl, rfl, rfl, rfl, rfl⟩, fun _ => ⟨rfl, rfl, fun _ => rfl⟩⟩

theorem KeepLists.keepTrans {n : Option Nat} {s s1 s2 : State} (h1 : KeepLists n s s1)
    (h2 : KeepLists n s1 s2) : KeepLists n s s2 := by
  obtain ⟨a1, a2, a3, a4, a5, a6⟩ := h1
  obtain ⟨b1, b2, b3, b4, b5, b6⟩ := h2
  refine ⟨b1.trans a1, b2.trans a2, b3.trans a3, b4.trans a4, fun u => ?_, fun q => ?_⟩
  · exact ⟨(b5 u).1.trans (a5 u).1, (b5 u).2.1.trans (a5 u).2.1,
      (b5 u).2.2.1.trans (a5 u).2.2.1, (b5 u).2.2.2.1.trans (a5 u).2.2.2.1,
      (b5 u).2.2.2.2.trans (a5 u).2.2.2.2⟩
  · exact ⟨(b6 q).1.trans (a6 q).1, (b6 q).2.1.trans (a6 q).2.1,
      fun h => ((b6 q).2.2 h).trans ((a6 q).2.2 h)⟩

theorem KeepLists.keepSetNode (n : Option Nat) (s : State) (p : Nat) (f : Node → Node)
    (h : (f (s.nodes p)).stamp = (s.nodes p).stamp ∧ (f (s.nodes p)).pairs = (s.nodes p).pairs ∧
      (some p ≠ n → (f (s.nodes p)).obj = (s.nodes p).obj)) :
    KeepLists n s (s.setNode p f) := by
  refine ⟨rfl, rfl, rfl, rfl, fun _ => ⟨rfl, rfl, rfl, rfl, rfl⟩, fun q => ?_⟩
  by_cases hq : q = p
  · subst hq; simpa [State.setNode] using h
  · simp [State.setNode, hq]

theorem KeepLists.keepSetTree (n : Option Nat) (s : State) (t : Nat) (f : BBTree → BBTree)
    (h : (f (s.trees t)).spatialIndex = (s.trees t).spatialIndex ∧
      (f (s.trees t)).velocityFunc = (s.trees t).velocityFunc ∧
      (f (s.trees t)).leaves = (s.trees t).leaves ∧
      (f (s.trees t)).pooledPairs = (s.trees t).pooledPairs ∧
      (f (s.trees t)).stamp = (s.trees t).stamp) :
    KeepLists n s (s.setTree t f) := by
  refine ⟨rfl, rfl, rfl, rfl, fun u => ?_, fun _ => ⟨rfl, rfl, fun _ => rfl⟩⟩
  by_cases hu : u = t
  · subst hu; simpa [State.setTree] using h
  · simp [State.setTree, hu]

theorem RecycleNode_keep (n : Option Nat) {s s1 : State} {t : Nat} {node : Option Nat}
    (h : RecycleNode s t node = .ok s1) : KeepLists n s s1 := by
  unfold RecycleNode at h
  obtain ⟨x, -, h⟩ := bind_ok h
  cases pure_ok h
  exact (KeepLists.keepSetNode n s x _ ⟨rfl, rfl, fun _ => rfl⟩).keepTrans
    (KeepLists.keepSetTree n _ _ _ ⟨rfl, rfl, rfl, rfl, rfl⟩)

theorem NodeSetA_keep (n : Option Nat) {s s1 : State} {node value : Option Nat}
    (h : NodeSetA s node value = .ok s1) : KeepLists n s s1 := by
  unfold NodeSetA at h
  obtain ⟨x, -, h⟩ := bind_ok h
  obtain ⟨v, -, h⟩ := bind_ok h
  cases pure_ok h
  exact (KeepLists.keepSetNode n s x _ ⟨rfl, rfl, fun _ => rfl⟩).keepTrans
    (KeepLists.keepSetNode n _ v _ ⟨rfl, rfl, fun _ => rfl⟩)

theorem NodeSetB_keep (n : Option Nat) {s s1 : State} {node value : Option Nat}
    (h : NodeSetB s node value = .ok s1) : KeepLists n s s1 := by
  unfold NodeSetB at h
  obtain ⟨x, -, h⟩ := bind_ok h
  obtain ⟨v, -, h⟩ := bind_ok h
  cases pure_ok h
  exact (KeepLists.keepSetNode n s x _ ⟨rfl, rfl, fun _ => rfl⟩).keepTrans
    (KeepLists.keepSetNode n _ v _ ⟨rfl, rfl, fun _ => rfl⟩)

theorem ReplaceChild_loop_keep (n : Option Nat) :
    ∀ (fuel : Nat) {s s1 : State} {node : Option Nat},
      ReplaceChild.loop fuel s node = .ok s1 → KeepLists n s s1 := by
  intro fuel
  induction fuel with
  | zero =>
    intro s s1 node h
    cases node with
    | none => cases pure_ok h; exact KeepLists.keepRefl n s
    | some p => cases h
  | succ fuel ih =>
    intro s s1 node h
    cases node with
    | none => cases pure_ok h; exact KeepLists.keepRefl n s
    | some p =>
      unfold ReplaceChild.loop at h
      obtain ⟨a, -, h⟩ := bind_ok h
      obtain ⟨b, -, h⟩ := bind_ok h
      obtain ⟨bb, -, h⟩ := bind_ok h
      exact (KeepLists.keepSetNode n _ p _ ⟨rfl, rfl, fun _ => rfl⟩).keepTrans (ih h)

theorem ReplaceChild_keep (n : Option Nat) {fuel : Nat} {s s1 : State} {t : Nat}
    {parent child value : Option Nat}
    (h : ReplaceChild fuel s t parent child value = .ok s1) : KeepLists n s s1 := by
  unfold ReplaceChild at h
  obtain ⟨p, -, h⟩ := bind_ok h
  dsimp only at h
  split at h
  · obtain ⟨s3, h3, h⟩ := bind_ok h
    obtain ⟨s2, h2, h⟩ := bind_ok h
    exact ((RecycleNode_keep n h3).keepTrans (NodeSetA_keep n h2)).keepTrans
      (ReplaceChild_loop_keep n fuel h)
  · obtain ⟨s3, h3, h⟩ := bind_ok h
    obtain ⟨s2, h2, h⟩ := bind_ok h
    exact ((RecycleNode_keep n h3).keepTrans (NodeSetB_keep n h2)).keepTrans
      (ReplaceChild_loop_keep n fuel h)

/-- `SubtreeRemove` keeps the pair data, the stamps and the objects. -/
theorem SubtreeRemove_keep {fuel : Nat} {s s1 : State} {t leaf : Nat}
    {sub r : Option Nat} (h : SubtreeRemove fuel s t sub leaf = .ok (s1, r)) :
    KeepLists none s s1 := by
  unfold SubtreeRemove at h
  split at h
  · cases pure_ok h; exact KeepLists.keepRefl none s
  · dsimp only at h
    split at h
    · obtain ⟨x, -, h⟩ := bind_ok h
      obtain ⟨o, -, h⟩ := bind_ok h
      obtain ⟨s2, h2, h⟩ := bind_ok h
      cases pure_ok h
      exact (KeepLists.keepSetNode none _ o _ ⟨rfl, rfl, fun _ => rfl⟩).keepTrans
        (RecycleNode_keep none h2)
    · obtain ⟨p, -, h⟩ := bind_ok h
      obtain ⟨s2, h2, h⟩ := bind_ok h
      cases pure_ok h
      exact ReplaceChild_keep none h2

theorem NewNode_keep {s s1 : State} {t a b n r : Nat}
    (hpool : (s.trees t).pooledNodes = some n) (h : NewNode s t a b = .ok (s1, r)) :
    KeepLists (some n) s s1 := by
  unfold NewNode at h
  obtain ⟨⟨s2, node⟩, h1, h⟩ := bind_ok h
  rw [NodeFromPool_pop hpool] at h1
  cases h1
  obtain ⟨x, hx, h⟩ := bind_ok h
  cases deref_ok hx
  obtain ⟨bb, -, h⟩ := bind_ok h
  obtain ⟨s5, h5, h⟩ := bind_ok h
  obtain ⟨s6, h6, h⟩ := bind_ok h
  cases pure_ok h
  refine ((((((KeepLists.keepSetTree (some n) s t _ ⟨rfl, rfl, rfl, rfl, rfl⟩).keepTrans
    (KeepLists.keepSetNode (some n) _ n _ ⟨rfl, rfl, fun e => absurd rfl e⟩)).keepTrans
    (KeepLists.keepSetNode (some n) _ n _ ⟨rfl, rfl, fun _ => rfl⟩)).keepTrans
    (KeepLists.keepSetNode (some n) _ n _ ⟨rfl, rfl, fun _ => rfl⟩)).keepTrans
    (NodeSetA_keep (some n) h5)).keepTrans (NodeSetB_keep (some n) h6))

/-- `SubtreeInsert` with a node `n` at the head of the pool keeps the pair
data, the stamps and, but for the node `n`, the objects. -/
theorem SubtreeInsert_keep (t leaf n : Nat) :
    ∀ (fuel : Nat) {s s1 : State} {sub : Option Nat} {r : Nat},
      (s.trees t).pooledNodes = some n →
      SubtreeInsert t leaf fuel s sub = .ok (s1, r) → KeepLists (some n) s s1 := by
  intro fuel
  induction fuel with
  | zero =>
    intro s s1 sub r _ h
    cases sub with
    | none => cases pure_ok h; exact KeepLists.keepRefl _ s
    | some p => cases h
  | succ fuel ih =>
    intro s s1 sub r hpool h
    cases sub with
    | none => cases pure_ok h; exact KeepLists.keepRefl _ s
    | some p =>
      unfold SubtreeInsert at h
      split at h
      · exact NewNode_keep hpool h
      · obtain ⟨a, -, h⟩ := bind_ok h
        obtain ⟨b, -, h⟩ := bind_ok h
        obtain ⟨abb, -, h⟩ := bind_ok h
        obtain ⟨bbb, -, h⟩ := bind_ok h
        obtain ⟨lbb, -, h⟩ := bind_ok h
        dsimp only at h
        split at h
        · obtain ⟨⟨s3, r3⟩, h3, h⟩ := bind_ok h
          obtain ⟨s2, h2, h⟩ := bind_ok h
          obtain ⟨bb, -, h⟩ := bind_ok h
          cases pure_ok h
          exact ((ih hpool h3).keepTrans (NodeSetB_keep _ h2)).keepTrans
            (KeepLists.keepSetNode _ _ _ _ ⟨rfl, rfl, fun _ => rfl⟩)
        · obtain ⟨⟨s3, r3⟩, h3, h⟩ := bind_ok h
          obtain ⟨s2, h2, h⟩ := bind_ok h
          obtain ⟨bb, -, h⟩ := bind_ok h
          cases pure_ok h
          exact ((ih hpool h3).keepTrans (NodeSetA_keep _ h2)).keepTrans
            (KeepLists.keepSetNode _ _ _ _ ⟨rfl, rfl, fun _ => rfl⟩)

/-- `SubtreeInsert` leaves the root it returns without a parent when the root
it was given had none. -/
theorem SubtreeInsert_root_parent {s s1 : State} {t n leaf : Nat} {lb : BB}
    (hpool : NodeFromPool s t = .ok (s1, some n)) (hnl : n ≠ leaf)
    (hleaf : (s.nodes leaf).IsLeaf = true) (hlb : (s.nodes leaf).bb = some lb)
    (hkl : s1.nodes leaf = s.nodes leaf) (T : Shape) (fuel : Nat) (hfuel : T.depth ≤ fuel)
    (hlink : Linked s T) (hbox : Boxed s T) (hnd : T.addrs.Nodup) (hlT : leaf ∉ T.addrs)
    (hnT : n ∉ T.addrs) (hkeep : ∀ q ∈ T.addrs, s1.nodes q = s.nodes q)
    (hrp : (s.nodes T.root).parent = none) {s2 : State} {r : Nat}
    (h : SubtreeInsert t leaf fuel s (some T.root) = .ok (s2, r)) :
    (s2.nodes r).parent = none := by
  cases T with
  | leaf p =>
    obtain ⟨f, rfl⟩ : ∃ f, fuel = f + 1 := ⟨fuel - 1, by simp [Shape.depth] at hfuel; omega⟩
    obtain ⟨pb, hpb⟩ := Option.ne_none_iff_exists'.mp hbox
    have hpl : p ≠ leaf := fun e => hlT (by simp [Shape.addrs, e])
    have hpn : n ≠ p := fun e => hnT (by simp [Shape.addrs, e])
    have hkp : s1.nodes p = s.nodes p := hkeep p (by simp [Shape.addrs])
    have hstep : SubtreeInsert t leaf (f + 1) s (some p) = NewNode s t leaf p :=
      SubtreeInsert_leaf t leaf f s p hlink
    rw [Shape.root, hstep, NewNode_of leaf p lb pb hpool (by rw [hkl]; exact hlb)
      (by rw [hkp]; exact hpb) hnl hpn] at h
    cases h
    simp [State.setNode, hnl, hpn]
  | node p A B =>
    obtain ⟨f, rfl⟩ : ∃ f, fuel = f + 1 := ⟨fuel - 1, by simp [Shape.depth] at hfuel; omega⟩
    have hfl : A.depth ≤ f := by simp [Shape.depth] at hfuel; omega
    have hfr : B.depth ≤ f := by simp [Shape.depth] at hfuel; omega
    obtain ⟨hp1, hp2, hp3, hll, hlr⟩ := hlink
    obtain ⟨⟨x, y, hx, hy, hpbb⟩, hbl, hbr⟩ := hbox
    simp only [Shape.addrs, List.nodup_cons, List.mem_cons, List.mem_append, not_or,
      List.nodup_append] at hnd hlT hnT
    obtain ⟨⟨hpl, hpr⟩, hndl, hndr, hdisj⟩ := hnd
    have hkeepl : ∀ q ∈ A.addrs, s1.nodes q = s.nodes q :=
      fun q hq => hkeep q (by simp [Shape.addrs, hq])
    have hkeepr : ∀ q ∈ B.addrs, s1.nodes q = s.nodes q :=
      fun q hq => hkeep q (by simp [Shape.addrs, hq])
    have hkp : s1.nodes p = s.nodes p := hkeep p (by simp [Shape.addrs])
    have hstep := SubtreeInsert_node t f hp1 hp2 hp3 hx hy hlb
    have hpleaf : p ≠ leaf := fun e => hlT.1 e.symm
    have hpn : p ≠ n := fun e => hnT.1 e.symm
    replace hrp : (s.nodes p).parent = none := hrp
    replace h : SubtreeInsert t leaf (f + 1) s (some p) = .ok (s2, r) := h
    by_cases hc : s.arith.lt (insertCosts s.arith x y lb).2 (insertCosts s.arith x y lb).1 = true
    · obtain ⟨u, h1, -, -, -, -, h6, -, h8, -, -, -⟩ :=
        SubtreeInsert_spec hpool hnl hleaf hlb hkl B f hfr hlr hbr hndr hlT.2.2 hnT.2.2 hkeepr
      obtain ⟨c, hcdef⟩ : ∃ c, c = (B.insert s n leaf).root := ⟨_, rfl⟩
      have hroots : c ∈ (B.insert s n leaf).addrs := hcdef ▸ Shape.root_mem _
      have hcp : c ≠ p := by
        intro e
        rw [e, Shape.mem_insert_addrs] at hroots
        rcases hroots with e1 | e1 | e1
        · exact hpn e1
        · exact hpleaf e1
        · exact hpr e1
      have hcleaf : c ≠ leaf := by
        rw [hcdef]; exact Shape.insert_root_ne s B hnl hlT.2.2
      have hs2p : u.nodes p = s.nodes p := by
        rw [h6 p hpr hpleaf hpn, hkp]
      rw [hstep, if_pos hc] at h
      simp only [h1, bind, Except.bind, NodeSetB_ok, mergeBB, ← hcdef,
        setNode_nodes, hcp, hcp.symm, hpleaf, hpleaf.symm, hcleaf.symm, if_false, if_true,
        hs2p, hpbb, h8, hlb, deref, pure, Except.pure] at h
      cases h
      simp [State.setNode, hcp.symm, hs2p, hrp]
    · obtain ⟨u, h1, -, -, -, -, h6, -, h8, -, -, -⟩ :=
        SubtreeInsert_spec hpool hnl hleaf hlb hkl A f hfl hll hbl hndl hlT.2.1 hnT.2.1 hkeepl
      obtain ⟨c, hcdef⟩ : ∃ c, c = (A.insert s n leaf).root := ⟨_, rfl⟩
      have hroots : c ∈ (A.insert s n leaf).addrs := hcdef ▸ Shape.root_mem _
      have hcp : c ≠ p := by
        intro e
        rw [e, Shape.mem_insert_addrs] at hroots
        rcases hroots with e1 | e1 | e1
        · exact hpn e1
        · exact hpleaf e1
        · exact hpl e1
      have hcleaf : c ≠ leaf := by
        rw [hcdef]; exact Shape.insert_root_ne s A hnl hlT.2.1
      have hs2p : u.nodes p = s.nodes p := by
        rw [h6 p hpl hpleaf hpn, hkp]
      rw [hstep, if_neg hc] at h
      simp only [h1, bind, Except.bind, NodeSetA_ok, mergeBB, ← hcdef,
        setNode_nodes, hcp, hcp.symm, hpleaf, hpleaf.symm, hcleaf.symm, if_false, if_true,
        hs2p, hpbb, h8, hlb, deref, pure, Except.pure] at h
      cases h
      simp [State.setNode, hcp.symm, hs2p, hrp]

theorem KeepLists.weaken {n : Option Nat} {s s1 : State} (h : KeepLists none s s1) :
    KeepLists n s s1 :=
  ⟨h.1, h.2.1, h.2.2.1, h.2.2.2.1, h.2.2.2.2.1, fun q =>
    ⟨(h.2.2.2.2.2 q).1, (h.2.2.2.2.2 q).2.1, fun _ => (h.2.2.2.2.2 q).2.2 (by simp)⟩⟩

theorem GetMasterTree_keep {n : Option Nat} {s s1 : State} (h : KeepLists n s s1) (t : Nat) :
    GetMasterTree s1 t = GetMasterTree s t := by
  unfold GetMasterTree SpatialIndex.GetTree
  rw [(h.2.2.2.2.1 t).1, h.2.2.2.1]

theorem mem_ctxAddrs_sib : ∀ (ctx : List Frame) (fr : Frame) (q : Nat), fr ∈ ctx →
    q ∈ fr.sib.addrs → q ∈ ctxAddrs ctx := by
  intro ctx
  induction ctx with
  | nil => intro fr q h; cases h
  | cons f rest ih =>
    intro fr q h hq
    simp only [ctxAddrs, List.mem_cons, List.mem_append]
    rcases List.mem_cons.mp h with e | e
    · subst e; exact Or.inr (Or.inl hq)
    · exact Or.inr (Or.inr (ih fr q e hq))

theorem plug_depth_mono : ∀ (ctx : List Frame) (X Y : Shape), X.depth ≤ Y.depth →
    (plug ctx X).depth ≤ (plug ctx Y).depth := by
  intro ctx
  induction ctx with
  | nil => intro X Y h; exact h
  | cons f rest ih =>
    intro X Y h
    simp only [plug]
    apply ih
    unfold Frame.fill
    split <;> simp only [Shape.depth] <;> omega

theorem Shape.insert_depth (s : State) (n leaf : Nat) : ∀ (T : Shape),
    (T.insert s n leaf).depth ≤ T.depth + 1 := by
  intro T
  induction T with
  | leaf p => simp [Shape.insert, Shape.depth]
  | node p l r ihl ihr =>
    simp only [Shape.insert]
    split <;> simp only [Shape.depth] <;> omega

/-- The new internal node of `T.insert` is internal in every heap that holds
the tree. -/
theorem Linked_insert_new {s0 s : State} {n leaf : Nat} : ∀ (T : Shape),
    Linked s (T.insert s0 n leaf) → (s.nodes n).IsLeaf = false := by
  intro T
  induction T with
  | leaf p => intro h; exact h.1
  | node p l r ihl ihr =>
    intro h
    simp only [Shape.insert] at h
    split at h
    · exact ihr h.2.2.2.2
    · exact ihl h.2.2.2.1

/-- The removal of a leaf below the root, with boxes required of the sibling
subtrees along the path only. -/
theorem SubtreeRemove_plug (s : State) (t l fuel : Nat) (f : Frame) (rest : List Frame)
    (hlink : Linked s (plug (f :: rest) (Shape.leaf l)))
    (hpar : Parented s (plug (f :: rest) (Shape.leaf l)))
    (hbox : ∀ fr ∈ f :: rest, Boxed s fr.sib)
    (hnd : (plug (f :: rest) (Shape.leaf l)).addrs.Nodup)
    (hroot : (s.nodes (plug (f :: rest) (Shape.leaf l)).root).parent = none)
    (hfuel : (plug (f :: rest) (Shape.leaf l)).depth ≤ fuel) :
    ∃ s1, SubtreeRemove fuel s t (some (plug (f :: rest) (Shape.leaf l)).root) l =
        .ok (s1, some (plug rest f.sib).root) ∧
      (s1.nodes (plug rest f.sib).root).parent = none ∧
      Linked s1 (plug rest f.sib) ∧ Parented s1 (plug rest f.sib) ∧
      Boxed s1 (plug rest f.sib) ∧
      (s.nodes l).parent = some f.p ∧ (s.nodes f.p).IsLeaf = false ∧
      (s1.trees t).pooledNodes = some f.p ∧
      (∀ q, q ∉ (plug (f :: rest) (Shape.leaf l)).addrs → s1.nodes q = s.nodes q) ∧
      s1.nodes l = s.nodes l := by
  cases rest with
  | nil =>
    obtain ⟨s1, h1, h2, h3, h4, h5, h6, h7, h8, -, h10, -, h12⟩ :=
      SubtreeRemove_child s t l fuel f hlink hpar (hbox f (List.mem_cons_self _ _)) hnd hroot
    exact ⟨s1, h1, h2, h3, h4, h5, h6, h7, h8, h10, h12⟩
  | cons g rest =>
    obtain ⟨s1, h1, h2, h3, h4, h5, h6, h7, h8, -, h10, -, h12⟩ :=
      SubtreeRemove_deep s t l fuel f g rest hlink hpar hbox hnd hroot hfuel
    exact ⟨s1, h1, h2, h3, h4, h5, h6, h7, h8, h10, h12⟩

/-- Well-formed pair lists depend on the pair store, on which nodes are
leaves and on the list heads of the leaves only. -/
theorem PairsWF_fields {s s1 : State} {lists : Nat → List Nat}
    (hp : ∀ q, (s1.pairs q).a = (s.pairs q).a ∧ (s1.pairs q).b = (s.pairs q).b)
    (hleaf : ∀ q, (s1.nodes q).IsLeaf = (s.nodes q).IsLeaf)
    (hhead : ∀ q, (s.nodes q).IsLeaf = true → (s1.nodes q).pairs = (s.nodes q).pairs)
    (h : PairsWF s lists) : PairsWF s1 lists := by
  refine ⟨fun l hl => ?_, fun l p hl hp1 => ?_⟩
  · rw [hleaf] at hl
    obtain ⟨h1, h2⟩ := h.1 l hl
    refine ⟨?_, h2⟩
    rw [hhead l hl]
    exact PairSeg_congr _ _ _ _ (fun q _ => threadOf_congr l q (hp q).1 (hp q).2) h1
  · rw [hleaf] at hl
    obtain ⟨m, a1, a2, a3, a4⟩ := h.2 l p hl hp1
    refine ⟨m, a1, by rw [hleaf]; exact a2, ?_, a4⟩
    have e : otherLeaf s1 l p = otherLeaf s l p :=
      otherLeaf_congr l p ⟨by rw [(hp p).1], by rw [(hp p).2]⟩
    rw [e]
    exact a3

theorem isLeaf_of_shape {a b : Node} (h : a.shape = b.shape) : a.IsLeaf = b.IsLeaf := by
  have h1 : a.shape.obj = b.shape.obj := by rw [h]
  unfold Node.IsLeaf
  exact congrArg Option.isSome h1

/-- `PairsClear` on a leaf of a heap with well-formed symmetric pair lists: it
returns, writes pair data only, empties the list of the leaf, takes its pairs
out of the other lists and puts them in front of the pool. -/
theorem PairsClear_spec (s : State) (t master l fuel : Nat) (lists : Nat → List Nat)
    (D : List Nat) (oldPool : Option Nat)
    (hwf : PairsWF s lists) (hl : (s.nodes l).IsLeaf = true)
    (hm : GetMasterTree s t = .ok master) (hfuel : (lists l).length ≤ fuel)
    (hpool : PoolSeg s (s.trees master).pooledPairs D oldPool)
    (hD : ∀ q ∈ D, ∀ x, (s.nodes x).IsLeaf = true → q ∉ lists x) :
    ∃ s1, PairsClear fuel s t l = .ok s1 ∧ (s1.nodes l).pairs = none ∧
      (∀ q, (s1.nodes q).shape = (s.nodes q).shape) ∧
      (∀ k, (s1.trees k).shape = (s.trees k).shape) ∧ s1.indexes = s.indexes ∧
      PairsWF s1 (listsClear lists l) ∧
      PoolSeg s1 (s1.trees master).pooledPairs ((lists l).reverse ++ D) oldPool := by
  have hleaf0 : ∀ q, ((s.setNode l (fun n => { n with pairs := none })).nodes q).IsLeaf =
      (s.nodes q).IsLeaf := by
    intro q
    by_cases hq : q = l
    · subst hq; simp [Node.IsLeaf]
    · simp [hq]
  have hshape0 : ∀ q, ((s.setNode l (fun n => { n with pairs := none })).nodes q).shape =
      (s.nodes q).shape := by
    intro q
    by_cases hq : q = l
    · subst hq; simp [Node.shape]
    · simp [hq]
  have hpool0 : PoolSeg (s.setNode l (fun n => { n with pairs := none }))
      (s.trees master).pooledPairs D oldPool := @PoolSeg_congr s _ D _ _ (fun q _ => rfl) hpool
  obtain ⟨s1, h1, h2, h3, h4, h5, h6, h7, h8, -⟩ := PairsClear_loop_spec (t := t) (l := l)
    (lists l) fuel (s.setNode l (fun n => { n with pairs := none })) lists none
    (s.nodes l).pairs D oldPool hfuel
    (PairSeg_congr _ _ _ _ (fun q _ => threadOf_setNode s l q l _) (hwf.1 l hl).1) (hwf.1 l hl).2
    (fun m h1 h2 => by
      rw [hleaf0] at h2
      exact PairList_frame (hwf.1 m h2) (by simp [h1]) (fun _ => rfl) (fun _ _ => rfl))
    (fun p hp => by
      obtain ⟨m, a1, a2, a3, a4⟩ := hwf.2 l p hl hp
      exact ⟨m, a1, by rw [hleaf0]; exact a2, a3, a4⟩)
    hm hpool0 (fun q hq => ⟨hD q hq l hl, fun m _ hm1 => hD q hq m (by rw [← hleaf0]; exact hm1)⟩)
  have hleaf1 : ∀ q, (s1.nodes q).IsLeaf = (s.nodes q).IsLeaf := fun q =>
    (isLeaf_of_shape (h3 q)).trans (hleaf0 q)
  have hpl : (s1.nodes l).pairs = none := by rw [h4]; simp
  refine ⟨s1, h1, hpl, fun q => (h3 q).trans (hshape0 q), h7, h8, ⟨fun x hx => ?_,
    fun x p hx hp => ?_⟩, h6⟩
  · rw [hleaf1] at hx
    by_cases hxl : x = l
    · subst hxl
      simp only [listsClear, if_true]
      exact ⟨hpl, List.nodup_nil⟩
    · simp only [listsClear, if_neg hxl]
      exact h2 x hxl (by rw [hleaf0]; exact hx)
  · rw [hleaf1] at hx
    by_cases hxl : x = l
    · subst hxl
      simp [listsClear] at hp
    · simp only [listsClear, if_neg hxl, List.mem_filter, decide_eq_true_eq] at hp
      obtain ⟨m, a1, a2, a3, a4⟩ := hwf.2 x p hx hp.1
      have hml : m ≠ l := fun e => hp.2 (e ▸ a4)
      refine ⟨m, a1, by rw [hleaf1]; exact a2, ?_, ?_⟩
      · have e : otherLeaf s1 x p = otherLeaf s x p := otherLeaf_congr x p (h5 p)
        rw [e]; exact a3
      · simp only [listsClear, if_neg hml, List.mem_filter, decide_eq_true_eq]
        exact ⟨a4, hp.2⟩

theorem SubtreeInsert_none (t leaf fuel : Nat) (s : State) :
    SubtreeInsert t leaf fuel s none = .ok (s, leaf) := by
  cases fuel <;> rfl

/-- The steps of `LeafUpdate` on a leaf whose box has to be replaced, put together. -/
theorem LeafUpdate_run {s sB sC s5 : State} {t l fuel si m r : Nat} {lbb nb : BB}
    {r1 : Option Nat}
    (hsi : (s.trees t).spatialIndex = some si) (hlbb : (s.nodes l).bb = some lbb)
    (hnc : lbb.Contains ((s.indexes si).bbfunc (s.nodes l).obj) = false)
    (hbb : GetBB s t (s.nodes l).obj = .ok nb)
    (hR : SubtreeRemove fuel (s.setNode l (fun x => { x with bb := some nb })) t
      (s.trees t).root l = .ok (sB, r1))
    (hI : SubtreeInsert t l fuel sB r1 = .ok (sC, r))
    (hC : PairsClear fuel (sC.setTree t (fun tr => { tr with root := some r })) t l = .ok s5)
    (hM : GetMasterTree s5 t = .ok m) :
    LeafUpdate fuel s t l =
      .ok (s5.setNode l (fun x => { x with stamp := (s5.trees m).stamp }), true) := by
  unfold LeafUpdate
  simp only [hsi, hlbb, hnc, hbb, hR, hI, hC, hM, deref, bind, Except.bind, pure, Except.pure,
    Bool.not_false, if_true]

/-- The tree part of `LeafUpdate`: with the new box `nb` written to the leaf
`l` of the well-formed tree `T`, the removal and the insertion return and
leave a well-formed tree `T1` with the same leaves. -/
theorem LeafUpdate_tree (s : State) (t l fuel : Nat) (T : Shape) (nb : BB)
    (hlink : Linked s T) (hpar : Parented s T) (hrp : (s.nodes T.root).parent = none)
    (hbox : Boxed s T) (hnd : T.addrs.Nodup) (hl : l ∈ T.leaves) (hfuel : T.depth ≤ fuel) :
    ∃ sB r1 sC T1 n,
      SubtreeRemove fuel (s.setNode l (fun x => { x with bb := some nb })) t (some T.root) l =
        .ok (sB, r1) ∧
      SubtreeInsert t l fuel sB r1 = .ok (sC, T1.root) ∧
      Linked sC T1 ∧ Parented sC T1 ∧ (sC.nodes T1.root).parent = none ∧ Boxed sC T1 ∧
      T1.addrs.Nodup ∧ T1.leaves.Perm T.leaves ∧ T1.depth ≤ T.depth + 1 ∧
      (sC.nodes l).bb = some nb ∧ KeepLists n s sC ∧
      (∀ q, (sC.nodes q).IsLeaf = (s.nodes q).IsLeaf) ∧
      (sC.nodes l).obj = (s.nodes l).obj := by
  obtain ⟨sA, hsA⟩ : ∃ sA, sA = s.setNode l (fun x => { x with bb := some nb }) := ⟨_, rfl⟩
  rw [← hsA]
  have hAl : sA.nodes l = { s.nodes l with bb := some nb } := by rw [hsA]; simp
  have hAq : ∀ q, q ≠ l → sA.nodes q = s.nodes q := by
    intro q hq; rw [hsA]; simp [hq]
  have hA : ∀ q, (sA.nodes q).obj = (s.nodes q).obj ∧ (sA.nodes q).a = (s.nodes q).a ∧
      (sA.nodes q).b = (s.nodes q).b ∧ (sA.nodes q).parent = (s.nodes q).parent := by
    intro q
    by_cases hq : q = l
    · subst hq; rw [hAl]; exact ⟨rfl, rfl, rfl, rfl⟩
    · rw [hAq q hq]; exact ⟨rfl, rfl, rfl, rfl⟩
  have hkA : KeepLists none s sA := by
    rw [hsA]; exact KeepLists.keepSetNode none s l _ ⟨rfl, rfl, fun _ => rfl⟩
  have hlleaf : (s.nodes l).IsLeaf = true := Linked_leaf T hlink l hl
  have hlleafA : (sA.nodes l).IsLeaf = true := by
    unfold Node.IsLeaf; rw [(hA l).1]; exact hlleaf
  obtain ⟨ctx, hctx⟩ := exists_plug l T hl
  subst hctx
  have hlinkA : Linked sA (plug ctx (Shape.leaf l)) :=
    Linked_congr _ (fun q _ => ⟨(hA q).1, (hA q).2.1, (hA q).2.2.1⟩) hlink
  have hparA : Parented sA (plug ctx (Shape.leaf l)) :=
    Parented_congr_all _ (fun q _ => (hA q).2.2.2) hpar
  have hrpA : (sA.nodes (plug ctx (Shape.leaf l)).root).parent = none := by
    rw [(hA _).2.2.2]; exact hrp
  cases ctx with
  | nil =>
    replace hrpA : (sA.nodes l).parent = none := hrpA
    refine ⟨sA, none, sA, Shape.leaf l, none, ?_, SubtreeInsert_none t l fuel sA, hlleafA,
      trivial, hrpA, ?_, by simp [Shape.addrs], List.Perm.refl _, Nat.le_succ _, ?_, hkA,
      fun q => ?_, (hA l).1⟩
    · show SubtreeRemove fuel sA t (some l) l = _
      unfold SubtreeRemove
      rw [if_pos rfl]
      rfl
    · show (sA.nodes l).bb ≠ none
      rw [hAl]; simp
    · rw [hAl]
    · unfold Node.IsLeaf; rw [(hA q).1]
  | cons f rest =>
    have hndT := (addrs_plug (f :: rest) (Shape.leaf l)).nodup_iff.mp hnd
    simp only [Shape.addrs, ctxAddrs, List.singleton_append, List.nodup_cons, List.mem_cons,
      List.mem_append, not_or] at hndT
    obtain ⟨⟨hlf, hlO, hlrest⟩, -⟩ := hndT
    have hlctx : l ∉ ctxAddrs (f :: rest) := by
      simp only [ctxAddrs, List.mem_cons, List.mem_append, not_or]
      exact ⟨hlf, hlO, hlrest⟩
    have hboxA : ∀ fr ∈ f :: rest, Boxed sA fr.sib := by
      intro fr hfr
      refine Boxed_congr fr.sib (fun q hq => ?_)
        (CtxBoxed_sibs _ _ ((Boxed_plug _ _).mp hbox).2 fr hfr)
      have hql : q ≠ l := fun e => hlctx (e ▸ mem_ctxAddrs_sib _ fr q hfr hq)
      rw [hAq q hql]
    obtain ⟨sB, h1, h2, h3, h4, h5, h6, h7, h8, h10, h12⟩ :=
      SubtreeRemove_plug sA t l fuel f rest hlinkA hparA hboxA hnd hrpA hfuel
    obtain ⟨k1, k2, k3, k4⟩ := plug_drop f rest l hnd
    have hlT1 : l ∉ (plug rest f.sib).addrs := by
      intro h
      rcases List.mem_append.mp ((addrs_plug rest f.sib).mem_iff.mp h) with e | e
      · exact hlO e
      · exact hlrest e
    have hnl : f.p ≠ l := fun e => hlf e.symm
    have hpoolB := NodeFromPool_pop h8
    have hleafB : (sB.nodes l).IsLeaf = true := by rw [h12]; exact hlleafA
    have hlbB : (sB.nodes l).bb = some nb := by rw [h12, hAl]
    have hdep : (plug rest f.sib).depth ≤ (plug (f :: rest) (Shape.leaf l)).depth := by
      simp only [plug]
      apply plug_depth_mono
      unfold Frame.fill
      split <;> simp only [Shape.depth] <;> omega
    obtain ⟨sC, i1, i2, i3, i4, -, -, -, i8, -, -, -⟩ :=
      SubtreeInsert_spec hpoolB hnl hleafB hlbB rfl (plug rest f.sib) fuel
        (le_trans hdep hfuel) h3 h5 k1 hlT1 k3 (fun q _ => rfl)
    have hrpC := SubtreeInsert_root_parent hpoolB hnl hleafB hlbB rfl (plug rest f.sib) fuel
      (le_trans hdep hfuel) h3 h5 k1 hlT1 k3 (fun q _ => rfl) h2 i1
    have hkC : KeepLists (some f.p) s sC :=
      (hkA.weaken.keepTrans (SubtreeRemove_keep h1).weaken).keepTrans
        (SubtreeInsert_keep t l f.p fuel h8 i1)
    refine ⟨sB, _, sC, (plug rest f.sib).insert sB f.p l, some f.p, h1, i1, i2, i4 h4, hrpC, i3,
      Shape.insert_addrs_nodup sB f.p l _ k1 k3 hlT1 hnl,
      (Shape.insert_leaves sB f.p l _).trans k4.symm,
      le_trans (Shape.insert_depth sB f.p l _) (Nat.succ_le_succ hdep), ?_, hkC, fun q => ?_,
      (hkC.2.2.2.2.2 l).2.2 (fun e => hnl (Option.some.inj e).symm)⟩
    · rw [i8, hlbB]
    · by_cases hq : q = f.p
      · subst hq
        rw [Linked_insert_new _ i2]
        have : (sA.nodes f.p).IsLeaf = (s.nodes f.p).IsLeaf := by
          unfold Node.IsLeaf; rw [(hA f.p).1]
        rw [← this, h7]
      · unfold Node.IsLeaf
        rw [(hkC.2.2.2.2.2 q).2.2 (fun e => hq (Option.some.inj e))]

theorem node_of_shape {a b : Node} (h : a.shape = b.shape) :
    a.obj = b.obj ∧ a.a = b.a ∧ a.b = b.b ∧ a.parent = b.parent ∧ a.bb = b.bb ∧
      a.stamp = b.stamp := by
  have h1 : a.shape.obj = b.shape.obj := by rw [h]
  have h2 : a.shape.a = b.shape.a := by rw [h]
  have h3 : a.shape.b = b.shape.b := by rw [h]
  have h4 : a.shape.parent = b.shape.parent := by rw [h]
  have h5 : a.shape.bb = b.shape.bb := by rw [h]
  have h6 : a.shape.stamp = b.shape.stamp := by rw [h]
  exact ⟨h1, h2, h3, h4, h5, h6⟩

theorem tree_of_shape {a b : BBTree} (h : a.shape = b.shape) :
    a.root = b.root ∧ a.stamp = b.stamp ∧ a.spatialIndex = b.spatialIndex ∧
      a.velocityFunc = b.velocityFunc := by
  have h1 : a.shape.root = b.shape.root := by rw [h]
  have h2 : a.shape.stamp = b.shape.stamp := by rw [h]
  have h3 : a.shape.spatialIndex = b.shape.spatialIndex := by rw [h]
  have h4 : a.shape.velocityFunc = b.shape.velocityFunc := by rw [h]
  exact ⟨h1, h2, h3, h4⟩

/-- `LeafUpdate` on a leaf of a well-formed tree whose stored box does not
contain the box the provider reports: it returns true; the tree is well formed
again, with the same leaves; the leaf has the box of `GetBB`, an empty pair
list and the stamp of the master tree; the pair lists are well formed, with
the pairs of the leaf moved to the pool. -/
theorem LeafUpdate_spec (s : State) (t m si l fuel : Nat) (T : Shape) (lists : Nat → List Nat)
    (D : List Nat) (oldPool : Option Nat) (lbb : BB)
    (hroot : (s.trees t).root = some T.root) (hsi : (s.trees t).spatialIndex = some si)
    (hm : GetMasterTree s t = .ok m)
    (hlink : Linked s T) (hpar : Parented s T) (hrp : (s.nodes T.root).parent = none)
    (hbox : Boxed s T) (hnd : T.addrs.Nodup) (hl : l ∈ T.leaves) (hwf : PairsWF s lists)
    (hpool : PoolSeg s (s.trees m).pooledPairs D oldPool)
    (hD : ∀ q ∈ D, ∀ x, (s.nodes x).IsLeaf = true → q ∉ lists x)
    (hlbb : (s.nodes l).bb = some lbb)
    (hnc : lbb.Contains ((s.indexes si).bbfunc (s.nodes l).obj) = false)
    (hfuel : T.depth ≤ fuel) (hfuel2 : (lists l).length ≤ fuel) :
    ∃ s1 T1 nb, LeafUpdate fuel s t l = .ok (s1, true) ∧
      GetBB s t (s.nodes l).obj = .ok nb ∧
      (s1.trees t).root = some T1.root ∧ GetMasterTree s1 t = .ok m ∧
      Linked s1 T1 ∧ Parented s1 T1 ∧ (s1.nodes T1.root).parent = none ∧ Boxed s1 T1 ∧
      T1.addrs.Nodup ∧ T1.leaves.Perm T.leaves ∧ T1.depth ≤ T.depth + 1 ∧
      (s1.nodes l).bb = some nb ∧ (s1.nodes l).pairs = none ∧
      (s1.nodes l).stamp = (s1.trees m).stamp ∧
      PairsWF s1 (listsClear lists l) ∧
      PoolSeg s1 (s1.trees m).pooledPairs ((lists l).reverse ++ D) oldPool ∧
      (∀ q, (s1.nodes q).IsLeaf = (s.nodes q).IsLeaf) ∧
      (∀ q, q ≠ l → (s1.nodes q).stamp = (s.nodes q).stamp) ∧
      (∀ u, (s1.trees u).stamp = (s.trees u).stamp ∧
        (s1.trees u).spatialIndex = (s.trees u).spatialIndex ∧
        (s1.trees u).velocityFunc = (s.trees u).velocityFunc) ∧
      s1.indexes = s.indexes ∧ (s1.nodes l).obj = (s.nodes l).obj := by
  obtain ⟨nb, hnb⟩ := GetBB_ok s t si hsi (s.nodes l).obj
  obtain ⟨sB, r1, sC, T1, n, hR, hI, c1, c2, c3, c4, c5, c6, c7, c8, c9, c10, c11⟩ :=
    LeafUpdate_tree s t l fuel T nb hlink hpar hrp hbox hnd hl hfuel
  obtain ⟨s4, hs4⟩ : ∃ s4, s4 = sC.setTree t (fun tr => { tr with root := some T1.root }) :=
    ⟨_, rfl⟩
  have hk4 : KeepLists n s s4 := by
    rw [hs4]
    exact c9.keepTrans (KeepLists.keepSetTree n _ _ _ ⟨rfl, rfl, rfl, rfl, rfl⟩)
  have hn4 : s4.nodes = sC.nodes := by rw [hs4]; rfl
  have hleaf4 : ∀ q, (s4.nodes q).IsLeaf = (s.nodes q).IsLeaf := by
    intro q; rw [hn4]; exact c10 q
  have hlleaf : (s.nodes l).IsLeaf = true := Linked_leaf T hlink l hl
  have hwf4 : PairsWF s4 lists :=
    PairsWF_fields (fun q => by rw [hk4.1]; exact ⟨rfl, rfl⟩) hleaf4
      (fun q _ => (hk4.2.2.2.2.2 q).2.1) hwf
  have hm4 : GetMasterTree s4 t = .ok m := by rw [GetMasterTree_keep hk4 t]; exact hm
  have hpool4 : PoolSeg s4 (s4.trees m).pooledPairs D oldPool := by
    rw [(hk4.2.2.2.2.1 m).2.2.2.1]
    exact @PoolSeg_congr s s4 D _ _ (fun q _ => by rw [hk4.1]) hpool
  obtain ⟨s5, p1, p2, p3, p4, p5, p6, p7⟩ := PairsClear_spec s4 t m l fuel lists D oldPool hwf4
    (by rw [hleaf4]; exact hlleaf) hm4 hfuel2 hpool4
    (fun q hq x hx => hD q hq x (by rw [← hleaf4]; exact hx))
  have hm5 : GetMasterTree s5 t = .ok m := by rw [GetMasterTree_congr p4 p5 t]; exact hm4
  obtain ⟨s6, hs6⟩ : ∃ s6, s6 = s5.setNode l (fun x => { x with stamp := (s5.trees m).stamp }) :=
    ⟨_, rfl⟩
  have hrun : LeafUpdate fuel s t l = .ok (s6, true) := by
    rw [hs6]
    refine LeafUpdate_run hsi hlbb hnc hnb ?_ hI ?_ hm5
    · rw [hroot]; exact hR
    · rw [← hs4]; exact p1
  have h6l : s6.nodes l = { s5.nodes l with stamp := (s5.trees m).stamp } := by
    rw [hs6]; simp
  have h6q : ∀ q, q ≠ l → s6.nodes q = s5.nodes q := by
    intro q hq; rw [hs6]; simp [hq]
  have hsh : ∀ q, (s6.nodes q).obj = (sC.nodes q).obj ∧ (s6.nodes q).a = (sC.nodes q).a ∧
      (s6.nodes q).b = (sC.nodes q).b ∧ (s6.nodes q).parent = (sC.nodes q).parent ∧
      (s6.nodes q).bb = (sC.nodes q).bb := by
    intro q
    have e5 : (s5.nodes q).shape = (sC.nodes q).shape := by rw [p3 q, hn4]
    obtain ⟨a1, a2, a3, a4, a5, -⟩ := node_of_shape e5
    by_cases hq : q = l
    · subst hq; rw [h6l]; exact ⟨a1, a2, a3, a4, a5⟩
    · rw [h6q q hq]; exact ⟨a1, a2, a3, a4, a5⟩
  have htr6 : s6.trees = s5.trees := by rw [hs6]; rfl
  have hroot5 : (s5.trees t).root = some T1.root := by
    rw [(tree_of_shape (p4 t)).1, hs4]; simp
  have hst5 : ∀ u, (s5.trees u).stamp = (s.trees u).stamp ∧
      (s5.trees u).spatialIndex = (s.trees u).spatialIndex ∧
      (s5.trees u).velocityFunc = (s.trees u).velocityFunc := by
    intro u
    obtain ⟨-, e1, e2, e3⟩ := tree_of_shape (p4 u)
    exact ⟨e1.trans (hk4.2.2.2.2.1 u).2.2.2.2, e2.trans (hk4.2.2.2.2.1 u).1,
      e3.trans (hk4.2.2.2.2.1 u).2.1⟩
  have hleaf5 : ∀ q, (s5.nodes q).IsLeaf = (s4.nodes q).IsLeaf := fun q =>
    isLeaf_of_shape (p3 q)
  have hleaf6 : ∀ q, (s6.nodes q).IsLeaf = (s5.nodes q).IsLeaf := by
    intro q
    by_cases hq : q = l
    · subst hq; rw [h6l]; rfl
    · rw [h6q q hq]
  refine ⟨s6, T1, nb, hrun, hnb, by rw [htr6]; exact hroot5, ?_,
    Linked_congr T1 (fun q _ => ⟨(hsh q).1, (hsh q).2.1, (hsh q).2.2.1⟩) c1,
    Parented_congr_all T1 (fun q _ => (hsh q).2.2.2.1) c2, by rw [(hsh _).2.2.2.1]; exact c3,
    Boxed_congr T1 (fun q _ => (hsh q).2.2.2.2) c4, c5, c6, c7,
    by rw [(hsh l).2.2.2.2]; exact c8, by rw [h6l]; exact p2, by rw [h6l, htr6], ?_, ?_,
    fun q => ((hleaf6 q).trans (hleaf5 q)).trans (hleaf4 q), fun q hq => ?_,
    fun u => by rw [htr6]; exact hst5 u, by rw [hs6]; exact p5.trans hk4.2.2.2.1,
    (hsh l).1.trans c11⟩
  · rw [← hm5]
    unfold GetMasterTree SpatialIndex.GetTree
    rw [htr6]
    rw [hs6]; rfl
  · refine PairsWF_fields (fun q => by rw [hs6]; exact ⟨rfl, rfl⟩) hleaf6 (fun q _ => ?_) p6
    by_cases hq : q = l
    · subst hq; rw [h6l]
    · rw [h6q q hq]
  · rw [htr6]
    exact @PoolSeg_congr s5 s6 _ _ _ (fun q _ => by rw [hs6]; rfl) p7
  · rw [h6q q hq]
    rw [(node_of_shape (p3 q)).2.2.2.2.2]
    exact (hk4.2.2.2.2.2 q).1

theorem GetBB_congr {s s1 : State} {t : Nat} (h1 : (s1.trees t).spatialIndex =
    (s.trees t).spatialIndex) (h2 : (s1.trees t).velocityFunc = (s.trees t).velocityFunc)
    (h3 : s1.indexes = s.indexes) (obj : Option Nat) : GetBB s1 t obj = GetBB s t obj := by
  unfold GetBB
  rw [h1, h2, h3]

/-- C12: on a tree record whose root is the root of a well-formed tree `T`
(children linked, parent links pointing back, a root without parent, boxes the
unions of the children's boxes, no address twice), with a spatial index, a
master tree and well-formed symmetric pair lists, for a leaf `l` of `T` whose
stored box does not contain the box the provider reports for its object, and a
budget of the depth of the tree and the length of the list of `l`:
`LeafUpdate` returns true, and afterwards the root of the tree record is the
root of a well-formed tree `T1` with the same leaves as `T`, the box of `l` is
the box `GetBB` yields for its object, the pair list of `l` is empty, and the
stamp of `l` is the stamp of the tree that `GetMasterTree` resolves to. -/
theorem leafUpdate_relocates (s : State) (t m si l fuel : Nat) (T : Shape)
    (lists : Nat → List Nat) (lbb : BB)
    (hroot : (s.trees t).root = some T.root) (hsi : (s.trees t).spatialIndex = some si)
    (hm : GetMasterTree s t = .ok m)
    (hlink : Linked s T) (hpar : Parented s T) (hrp : (s.nodes T.root).parent = none)
    (hbox : Boxed s T) (hnd : T.addrs.Nodup) (hl : l ∈ T.leaves) (hwf : PairsWF s lists)
    (hlbb : (s.nodes l).bb = some lbb)
    (hnc : lbb.Contains ((s.indexes si).bbfunc (s.nodes l).obj) = false)
    (hfuel : T.depth ≤ fuel) (hfuel2 : (lists l).length ≤ fuel) :
    ∃ s1 T1 nb, LeafUpdate fuel s t l = .ok (s1, true) ∧
      (s1.trees t).root = some T1.root ∧
      Linked s1 T1 ∧ Parented s1 T1 ∧ (s1.nodes T1.root).parent = none ∧ Boxed s1 T1 ∧
      T1.addrs.Nodup ∧ T1.leaves.Perm T.leaves ∧
      GetBB s1 t (s1.nodes l).obj = .ok nb ∧ (s1.nodes l).bb = some nb ∧
      PairList s1 l [] ∧
      GetMasterTree s1 t = .ok m ∧ (s1.nodes l).stamp = (s1.trees m).stamp := by
  obtain ⟨s1, T1, nb, h1, h2, h3, h4, h5, h6, h7, h8, h9, h10, -, h12, h13, h14, -, -, -, -,
    h19, h20, h21⟩ := LeafUpdate_spec s t m si l fuel T lists [] (s.trees m).pooledPairs lbb
      hroot hsi hm hlink hpar hrp hbox hnd hl hwf rfl (fun q hq => by cases hq) hlbb hnc hfuel
      hfuel2
  refine ⟨s1, T1, nb, h1, h3, h5, h6, h7, h8, h9, h10, ?_, h12, ⟨h13, List.nodup_nil⟩, h4, h14⟩
  rw [h21, GetBB_congr (h19 t).2.1 (h19 t).2.2 h20]
  exact h2

theorem removeDemo_pairs (l : Nat) : (removeDemo.nodes l).pairs = none := by
  unfold removeDemo
  simp only
  split_ifs <;> rfl

/-- C12 at a concrete heap: the leaf 1 of `removeDemo`, whose stored box
`[2,2,3,3]` does not contain the box `[0,0,0,0]` the provider reports. -/
theorem leafUpdate_relocates_witness :
    ∃ s1 T1 nb, LeafUpdate 3 removeDemo 0 1 = .ok (s1, true) ∧
      (s1.trees 0).root = some T1.root ∧
      Linked s1 T1 ∧ Parented s1 T1 ∧ (s1.nodes T1.root).parent = none ∧ Boxed s1 T1 ∧
      T1.addrs.Nodup ∧ T1.leaves.Perm removeDemoTree.leaves ∧
      GetBB s1 0 (s1.nodes 1).obj = .ok nb ∧ (s1.nodes 1).bb = some nb ∧
      PairList s1 1 [] ∧
      GetMasterTree s1 0 = .ok 0 ∧ (s1.nodes 1).stamp = (s1.trees 0).stamp :=
  leafUpdate_relocates removeDemo 0 0 0 1 3 removeDemoTree (fun _ => []) ⟨2, 2, 3, 3⟩
    rfl rfl rfl ⟨rfl, rfl, rfl, ⟨rfl, rfl, rfl, rfl, rfl⟩, rfl⟩
    ⟨rfl, rfl, ⟨rfl, rfl, trivial, trivial⟩, trivial⟩ rfl
    ⟨⟨_, _, rfl, rfl, rfl⟩, ⟨⟨_, _, rfl, rfl, rfl⟩, by simp [Boxed, removeDemo],
      by simp [Boxed, removeDemo]⟩, by simp [Boxed, removeDemo]⟩
    (by decide) (by decide)
    ⟨fun l _ => ⟨removeDemo_pairs l, List.nodup_nil⟩, fun l p _ hp => by cases hp⟩
    rfl (by decide) (by decide) (by decide)

theorem LeafUpdate_same {fuel : Nat} {s : State} {t si leaf : Nat} {lbb : BB}
    (hsi : (s.trees t).spatialIndex = some si) (hbb : (s.nodes leaf).bb = some lbb)
    (hc : lbb.Contains ((s.indexes si).bbfunc (s.nodes leaf).obj) = true) :
    LeafUpdate fuel s t leaf = .ok (s, false) := by
  unfold LeafUpdate
  simp only [hsi, hbb, deref, bind, Except.bind, pure, Except.pure, hc, Bool.not_true,
    Bool.false_eq_true, if_false]

theorem Boxed_leaf {s : State} : ∀ (T : Shape), Boxed s T → ∀ l ∈ T.leaves,
    ∃ lbb, (s.nodes l).bb = some lbb := by
  intro T
  induction T with
  | leaf p =>
    intro h l hl
    have : l = p := by simpa [Shape.leaves] using hl
    subst this
    exact Option.ne_none_iff_exists'.mp h
  | node p a b iha ihb =>
    intro h l hl
    rcases List.mem_append.mp hl with e | e
    · exact iha h.2.1 l e
    · exact ihb h.2.2 l e

theorem sum_clear_le (f g : Nat → Nat) (l : Nat) (hg : ∀ x, g x ≤ f x) (hl : g l = 0) :
    ∀ (L : List Nat), l ∈ L → (L.map g).sum + f l ≤ (L.map f).sum := by
  intro L
  induction L with
  | nil => intro h; cases h
  | cons x rest ih =>
    intro h
    simp only [List.map_cons, List.sum_cons]
    have hle : (rest.map g).sum ≤ (rest.map f).sum := by
      clear ih h
      induction rest with
      | nil => simp
      | cons y ys ih2 =>
        simp only [List.map_cons, List.sum_cons]
        have := hg y
        omega
    by_cases hx : x = l
    · subst hx
      rw [hl]
      omega
    · have h1 : l ∈ rest := by
        rcases List.mem_cons.mp h with e | e
        · exact absurd e.symm hx
        · exact e
      have := ih h1
      have := hg x
      omega

theorem queryIns_length (s : State) (leaf : Nat) (left : Bool) : ∀ (U : Shape),
    (queryIns s leaf left U).length ≤ U.leaves.length := by
  intro U
  induction U with
  | leaf y =>
    simp only [queryIns, Shape.leaves, List.length_singleton]
    split_ifs <;> simp
  | node p a b iha ihb =>
    simp only [queryIns, Shape.leaves, List.length_append]
    omega

theorem climbIns_length (s : State) (leaf : Nat) : ∀ (path : List Frame),
    (climbIns s leaf path).length ≤ (ctxLeaves path).length := by
  intro path
  induction path with
  | nil => simp [climbIns, ctxLeaves]
  | cons fr rest ih =>
    simp only [climbIns, ctxLeaves, List.length_append]
    have := queryIns_length s leaf fr.left fr.sib
    omega

/-- A pass inserts at most one pair for every leaf and every other leaf. -/
theorem passIns_length (s : State) (now : Nat) : ∀ (U : Shape) (path : List Frame),
    (passIns s now path U).length ≤
      U.leaves.length * ((ctxLeaves path).length + U.leaves.length) := by
  intro U
  induction U with
  | leaf x =>
    intro path
    simp only [passIns, Shape.leaves, List.length_singleton, Nat.one_mul]
    split_ifs
    · have := climbIns_length s x path
      omega
    · simp
  | node p a b iha ihb =>
    intro path
    simp only [passIns, Shape.leaves, List.length_append]
    have h1 := iha (⟨p, true, b⟩ :: path)
    have h2 := ihb (⟨p, false, a⟩ :: path)
    simp only [ctxLeaves, List.length_append] at h1 h2
    have e1 : a.leaves.length * (b.leaves.length + (ctxLeaves path).length + a.leaves.length) +
        b.leaves.length * (a.leaves.length + (ctxLeaves path).length + b.leaves.length) =
        (a.leaves.length + b.leaves.length) *
          ((ctxLeaves path).length + (a.leaves.length + b.leaves.length)) := by ring
    omega

theorem listsClear_length (lists : Nat → List Nat) (l x : Nat) :
    (listsClear lists l x).length ≤ (lists x).length := by
  unfold listsClear
  split
  · simp
  · exact List.length_filter_le _ _

theorem listsClear_self (lists : Nat → List Nat) (l : Nat) : listsClear lists l l = [] := by
  simp [listsClear]

/-- The loop of `ReindexQuery` over the leaves: every `LeafUpdate` returns,
and the heap stays well formed; the tree grows by at most one level for each
leaf, and the pool only grows. -/
theorem update_spec (t m si fuel : Nat) (L : List Nat) (Q : Nat) :
    ∀ (order : List Nat) (s : State) (T : Shape) (lists : Nat → List Nat) (pool : List Nat),
      ReindexWF s t m si T lists pool → T.leaves.Perm L → (∀ l ∈ order, l ∈ L) →
      T.depth + order.length ≤ fuel →
      pool.length + (L.map (fun x => (lists x).length)).sum ≤ Q → Q ≤ fuel →
      ∃ s1 T1 lists1 pool1, ReindexQuery.update fuel t order s = .ok s1 ∧
        ReindexWF s1 t m si T1 lists1 pool1 ∧ T1.leaves.Perm L ∧
        T1.depth ≤ T.depth + order.length ∧ pool.length ≤ pool1.length ∧
        pool1.length + (L.map (fun x => (lists1 x).length)).sum ≤ Q ∧
        s1.indexes = s.indexes := by
  intro order
  induction order with
  | nil =>
    intro s T lists pool hwf hperm _ _ hQ _
    exact ⟨s, T, lists, pool, rfl, hwf, hperm, Nat.le_refl _, Nat.le_refl _, hQ, rfl⟩
  | cons l rest ih =>
    intro s T lists pool hwf hperm hord hfuel hQ hQf
    obtain ⟨w1, w2, w3, w4, w5, w6, w7, w8, w9, w10, w11, w12⟩ := hwf
    simp only [List.length_cons] at hfuel
    have hlL : l ∈ L := hord l (List.mem_cons_self _ _)
    have hlT : l ∈ T.leaves := hperm.mem_iff.mpr hlL
    obtain ⟨lbb, hlbb⟩ := Boxed_leaf T w7 l hlT
    have hrest : ∀ x ∈ rest, x ∈ L := fun x hx => hord x (List.mem_cons_of_mem _ hx)
    cases hc : lbb.Contains ((s.indexes si).bbfunc (s.nodes l).obj) with
    | true =>
      have hsame : LeafUpdate fuel s t l = .ok (s, false) := LeafUpdate_same w2 hlbb hc
      obtain ⟨s1, T1, lists1, pool1, h1, h2, h3, h4, h5, h6, h7⟩ := ih s T lists pool
        ⟨w1, w2, w3, w4, w5, w6, w7, w8, w9, w10, w11, w12⟩ hperm hrest (by omega) hQ hQf
      refine ⟨s1, T1, lists1, pool1, ?_, h2, h3, by simp only [List.length_cons]; omega, h5, h6, h7⟩
      simp only [ReindexQuery.update, hsame, bind, Except.bind]
      exact h1
    | false =>
      have hlen : (lists l).length ≤ (L.map (fun x => (lists x).length)).sum := by
        have := le_sum_map (fun x => (lists x).length) L l hlL
        simpa using this
      have hlleaf : (s.nodes l).IsLeaf = true := Linked_leaf T w4 l hlT
      obtain ⟨sa, Ta, nb, a1, -, a3, a4, a5, a6, a7, a8, a9, a10, a11, -, -, -, a15, a16, a17,
        -, a19, a20, -⟩ := LeafUpdate_spec s t m si l fuel T lists pool none lbb w1 w2 w3 w4 w5
          w6 w7 w8 hlT w9 w10 (fun q hq x hx hqx => w12 x q hx hqx hq) hlbb hc (by omega)
          (by omega)
      have hnd2 : ((lists l).reverse ++ pool).Nodup := by
        refine List.Nodup.append (List.nodup_reverse.mpr (w9.1 l hlleaf).2) w11 ?_
        intro q hq1 hq2
        exact w12 l q hlleaf (List.mem_reverse.mp hq1) hq2
      have hfresh2 : ∀ x p, (sa.nodes x).IsLeaf = true → p ∈ listsClear lists l x →
          p ∉ (lists l).reverse ++ pool := by
        intro x p hx hp
        rw [a17] at hx
        by_cases hxl : x = l
        · subst hxl; rw [listsClear_self] at hp; cases hp
        · simp only [listsClear, if_neg hxl, List.mem_filter, decide_eq_true_eq] at hp
          intro h
          rcases List.mem_append.mp h with e | e
          · exact hp.2 (List.mem_reverse.mp e)
          · exact w12 x p hx hp.1 e
      have hQ2 : ((lists l).reverse ++ pool).length +
          (L.map (fun x => (listsClear lists l x).length)).sum ≤ Q := by
        have := sum_clear_le (fun x => (lists x).length)
          (fun x => (listsClear lists l x).length) l (fun x => listsClear_length lists l x)
          (by simp [listsClear_self]) L hlL
        simp only [List.length_append, List.length_reverse]
        simp only at this
        omega
      obtain ⟨s1, T1, lists1, pool1, h1, h2, h3, h4, h5, h6, h7⟩ := ih sa Ta
        (listsClear lists l) ((lists l).reverse ++ pool)
        ⟨a3, (a19 t).2.1.trans w2, a4, a5, a6, a7, a8, a9, a15, a16, hnd2, hfresh2⟩
        (a10.trans hperm) hrest (by omega) hQ2 hQf
      refine ⟨s1, T1, lists1, pool1, ?_, h2, h3, by simp only [List.length_cons]; omega, ?_, h6,
        h7.trans a20⟩
      · simp only [ReindexQuery.update, a1, bind, Except.bind]
        exact h1
      · simp only [List.length_append, List.length_reverse] at h5
        omega

/-- `ReindexQuery` returns on a well-formed tree without a static partner,
with a callback and a pair pool of at least `n * n` records for `n` leaves,
when the range visits leaves of the tree. -/
theorem ReindexQuery_total (s : State) (t m si : Nat) (T : Shape) (lists : Nat → List Nat)
    (pool : List Nat) (g : QueryFn) (order : List Nat)
    (hwf : ReindexWF s t m si T lists pool) (hstatic : (s.indexes si).staticIndex = none)
    (horder : ∀ l ∈ order, l ∈ T.leaves)
    (henough : T.leaves.length * T.leaves.length ≤ pool.length) :
    ∃ N, ∀ fuel, N ≤ fuel → ∃ s1, ReindexQuery fuel s t (some g) order = .ok s1 := by
  obtain ⟨Q, hQ⟩ : ∃ Q, Q = pool.length + (T.leaves.map (fun x => (lists x).length)).sum :=
    ⟨_, rfl⟩
  refine ⟨3 * (T.depth + order.length) + Q, fun fuel hfuel => ?_⟩
  have hroot := hwf.1
  obtain ⟨s1, T1, lists1, pool1, h1, h2, h3, h4, h5, h6, h7⟩ :=
    update_spec t m si fuel T.leaves Q order s T lists pool hwf (List.Perm.refl _) horder
      (by omega) (by omega) (by omega)
  obtain ⟨w1, w2, w3, w4, w5, w6, w7, w8, w9, w10, w11, w12⟩ := h2
  have hinv0 : PassInv s1 s1 m T1.leaves Q lists1 pool1 :=
    ⟨SameShape.refl s1, w9, w10, w11, w12, fun l hl => by
      have := le_sum_map (fun x => (lists1 x).length) T.leaves l (h3.mem_iff.mp hl)
      simp only at this
      omega⟩
  have hlen : T1.leaves.length = T.leaves.length := h3.length_eq
  have hen1 : (passIns s1 (s1.trees m).stamp [] T1).length ≤ pool1.length := by
    have := passIns_length s1 (s1.trees m).stamp T1 []
    simp only [ctxLeaves, List.length_nil, Nat.zero_add] at this
    rw [hlen] at this
    omega
  obtain ⟨s2, p1, p2⟩ := MarkSubtree_pass ⟨some t, none, some g⟩ g rfl rfl rfl w3 T1 w4 w5 w6 w7
    w8 (fun l hl => hl) T1 [] rfl fuel s1 lists1 pool1
    (by simp only [List.length_nil]; omega) hinv0 hen1
  have hm2 : GetMasterTree s2 t = .ok m := by rw [GetMasterTree_shape p2.1 t]; exact w3
  have hst1 : (s1.indexes si).staticIndex = none := by rw [h7]; exact hstatic
  refine ⟨s2.setTree m (fun tr => { tr with stamp := (tr.stamp + 1) % uintMod }), ?_⟩
  unfold ReindexQuery
  rw [hroot]
  simp only [h1, bind, Except.bind, w2, deref, hst1, pure, Except.pure, w1, p1]
  exact IncrementStamp_total hm2

/-- C14, as the code has it, for a tree that resolves its master tree `m`:
on a tree with a nil root `ReindexQuery` returns the heap as it is, so that no
stamp is increased; on a tree with a root, every call that returns has added
one, modulo the word size, to the stamp of the master tree and has kept the
stamp of every other tree; and the call does return, with these stamps, on a
well-formed tree without a static partner, with well-formed symmetric pair
lists, a callback, a range over leaves of the tree, and a pair pool that is a
freelist of at least `n * n` unused records for `n` leaves. -/
theorem reindexQuery_ticks (s : State) (t m : Nat) (hm : GetMasterTree s t = .ok m) :
    ((s.trees t).root = none → ∀ fuel f order, ReindexQuery fuel s t f order = .ok s) ∧
    (∀ fuel f order s1, (s.trees t).root ≠ none → ReindexQuery fuel s t f order = .ok s1 →
      (s1.trees m).stamp = ((s.trees m).stamp + 1) % uintMod ∧
      ∀ u, u ≠ m → (s1.trees u).stamp = (s.trees u).stamp) ∧
    (∀ si T lists pool g order, ReindexWF s t m si T lists pool →
      (s.indexes si).staticIndex = none → (∀ l ∈ order, l ∈ T.leaves) →
      T.leaves.length * T.leaves.length ≤ pool.length →
      ∃ N, ∀ fuel, N ≤ fuel → ∃ s1, ReindexQuery fuel s t (some g) order = .ok s1 ∧
        (s1.trees m).stamp = ((s.trees m).stamp + 1) % uintMod ∧
        ∀ u, u ≠ m → (s1.trees u).stamp = (s.trees u).stamp) := by
  refine ⟨fun hroot fuel f order => ?_, fun fuel f order s1 hroot h =>
    (ReindexQuery_stamps fuel s s1 t m f order hm h).2 hroot,
    fun si T lists pool g order hwf hstatic horder henough => ?_⟩
  · unfold ReindexQuery
    rw [hroot]
    rfl
  · obtain ⟨N, hN⟩ := ReindexQuery_total s t m si T lists pool g order hwf hstatic horder
      henough
    refine ⟨N, fun fuel hfuel => ?_⟩
    obtain ⟨s1, h1⟩ := hN fuel hfuel
    have hroot : (s.trees t).root ≠ none := by rw [hwf.1]; exact Option.some_ne_none _
    exact ⟨s1, h1, (ReindexQuery_stamps fuel s s1 t m (some g) order hm h1).2 hroot⟩

theorem reindexDemo_pairs (l : Nat) : (reindexDemo.nodes l).pairs = none := by
  unfold reindexDemo
  simp only
  split_ifs <;> rfl

/-- C14 at a concrete heap: on `reindexDemo`, where leaf 1 has to be relocated
and then meets leaf 0, `ReindexQuery` returns and the stamp goes from 1 to 2. -/
theorem reindexQuery_ticks_witness :
    ∃ N, ∀ fuel, N ≤ fuel → ∃ s1,
      ReindexQuery fuel reindexDemo 0 (some VoidQueryFunc) [0, 1] = .ok s1 ∧
      (s1.trees 0).stamp = ((reindexDemo.trees 0).stamp + 1) % uintMod ∧
      ∀ u, u ≠ 0 → (s1.trees u).stamp = (reindexDemo.trees u).stamp :=
  (reindexQuery_ticks reindexDemo 0 0 rfl).2.2 0 insertDemoTree (fun _ => []) [0, 1, 2, 3]
    VoidQueryFunc [0, 1]
    ⟨rfl, rfl, rfl, ⟨rfl, rfl, rfl, rfl, rfl⟩, ⟨rfl, rfl, trivial, trivial⟩, rfl,
      ⟨⟨_, _, rfl, rfl, rfl⟩, by simp [Boxed, reindexDemo], by simp [Boxed, reindexDemo]⟩,
      by decide,
      ⟨fun l _ => ⟨reindexDemo_pairs l, List.nodup_nil⟩, fun l p _ hp => by cases hp⟩,
      ⟨rfl, rfl, rfl, rfl, rfl⟩, by decide, fun l p _ hp => by cases hp⟩
    rfl (by decide) (by decide)

/-- The call on `reindexDemo` in numbers: with the budget 20 it returns,
the stamp of the tree is 2, the relocated leaf 1 carries the stamp 1 and the
box `[0,0,0,0]`, and the callback was called once, for the leaves 1 and 0. -/
theorem reindexDemo_run :
    (ReindexQuery 20 reindexDemo 0 (some VoidQueryFunc) [0, 1]).map
      (fun s1 => ((s1.trees 0).stamp, (s1.nodes 1).stamp, (s1.nodes 1).bb, s1.calls.length)) =
      .ok (2, 1, some ⟨0, 0, 0, 0⟩, 1) := by
  rfl

theorem usedPoolDemo_choice :
    descendsToB usedPoolDemo.arith ⟨0, 0, 1, 1⟩ ⟨2, 2, 3, 3⟩ ⟨0, 0, 1, 1⟩ = false := by
  simp [descendsToB, usedPoolDemo, insertDemo, State.setTree, State.empty, exactArith,
    BB.Area, BB.MergedArea, BB.Proximity]
  norm_num

/-- C16 fails as stated: in `usedPoolDemo` the node 2 is an internal node with
the children `a` = 0 and `b` = 1, the node 3 is a new leaf, and the costs, on
boxes with small whole coordinates, on which `float64` arithmetic is exact, are
2 for `a` and 10 for `b`, so that the leaf goes under `a`; the node pool hands
out the node 1, and after `SubtreeInsert` the other child `b`, the leaf 1 with
the object 8, is overwritten: it holds no object and is the internal node over
the leaves 3 and 0 that has become the child `a` of the node 2. -/
theorem subtreeInsert_overwrites_pool_node :
    (usedPoolDemo.nodes 2).IsLeaf = false ∧ (usedPoolDemo.nodes 2).a = some 0 ∧
    (usedPoolDemo.nodes 2).b = some 1 ∧ (usedPoolDemo.nodes 3).IsLeaf = true ∧
    (usedPoolDemo.trees 0).pooledNodes = some 1 ∧
    descendsToB usedPoolDemo.arith (boxOf usedPoolDemo 0) (boxOf usedPoolDemo 1)
      (boxOf usedPoolDemo 3) = false ∧
    (usedPoolDemo.nodes 1).obj = some 8 ∧
    (SubtreeInsert 0 3 2 usedPoolDemo (some 2)).map
      (fun r => (r.2, (r.1.nodes 2).a, (r.1.nodes 2).b, (r.1.nodes 1).obj, (r.1.nodes 1).a,
        (r.1.nodes 1).b)) = .ok (2, some 1, some 1, none, some 3, some 0) := by
  refine ⟨rfl, rfl, rfl, rfl, rfl, usedPoolDemo_choice, rfl, ?_⟩
  have hstep := @SubtreeInsert_node 0 3 1 usedPoolDemo 2 0 1 ⟨0, 0, 1, 1⟩ ⟨2, 2, 3, 3⟩
    ⟨0, 0, 1, 1⟩ rfl rfl rfl rfl rfl rfl
  have hc : ¬ (usedPoolDemo.arith.lt
      (insertCosts usedPoolDemo.arith ⟨0, 0, 1, 1⟩ ⟨2, 2, 3, 3⟩ ⟨0, 0, 1, 1⟩).2
      (insertCosts usedPoolDemo.arith ⟨0, 0, 1, 1⟩ ⟨2, 2, 3, 3⟩ ⟨0, 0, 1, 1⟩).1 = true) := by
    rw [insertCosts_descends, usedPoolDemo_choice]
    exact Bool.false_ne_true
  rw [hstep, if_neg hc]
  rfl

end physics
